import Mathlib

/-!
# Symbolic constants of the SIL constant folder (`lib/SIL/SILConstants.cpp`)

A shallow embedding of the tagged value representation, the bump-pointer
arena, the factories and accessors of every kind of value, `cloneInto`, the
memory objects and the access-path indexing of `SILConstants.cpp`, followed
by the properties proved about them.

Conventions of the embedding.

* The arena is explicit state: a `Memory` is the list of all allocations made
  so far, an address is a position in that list, and every function that
  allocates takes the memory and returns the extended memory.
* A `SymbolicValue` is the small copyable handle of the source: one
  constructor per `RepresentationKind`, holding the inline payload or the
  address of the arena payload, and the `aux` word where the source has one.
* `unsigned` is the 32-bit machine integer; stores into an `unsigned` field
  reduce modulo `2^32`, and arithmetic on `unsigned` wraps.
* `assert`, `llvm_unreachable` and undefined behaviour (reading through an
  address that holds no object of the expected kind, advancing an iterator
  past the end) are the three `Fault`s; a function that can hit one returns
  `Result`.  Assertions are modelled as enabled.
* The recursion of `cloneInto` goes through the arena, so its embedding takes
  a bound on the depth of the recursion and returns `none` when the bound is
  reached before the call returns.
-/

set_option autoImplicit false

namespace swift

/-! ## Machine integers -/

/-- The C++ type `unsigned`: a 32-bit machine integer. -/
abbrev Unsigned := Fin 4294967296

/-- Conversion of a wider integer to `unsigned` (reduction modulo `2^32`). -/
def toUnsigned (n : Nat) : Unsigned := ⟨n % 4294967296, Nat.mod_lt n (by decide)⟩

/-- Conversion of an `int64_t` to the 64-bit pattern `uint64_t` holds. -/
def toUInt64 (v : Int) : Nat := (v % 18446744073709551616).toNat

/-- Conversion of a `uint64_t` to `int64_t` (two's complement). -/
def toInt64 (w : Nat) : Int :=
  if w % 18446744073709551616 < 9223372036854775808 then ((w % 18446744073709551616 : Nat) : Int)
  else ((w % 18446744073709551616 : Nat) : Int) - 18446744073709551616

/-! ## Faults -/

/-- The ways a call can fail to return: a failed `assert`, a reached
`llvm_unreachable`, or undefined behaviour. -/
inductive Fault where
  | assertion
  | unreachable
  | undefinedBehavior
  deriving DecidableEq, Repr

/-- A computation that returns a value or stops with a fault. -/
abbrev Result (α : Type) := Except Fault α

deriving instance DecidableEq for Except

/-- The `assert(cond)` statement. -/
def assert (cond : Bool) : Result Unit :=
  if cond then .ok () else .error .assertion

/-- The `llvm_unreachable(msg)` statement. -/
def llvm_unreachable {α : Type} : Result α := .error .unreachable

/-- Element access `xs[i]` of `ArrayRef` and `SmallVector`, which assert the
index is below the size. -/
def indexChecked {α : Type} (xs : List α) (i : Nat) : Result α :=
  match xs[i]? with
  | some x => .ok x
  | none => .error .assertion

/-! ## The type collaborator -/

/-- Modelled from the spec: the type collaborator (`swift::Type`, `CanType`,
`StructDecl`, `TupleType`, declared outside `SILConstants.cpp`).  A type is a
struct (nominal or bound generic) with the types of its stored properties in
declaration order, a tuple with its element types by position, or any other
type, which has neither stored properties nor tuple elements. -/
inductive SwiftType where
  | structType (storedProperties : List SwiftType)
  | tupleType (elements : List SwiftType)
  | otherType (id : Nat)
  deriving Repr

mutual
/-- Equality of two types is decidable. -/
def SwiftType.decEq : (a b : SwiftType) → Decidable (a = b)
  | .structType a, .structType b =>
    match SwiftType.decEqList a b with
    | isTrue h => isTrue (by rw [h])
    | isFalse h => isFalse (fun e => h (by cases e; rfl))
  | .tupleType a, .tupleType b =>
    match SwiftType.decEqList a b with
    | isTrue h => isTrue (by rw [h])
    | isFalse h => isFalse (fun e => h (by cases e; rfl))
  | .otherType a, .otherType b =>
    if h : a = b then isTrue (by rw [h]) else isFalse (fun e => h (by cases e; rfl))
  | .structType _, .tupleType _ => isFalse (fun e => by cases e)
  | .structType _, .otherType _ => isFalse (fun e => by cases e)
  | .tupleType _, .structType _ => isFalse (fun e => by cases e)
  | .tupleType _, .otherType _ => isFalse (fun e => by cases e)
  | .otherType _, .structType _ => isFalse (fun e => by cases e)
  | .otherType _, .tupleType _ => isFalse (fun e => by cases e)
/-- Equality of two lists of types is decidable. -/
def SwiftType.decEqList : (a b : List SwiftType) → Decidable (a = b)
  | [], [] => isTrue rfl
  | [], _ :: _ => isFalse (fun e => by cases e)
  | _ :: _, [] => isFalse (fun e => by cases e)
  | x :: xs, y :: ys =>
    match SwiftType.decEq x y, SwiftType.decEqList xs ys with
    | isTrue h, isTrue h2 => isTrue (by rw [h, h2])
    | isFalse h, _ => isFalse (fun e => h (by cases e; rfl))
    | _, isFalse h => isFalse (fun e => h (by cases e; rfl))
end

instance : DecidableEq SwiftType := SwiftType.decEq

namespace SwiftType

/-- Modelled from the spec: `type->getStructOrBoundGenericStruct()`, the struct
declaration of the type (here: its stored properties), or null. -/
def getStructOrBoundGenericStruct : SwiftType → Option (List SwiftType)
  | structType ps => some ps
  | _ => none

/-- Modelled from the spec: `type->getAs<TupleType>()`, the tuple type (here:
its elements), or null. -/
def getAsTupleType : SwiftType → Option (List SwiftType)
  | tupleType es => some es
  | _ => none

/-- Modelled from the spec: `type->getCanonicalType()`.  Types are modelled up
to canonical equivalence, so every type is its own canonical type. -/
def getCanonicalType (t : SwiftType) : SwiftType := t

end SwiftType

/-- Modelled from the spec: `tuple->getNumElements()`, which returns
`unsigned`. -/
def TupleType.getNumElements (tuple : List SwiftType) : Unsigned :=
  toUnsigned tuple.length

/-- Modelled from the spec: `tuple->getElement(i).getType()`; the element
array is an `ArrayRef`, whose access asserts the index is in range. -/
def TupleType.getElementType (tuple : List SwiftType) (i : Nat) : Result SwiftType :=
  indexChecked tuple i

/-- Modelled from the spec: the number of stored properties of a struct as
`std::distance(begin, end)` converted to `unsigned`. -/
def StructDecl.numStoredProperties (decl : List SwiftType) : Unsigned :=
  toUnsigned decl.length

/-- Modelled from the spec: `it = getStoredProperties().begin();
std::advance(it, elementNo); (*it)->getType()`.  Advancing to or past the end
and dereferencing is undefined behaviour. -/
def StructDecl.storedPropertyType (decl : List SwiftType) (elementNo : Nat) :
    Result SwiftType :=
  match decl[elementNo]? with
  | some t => .ok t
  | none => .error .undefinedBehavior

/-! ## Values, payloads and the arena -/

/-- An address in the arena memory. -/
abbrev Ptr := Nat

/-- The closed taxonomy of reasons of an unknown value. -/
inductive UnknownReason where
  | Default
  | TooManyInstructions
  | Loop
  | Overflow
  | Trap
  deriving DecidableEq, Repr

/-- Modelled from the spec: a source location (`SourceLoc`), a position in a
source buffer, or invalid when it holds none. -/
structure SourceLoc where
  value : Option Nat
  deriving DecidableEq, Repr

/-- Modelled from the spec: the floating-point formats of `llvm::fltSemantics`. -/
inductive FltSemantics where
  | IEEEhalf
  | IEEEsingle
  | IEEEdouble
  | IEEEquad
  | PPCDoubleDouble
  | x87DoubleExtended
  | Bogus
  deriving DecidableEq, Repr

/-- The public kind of a value (`SymbolicValue::Kind`). -/
inductive Kind where
  | UninitMemory
  | Unknown
  | Metatype
  | Function
  | Aggregate
  | Enum
  | EnumWithPayload
  | Integer
  | Float
  | String
  | Address
  | Array
  deriving DecidableEq, Repr

/-- The value handle: `representationKind` together with the member of the
`value` union and of the `aux` union that the representation uses.  Arena
payloads are referred to by address. -/
inductive SymbolicValue where
  | RK_UninitMemory
  | RK_Unknown (unknown : Ptr)
  | RK_Metatype (metatype : SwiftType)
  | RK_Function (function : Nat)
  | RK_Integer (integer : Ptr) (integer_bitwidth : Unsigned)
  | RK_IntegerInline (integerInline : Nat) (integer_bitwidth : Unsigned)
  | RK_Float (floatingPoint : Ptr)
  | RK_Float32 (float32 : Nat)
  | RK_Float64 (float64 : Nat)
  | RK_String (string : Ptr) (string_numBytes : Unsigned)
  | RK_DirectAddress (directAddress : Ptr)
  | RK_DerivedAddress (derivedAddress : Ptr)
  | RK_Aggregate (aggregate : Ptr) (aggregate_numElements : Unsigned)
  | RK_Enum (enumVal : Nat)
  | RK_EnumWithPayload (enumValWithPayload : Ptr)
  | RK_Array (array : Ptr)
  | RK_ArrayAddress (arrayAddress : Ptr)
  deriving DecidableEq, Repr

/-- What one arena allocation holds. -/
inductive ArenaObject where
  | words (data : List Nat)
  | chars (data : List Nat)
  | values (data : List SymbolicValue)
  | APFloatSymbolicValue (semantics : FltSemantics) (trailing : List Nat)
  | UnknownSymbolicValue (node : Nat) (reason : UnknownReason)
      (call_stack_size : Unsigned) (trailing : List SourceLoc)
  | EnumWithPayloadSymbolicValue (enumDecl : Nat) (payload : SymbolicValue)
  | DerivedAddressValue (memoryObject : Ptr) (numElements : Unsigned)
      (trailing : List Unsigned)
  | ArraySymbolicValue (elementType : SwiftType) (numElements : Unsigned)
      (trailing : List SymbolicValue)
  | SymbolicValueMemoryObject (type : SwiftType) (value : SymbolicValue)
  deriving DecidableEq, Repr

/-- One allocation: the bump-pointer allocator that made it and its content. -/
structure Allocation where
  allocator : Nat
  object : ArenaObject
  deriving DecidableEq, Repr

/-- The arena memory: every allocation made so far, in allocation order. -/
abbrev Memory := List Allocation

namespace Memory

/-- The call `allocator.Allocate` followed by the initialisation of the new
object: the object is placed at a fresh address. -/
def allocate (mem : Memory) (allocator : Nat) (object : ArenaObject) : Ptr × Memory :=
  (mem.length, mem ++ [⟨allocator, object⟩])

/-- Reading through an address. -/
def load (mem : Memory) (p : Ptr) : Result ArenaObject :=
  match mem[p]? with
  | some a => .ok a.object
  | none => .error .undefinedBehavior

/-- Overwriting the object at an address in place. -/
def store (mem : Memory) (p : Ptr) (object : ArenaObject) : Memory :=
  match mem[p]? with
  | some a => mem.set p ⟨a.allocator, object⟩
  | none => mem

end Memory

/-- The contiguous range `ArrayRef(data, size)` over an allocation holding
`elements`; a range longer than the allocation is undefined behaviour. -/
def arrayRef {α : Type} (elements : List α) (size : Nat) : Result (List α) :=
  if size ≤ elements.length then .ok (elements.take size) else .error .undefinedBehavior

/-! ## `SymbolicValue`: kinds, aggregates and arrays -/

namespace SymbolicValue

/-- The classification `SymbolicValue::getKind` of a value: several
representations share one public kind. -/
def getKind : SymbolicValue → Kind
  | RK_UninitMemory => .UninitMemory
  | RK_Unknown _ => .Unknown
  | RK_Metatype _ => .Metatype
  | RK_Function _ => .Function
  | RK_Aggregate _ _ => .Aggregate
  | RK_Enum _ => .Enum
  | RK_EnumWithPayload _ => .EnumWithPayload
  | RK_Integer _ _ => .Integer
  | RK_IntegerInline _ _ => .Integer
  | RK_Float _ => .Float
  | RK_Float32 _ => .Float
  | RK_Float64 _ => .Float
  | RK_String _ _ => .String
  | RK_DirectAddress _ => .Address
  | RK_DerivedAddress _ => .Address
  | RK_Array _ => .Array
  | RK_ArrayAddress _ => .Array

/-- Modelled from the spec: `SymbolicValue::getUninitMemory()` of the header,
the trivial inline variant whose representation is `RK_UninitMemory`. -/
def getUninitMemory : SymbolicValue := RK_UninitMemory

/-- The factory `SymbolicValue::getAggregate(elements, allocator)`: the
element handles are copied into a fresh allocation and the handle keeps its
address and, as `unsigned`, the number of elements. -/
def getAggregate (mem : Memory) (elements : List SymbolicValue) (allocator : Nat) :
    SymbolicValue × Memory :=
  let (resultElts, mem) := mem.allocate allocator (.values elements)
  (RK_Aggregate resultElts (toUnsigned elements.length), mem)

/-- The accessor `SymbolicValue::getAggregateValue()`. -/
def getAggregateValue (mem : Memory) (self : SymbolicValue) : Result (List SymbolicValue) := do
  assert (self.getKind == .Aggregate)
  match self with
  | RK_Aggregate aggregate aggregate_numElements =>
    match ← mem.load aggregate with
    | .values data => arrayRef data aggregate_numElements.val
    | _ => .error .undefinedBehavior
  | _ => .error .undefinedBehavior

/-- The method `ArraySymbolicValue::create(elements, elementType, allocator)`: one
allocation holding the element type, the number of elements as `unsigned` and
the copied element handles. -/
def ArraySymbolicValue.create (mem : Memory) (elements : List SymbolicValue)
    (elementType : SwiftType) (allocator : Nat) : Ptr × Memory :=
  mem.allocate allocator
    (.ArraySymbolicValue elementType (toUnsigned elements.length) elements)

/-- The factory `SymbolicValue::getArray(elements, elementType, allocator)`. -/
def getArray (mem : Memory) (elements : List SymbolicValue) (elementType : SwiftType)
    (allocator : Nat) : SymbolicValue × Memory :=
  let (asv, mem) := ArraySymbolicValue.create mem elements elementType allocator
  (RK_Array asv, mem)

/-- The accessor `SymbolicValue::getArrayValue(elementType)`: the elements and,
as the second component, the element type written to the out-parameter.  An
`RK_ArrayAddress` is read through its memory object. -/
def getArrayValue (mem : Memory) (self : SymbolicValue) :
    Result (List SymbolicValue × SwiftType) := do
  assert (self.getKind == .Array)
  let val ← match self with
    | RK_ArrayAddress arrayAddress =>
      match ← mem.load arrayAddress with
      | .SymbolicValueMemoryObject _ value => pure value
      | _ => .error .undefinedBehavior
    | _ => pure self
  match val with
  | RK_Array array =>
    match ← mem.load array with
    | .ArraySymbolicValue elementType numElements trailing =>
      let elements ← arrayRef trailing numElements.val
      pure (elements, elementType)
    | _ => .error .undefinedBehavior
  | _ => .error .assertion

end SymbolicValue

/-! ## Integers -/

/-- Modelled from the spec: `llvm::APInt`, the arbitrary-precision integer of the
external big-integer facility: the bit width, an `unsigned`, and the 64-bit words of
the value, least significant first. -/
structure APInt where
  BitWidth : Unsigned
  words : List Nat
  deriving DecidableEq, Repr

namespace APInt

/-- Modelled from the spec: `APInt::getNumWords()`, computed by `APInt` in 64-bit
arithmetic as `((uint64_t)BitWidth + 63) / 64`. -/
def getNumWords (a : APInt) : Nat := (a.BitWidth.val + 63) / 64

/-- Modelled from the spec: `APInt::getBitWidth()`. -/
def getBitWidth (a : APInt) : Unsigned := a.BitWidth

/-- Modelled from the spec: `APInt::getRawData()`, the words of the value. -/
def getRawData (a : APInt) : List Nat := a.words

/-- Modelled from the spec: `APInt::clearUnusedBits()`, which masks the bits of the
last word above the bit width. -/
def clearUnusedBits (a : APInt) : APInt :=
  let wordBits := (a.BitWidth.val - 1) % 64 + 1
  match a.words[a.getNumWords - 1]? with
  | some w => ⟨a.BitWidth, a.words.set (a.getNumWords - 1) (w % 2 ^ wordBits)⟩
  | none => a

/-- Modelled from the spec: the constructor `APInt(numBits, val)` from one unsigned
64-bit word: the word is the lowest one, the others are zero, unused bits are
cleared. -/
def ofWord (numBits : Unsigned) (val : Nat) : Result APInt := do
  assert (decide (0 < numBits.val))
  pure (clearUnusedBits
    ⟨numBits, (val % 18446744073709551616) :: List.replicate ((numBits.val + 63) / 64 - 1) 0⟩)

/-- Modelled from the spec: the constructor `APInt(numBits, bigVal)` from an array of
words: a single-word integer takes `bigVal[0]`; a wider one takes the first
`min(bigVal.size(), getNumWords())` words and leaves the others zero; unused bits are
cleared. -/
def ofArray (numBits : Unsigned) (bigVal : List Nat) : Result APInt := do
  assert (decide (0 < numBits.val))
  if numBits.val ≤ 64 then do
    let w ← indexChecked bigVal 0
    pure (clearUnusedBits ⟨numBits, [w]⟩)
  else
    let numWords := (numBits.val + 63) / 64
    let words := min (toUnsigned bigVal.length).val numWords
    pure (clearUnusedBits ⟨numBits, bigVal.take words ++ List.replicate (numWords - words) 0⟩)

end APInt

namespace SymbolicValue

/-- The factory `SymbolicValue::getInteger(int64_t value, unsigned bitWidth)`: the
inline representation holding the 64-bit pattern of `value`. -/
def getIntegerInt64 (value : Int) (bitWidth : Unsigned) : SymbolicValue :=
  RK_IntegerInline (toUInt64 value) bitWidth

/-- The factory `SymbolicValue::getInteger(const APInt &value, allocator)`: inline
when the integer has one word, else the words are copied into a fresh allocation.
Reading a word the integer does not hold is undefined behaviour. -/
def getIntegerAPInt (mem : Memory) (value : APInt) (allocator : Nat) :
    Result (SymbolicValue × Memory) :=
  let numWords := toUnsigned value.getNumWords
  if numWords.val = 1 then
    match value.getRawData[0]? with
    | some w => pure (getIntegerInt64 (toInt64 w) value.getBitWidth, mem)
    | none => .error .undefinedBehavior
  else do
    let copied ← arrayRef value.getRawData numWords.val
    let (words, mem) := mem.allocate allocator (.words copied)
    pure (RK_Integer words value.getBitWidth, mem)

/-- The accessor `SymbolicValue::getIntegerValue()`.  The number of words of the boxed
representation is computed as `(numBits + 63) / 64` in `unsigned` arithmetic. -/
def getIntegerValue (mem : Memory) (self : SymbolicValue) : Result APInt := do
  assert (self.getKind == .Integer)
  match self with
  | RK_IntegerInline integerInline numBits => APInt.ofWord numBits integerInline
  | RK_Integer integer numBits =>
    let numWords := (toUnsigned (numBits.val + 63)).val / 64
    match ← mem.load integer with
    | .words data => do
      let bigVal ← arrayRef data numWords
      APInt.ofArray numBits bigVal
    | _ => .error .undefinedBehavior
  | _ => .error .assertion

/-- The accessor `SymbolicValue::getIntegerValueBitWidth()`. -/
def getIntegerValueBitWidth (self : SymbolicValue) : Result Unsigned := do
  assert (self.getKind == .Integer)
  match self with
  | RK_IntegerInline _ integer_bitwidth => pure integer_bitwidth
  | RK_Integer _ integer_bitwidth => pure integer_bitwidth
  | _ => .error .assertion

end SymbolicValue

/-! ## Memory objects and access paths -/

/-- The factory `SymbolicValueMemoryObject::create(type, value, allocator)`. -/
def SymbolicValueMemoryObject.create (mem : Memory) (type : SwiftType)
    (value : SymbolicValue) (allocator : Nat) : Ptr × Memory :=
  mem.allocate allocator (.SymbolicValueMemoryObject type value)

/-- The static type of the element `elementNo` of an aggregate of static type
`type`, as both indexing helpers compute it: the stored property of a struct,
the element of a tuple (after asserting the index), unreachable otherwise. -/
def aggregateElementType (type : SwiftType) (elementNo : Nat) : Result SwiftType :=
  match type.getStructOrBoundGenericStruct with
  | some decl => StructDecl.storedPropertyType decl elementNo
  | none =>
    match type.getAsTupleType with
    | some tuple => do
      assert (decide (elementNo < (TupleType.getNumElements tuple).val))
      TupleType.getElementType tuple elementNo
    | none => llvm_unreachable

/-- The static helper `getIndexedElement(aggregate, accessPath, type)`. -/
def getIndexedElement (mem : Memory) (aggregate : SymbolicValue) (accessPath : List Nat)
    (type : SwiftType) : Result SymbolicValue :=
  match accessPath with
  | [] => .ok aggregate
  | elementNo :: rest =>
    if aggregate.getKind = .UninitMemory then .ok SymbolicValue.getUninitMemory
    else do
      assert (aggregate.getKind == .Aggregate || aggregate.getKind == .Array)
      if aggregate.getKind = .Array then do
        let (elements, arrayEltTy) ← aggregate.getArrayValue mem
        let elt ← indexChecked elements elementNo
        getIndexedElement mem elt rest arrayEltTy
      else do
        let elt ← indexChecked (← aggregate.getAggregateValue mem) elementNo
        let eltType ← aggregateElementType type elementNo
        getIndexedElement mem elt rest eltType

/-- The number of members an uninitialised value of static type `type` is
scalarised into by `setIndexedElement`: the number of stored properties of a
struct, the number of elements of a tuple, unreachable otherwise. -/
def scalarizedNumMembers (type : SwiftType) : Result Unsigned :=
  match type.getStructOrBoundGenericStruct with
  | some decl => .ok (StructDecl.numStoredProperties decl)
  | none =>
    match type.getAsTupleType with
    | some tuple => .ok (TupleType.getNumElements tuple)
    | none => llvm_unreachable

/-- The static helper `setIndexedElement(aggregate, accessPath, scalar, type,
allocator)`: the updated value together with the memory after its
allocations. -/
def setIndexedElement (mem : Memory) (aggregate : SymbolicValue) (accessPath : List Nat)
    (scalar : SymbolicValue) (type : SwiftType) (allocator : Nat) :
    Result (SymbolicValue × Memory) :=
  match accessPath with
  | [] => .ok (scalar, mem)
  | elementNo :: rest => do
    let (aggregate, mem) ←
      if aggregate.getKind = .UninitMemory then do
        let numMembers ← scalarizedNumMembers type
        let newElts := List.replicate numMembers.val SymbolicValue.getUninitMemory
        pure (SymbolicValue.getAggregate mem newElts allocator)
      else pure (aggregate, mem)
    assert (aggregate.getKind == .Aggregate || aggregate.getKind == .Array)
    let (oldElts, eltType) ←
      if aggregate.getKind = .Array then aggregate.getArrayValue mem
      else do
        let oldElts ← aggregate.getAggregateValue mem
        let eltType ← aggregateElementType type elementNo
        pure (oldElts, eltType)
    let newElts := oldElts
    let oldElt ← indexChecked newElts elementNo
    let (newElt, mem) ← setIndexedElement mem oldElt rest scalar eltType allocator
    let newElts := newElts.set elementNo newElt
    if aggregate.getKind = .Aggregate then
      pure (SymbolicValue.getAggregate mem newElts allocator)
    else
      pure (SymbolicValue.getArray mem newElts eltType.getCanonicalType allocator)

namespace SymbolicValueMemoryObject

/-- Reading the fields `type` and `value` of the memory object at an address. -/
def fields (mem : Memory) (self : Ptr) : Result (SwiftType × SymbolicValue) := do
  match ← mem.load self with
  | .SymbolicValueMemoryObject type value => pure (type, value)
  | _ => .error .undefinedBehavior

/-- The method `SymbolicValueMemoryObject::getIndexedElement(accessPath)`. -/
def getIndexedElement (mem : Memory) (self : Ptr) (accessPath : List Nat) :
    Result SymbolicValue := do
  let (type, value) ← fields mem self
  swift.getIndexedElement mem value accessPath type

/-- The method `SymbolicValueMemoryObject::setIndexedElement(accessPath, scalar,
allocator)`: the helper computes the new value, which then replaces the
`value` field of the object. -/
def setIndexedElement (mem : Memory) (self : Ptr) (accessPath : List Nat)
    (scalar : SymbolicValue) (allocator : Nat) : Result Memory := do
  let (type, value) ← fields mem self
  let (value, mem) ← swift.setIndexedElement mem value accessPath scalar type allocator
  pure (mem.store self (.SymbolicValueMemoryObject type value))

end SymbolicValueMemoryObject

/-! ## Floats -/

/-- Modelled from the spec: `llvm::APFloat`, the floating-point value of the external
floating-point facility, taken as its format and its bit pattern (the integer
`bitcastToAPInt()` returns).  The host types `float` and `double` are taken as their
32-bit and 64-bit patterns. -/
structure APFloat where
  semantics : FltSemantics
  bits : APInt
  deriving DecidableEq, Repr

namespace APFloat

/-- Modelled from the spec: `APFloat::getSizeInBits(semantics)`, which returns
`unsigned`: the number of bits of a value of the format. -/
def getSizeInBits : FltSemantics → Unsigned
  | .IEEEhalf => 16
  | .IEEEsingle => 32
  | .IEEEdouble => 64
  | .IEEEquad => 128
  | .PPCDoubleDouble => 128
  | .x87DoubleExtended => 80
  | .Bogus => 0

/-- Modelled from the spec: `APFloat::getSemantics()`. -/
def getSemantics (f : APFloat) : FltSemantics := f.semantics

/-- Modelled from the spec: `APFloat::bitcastToAPInt()`, which asserts the format is a
known one. -/
def bitcastToAPInt (f : APFloat) : Result APInt := do
  assert (f.semantics != .Bogus)
  pure f.bits

/-- Modelled from the spec: the constructor `APFloat(semantics, api)` from a bit
pattern, which asserts the integer has the width of the format and is unreachable on
an unknown format. -/
def ofAPInt (semantics : FltSemantics) (api : APInt) : Result APFloat :=
  if semantics = .Bogus then llvm_unreachable
  else do
    assert (api.getBitWidth == getSizeInBits semantics)
    pure ⟨semantics, api⟩

/-- Modelled from the spec: `APFloat::convertToFloat()`, which asserts the format is
IEEE single and returns the `float` holding the 32 bits of the value. -/
def convertToFloat (f : APFloat) : Result Nat := do
  assert (f.semantics == .IEEEsingle)
  let api ← f.bitcastToAPInt
  let w ← indexChecked api.getRawData 0
  pure (w % 4294967296)

/-- Modelled from the spec: `APFloat::convertToDouble()`, which asserts the format is
IEEE double and returns the `double` holding the 64 bits of the value. -/
def convertToDouble (f : APFloat) : Result Nat := do
  assert (f.semantics == .IEEEdouble)
  let api ← f.bitcastToAPInt
  let w ← indexChecked api.getRawData 0
  pure (w % 18446744073709551616)

/-- Modelled from the spec: the constructor `APFloat(float)`, the IEEE single value
with the bits of the `float`. -/
def ofFloat (f : Nat) : Result APFloat := do
  let api ← APInt.ofWord 32 f
  ofAPInt .IEEEsingle api

/-- Modelled from the spec: the constructor `APFloat(double)`, the IEEE double value
with the bits of the `double`. -/
def ofDouble (f : Nat) : Result APFloat := do
  let api ← APInt.ofWord 64 f
  ofAPInt .IEEEdouble api

end APFloat

namespace APFloatSymbolicValue

/-- The method `APFloatSymbolicValue::numTrailingObjects`: the number of words, computed
as `(getSizeInBits(semantics) + 63) / 64` in `unsigned` arithmetic. -/
def numTrailingObjects (semantics : FltSemantics) : Nat :=
  (toUnsigned ((APFloat.getSizeInBits semantics).val + 63)).val / 64

/-- The method `APFloatSymbolicValue::create(semantics, elements, allocator)`: one
allocation holding the format and the copied words. -/
def create (mem : Memory) (semantics : FltSemantics) (elements : List Nat)
    (allocator : Nat) : Result (Ptr × Memory) := do
  assert (decide
    ((toUnsigned ((APFloat.getSizeInBits semantics).val + 63)).val / 64 = elements.length))
  pure (mem.allocate allocator (.APFloatSymbolicValue semantics elements))

/-- The method `APFloatSymbolicValue::getValue()` on the payload with format
`semantics` and trailing words `trailing`. -/
def getValue (semantics : FltSemantics) (trailing : List Nat) : Result APFloat := do
  let ref ← arrayRef trailing (numTrailingObjects semantics)
  let val ← APInt.ofArray (APFloat.getSizeInBits semantics) ref
  APFloat.ofAPInt semantics val

end APFloatSymbolicValue

namespace SymbolicValue

/-- The factory `SymbolicValue::getFloat(value, allocator)`: IEEE single and IEEE double
are stored inline, every other format is boxed with the words of its bit pattern.  The
assertion that the boxed payload is present holds for every allocation. -/
def getFloat (mem : Memory) (value : APFloat) (allocator : Nat) :
    Result (SymbolicValue × Memory) :=
  let semantics := value.getSemantics
  if semantics = .IEEEsingle then do
    let float32 ← value.convertToFloat
    pure (RK_Float32 float32, mem)
  else if semantics = .IEEEdouble then do
    let float64 ← value.convertToDouble
    pure (RK_Float64 float64, mem)
  else do
    let val ← value.bitcastToAPInt
    let elements ← arrayRef val.getRawData val.getNumWords
    let (fpValue, mem) ← APFloatSymbolicValue.create mem value.getSemantics elements allocator
    pure (RK_Float fpValue, mem)

/-- The accessor `SymbolicValue::getFloatValue()`. -/
def getFloatValue (mem : Memory) (self : SymbolicValue) : Result APFloat := do
  assert (self.getKind == .Float)
  match self with
  | RK_Float32 float32 => APFloat.ofFloat float32
  | RK_Float64 float64 => APFloat.ofDouble float64
  | RK_Float floatingPoint =>
    match ← mem.load floatingPoint with
    | .APFloatSymbolicValue semantics trailing =>
      APFloatSymbolicValue.getValue semantics trailing
    | _ => .error .undefinedBehavior
  | _ => .error .assertion

/-- The accessor `SymbolicValue::getFloatValueSemantics()`. -/
def getFloatValueSemantics (mem : Memory) (self : SymbolicValue) : Result FltSemantics := do
  assert (self.getKind == .Float)
  match self with
  | RK_Float32 _ => pure .IEEEsingle
  | RK_Float64 _ => pure .IEEEdouble
  | RK_Float floatingPoint =>
    match ← mem.load floatingPoint with
    | .APFloatSymbolicValue semantics _ => pure semantics
    | _ => .error .undefinedBehavior
  | _ => .error .assertion

/-! ## Strings -/

/-- The factory `SymbolicValue::getString(string, allocator)`: the bytes are copied
into a fresh allocation and the handle keeps its address and, as `unsigned`, the number
of bytes. -/
def getString (mem : Memory) (string : List Nat) (allocator : Nat) : SymbolicValue × Memory :=
  let (resultPtr, mem) := mem.allocate allocator (.chars string)
  (RK_String resultPtr (toUnsigned string.length), mem)

/-- The accessor `SymbolicValue::getStringValue()`. -/
def getStringValue (mem : Memory) (self : SymbolicValue) : Result (List Nat) := do
  assert (self.getKind == .String)
  match self with
  | RK_String string string_numBytes =>
    match ← mem.load string with
    | .chars data => arrayRef data string_numBytes.val
    | _ => .error .undefinedBehavior
  | _ => .error .assertion

end SymbolicValue
/-! ## Unknown values -/

namespace UnknownSymbolicValue

/-- The method `UnknownSymbolicValue::create(node, reason, elements, allocator)`: one
allocation holding the node, the reason, the number of call-stack entries converted to
`unsigned`, and the copied entries. -/
def create (mem : Memory) (node : Nat) (reason : UnknownReason) (elements : List SourceLoc)
    (allocator : Nat) : Ptr × Memory :=
  mem.allocate allocator
    (.UnknownSymbolicValue node reason (toUnsigned elements.length) elements)

/-- The method `UnknownSymbolicValue::getCallStack()` on the payload with
`call_stack_size` entries counted and trailing entries `trailing`. -/
def getCallStack (call_stack_size : Unsigned) (trailing : List SourceLoc) :
    Result (List SourceLoc) :=
  arrayRef trailing call_stack_size.val

end UnknownSymbolicValue

namespace SymbolicValue

/-- The factory `SymbolicValue::getUnknown(node, reason, callStack, allocator)`.  The
node is a pointer to an object outside the arena; 0 is the null pointer. -/
def getUnknown (mem : Memory) (node : Nat) (reason : UnknownReason)
    (callStack : List SourceLoc) (allocator : Nat) : Result (SymbolicValue × Memory) := do
  assert (node != 0)
  let (unknown, mem) := UnknownSymbolicValue.create mem node reason callStack allocator
  pure (RK_Unknown unknown, mem)

/-- The accessor `SymbolicValue::getUnknownCallStack()`. -/
def getUnknownCallStack (mem : Memory) (self : SymbolicValue) : Result (List SourceLoc) := do
  assert (self.getKind == .Unknown)
  match self with
  | RK_Unknown unknown =>
    match ← mem.load unknown with
    | .UnknownSymbolicValue _ _ call_stack_size trailing =>
      UnknownSymbolicValue.getCallStack call_stack_size trailing
    | _ => .error .undefinedBehavior
  | _ => .error .assertion

/-- The accessor `SymbolicValue::getUnknownNode()`. -/
def getUnknownNode (mem : Memory) (self : SymbolicValue) : Result Nat := do
  assert (self.getKind == .Unknown)
  match self with
  | RK_Unknown unknown =>
    match ← mem.load unknown with
    | .UnknownSymbolicValue node _ _ _ => pure node
    | _ => .error .undefinedBehavior
  | _ => .error .assertion

/-- The accessor `SymbolicValue::getUnknownReason()`. -/
def getUnknownReason (mem : Memory) (self : SymbolicValue) : Result UnknownReason := do
  assert (self.getKind == .Unknown)
  match self with
  | RK_Unknown unknown =>
    match ← mem.load unknown with
    | .UnknownSymbolicValue _ reason _ _ => pure reason
    | _ => .error .undefinedBehavior
  | _ => .error .assertion

/-! ## Enums -/

/-- Modelled from the spec: `SymbolicValue::isConstant()` of the header: the kind is
neither Unknown nor UninitMemory. -/
def isConstant (self : SymbolicValue) : Bool :=
  self.getKind != .Unknown && self.getKind != .UninitMemory

/-- The factory `SymbolicValue::getEnumWithPayload(decl, payload, allocator)`.  The
case is a pointer to a declaration outside the arena; 0 is the null pointer. -/
def getEnumWithPayload (mem : Memory) (decl : Nat) (payload : SymbolicValue)
    (allocator : Nat) : Result (SymbolicValue × Memory) := do
  assert (decl != 0 && payload.isConstant)
  let (enumVal, mem) := mem.allocate allocator (.EnumWithPayloadSymbolicValue decl payload)
  pure (RK_EnumWithPayload enumVal, mem)

/-- The accessor `SymbolicValue::getEnumValue()`. -/
def getEnumValue (mem : Memory) (self : SymbolicValue) : Result Nat := do
  match self with
  | RK_Enum enumVal => pure enumVal
  | RK_EnumWithPayload enumValWithPayload =>
    match ← mem.load enumValWithPayload with
    | .EnumWithPayloadSymbolicValue enumDecl _ => pure enumDecl
    | _ => .error .undefinedBehavior
  | _ => .error .assertion

/-- The accessor `SymbolicValue::getEnumPayloadValue()`. -/
def getEnumPayloadValue (mem : Memory) (self : SymbolicValue) : Result SymbolicValue := do
  match self with
  | RK_EnumWithPayload enumValWithPayload =>
    match ← mem.load enumValWithPayload with
    | .EnumWithPayloadSymbolicValue _ payload => pure payload
    | _ => .error .undefinedBehavior
  | _ => .error .assertion

end SymbolicValue

/-! ## Addresses -/

namespace DerivedAddressValue

/-- The method `DerivedAddressValue::create(memoryObject, elements, allocator)`: one
allocation holding the memory object, the number of indices as `unsigned` and the
copied indices. -/
def create (mem : Memory) (memoryObject : Ptr) (elements : List Unsigned)
    (allocator : Nat) : Ptr × Memory :=
  mem.allocate allocator
    (.DerivedAddressValue memoryObject (toUnsigned elements.length) elements)

/-- The method `DerivedAddressValue::getElements()` on the payload with `numElements`
indices counted and trailing indices `trailing`. -/
def getElements (numElements : Unsigned) (trailing : List Unsigned) :
    Result (List Unsigned) :=
  arrayRef trailing numElements.val

end DerivedAddressValue

namespace SymbolicValue

/-- Modelled from the spec: `SymbolicValue::getAddress(memoryObject)` of the header,
the allocation-free direct address of a memory object. -/
def getAddressDirect (memoryObject : Ptr) : SymbolicValue :=
  RK_DirectAddress memoryObject

/-- The factory `SymbolicValue::getAddress(memoryObject, indices, allocator)`. -/
def getAddress (mem : Memory) (memoryObject : Ptr) (indices : List Unsigned)
    (allocator : Nat) : SymbolicValue × Memory :=
  if indices.isEmpty then (getAddressDirect memoryObject, mem)
  else
    let (dav, mem) := DerivedAddressValue.create mem memoryObject indices allocator
    (RK_DerivedAddress dav, mem)

/-- The accessor `SymbolicValue::getAddressValue(accessPath)`: the memory object and,
as the second component, the content of the vector `accessPath` on return. -/
def getAddressValue (mem : Memory) (self : SymbolicValue) (accessPath : List Unsigned) :
    Result (Ptr × List Unsigned) := do
  assert (self.getKind == .Address)
  let accessPath : List Unsigned := accessPath.take 0
  match self with
  | RK_DirectAddress directAddress => pure (directAddress, accessPath)
  | RK_DerivedAddress derivedAddress =>
    match ← mem.load derivedAddress with
    | .DerivedAddressValue memoryObject numElements trailing => do
      let elements ← DerivedAddressValue.getElements numElements trailing
      let accessPath := elements
      pure (memoryObject, accessPath)
    | _ => .error .undefinedBehavior
  | _ => .error .assertion

/-- The accessor `SymbolicValue::getAddressValueMemoryObject()`. -/
def getAddressValueMemoryObject (mem : Memory) (self : SymbolicValue) : Result Ptr := do
  match self with
  | RK_DirectAddress directAddress => pure directAddress
  | RK_DerivedAddress derivedAddress =>
    match ← mem.load derivedAddress with
    | .DerivedAddressValue memoryObject _ _ => pure memoryObject
    | _ => .error .undefinedBehavior
  | _ => .error .assertion

/-! ## The inline factories of the header -/

/-- Modelled from the spec: `SymbolicValue::getMetatype(type)` of the header, a trivial
inline variant. -/
def getMetatype (type : SwiftType) : SymbolicValue := RK_Metatype type

/-- Modelled from the spec: `SymbolicValue::getFunction(fn)` of the header, a trivial
inline variant. -/
def getFunction (fn : Nat) : SymbolicValue := RK_Function fn

/-- Modelled from the spec: `SymbolicValue::getEnum(decl)` of the header, the enum case
without payload. -/
def getEnum (decl : Nat) : SymbolicValue := RK_Enum decl

/-! ## Cloning -/

/-- The loop `for (auto elt : elts) results.push_back(elt.cloneInto(allocator))`, over
a function cloning one element: the clones in order and the memory after all of them.
The result is `none` when cloning an element does not return. -/
def cloneElements (clone : Memory → SymbolicValue → Option (Result (SymbolicValue × Memory))) :
    Memory → List SymbolicValue → Option (Result (List SymbolicValue × Memory))
  | mem, [] => some (.ok ([], mem))
  | mem, elt :: elts =>
    match clone mem elt with
    | none => none
    | some (.error e) => some (.error e)
    | some (.ok (result, mem)) =>
      match cloneElements clone mem elts with
      | none => none
      | some (.error e) => some (.error e)
      | some (.ok (results, mem)) => some (.ok (result :: results, mem))

/-- The method `SymbolicValue::cloneInto(allocator)`.  The recursion of the source goes
through the arena, so the embedding bounds its depth by `fuel`; the result is `none`
when the bound is reached before the call returns. -/
def cloneInto : Nat → Memory → SymbolicValue → Nat → Option (Result (SymbolicValue × Memory))
  | 0, _, _, _ => none
  | fuel + 1, mem, self, allocator =>
    match self with
    | RK_UninitMemory => some (.ok (self, mem))
    | RK_Unknown _ => some (.ok (self, mem))
    | RK_Metatype _ => some (.ok (self, mem))
    | RK_Function _ => some (.ok (self, mem))
    | RK_Enum _ => some (.ok (self, mem))
    | RK_IntegerInline _ _ => some (.ok (self, mem))
    | RK_Float32 _ => some (.ok (self, mem))
    | RK_Float64 _ => some (.ok (self, mem))
    | RK_Integer _ _ => some (do
        let value ← self.getIntegerValue mem
        getIntegerAPInt mem value allocator)
    | RK_Float _ => some (do
        let value ← self.getFloatValue mem
        getFloat mem value allocator)
    | RK_String _ _ => some (do
        let string ← self.getStringValue mem
        pure (getString mem string allocator))
    | RK_Aggregate _ _ =>
      match self.getAggregateValue mem with
      | .error e => some (.error e)
      | .ok elts =>
        match cloneElements (fun mem elt => cloneInto fuel mem elt allocator) mem elts with
        | none => none
        | some (.error e) => some (.error e)
        | some (.ok (results, mem)) => some (.ok (getAggregate mem results allocator))
    | RK_EnumWithPayload _ => some (do
        let decl ← self.getEnumValue mem
        let payload ← self.getEnumPayloadValue mem
        getEnumWithPayload mem decl payload allocator)
    | RK_DirectAddress _ | RK_DerivedAddress _ => some (do
        let accessPath : List Unsigned := []
        let (memObject, accessPath) ← self.getAddressValue mem accessPath
        let (type, value) ← SymbolicValueMemoryObject.fields mem memObject
        let (newMemObject, mem) := SymbolicValueMemoryObject.create mem type value allocator
        pure (getAddress mem newMemObject accessPath allocator))
    | RK_Array _ | RK_ArrayAddress _ =>
      match self.getArrayValue mem with
      | .error e => some (.error e)
      | .ok (elts, elementType) =>
        match cloneElements (fun mem elt => cloneInto fuel mem elt allocator) mem elts with
        | none => none
        | some (.error e) => some (.error e)
        | some (.ok (results, mem)) => some (.ok (getArray mem results elementType allocator))

end SymbolicValue

/-! ## Looking through single-element aggregates -/

namespace SymbolicValue

/-- The method `SymbolicValue::lookThroughSingleElementAggregates()`.  Each iteration of
the loop of the source reads through the arena, so the embedding bounds the number of
iterations by `fuel`; the result is `none` when the bound is reached before the loop
returns. -/
def lookThroughSingleElementAggregates :
    Nat → Memory → SymbolicValue → Option (Result SymbolicValue)
  | 0, _, _ => none
  | fuel + 1, mem, result =>
    if result.getKind ≠ .Aggregate then some (.ok result)
    else
      match result.getAggregateValue mem with
      | .error e => some (.error e)
      | .ok elts =>
        if elts.length ≠ 1 then some (.ok result)
        else
          match indexChecked elts 0 with
          | .error e => some (.error e)
          | .ok elt => lookThroughSingleElementAggregates fuel mem elt

end SymbolicValue

/-! ## Diagnostic notes of unknown values -/

/-- Modelled from the spec: `SourceLoc::isValid()`. -/
def SourceLoc.isValid (loc : SourceLoc) : Bool := loc.value.isSome

/-- Modelled from the spec: `SourceLoc::isInvalid()`. -/
def SourceLoc.isInvalid (loc : SourceLoc) : Bool := !loc.isValid

/-- Modelled from the spec: a range of the source (`SourceRange`), the highlighted
range of a diagnostic. -/
structure SourceRange where
  Start : SourceLoc
  End : SourceLoc
  deriving DecidableEq, Repr

/-- Modelled from the spec: a location of the node/location collaborator
(`SILLocation`): whether it is null, its source location and its source range. -/
structure SILLocation where
  null : Bool
  sourceLoc : SourceLoc
  sourceRange : SourceRange
  deriving DecidableEq, Repr

namespace SILLocation

/-- Modelled from the spec: `SILLocation::isNull()`. -/
def isNull (loc : SILLocation) : Bool := loc.null

/-- Modelled from the spec: `SILLocation::getSourceLoc()`. -/
def getSourceLoc (loc : SILLocation) : SourceLoc := loc.sourceLoc

/-- Modelled from the spec: `SILLocation::getSourceRange()`. -/
def getSourceRange (loc : SILLocation) : SourceRange := loc.sourceRange

end SILLocation

/-- Modelled from the spec: a function of the node/location collaborator
(`SILFunction`), of which only the location is read. -/
structure SILFunction where
  Location : SILLocation
  deriving DecidableEq, Repr

/-- Modelled from the spec: `SILFunction::getLocation()`. -/
def SILFunction.getLocation (F : SILFunction) : SILLocation := F.Location

/-- Modelled from the spec: the inlining history of the node/location collaborator
(`SILDebugScope`): a scope has a location, the function it was inlined from, if any
(`getInlinedFunction()`), and the scope of the call site it was inlined into, which is
null for the last scope of the chain. -/
inductive SILDebugScope where
  | last (Loc : SILLocation) (inlinedFunction : Option SILFunction)
  | inlinedInto (Loc : SILLocation) (inlinedFunction : Option SILFunction)
      (InlinedCallSite : SILDebugScope)
  deriving DecidableEq, Repr

namespace SILDebugScope

/-- Modelled from the spec: the field `Loc` of a scope. -/
def Loc : SILDebugScope → SILLocation
  | last Loc _ => Loc
  | inlinedInto Loc _ _ => Loc

/-- Modelled from the spec: the field `InlinedCallSite` of a scope, null for the last
scope. -/
def InlinedCallSite : SILDebugScope → Option SILDebugScope
  | last _ _ => none
  | inlinedInto _ _ ics => some ics

/-- Modelled from the spec: `SILDebugScope::getInlinedFunction()`. -/
def getInlinedFunction : SILDebugScope → Option SILFunction
  | last _ F => F
  | inlinedInto _ F _ => F

end SILDebugScope

/-- Modelled from the spec: a debug location (`SILDebugLocation`): a location and a
scope, which may be null. -/
structure SILDebugLocation where
  Location : SILLocation
  Scope : Option SILDebugScope
  deriving DecidableEq, Repr

namespace SILDebugLocation

/-- Modelled from the spec: `SILDebugLocation::getLocation()`. -/
def getLocation (loc : SILDebugLocation) : SILLocation := loc.Location

/-- Modelled from the spec: `SILDebugLocation::getScope()`. -/
def getScope (loc : SILDebugLocation) : Option SILDebugScope := loc.Scope

end SILDebugLocation

/-- Modelled from the spec: an instruction of the node/location collaborator
(`SILInstruction`), of which only the debug location is read. -/
structure SILInstruction where
  debugLocation : SILDebugLocation
  deriving DecidableEq, Repr

/-- Modelled from the spec: `SILInstruction::getDebugLocation()`. -/
def SILInstruction.getDebugLocation (inst : SILInstruction) : SILDebugLocation :=
  inst.debugLocation

/-- Modelled from the spec: the source manager (`SourceManager`), of which only the
line number of a source location is read. -/
structure SourceManager where
  getLineNumber : SourceLoc → Unsigned

/-- The three diagnostics `SILConstants.cpp` emits. -/
inductive Diag where
  | constexpr_unknown_reason
  | constexpr_not_evaluable
  | constexpr_called_from
  deriving DecidableEq, Repr

/-- Modelled from the spec: what one call of `diagnose` forwards to the diagnostic
bridge: the source location, the diagnostic, its arguments and the highlighted range,
if any. -/
structure Diagnostic where
  loc : SourceLoc
  id : Diag
  args : List String
  highlight : Option SourceRange
  deriving DecidableEq, Repr

/-- The loop of `skipInternalLocations` from the scope `ds` on, with the test that
follows it: the debug location found, or none when the function goes on to its last
`return loc`. -/
def skipInternalLocationsLoop : SILDebugScope → Option SILDebugLocation
  | .inlinedInto Loc F ics =>
    if Loc.getSourceLoc.isValid then
      some ⟨Loc, some (.inlinedInto Loc F ics)⟩
    else if (match F with
        | some F => F.getLocation.getSourceLoc.isValid
        | none => false) then
      if Loc.getSourceLoc.isValid then some ⟨Loc, some (.inlinedInto Loc F ics)⟩ else none
    else skipInternalLocationsLoop ics
  | .last Loc F =>
    if Loc.getSourceLoc.isValid then some ⟨Loc, some (.last Loc F)⟩ else none

/-- The static function `skipInternalLocations(loc)`. -/
def skipInternalLocations (loc : SILDebugLocation) : SILDebugLocation :=
  match loc.getScope with
  | none => loc
  | some ds =>
    if loc.getLocation.getSourceLoc.isValid then loc
    else
      match skipInternalLocationsLoop ds with
      | some found => found
      | none => loc

/-- The static function `emitNoteDiagnostic(badInst, reason, fallbackLoc, error)`: what
it returns and the diagnostics it emits. -/
def emitNoteDiagnostic (badInst : SILInstruction) (reason : UnknownReason)
    (fallbackLoc : SILLocation) (error : String) : Bool × List Diagnostic :=
  let loc := (skipInternalLocations badInst.getDebugLocation).getLocation
  if loc.isNull then
    if reason = .Default ∨ fallbackLoc.isNull = true then (false, [])
    else
      let loc := fallbackLoc
      (true, [⟨loc.getSourceLoc, .constexpr_unknown_reason, [error], some loc.getSourceRange⟩])
  else
    (true, [⟨loc.getSourceLoc, .constexpr_unknown_reason, [error], some loc.getSourceRange⟩])

/-- The loop of `emitUnknownDiagnosticNotes` over the call stack, already reversed: the
diagnostics it emits, from the value of `emittedFirstNote` on entry. -/
def emitCallStackNotes (SM : SourceManager) (originalDiagnosticLineNumber : Unsigned) :
    Bool → List SourceLoc → List Diagnostic
  | _, [] => []
  | emittedFirstNote, sourceLoc :: rest =>
    if !sourceLoc.isValid then
      emitCallStackNotes SM originalDiagnosticLineNumber emittedFirstNote rest
    else if SM.getLineNumber sourceLoc = originalDiagnosticLineNumber then
      emitCallStackNotes SM originalDiagnosticLineNumber emittedFirstNote rest
    else
      let diag := if emittedFirstNote then Diag.constexpr_called_from
        else Diag.constexpr_not_evaluable
      ⟨sourceLoc, diag, [], none⟩ :: emitCallStackNotes SM originalDiagnosticLineNumber true rest

/-- The method `SymbolicValue::emitUnknownDiagnosticNotes(fallbackLoc)`: the diagnostics
it emits, in order.  `nodes` is the cast `dyn_cast<SILInstruction>` of the node
collaborator: the instruction a node pointer refers to, or none when the node is not an
instruction. -/
def SymbolicValue.emitUnknownDiagnosticNotes (mem : Memory) (self : SymbolicValue)
    (fallbackLoc : SILLocation) (nodes : Nat → Option SILInstruction) (SM : SourceManager) :
    Result (List Diagnostic) := do
  match nodes (← self.getUnknownNode mem) with
  | none => pure []
  | some badInst =>
    let error :=
      match ← self.getUnknownReason mem with
      | .Default => "could not fold operation"
      | .TooManyInstructions => "expression is too large to evaluate at compile-time"
      | .Loop => "control flow loop found"
      | .Overflow => "integer overflow detected"
      | .Trap => "trap detected"
    let (emittedFirstNote, notes) :=
      emitNoteDiagnostic badInst (← self.getUnknownReason mem) fallbackLoc error
    let sourceLoc := fallbackLoc.getSourceLoc
    if sourceLoc.isInvalid then
      pure (notes ++ [⟨sourceLoc, .constexpr_not_evaluable, [], none⟩])
    else
      let originalDiagnosticLineNumber := SM.getLineNumber fallbackLoc.getSourceLoc
      let callStack ← self.getUnknownCallStack mem
      pure (notes ++
        emitCallStackNotes SM originalDiagnosticLineNumber emittedFirstNote callStack.reverse)

/-! ## Specification predicates -/

open SymbolicValue

/-- The element handles of a composite value, as the accessor of its kind returns them:
`getArrayValue` for an array, `getAggregateValue` otherwise. -/
def SymbolicValue.elements (mem : Memory) (v : SymbolicValue) : Result (List SymbolicValue) :=
  if v.getKind = .Array then (v.getArrayValue mem).map Prod.fst else v.getAggregateValue mem

/-- The member types of a struct (its stored properties) or of a tuple (its
elements); none for every other type. -/
def SwiftType.memberTypes : SwiftType → Option (List SwiftType)
  | .structType ps => some ps
  | .tupleType es => some es
  | .otherType _ => none

/-- The access path is valid for a value of a static type (the precondition of both
indexing operations), followed index by index:

* uninitialised memory is indexed by the static type: the type is a struct or a tuple,
  the number of its members fits `unsigned`, and the index selects one of them; the
  rest of the path is valid for uninitialised memory of that member's type;
* an Aggregate is indexed by its elements and by the static type: its elements can be
  read, the type is a struct or a tuple whose number of members fits `unsigned`, the
  index selects an element and a member; the rest of the path is valid for that element
  and that member's type;
* an Array is indexed by its elements: they can be read and the index selects one; the
  rest of the path is valid for that element and the element type of the array.  Values
  are acyclic: the array is not the one held by the memory object `self` itself, read
  through the address of `self` (see `get_through_own_address`);
* no other value can be indexed. -/
def validPath (mem : Memory) (self : Ptr) : List Nat → SymbolicValue → SwiftType → Bool
  | [], _, _ => true
  | i :: rest, v, t =>
    match v.getKind with
    | .UninitMemory =>
      match t.memberTypes with
      | some ms =>
        decide (ms.length < 4294967296) &&
          (match ms[i]? with
           | some ti => validPath mem self rest .RK_UninitMemory ti
           | none => false)
      | none => false
    | .Aggregate =>
      match v.getAggregateValue mem, t.memberTypes with
      | .ok es, some ms =>
        decide (ms.length < 4294967296) &&
          (match es[i]?, ms[i]? with
           | some e, some ti => validPath mem self rest e ti
           | _, _ => false)
      | _, _ => false
    | .Array =>
      decide (v ≠ .RK_ArrayAddress self) &&
        (match v.getArrayValue mem with
         | .ok (es, T) =>
           (match es[i]? with
            | some e => validPath mem self rest e T
            | none => false)
         | .error _ => false)
    | _ => false

/-- The access path is valid for the memory object at `self`: valid for its
current value and its static type. -/
def SymbolicValueMemoryObject.validPath (mem : Memory) (self : Ptr) (p : List Nat) : Bool :=
  match SymbolicValueMemoryObject.fields mem self with
  | .ok (type, value) => swift.validPath mem self p value type
  | .error _ => false

/-- What one index of an access path meets. -/
inductive PathStep where
  | fault
  | next (element : SymbolicValue) (type : SwiftType)
  | uncounted
  deriving DecidableEq, Repr

/-- What the index `i` meets on a value of a static type, in `getIndexedElement`
(`intoUninit` false) and in `setIndexedElement` (`intoUninit` true).  It is a fault on a
value that is no composite, when `i` is not below the number of elements of a composite,
on a static type that is neither a struct nor a tuple, and when `i` is not below the
number of elements of a tuple type.  Uninitialised memory is entered by the static type
in a set and is not counted in a get, which returns there.  An index that is not below
the number of stored properties of a struct type is not counted where the call reads the
type of that stored property before any check: in a set always, in a get when the index
is below the number of elements of the Aggregate; a get indexes the elements first, so
there an index that is not below their number is a fault for every static type.  A
composite that cannot be read is not counted. -/
def faultyStep (mem : Memory) (intoUninit : Bool) (i : Nat) (v : SymbolicValue)
    (t : SwiftType) : PathStep :=
  match v.getKind with
  | .UninitMemory =>
    if intoUninit then
      match t with
      | .structType ps =>
        (match ps[i]? with
         | some ti => .next .RK_UninitMemory ti
         | none => .uncounted)
      | .tupleType ts =>
        (match ts[i]? with
         | some ti => .next .RK_UninitMemory ti
         | none => .fault)
      | .otherType _ => .fault
    else .uncounted
  | .Aggregate =>
    match v.getAggregateValue mem with
    | .ok es =>
      (match t with
       | .structType ps =>
         (match ps[i]? with
          | some ti =>
            (match es[i]? with
             | some e => .next e ti
             | none => .fault)
          | none =>
            if intoUninit then .uncounted
            else
              (match es[i]? with
               | some _ => .uncounted
               | none => .fault))
       | .tupleType ts =>
         (match ts[i]?, es[i]? with
          | some ti, some e => .next e ti
          | _, _ => .fault)
       | .otherType _ => .fault)
    | .error _ => .uncounted
  | .Array =>
    match v.getArrayValue mem with
    | .ok (es, T) =>
      (match es[i]? with
       | some e => .next e T
       | none => .fault)
    | .error _ => .uncounted
  | _ => .fault

/-- The access path is faulty for a value of a static type: following it index by
index meets a fault (see `faultyStep`). -/
def faultyPath (mem : Memory) (intoUninit : Bool) :
    List Nat → SymbolicValue → SwiftType → Bool
  | [], _, _ => false
  | i :: rest, v, t =>
    match faultyStep mem intoUninit i v t with
    | .fault => true
    | .next e ti => faultyPath mem intoUninit rest e ti
    | .uncounted => false

/-- The call fails fast: it stops at a failed `assert` or at `llvm_unreachable` and
returns no value. -/
def FailsFast {α : Type} (r : Result α) : Prop :=
  r = .error .assertion ∨ r = .error .unreachable

/-- The invariant of `llvm::APInt`: the bit width is positive, the integer has
`getNumWords()` words, every word is a 64-bit word, and the bits of the last word above
the bit width are zero. -/
def APInt.Valid (a : APInt) : Prop :=
  0 < a.BitWidth.val ∧ a.words.length = a.getNumWords ∧
    (∀ w ∈ a.words, w < 18446744073709551616) ∧ a.clearUnusedBits = a

/-- The address holds a memory object. -/
def IsObject (mem : Memory) (self : Ptr) : Prop :=
  ∃ T V, mem.load self = .ok (.SymbolicValueMemoryObject T V)

/-- The memory `m2` holds, at every address allocated in `mem` other than `self`, what
`mem` holds there. -/
def Agree (self : Ptr) (mem m2 : Memory) : Prop :=
  ∀ a, a < mem.length → a ≠ self → m2[a]? = mem[a]?

/-! ## Example memories -/

/-- The 32-bit integer constant `n`, stored inline. -/
def int32 (n : Nat) : SymbolicValue := .RK_IntegerInline n 32

/-- The type of the 32-bit integers in the examples. -/
def Int32Type : SwiftType := .otherType 0

/-- A memory whose object at address 1 has a struct type of two integers and holds
the aggregate `{1, 2}`, built at address 0. -/
def pairMemory : Memory :=
  [⟨0, .values [int32 1, int32 2]⟩,
   ⟨0, .SymbolicValueMemoryObject (.structType [Int32Type, Int32Type]) (.RK_Aggregate 0 2)⟩]

/-- A memory whose object at address 2 holds `{{1, 2}, 3}`: a struct of a pair and an
integer. -/
def nestedMemory : Memory :=
  [⟨0, .values [int32 1, int32 2]⟩,
   ⟨0, .values [.RK_Aggregate 0 2, int32 3]⟩,
   ⟨0, .SymbolicValueMemoryObject
      (.structType [.tupleType [Int32Type, Int32Type], Int32Type]) (.RK_Aggregate 1 2)⟩]

/-- A memory whose object at address 0 has the type of `nestedMemory` and is wholly
uninitialised. -/
def uninitMemory : Memory :=
  [⟨0, .SymbolicValueMemoryObject
      (.structType [.tupleType [Int32Type, Int32Type], Int32Type]) .RK_UninitMemory⟩]

/-- The memory `pairMemory` after `setIndexedElement([0], 7)` on its object: the new
aggregate `{7, 2}` is at address 2 and the aggregate `{1, 2}` is still at address 0. -/
def pairMemoryAfter : Memory :=
  [⟨0, .values [int32 1, int32 2]⟩,
   ⟨0, .SymbolicValueMemoryObject (.structType [Int32Type, Int32Type]) (.RK_Aggregate 2 2)⟩,
   ⟨0, .values [int32 7, int32 2]⟩]

/-- The memory `uninitMemory` after `setIndexedElement([0,1], 4)` on its object, which
then holds `{{uninit, 4}, uninit}`. -/
def partialMemory : Memory :=
  [⟨0, .SymbolicValueMemoryObject
      (.structType [.tupleType [Int32Type, Int32Type], Int32Type]) (.RK_Aggregate 4 2)⟩,
   ⟨0, .values [.RK_UninitMemory, .RK_UninitMemory]⟩,
   ⟨0, .values [.RK_UninitMemory, .RK_UninitMemory]⟩,
   ⟨0, .values [.RK_UninitMemory, int32 4]⟩,
   ⟨0, .values [.RK_Aggregate 3 2, .RK_UninitMemory]⟩]

/-- A memory whose object at address 1 has the tuple type of two integers and holds
the aggregate `{1, 2}`, built at address 0. -/
def tupleMemory : Memory :=
  [⟨0, .values [int32 1, int32 2]⟩,
   ⟨0, .SymbolicValueMemoryObject (.tupleType [Int32Type, Int32Type]) (.RK_Aggregate 0 2)⟩]

/-- A memory whose object at address 0 has the tuple type of two integers and is
uninitialised. -/
def uninitTupleMemory : Memory :=
  [⟨0, .SymbolicValueMemoryObject (.tupleType [Int32Type, Int32Type]) .RK_UninitMemory⟩]

/-- Validity of an integer is decidable. -/
instance (a : APInt) : Decidable a.Valid := by
  unfold APInt.Valid
  infer_instance

/-- The integer 1 of bit width `2^32 - 1`: 67108864 words, the lowest of which is 1. -/
def hugeInteger : APInt := ⟨4294967295, 1 :: List.replicate 67108863 0⟩

/-- The integer 0 of bit width `2^32 - 1`. -/
def hugeZero : APInt := ⟨4294967295, 0 :: List.replicate 67108863 0⟩

/-- The integer `2^64 + 5` of bit width 70. -/
def wideInteger : APInt := ⟨70, [5, 1]⟩

/-- The integer 5 of bit width 32. -/
def smallInteger : APInt := ⟨32, [5]⟩

/-- A memory outside the acyclic values: the object at address 1 holds the array at
address 0, whose element 0 is the array-address handle of that same object. -/
def cyclicMemory : Memory :=
  [⟨0, .ArraySymbolicValue Int32Type 2 [.RK_ArrayAddress 1, int32 7]⟩,
   ⟨0, .SymbolicValueMemoryObject (.otherType 1) (.RK_Array 0)⟩]

/-! ## Specification predicates of the factories -/

/-- The integers the constructors of `APInt` return: the bit width is positive, the
integer has `getNumWords()` words, and its unused bits are clear. -/
def APInt.Canonical (a : APInt) : Prop :=
  0 < a.BitWidth.val ∧ a.words.length = a.getNumWords ∧ a.clearUnusedBits = a

/-- The invariant of `llvm::APFloat` in this embedding: the format is a known one and
the bit pattern is a valid integer of the width of the format. -/
def APFloat.Valid (f : APFloat) : Prop :=
  f.semantics ≠ .Bogus ∧ f.bits.Valid ∧ f.bits.BitWidth = APFloat.getSizeInBits f.semantics

/-- Validity of a floating-point value is decidable. -/
instance (f : APFloat) : Decidable f.Valid := by
  unfold APFloat.Valid
  infer_instance

/-! ## Specification predicates of cloning -/

/-- The structure of a value, as the accessors of its kind show it: the public kind
with the integer, float or string contents, the node, reason and call stack of an
unknown, the enum case and the payload, the type and the stored value of the memory
object of an address with the access path, and, for an aggregate and an array, the
structures of the elements in order, with the element type of an array. -/
inductive Content where
  | uninitMemory
  | unknown (node : Nat) (reason : UnknownReason) (callStack : List SourceLoc)
  | metatype (type : SwiftType)
  | function (fn : Nat)
  | integer (value : APInt)
  | float (value : APFloat)
  | string (bytes : List Nat)
  | aggregate (elements : List Content)
  | enum (decl : Nat)
  | enumWithPayload (decl : Nat) (payload : SymbolicValue)
  | address (type : SwiftType) (value : SymbolicValue) (accessPath : List Unsigned)
  | array (elementType : SwiftType) (elements : List Content)

/-- The structures of the elements of a sequence, over a function giving the structure
of one element; none when one of them has none. -/
def contentElements (content : SymbolicValue → Option Content) :
    List SymbolicValue → Option (List Content)
  | [] => some []
  | e :: es =>
    match content e, contentElements content es with
    | some c, some cs => some (c :: cs)
    | _, _ => none

/-- The structure of a value in a memory, read with the accessors of the kind of the
value down to `depth` levels of nesting.  It is none when an accessor does not return,
when the nesting is deeper than `depth`, and for an enum with payload that
`getEnumWithPayload` does not build (a null case, a payload that is not a constant). -/
def content : Nat → Memory → SymbolicValue → Option Content
  | 0, _, _ => none
  | depth + 1, mem, v =>
    match v.getKind with
    | .UninitMemory => some .uninitMemory
    | .Unknown =>
      match getUnknownNode mem v, getUnknownReason mem v, getUnknownCallStack mem v with
      | .ok node, .ok reason, .ok callStack => some (.unknown node reason callStack)
      | _, _, _ => none
    | .Metatype =>
      match v with
      | .RK_Metatype type => some (.metatype type)
      | _ => none
    | .Function =>
      match v with
      | .RK_Function fn => some (.function fn)
      | _ => none
    | .Integer =>
      match getIntegerValue mem v with
      | .ok value => some (.integer value)
      | .error _ => none
    | .Float =>
      match getFloatValue mem v with
      | .ok value => some (.float value)
      | .error _ => none
    | .String =>
      match getStringValue mem v with
      | .ok bytes => some (.string bytes)
      | .error _ => none
    | .Aggregate =>
      match getAggregateValue mem v with
      | .ok elements => (contentElements (content depth mem) elements).map .aggregate
      | .error _ => none
    | .Enum =>
      match getEnumValue mem v with
      | .ok decl => some (.enum decl)
      | .error _ => none
    | .EnumWithPayload =>
      match getEnumValue mem v, getEnumPayloadValue mem v with
      | .ok decl, .ok payload =>
        if decl ≠ 0 ∧ payload.isConstant = true then some (.enumWithPayload decl payload)
        else none
      | _, _ => none
    | .Address =>
      match getAddressValue mem v [] with
      | .ok (memoryObject, accessPath) =>
        match SymbolicValueMemoryObject.fields mem memoryObject with
        | .ok (type, value) => some (.address type value accessPath)
        | .error _ => none
      | .error _ => none
    | .Array =>
      match getArrayValue mem v with
      | .ok (elements, elementType) =>
        (contentElements (content depth mem) elements).map (.array elementType)
      | .error _ => none

/-! ## Specification predicates of the recursions through the arena -/

/-- The elements of a value can be read, level by level, and nest at most `depth` levels
deep: a value that is neither an Aggregate nor an Array is one level; the elements of an
Aggregate or an Array, as the accessor of the kind returns them, nest at most `depth - 1`
levels.  This is the structural size the recursion of `cloneInto` descends on; a value
read through an array address that leads back to itself has none. -/
def nestsWithin : Nat → Memory → SymbolicValue → Bool
  | 0, _, _ => false
  | depth + 1, mem, v =>
    match v.getKind with
    | .Aggregate =>
      match getAggregateValue mem v with
      | .ok elements => elements.all (nestsWithin depth mem)
      | .error _ => false
    | .Array =>
      match getArrayValue mem v with
      | .ok (elements, _) => elements.all (nestsWithin depth mem)
      | .error _ => false
    | _ => true

/-- The value is Unknown or holds an Unknown value within `depth` levels: in an element
of an Aggregate or of an Array, as the accessor of the kind returns them, or in the
payload of an enum. -/
def containsUnknown : Nat → Memory → SymbolicValue → Bool
  | 0, _, _ => false
  | depth + 1, mem, v =>
    match v.getKind with
    | .Unknown => true
    | .Aggregate =>
      match getAggregateValue mem v with
      | .ok elements => elements.any (containsUnknown depth mem)
      | .error _ => false
    | .Array =>
      match getArrayValue mem v with
      | .ok (elements, _) => elements.any (containsUnknown depth mem)
      | .error _ => false
    | .EnumWithPayload =>
      match getEnumPayloadValue mem v with
      | .ok payload => containsUnknown depth mem payload
      | .error _ => false
    | _ => false

/-- The value is Unknown or holds an Unknown value at some depth. -/
def ContainsUnknown (mem : Memory) (v : SymbolicValue) : Prop :=
  ∃ depth, containsUnknown depth mem v = true

/-- The value can be read down to `depth` levels and neither is nor holds an Unknown
value there: in an element of an Aggregate or of an Array, as the accessor of the kind
returns them, or in the payload of an enum. -/
def unknownFree : Nat → Memory → SymbolicValue → Bool
  | 0, _, _ => false
  | depth + 1, mem, v =>
    match v.getKind with
    | .Unknown => false
    | .Aggregate =>
      match getAggregateValue mem v with
      | .ok elements => elements.all (unknownFree depth mem)
      | .error _ => false
    | .Array =>
      match getArrayValue mem v with
      | .ok (elements, _) => elements.all (unknownFree depth mem)
      | .error _ => false
    | .EnumWithPayload =>
      match getEnumPayloadValue mem v with
      | .ok payload => unknownFree depth mem payload
      | .error _ => false
    | _ => true

/-! ## Example values of the factories -/

/-- An 80-bit x87 extended value with the bit pattern of the words 5 and 7. -/
def extendedFloat : APFloat := ⟨.x87DoubleExtended, ⟨80, [5, 7]⟩⟩

/-- A memory of allocator 0 with a string, an array of two integers, and the aggregate
of the string, the array and an integer, at address 2. -/
def cloneMemory : Memory :=
  [⟨0, .chars [104, 105]⟩,
   ⟨0, .ArraySymbolicValue Int32Type 2 [int32 1, int32 2]⟩,
   ⟨0, .values [.RK_String 0 2, .RK_Array 1, int32 3]⟩]

/-- A memory of allocator 0 with a string at address 0, the enum with payload of case 3
holding the string at address 1, a memory object holding the string at address 2, and
an unknown record at address 3. -/
def sharedMemory : Memory :=
  [⟨0, .chars [104, 105]⟩,
   ⟨0, .EnumWithPayloadSymbolicValue 3 (.RK_String 0 2)⟩,
   ⟨0, .SymbolicValueMemoryObject (.otherType 1) (.RK_String 0 2)⟩,
   ⟨0, .UnknownSymbolicValue 5 .Trap 0 []⟩]

/-! ## Specification predicates of the diagnostic notes -/

/-- The explanatory message of a reason tag, as the specification lists it. -/
def specReasonMessage : UnknownReason → String
  | .Default => "could not fold operation"
  | .TooManyInstructions => "expression is too large to evaluate at compile-time"
  | .Loop => "control flow loop found"
  | .Overflow => "integer overflow detected"
  | .Trap => "trap detected"

/-- A call-stack frame qualifies for a note: its source location is valid and is not on
the line `line`. -/
def qualifies (SM : SourceManager) (line : Unsigned) (sourceLoc : SourceLoc) : Bool :=
  sourceLoc.isValid && !decide (SM.getLineNumber sourceLoc = line)

/-- The notes the frames `frames` get when every one of them qualifies: the first is the
primary note `constexpr_not_evaluable` unless a note was `emitted` before, every other one
is a `constexpr_called_from` note. -/
def specFrameNotes (emitted : Bool) : List SourceLoc → List Diagnostic
  | [] => []
  | sourceLoc :: rest =>
    ⟨sourceLoc, if emitted then .constexpr_called_from else .constexpr_not_evaluable, [], none⟩ ::
      rest.map (fun l => ⟨l, .constexpr_called_from, [], none⟩)

/-- The location the reason note is looked for: the location of the debug location that
`skipInternalLocations` resolves for the instruction. -/
def resolvedLocation (badInst : SILInstruction) : SILLocation :=
  (skipInternalLocations badInst.getDebugLocation).getLocation

/-! ## Example values of the recursions through the arena -/

/-- A memory with the pair `{1, 2}` at address 0, the single-element aggregate of the
pair at address 1 and the single-element aggregate of that aggregate at address 2. -/
def wrappedMemory : Memory :=
  [⟨0, .values [int32 1, int32 2]⟩,
   ⟨0, .values [.RK_Aggregate 0 2]⟩,
   ⟨0, .values [.RK_Aggregate 1 1]⟩]

/-- A memory with an unknown record at address 0, the aggregate of the unknown value and
the integer 1 at address 1, and the pair `{1, 2}` at address 2. -/
def holderMemory : Memory :=
  [⟨0, .UnknownSymbolicValue 5 .Trap 0 []⟩,
   ⟨0, .values [.RK_Unknown 0, int32 1]⟩,
   ⟨0, .values [int32 1, int32 2]⟩]

/-! ## Example values of the diagnostic notes -/

/-- A location with the source position `pos`, highlighted as the range from `pos` to
`pos`. -/
def locationAt (pos : Nat) : SILLocation := ⟨false, ⟨some pos⟩, ⟨⟨some pos⟩, ⟨some pos⟩⟩⟩

/-- The null location. -/
def nullLocation : SILLocation := ⟨true, ⟨none⟩, ⟨⟨none⟩, ⟨none⟩⟩⟩

/-- An instruction at the source position `pos`, with no scope. -/
def instructionAt (pos : Nat) : SILInstruction := ⟨⟨locationAt pos, none⟩⟩

/-- An instruction with a null location and no scope. -/
def instructionNowhere : SILInstruction := ⟨⟨nullLocation, none⟩⟩

/-- A source manager of lines of 100 positions: the position `100 * l + c` is on the
line `l`. -/
def exampleSM : SourceManager := ⟨fun loc => toUnsigned (loc.value.getD 0 / 100)⟩

/-- A memory with five unknown records for the node 5: reason `Overflow` with the call
stack of the positions 1005 and 1010, both on line 10; reason `Overflow` with the one
frame 3000, on line 30; reason `Default` with an empty call stack; reason `Trap` with the
frames 2010, 4000 and 2020; reason `Default` with the frames 3000, 2050 and 4000. -/
def unknownMemory : Memory :=
  [⟨0, .UnknownSymbolicValue 5 .Overflow 2 [⟨some 1005⟩, ⟨some 1010⟩]⟩,
   ⟨0, .UnknownSymbolicValue 5 .Overflow 1 [⟨some 3000⟩]⟩,
   ⟨0, .UnknownSymbolicValue 5 .Default 0 []⟩,
   ⟨0, .UnknownSymbolicValue 5 .Trap 3 [⟨some 2010⟩, ⟨some 4000⟩, ⟨some 2020⟩]⟩,
   ⟨0, .UnknownSymbolicValue 5 .Default 3 [⟨some 3000⟩, ⟨some 2050⟩, ⟨some 4000⟩]⟩]

/-! ## Specification predicates of the levels of an access path -/

/-- The value and the static type a path leads to from a value of a static type, level
by level, through composites only: an index selects an element of an Aggregate, with
the type `aggregateElementType` gives for the index, or an element of an Array, with the
element type of the array; none when a level is not reached. -/
def reachedAlong (mem : Memory) : List Nat → SymbolicValue → SwiftType →
    Option (SymbolicValue × SwiftType)
  | [], v, t => some (v, t)
  | i :: rest, v, t =>
    match v.getKind with
    | .Aggregate =>
      match getAggregateValue mem v, aggregateElementType t i with
      | .ok es, .ok ti =>
        (match es[i]? with
         | some e => reachedAlong mem rest e ti
         | none => none)
      | _, _ => none
    | .Array =>
      match getArrayValue mem v with
      | .ok (es, T) =>
        (match es[i]? with
         | some e => reachedAlong mem rest e T
         | none => none)
      | .error _ => none
    | _ => none

/-! ## Specification predicates of integers, inlined scopes and notes -/

/-- The unsigned value of an integer: the number its 64-bit words, least significant
first, are the base-`2^64` digits of. -/
def APInt.unsignedValue (a : APInt) : Nat :=
  a.words.foldr (fun w acc => w + 18446744073709551616 * acc) 0

/-- The inlined-call-site chain of a scope: the scope, the scope of the call site it was
inlined into, and so on to the last scope. -/
def SILDebugScope.chain : SILDebugScope → List SILDebugScope
  | .last Loc F => [.last Loc F]
  | .inlinedInto Loc F ics => .inlinedInto Loc F ics :: SILDebugScope.chain ics

/-- An instruction with no valid location of its own, inlined from an internal scope
without location into a scope at the position 1000, itself inlined into one at the
position 3000. -/
def inlinedLocation : SILDebugLocation :=
  ⟨⟨false, ⟨none⟩, ⟨⟨none⟩, ⟨none⟩⟩⟩,
    some (.inlinedInto ⟨false, ⟨none⟩, ⟨⟨none⟩, ⟨none⟩⟩⟩ none
      (.inlinedInto (locationAt 1000) none (.last (locationAt 3000) none)))⟩

/-- The notes of the call-stack frames among the notes of a run: the notes other than
the reason note. -/
def frameNotes (notes : List Diagnostic) : List Diagnostic :=
  notes.filter (fun d => d.id != .constexpr_unknown_reason)

/-! ## Specification predicates of the structure of the value of a memory object -/

/-- The structure of a value: an Aggregate is its elements in order, an Array is its
declared element type and its elements in order, every other value is a leaf, the value
itself. -/
inductive Structure where
  | leaf (v : SymbolicValue)
  | aggregate (elements : List Structure)
  | array (elementType : SwiftType) (elements : List Structure)

/-- The structure of uninitialised memory. -/
def Structure.uninit : Structure := .leaf .RK_UninitMemory

/-- The structures of the elements of a sequence, over a function giving the structure
of one element; none when one of them has none. -/
def structureElements (structureOf : SymbolicValue → Option Structure) :
    List SymbolicValue → Option (List Structure)
  | [] => some []
  | e :: es =>
    match structureOf e, structureElements structureOf es with
    | some c, some cs => some (c :: cs)
    | _, _ => none

/-- The structure of a value in the memory of the object at `self`, read through the
accessors of its kind down to `depth` levels of nesting; none when an accessor does not
return and when the nesting is deeper than `depth`.  An array held by address has the
structure of the array it is read as through `getArrayValue`, the elements of the memory
object it addresses: the storage is not part of the structure.  The array address of the
object at `self` itself has none: it is read through the slot that a set on the object
overwrites, as the value of the object (see `getArrayValue_own_address`), so a value of
the object that holds it holds itself (see `get_through_own_address`). -/
def structureOf : Nat → Memory → Ptr → SymbolicValue → Option Structure
  | 0, _, _, _ => none
  | depth + 1, mem, self, v =>
    match v with
    | .RK_Aggregate _ _ =>
      match getAggregateValue mem v with
      | .ok elements =>
        (structureElements (structureOf depth mem self) elements).map .aggregate
      | .error _ => none
    | .RK_Array _ =>
      match getArrayValue mem v with
      | .ok (elements, elementType) =>
        (structureElements (structureOf depth mem self) elements).map (.array elementType)
      | .error _ => none
    | .RK_ArrayAddress object =>
      if object = self then none
      else
        match getArrayValue mem v with
        | .ok (elements, elementType) =>
          (structureElements (structureOf depth mem self) elements).map
            (.array elementType)
        | .error _ => none
    | _ => some (.leaf v)

/-- The value has the structure `T` in the memory of the object at `self`, at some
depth. -/
def HasStructure (mem : Memory) (self : Ptr) (v : SymbolicValue) (T : Structure) : Prop :=
  ∃ depth, structureOf depth mem self v = some T

/-- Two values, each in its memory of the object at `self`, are structurally equal: they
have the same structure. -/
def SameStructure (self : Ptr) (mem1 : Memory) (v1 : SymbolicValue) (mem2 : Memory)
    (v2 : SymbolicValue) : Prop :=
  ∃ T, HasStructure mem1 self v1 T ∧ HasStructure mem2 self v2 T

/-- The static type of the member `i` of a struct or tuple type. -/
def SwiftType.memberType (t : SwiftType) (i : Nat) : SwiftType :=
  match t.memberTypes with
  | some ms => ms[i]?.getD t
  | none => t

/-- What a get along a path gives, on structures: an index selects an element of a
composite, and everything inside uninitialised memory is uninitialised memory. -/
def structureGet : List Nat → Structure → Structure
  | [], T => T
  | _ :: _, .leaf v => .leaf v
  | i :: rest, .aggregate es =>
    match es[i]? with
    | some e => structureGet rest e
    | none => .uninit
  | i :: rest, .array _ es =>
    match es[i]? with
    | some e => structureGet rest e
    | none => .uninit

/-- What a set along a path gives, on structures: the scalar at the end of the path;
a composite with the element of the index replaced by what the set along the rest of the
path gives on it; uninitialised memory is first replaced by an Aggregate of as many
uninitialised elements as the static type has members. -/
def structureSet : List Nat → Structure → Structure → SwiftType → Structure
  | [], _, s, _ => s
  | i :: rest, .leaf v, s, t =>
    if v = .RK_UninitMemory then
      match t.memberTypes with
      | some ms =>
        .aggregate ((List.replicate ms.length Structure.uninit).set i
          (structureSet rest .uninit s (t.memberType i)))
      | none => .leaf v
    else .leaf v
  | i :: rest, .aggregate es, s, t =>
    .aggregate (es.set i (structureSet rest (es[i]?.getD .uninit) s (t.memberType i)))
  | i :: rest, .array T es, s, _ =>
    .array T (es.set i (structureSet rest (es[i]?.getD .uninit) s T))

/-- The access path is valid for a structure of a static type: the conditions of
`validPath`, on the structure. -/
def structureValid : List Nat → Structure → SwiftType → Bool
  | [], _, _ => true
  | i :: rest, .leaf v, t =>
    decide (v = .RK_UninitMemory) &&
      (match t.memberTypes with
       | some ms =>
         decide (ms.length < 4294967296) &&
           (match ms[i]? with
            | some ti => structureValid rest .uninit ti
            | none => false)
       | none => false)
  | i :: rest, .aggregate es, t =>
    (match t.memberTypes with
     | some ms =>
       decide (ms.length < 4294967296) &&
         (match es[i]?, ms[i]? with
          | some e, some ti => structureValid rest e ti
          | _, _ => false)
     | none => false)
  | i :: rest, .array T es, _ =>
    (match es[i]? with
     | some e => structureValid rest e T
     | none => false)

/-- Uninitialised memory is met along the path before its last step: one of the values
that are indexed is uninitialised memory. -/
def meetsUninit : List Nat → Structure → Bool
  | [], _ => false
  | _ :: _, .leaf v => decide (v = .RK_UninitMemory)
  | i :: rest, .aggregate es =>
    match es[i]? with
    | some e => meetsUninit rest e
    | none => false
  | i :: rest, .array _ es =>
    match es[i]? with
    | some e => meetsUninit rest e
    | none => false

/-! ## Further example memories -/

/-- The memory `nestedMemory` after the helper `setIndexedElement` has set the path
`[0, 1]` of `{{1, 2}, 3}` to 9: the new pair `{1, 9}` is at address 3 and the new
aggregate `{{1, 9}, 3}` at address 4. -/
def nestedMemoryAfter : Memory :=
  nestedMemory ++ [⟨0, .values [int32 1, int32 9]⟩, ⟨0, .values [.RK_Aggregate 3 2, int32 3]⟩]

/-- The memory `uninitMemory` after `setIndexedElement([0,1], uninit)` on its object,
the write back of what `getIndexedElement([0,1])` returns; the object then holds
`{{uninit, uninit}, uninit}`. -/
def writtenBackMemory : Memory :=
  [⟨0, .SymbolicValueMemoryObject
      (.structType [.tupleType [Int32Type, Int32Type], Int32Type]) (.RK_Aggregate 4 2)⟩,
   ⟨0, .values [.RK_UninitMemory, .RK_UninitMemory]⟩,
   ⟨0, .values [.RK_UninitMemory, .RK_UninitMemory]⟩,
   ⟨0, .values [.RK_UninitMemory, .RK_UninitMemory]⟩,
   ⟨0, .values [.RK_Aggregate 3 2, .RK_UninitMemory]⟩]

/-- The type of the arrays of 32-bit integers in the examples. -/
def Int32ArrayType : SwiftType := .otherType 1

/-- A memory whose object at address 3 holds an array by address: its value is the
aggregate `{a, 3}` of a struct type, where `a` is the array-address handle of the object
at address 1, which holds the array `[1, 2]` built at address 0. -/
def addressedArrayMemory : Memory :=
  [⟨0, .ArraySymbolicValue Int32Type 2 [int32 1, int32 2]⟩,
   ⟨0, .SymbolicValueMemoryObject Int32ArrayType (.RK_Array 0)⟩,
   ⟨0, .values [.RK_ArrayAddress 1, int32 3]⟩,
   ⟨0, .SymbolicValueMemoryObject (.structType [Int32ArrayType, Int32Type])
      (.RK_Aggregate 2 2)⟩]

/-- The structure of the value `{[1, 2], 3}` of the object of `addressedArrayMemory`. -/
def addressedArrayStructure : Structure :=
  .aggregate [.array Int32Type [.leaf (int32 1), .leaf (int32 2)], .leaf (int32 3)]

/-- A memory whose object at address 1 has a struct type of one stored property and holds
the aggregate `{1, 2}` of two elements, built at address 0. -/
def overfullMemory : Memory :=
  [⟨0, .values [int32 1, int32 2]⟩,
   ⟨0, .SymbolicValueMemoryObject (.structType [Int32Type]) (.RK_Aggregate 0 2)⟩]

/-! ## Lemmas on machine integers and the type collaborator -/

theorem toUnsigned_val (n : Unsigned) : toUnsigned n.val = n := by
  apply Fin.ext
  simp [toUnsigned, Nat.mod_eq_of_lt n.isLt]

theorem toUnsigned_of_lt {n : Nat} (h : n < 4294967296) : (toUnsigned n).val = n := by
  simp [toUnsigned, Nat.mod_eq_of_lt h]

theorem aggregateElementType_of_member {t : SwiftType} {ms : List SwiftType} {i : Nat}
    {ti : SwiftType} (hm : t.memberTypes = some ms) (hlen : ms.length < 4294967296)
    (hi : ms[i]? = some ti) : aggregateElementType t i = .ok ti := by
  have hlt : i < ms.length := by
    rcases List.getElem?_eq_some_iff.mp hi with ⟨h, _⟩
    exact h
  cases t with
  | structType ps =>
    simp [SwiftType.memberTypes] at hm
    subst hm
    simp [aggregateElementType, SwiftType.getStructOrBoundGenericStruct,
      StructDecl.storedPropertyType, hi]
  | tupleType es =>
    simp [SwiftType.memberTypes] at hm
    subst hm
    simp [aggregateElementType, SwiftType.getStructOrBoundGenericStruct,
      SwiftType.getAsTupleType, TupleType.getNumElements, toUnsigned_of_lt hlen, hlt,
      swift.assert, TupleType.getElementType, indexChecked, hi]
    rfl
  | otherType id => simp [SwiftType.memberTypes] at hm

theorem scalarizedNumMembers_of_member {t : SwiftType} {ms : List SwiftType}
    (hm : t.memberTypes = some ms) : scalarizedNumMembers t = .ok (toUnsigned ms.length) := by
  cases t with
  | structType ps =>
    simp [SwiftType.memberTypes] at hm
    subst hm
    simp [scalarizedNumMembers, SwiftType.getStructOrBoundGenericStruct,
      StructDecl.numStoredProperties]
  | tupleType es =>
    simp [SwiftType.memberTypes] at hm
    subst hm
    simp [scalarizedNumMembers, SwiftType.getStructOrBoundGenericStruct,
      SwiftType.getAsTupleType, TupleType.getNumElements]
  | otherType id => simp [SwiftType.memberTypes] at hm

/-! ## Lemmas on the arena and the accessors -/

theorem load_eq_ok {mem : Memory} {a : Ptr} {o : ArenaObject} :
    mem.load a = .ok o ↔ ∃ al, mem[a]? = some ⟨al, o⟩ := by
  unfold Memory.load
  cases h : mem[a]? with
  | none => simp
  | some c =>
    cases c with
    | mk al ob =>
      constructor
      · intro e
        simp at e
        exact ⟨al, by simp [e]⟩
      · rintro ⟨al2, e⟩
        simp at e
        simp [e.2]

theorem load_lt {mem : Memory} {a : Ptr} {o : ArenaObject} (h : mem.load a = .ok o) :
    a < mem.length := by
  rcases load_eq_ok.mp h with ⟨al, e⟩
  exact (List.getElem?_eq_some_iff.mp e).1

theorem load_agree {self : Ptr} {mem m2 : Memory} {a : Ptr} {o : ArenaObject}
    (hag : Agree self mem m2) (hne : a ≠ self) (h : mem.load a = .ok o) :
    m2.load a = .ok o := by
  have hlt := load_lt h
  unfold Memory.load at h ⊢
  rw [hag a hlt hne]
  exact h

theorem getAggregateValue_ok {mem : Memory} {v : SymbolicValue} {es : List SymbolicValue}
    (h : getAggregateValue mem v = .ok es) :
    ∃ p n data, v = .RK_Aggregate p n ∧ mem.load p = .ok (.values data) ∧
      n.val ≤ data.length ∧ es = data.take n.val := by
  cases v <;> simp [getAggregateValue, getKind, swift.assert, bind, Except.bind] at h
  case RK_Aggregate p n =>
    cases hl : mem.load p with
    | error e => simp [hl] at h
    | ok o =>
      cases o <;> simp [hl] at h
      case values data =>
        refine ⟨p, n, data, rfl, hl, ?_⟩
        unfold arrayRef at h
        split at h
        · rename_i hle
          simp at h
          exact ⟨hle, h.symm⟩
        · simp at h

theorem getAggregateValue_of_load {mem : Memory} {p : Ptr} {n : Unsigned}
    {data : List SymbolicValue} (hl : mem.load p = .ok (.values data))
    (hn : n.val ≤ data.length) :
    getAggregateValue mem (.RK_Aggregate p n) = .ok (data.take n.val) := by
  simp [getAggregateValue, getKind, swift.assert, bind, Except.bind, hl, arrayRef, hn]

theorem getArrayValue_ok {mem : Memory} {v : SymbolicValue} {es : List SymbolicValue}
    {T : SwiftType} (h : getArrayValue mem v = .ok (es, T)) :
    ∃ p n data, mem.load p = .ok (.ArraySymbolicValue T n data) ∧
      n.val ≤ data.length ∧ es = data.take n.val ∧
      (v = .RK_Array p ∨ ∃ m T2, v = .RK_ArrayAddress m ∧
        mem.load m = .ok (.SymbolicValueMemoryObject T2 (.RK_Array p))) := by
  have key : ∀ p, (match mem.load p with
      | .ok (.ArraySymbolicValue elementType numElements trailing) =>
        (do let elements ← arrayRef trailing numElements.val
            pure (elements, elementType) : Result (List SymbolicValue × SwiftType))
      | .ok _ => .error .undefinedBehavior
      | .error e => .error e) = .ok (es, T) →
      ∃ n data, mem.load p = .ok (.ArraySymbolicValue T n data) ∧
        n.val ≤ data.length ∧ es = data.take n.val := by
    intro p hp
    cases hl : mem.load p with
    | error e => simp [hl] at hp
    | ok o =>
      cases o <;> simp [hl] at hp
      case ArraySymbolicValue T2 n data =>
        unfold arrayRef at hp
        split at hp
        · rename_i hle
          simp [bind, Except.bind, pure, Except.pure] at hp
          exact ⟨n, data, by rw [hp.2], hle, hp.1.symm⟩
        · simp [bind, Except.bind] at hp
  cases v <;> simp [getArrayValue, getKind, swift.assert, bind, Except.bind, pure, Except.pure] at h
  case RK_Array p =>
    have := key p (by
      cases hl : mem.load p with
      | error e => simp [hl] at h
      | ok o => cases o <;> simp_all [bind, Except.bind, pure, Except.pure])
    rcases this with ⟨n, data, h1, h2, h3⟩
    exact ⟨p, n, data, h1, h2, h3, Or.inl rfl⟩
  case RK_ArrayAddress m =>
    cases hm : mem.load m with
    | error e => simp [hm] at h
    | ok o =>
      cases o <;> simp [hm] at h
      case SymbolicValueMemoryObject T2 val =>
        cases val <;> simp at h
        case RK_Array p =>
          have := key p (by
            cases hl : mem.load p with
            | error e => simp [hl] at h
            | ok o => cases o <;> simp_all [bind, Except.bind, pure, Except.pure])
          rcases this with ⟨n, data, h1, h2, h3⟩
          exact ⟨p, n, data, h1, h2, h3, Or.inr ⟨m, T2, rfl, hm⟩⟩

theorem getArrayValue_of_load {mem : Memory} {p : Ptr} {n : Unsigned} {T : SwiftType}
    {data : List SymbolicValue} (hl : mem.load p = .ok (.ArraySymbolicValue T n data))
    (hn : n.val ≤ data.length) :
    getArrayValue mem (.RK_Array p) = .ok (data.take n.val, T) := by
  simp [getArrayValue, getKind, swift.assert, bind, Except.bind, hl, arrayRef, hn, pure,
    Except.pure]

theorem getArrayValue_of_load_address {mem : Memory} {m p : Ptr} {n : Unsigned}
    {T T2 : SwiftType} {data : List SymbolicValue}
    (hm : mem.load m = .ok (.SymbolicValueMemoryObject T2 (.RK_Array p)))
    (hl : mem.load p = .ok (.ArraySymbolicValue T n data))
    (hn : n.val ≤ data.length) :
    getArrayValue mem (.RK_ArrayAddress m) = .ok (data.take n.val, T) := by
  simp [getArrayValue, getKind, swift.assert, bind, Except.bind, hl, hm, arrayRef, hn, pure,
    Except.pure]

theorem ne_of_load_ne {mem : Memory} {a self : Ptr} {o : ArenaObject}
    (hobj : IsObject mem self) (h : mem.load a = .ok o)
    (hno : ∀ T V, o ≠ .SymbolicValueMemoryObject T V) : a ≠ self := by
  rintro rfl
  rcases hobj with ⟨T, V, hs⟩
  rw [hs] at h
  cases h
  exact hno T V rfl

theorem getAggregateValue_agree {self : Ptr} {mem m2 : Memory} {v : SymbolicValue}
    {es : List SymbolicValue} (hobj : IsObject mem self) (hag : Agree self mem m2)
    (h : getAggregateValue mem v = .ok es) : getAggregateValue m2 v = .ok es := by
  rcases getAggregateValue_ok h with ⟨p, n, data, rfl, hl, hn, rfl⟩
  have hne : p ≠ self := ne_of_load_ne hobj hl (by intro T V e; cases e)
  exact getAggregateValue_of_load (load_agree hag hne hl) hn

theorem getArrayValue_agree {self : Ptr} {mem m2 : Memory} {v : SymbolicValue}
    {r : List SymbolicValue × SwiftType} (hobj : IsObject mem self) (hag : Agree self mem m2)
    (hv : v ≠ .RK_ArrayAddress self)
    (h : getArrayValue mem v = .ok r) : getArrayValue m2 v = .ok r := by
  obtain ⟨es, T⟩ := r
  rcases getArrayValue_ok h with ⟨p, n, data, hl, hn, rfl, hcase⟩
  have hne : p ≠ self := ne_of_load_ne hobj hl (by intro T V e; cases e)
  rcases hcase with rfl | ⟨m, T2, rfl, hm⟩
  · exact getArrayValue_of_load (load_agree hag hne hl) hn
  · have hms : m ≠ self := by
      rintro rfl
      exact hv rfl
    exact getArrayValue_of_load_address (load_agree hag hms hm) (load_agree hag hne hl) hn

theorem getAggregateValue_kind {mem : Memory} {v : SymbolicValue} {es : List SymbolicValue}
    (h : getAggregateValue mem v = .ok es) : v.getKind = .Aggregate := by
  rcases getAggregateValue_ok h with ⟨p, n, data, rfl, _⟩
  rfl

theorem getAggregateValue_length {mem : Memory} {v : SymbolicValue} {es : List SymbolicValue}
    (h : getAggregateValue mem v = .ok es) : es.length < 4294967296 := by
  rcases getAggregateValue_ok h with ⟨p, n, data, rfl, _, hn, rfl⟩
  simp [List.length_take, Nat.min_eq_left hn]

theorem getArrayValue_kind {mem : Memory} {v : SymbolicValue}
    {r : List SymbolicValue × SwiftType}
    (h : getArrayValue mem v = .ok r) : v.getKind = .Array := by
  obtain ⟨es, T⟩ := r
  rcases getArrayValue_ok h with ⟨p, n, data, _, _, _, rfl | ⟨m, T2, rfl, _⟩⟩ <;> rfl

theorem getArrayValue_length {mem : Memory} {v : SymbolicValue} {es : List SymbolicValue}
    {T : SwiftType} (h : getArrayValue mem v = .ok (es, T)) : es.length < 4294967296 := by
  rcases getArrayValue_ok h with ⟨p, n, data, _, hn, rfl, _⟩
  simp [List.length_take, Nat.min_eq_left hn]

/-! ## Unfolding the indexing helpers -/


theorem get_nil (mem : Memory) (v : SymbolicValue) (t : SwiftType) :
    getIndexedElement mem v [] t = .ok v := by
  simp [getIndexedElement]

theorem get_cons_uninit (mem : Memory) (i : Nat) (rest : List Nat) (t : SwiftType) :
    getIndexedElement mem .RK_UninitMemory (i :: rest) t = .ok .RK_UninitMemory := by
  simp [getIndexedElement, getKind, getUninitMemory]

theorem get_cons_aggregate (mem : Memory) (v : SymbolicValue) (i : Nat) (rest : List Nat)
    (t : SwiftType) (es : List SymbolicValue) (hk : v.getKind = .Aggregate)
    (hes : getAggregateValue mem v = .ok es) :
    getIndexedElement mem v (i :: rest) t =
      (do let elt ← indexChecked es i
          let eltType ← aggregateElementType t i
          getIndexedElement mem elt rest eltType) := by
  simp [getIndexedElement, hk, hes, swift.assert]
  rfl

theorem get_cons_array (mem : Memory) (v : SymbolicValue) (i : Nat) (rest : List Nat)
    (t : SwiftType) (es : List SymbolicValue) (T : SwiftType) (hk : v.getKind = .Array)
    (hes : getArrayValue mem v = .ok (es, T)) :
    getIndexedElement mem v (i :: rest) t =
      (do let elt ← indexChecked es i
          getIndexedElement mem elt rest T) := by
  simp [getIndexedElement, hk, hes, swift.assert]
  rfl

theorem load_append_last (mem : Memory) (c : Allocation) :
    Memory.load (mem ++ [c]) mem.length = .ok c.object := by
  simp [Memory.load]

theorem indexChecked_of_getElem? {α : Type} {xs : List α} {i : Nat} {x : α}
    (h : xs[i]? = some x) : indexChecked xs i = .ok x := by
  simp [indexChecked, h]

theorem set_nil (mem : Memory) (v s : SymbolicValue) (t : SwiftType) (A : Nat) :
    setIndexedElement mem v [] s t A = .ok (s, mem) := by
  simp [setIndexedElement]

theorem set_cons_aggregate {mem mem2 : Memory} {v s e e' : SymbolicValue} {i : Nat}
    {rest : List Nat} {t ti : SwiftType} {A : Nat} {es : List SymbolicValue}
    (hes : getAggregateValue mem v = .ok es)
    (hty : aggregateElementType t i = .ok ti) (hi : es[i]? = some e)
    (hrec : setIndexedElement mem e rest s ti A = .ok (e', mem2)) :
    setIndexedElement mem v (i :: rest) s t A = .ok (getAggregate mem2 (es.set i e') A) := by
  have hk := getAggregateValue_kind hes
  simp [setIndexedElement, hk, hes, hty, swift.assert, indexChecked, hi, hrec, bind,
    Except.bind, pure, Except.pure]

theorem set_cons_array {mem mem2 : Memory} {v s e e' : SymbolicValue} {i : Nat}
    {rest : List Nat} {t T : SwiftType} {A : Nat} {es : List SymbolicValue}
    (hes : getArrayValue mem v = .ok (es, T)) (hi : es[i]? = some e)
    (hrec : setIndexedElement mem e rest s T A = .ok (e', mem2)) :
    setIndexedElement mem v (i :: rest) s t A = .ok (getArray mem2 (es.set i e') T A) := by
  have hk := getArrayValue_kind hes
  simp [setIndexedElement, hk, hes, swift.assert, indexChecked, hi, hrec, bind,
    Except.bind, pure, Except.pure, SwiftType.getCanonicalType]

theorem set_cons_uninit {mem mem2 : Memory} {s e' : SymbolicValue} {i : Nat}
    {rest : List Nat} {t ti : SwiftType} {A : Nat} {n : Unsigned}
    (hn : scalarizedNumMembers t = .ok n)
    (hty : aggregateElementType t i = .ok ti) (hi : i < n.val)
    (hrec : setIndexedElement (mem ++ [⟨A, .values (List.replicate n.val .RK_UninitMemory)⟩])
      .RK_UninitMemory rest s ti A = .ok (e', mem2)) :
    setIndexedElement mem .RK_UninitMemory (i :: rest) s t A =
      .ok (getAggregate mem2 ((List.replicate n.val .RK_UninitMemory).set i e') A) := by
  have hagg : getAggregateValue (mem ++ [⟨A, .values (List.replicate n.val .RK_UninitMemory)⟩])
      (.RK_Aggregate mem.length n) = .ok (List.replicate n.val .RK_UninitMemory) := by
    have := @getAggregateValue_of_load _ _ n _ (load_append_last mem
      ⟨A, .values (List.replicate n.val .RK_UninitMemory)⟩) (by simp)
    simpa using this
  simp [setIndexedElement, getKind, hn, getUninitMemory, getAggregate, Memory.allocate, hagg,
    toUnsigned_val,
    hty, swift.assert, indexChecked, hi, hrec, bind, Except.bind, pure, Except.pure]

/-! ## Validity of access paths and agreement of memories -/

theorem getKind_eq_uninit {v : SymbolicValue} (h : v.getKind = .UninitMemory) :
    v = .RK_UninitMemory := by
  cases v <;> simp [getKind] at h
  rfl

/-- Validity of a non-empty path, case by case. -/
theorem validPath_cons {mem : Memory} {self : Ptr} {i : Nat} {rest : List Nat}
    {v : SymbolicValue} {t : SwiftType} :
    validPath mem self (i :: rest) v t = true ↔
      (v = .RK_UninitMemory ∧ ∃ ms ti, t.memberTypes = some ms ∧ ms.length < 4294967296 ∧
          ms[i]? = some ti ∧ validPath mem self rest .RK_UninitMemory ti = true) ∨
      (∃ es ms e ti, getAggregateValue mem v = .ok es ∧ t.memberTypes = some ms ∧
          ms.length < 4294967296 ∧ es[i]? = some e ∧ ms[i]? = some ti ∧
          validPath mem self rest e ti = true) ∨
      (∃ es T e, v ≠ .RK_ArrayAddress self ∧ getArrayValue mem v = .ok (es, T) ∧
          es[i]? = some e ∧ validPath mem self rest e T = true) := by
  constructor
  · intro h
    unfold validPath at h
    split at h
    · rename_i hk
      have hv := getKind_eq_uninit hk
      left
      refine ⟨hv, ?_⟩
      split at h
      · rename_i ms hms
        simp only [Bool.and_eq_true, decide_eq_true_eq] at h
        obtain ⟨hlen, h⟩ := h
        split at h
        · rename_i ti hti
          exact ⟨ms, ti, hms, hlen, hti, h⟩
        · cases h
      · cases h
    · rename_i hk
      right; left
      split at h
      · rename_i es ms hes hms
        simp only [Bool.and_eq_true, decide_eq_true_eq] at h
        obtain ⟨hlen, h⟩ := h
        split at h
        · rename_i e ti he hti
          exact ⟨es, ms, e, ti, hes, hms, hlen, he, hti, h⟩
        · cases h
      · cases h
    · rename_i hk
      right; right
      simp only [Bool.and_eq_true, decide_eq_true_eq] at h
      obtain ⟨hne, h⟩ := h
      split at h
      · rename_i es T hes
        split at h
        · rename_i e he
          exact ⟨es, T, e, hne, hes, he, h⟩
        · cases h
      · cases h
    · cases h
  · rintro (⟨rfl, ms, ti, hms, hlen, hti, h⟩ | ⟨es, ms, e, ti, hes, hms, hlen, he, hti, h⟩ |
      ⟨es, T, e, hne, hes, he, h⟩)
    · unfold validPath
      simp [getKind, hms, hlen, hti, h]
    · unfold validPath
      simp [getAggregateValue_kind hes, hes, hms, hlen, he, hti, h]
    · unfold validPath
      simp [getArrayValue_kind hes, hes, he, h, hne]

theorem validPath_agree {self : Ptr} {mem m2 : Memory} (hobj : IsObject mem self)
    (hag : Agree self mem m2) :
    ∀ (p : List Nat) (v : SymbolicValue) (t : SwiftType),
      validPath mem self p v t = true → validPath m2 self p v t = true := by
  intro p
  induction p with
  | nil => intro v t _; simp [validPath]
  | cons i rest ih =>
    intro v t h
    rcases validPath_cons.mp h with ⟨rfl, ms, ti, hms, hlen, hti, h⟩ |
      ⟨es, ms, e, ti, hes, hms, hlen, he, hti, h⟩ | ⟨es, T, e, hne, hes, he, h⟩
    · exact validPath_cons.mpr (Or.inl ⟨rfl, ms, ti, hms, hlen, hti, ih _ _ h⟩)
    · exact validPath_cons.mpr (Or.inr (Or.inl ⟨es, ms, e, ti,
        getAggregateValue_agree hobj hag hes, hms, hlen, he, hti, ih _ _ h⟩))
    · exact validPath_cons.mpr (Or.inr (Or.inr ⟨es, T, e, hne,
        getArrayValue_agree hobj hag hne hes, he, ih _ _ h⟩))

theorem agree_append (self : Ptr) (mem ext : Memory) : Agree self mem (mem ++ ext) := by
  intro a ha _
  exact List.getElem?_append_left ha

theorem agree_refl (self : Ptr) (mem : Memory) : Agree self mem mem := by
  intro a _ _
  rfl

theorem agree_of_append {self : Ptr} {mem ext m2 : Memory} (h : Agree self (mem ++ ext) m2) :
    Agree self mem m2 := by
  intro a ha hne
  rw [h a (by simp; omega) hne]
  exact List.getElem?_append_left ha

theorem isObject_append {mem : Memory} {self : Ptr} (h : IsObject mem self) (ext : Memory) :
    IsObject (mem ++ ext) self := by
  rcases h with ⟨T, V, h⟩
  exact ⟨T, V, by
    have hlt := load_lt h
    unfold Memory.load at h ⊢
    rw [List.getElem?_append_left hlt]
    exact h⟩

theorem isObject_lt {mem : Memory} {self : Ptr} (h : IsObject mem self) : self < mem.length := by
  rcases h with ⟨T, V, h⟩
  exact load_lt h

theorem getAggregateValue_new {m2 mem : Memory} {self : Ptr} {A : Nat}
    {es : List SymbolicValue} (hself : self < mem.length) (hlen : es.length < 4294967296)
    (hag : Agree self (mem ++ [⟨A, .values es⟩]) m2) :
    getAggregateValue m2 (.RK_Aggregate mem.length (toUnsigned es.length)) = .ok es := by
  have hl : m2.load mem.length = .ok (.values es) := by
    unfold Memory.load
    rw [hag mem.length (by simp) (Nat.ne_of_gt hself)]
    simp
  have := getAggregateValue_of_load hl (Nat.le_of_eq (toUnsigned_of_lt hlen))
  simpa [toUnsigned_of_lt hlen] using this

theorem getArrayValue_new {m2 mem : Memory} {self : Ptr} {A : Nat} {T : SwiftType}
    {es : List SymbolicValue} (hself : self < mem.length) (hlen : es.length < 4294967296)
    (hag : Agree self (mem ++ [⟨A, .ArraySymbolicValue T (toUnsigned es.length) es⟩]) m2) :
    getArrayValue m2 (.RK_Array mem.length) = .ok (es, T) := by
  have hl : m2.load mem.length = .ok (.ArraySymbolicValue T (toUnsigned es.length) es) := by
    unfold Memory.load
    rw [hag mem.length (by simp) (Nat.ne_of_gt hself)]
    simp
  have := getArrayValue_of_load hl (Nat.le_of_eq (toUnsigned_of_lt hlen))
  simpa [toUnsigned_of_lt hlen] using this

/-! ## Set then get on the indexing helpers -/

theorem getElem?_lt {α : Type} {xs : List α} {i : Nat} {x : α} (h : xs[i]? = some x) :
    i < xs.length := (List.getElem?_eq_some_iff.mp h).1

theorem getAggregate_eq (m : Memory) (es : List SymbolicValue) (A : Nat) :
    getAggregate m es A =
      (.RK_Aggregate m.length (toUnsigned es.length), m ++ [⟨A, .values es⟩]) := rfl

theorem getArray_eq (m : Memory) (es : List SymbolicValue) (T : SwiftType) (A : Nat) :
    getArray m es T A =
      (.RK_Array m.length, m ++ [⟨A, .ArraySymbolicValue T (toUnsigned es.length) es⟩]) := rfl

/-- Reading the element `i` of a freshly built aggregate and going on from there. -/
theorem get_new_aggregate {self : Ptr} {m m2 : Memory} {A i : Nat} {rest : List Nat}
    {es : List SymbolicValue} {e : SymbolicValue} {t ti : SwiftType}
    (hself : self < m.length) (hlen : es.length < 4294967296) (he : es[i]? = some e)
    (hty : aggregateElementType t i = .ok ti)
    (hag : Agree self (m ++ [⟨A, .values es⟩]) m2) :
    getIndexedElement m2 (.RK_Aggregate m.length (toUnsigned es.length)) (i :: rest) t =
      getIndexedElement m2 e rest ti := by
  have hes := getAggregateValue_new hself hlen hag
  rw [get_cons_aggregate m2 (.RK_Aggregate m.length (toUnsigned es.length)) i rest t es rfl hes]
  simp [indexChecked, he, hty, bind, Except.bind]

/-- Reading the element `i` of a freshly built array and going on from there. -/
theorem get_new_array {self : Ptr} {m m2 : Memory} {A i : Nat} {rest : List Nat}
    {es : List SymbolicValue} {e : SymbolicValue} {t T : SwiftType}
    (hself : self < m.length) (hlen : es.length < 4294967296) (he : es[i]? = some e)
    (hag : Agree self (m ++ [⟨A, .ArraySymbolicValue T (toUnsigned es.length) es⟩]) m2) :
    getIndexedElement m2 (.RK_Array m.length) (i :: rest) t =
      getIndexedElement m2 e rest T := by
  have hes := getArrayValue_new hself hlen hag
  rw [get_cons_array m2 (.RK_Array m.length) i rest t es T rfl hes]
  simp [indexChecked, he, bind, Except.bind]

theorem lt_length_append {self : Ptr} {mem : Memory} (h : self < mem.length) (ext : Memory) :
    self < (mem ++ ext).length := by
  rw [List.length_append]
  exact Nat.lt_of_lt_of_le h (Nat.le_add_right _ _)

theorem getElem?_set_self_of_lt {α : Type} {xs : List α} {i : Nat} (x : α)
    (h : i < xs.length) : (xs.set i x)[i]? = some x := by
  simp [List.getElem?_set_self h]

/-- Set then get along a valid path, on the indexing helpers: the set returns, only
appends to the memory, and a get of the same path on the new value returns the scalar
in every memory that agrees with the new one away from the object. -/
theorem set_get_helper (self : Ptr) (s : SymbolicValue) (A : Nat) :
    ∀ (p : List Nat) (mem : Memory) (v : SymbolicValue) (t : SwiftType),
      IsObject mem self → validPath mem self p v t = true →
      ∃ v' ext, setIndexedElement mem v p s t A = .ok (v', mem ++ ext) ∧
        ∀ m2, Agree self (mem ++ ext) m2 → getIndexedElement m2 v' p t = .ok s := by
  intro p
  induction p with
  | nil =>
    intro mem v t _ _
    exact ⟨s, [], by simp [set_nil], fun m2 _ => get_nil m2 s t⟩
  | cons i rest ih =>
    intro mem v t hobj h
    have hself := isObject_lt hobj
    rcases validPath_cons.mp h with ⟨rfl, ms, ti, hms, hlen, hti, h⟩ |
      ⟨es, ms, e, ti, hes, hms, hlen, he, hti, h⟩ | ⟨es, T, e, hne, hes, he, h⟩
    · -- uninitialised memory is scalarised first
      have hn := scalarizedNumMembers_of_member hms
      have hty := aggregateElementType_of_member hms hlen hti
      have hnv : (toUnsigned ms.length).val = ms.length := toUnsigned_of_lt hlen
      have hi : i < (toUnsigned ms.length).val := by
        rw [hnv]; exact getElem?_lt hti
      generalize hc : Allocation.mk A (.values (List.replicate (toUnsigned ms.length).val
        .RK_UninitMemory)) = cell at *
      obtain ⟨e', ext, hrec, hget⟩ := ih (mem ++ [cell]) .RK_UninitMemory ti
        (isObject_append hobj _) (validPath_agree hobj (agree_append self mem _) _ _ _ h)
      have hset := set_cons_uninit hn hty hi (hc ▸ hrec)
      rw [getAggregate_eq, hc] at hset
      generalize hes : (List.replicate (toUnsigned ms.length).val
        SymbolicValue.RK_UninitMemory).set i e' = newElts at *
      have hlen' : newElts.length < 4294967296 := by
        rw [← hes]; simp [hnv, hlen]
      have he' : newElts[i]? = some e' := by
        rw [← hes]; exact getElem?_set_self_of_lt e' (by simpa using hi)
      refine ⟨.RK_Aggregate (mem ++ [cell] ++ ext).length (toUnsigned newElts.length),
        [cell] ++ ext ++ [Allocation.mk A (.values newElts)], ?_, ?_⟩
      · rw [hset]
        simp only [List.append_assoc]
      · intro m2 hag
        have hag' : Agree self ((mem ++ [cell] ++ ext) ++ [Allocation.mk A (.values newElts)])
            m2 := by
          simpa only [List.append_assoc] using hag
        rw [get_new_aggregate (lt_length_append (lt_length_append hself _) _) hlen' he' hty hag']
        exact hget m2 (agree_of_append hag')
    · have hty := aggregateElementType_of_member hms hlen hti
      obtain ⟨e', ext, hrec, hget⟩ := ih mem e ti hobj h
      have hset := set_cons_aggregate hes hty he hrec
      rw [getAggregate_eq] at hset
      refine ⟨.RK_Aggregate (mem ++ ext).length (toUnsigned (es.set i e').length),
        ext ++ [Allocation.mk A (.values (es.set i e'))], ?_, ?_⟩
      · rw [hset]
        simp only [List.append_assoc]
      · intro m2 hag
        have hag' : Agree self ((mem ++ ext) ++ [Allocation.mk A (.values (es.set i e'))])
            m2 := by
          simpa only [List.append_assoc] using hag
        rw [get_new_aggregate (lt_length_append hself _)
          (by simpa using getAggregateValue_length hes)
          (getElem?_set_self_of_lt e' (getElem?_lt he)) hty hag']
        exact hget m2 (agree_of_append hag')
    · obtain ⟨e', ext, hrec, hget⟩ := ih mem e T hobj h
      have hset := @set_cons_array _ _ _ _ _ _ _ _ t _ _ _ hes he hrec
      rw [getArray_eq] at hset
      refine ⟨.RK_Array (mem ++ ext).length,
        ext ++ [Allocation.mk A (.ArraySymbolicValue T (toUnsigned (es.set i e').length)
          (es.set i e'))], ?_, ?_⟩
      · rw [hset]
        simp only [List.append_assoc]
      · intro m2 hag
        have hag' : Agree self ((mem ++ ext) ++ [Allocation.mk A (.ArraySymbolicValue T
            (toUnsigned (es.set i e').length) (es.set i e'))]) m2 := by
          simpa only [List.append_assoc] using hag
        rw [get_new_array (lt_length_append hself _)
          (by simpa using getArrayValue_length hes)
          (getElem?_set_self_of_lt e' (getElem?_lt he)) hag']
        exact hget m2 (agree_of_append hag')

/-! ## Frame of a set on the indexing helpers -/

theorem get_uninit (mem : Memory) (p : List Nat) (t : SwiftType) :
    getIndexedElement mem .RK_UninitMemory p t = .ok .RK_UninitMemory := by
  cases p with
  | nil => exact get_nil _ _ _
  | cons i rest => exact get_cons_uninit _ _ _ _

/-- Reading one step into an aggregate. -/
theorem get_step_aggregate {mem : Memory} {v e : SymbolicValue} {i : Nat} {rest : List Nat}
    {t ti : SwiftType} {es : List SymbolicValue}
    (hes : getAggregateValue mem v = .ok es) (he : es[i]? = some e)
    (hty : aggregateElementType t i = .ok ti) :
    getIndexedElement mem v (i :: rest) t = getIndexedElement mem e rest ti := by
  rw [get_cons_aggregate mem v i rest t es (getAggregateValue_kind hes) hes]
  simp [indexChecked, he, hty, bind, Except.bind]

/-- Reading one step into an array. -/
theorem get_step_array {mem : Memory} {v e : SymbolicValue} {i : Nat} {rest : List Nat}
    {t T : SwiftType} {es : List SymbolicValue}
    (hes : getArrayValue mem v = .ok (es, T)) (he : es[i]? = some e) :
    getIndexedElement mem v (i :: rest) t = getIndexedElement mem e rest T := by
  rw [get_cons_array mem v i rest t es T (getArrayValue_kind hes) hes]
  simp [indexChecked, he, bind, Except.bind]

/-- A read along a valid path sees the same in every memory that agrees away from the
object. -/
theorem get_agree {self : Ptr} {mem m2 : Memory} (hobj : IsObject mem self)
    (hag : Agree self mem m2) :
    ∀ (p : List Nat) (v : SymbolicValue) (t : SwiftType),
      validPath mem self p v t = true →
      getIndexedElement m2 v p t = getIndexedElement mem v p t := by
  intro p
  induction p with
  | nil => intro v t _; simp [get_nil]
  | cons i rest ih =>
    intro v t h
    rcases validPath_cons.mp h with ⟨rfl, ms, ti, hms, hlen, hti, h⟩ |
      ⟨es, ms, e, ti, hes, hms, hlen, he, hti, h⟩ | ⟨es, T, e, hne, hes, he, h⟩
    · simp [get_cons_uninit]
    · have hty := aggregateElementType_of_member hms hlen hti
      rw [get_step_aggregate (getAggregateValue_agree hobj hag hes) he hty,
        get_step_aggregate hes he hty]
      exact ih e ti h
    · rw [get_step_array (getArrayValue_agree hobj hag hne hes) he, get_step_array hes he]
      exact ih e T h

/-- A read along a valid path returns a value. -/
theorem get_ok_of_validPath {self : Ptr} {mem : Memory} :
    ∀ (p : List Nat) (v : SymbolicValue) (t : SwiftType),
      validPath mem self p v t = true → ∃ r, getIndexedElement mem v p t = .ok r := by
  intro p
  induction p with
  | nil => intro v t _; exact ⟨v, get_nil _ _ _⟩
  | cons i rest ih =>
    intro v t h
    rcases validPath_cons.mp h with ⟨rfl, ms, ti, hms, hlen, hti, h⟩ |
      ⟨es, ms, e, ti, hes, hms, hlen, he, hti, h⟩ | ⟨es, T, e, hne, hes, he, h⟩
    · exact ⟨_, get_cons_uninit _ _ _ _⟩
    · have hty := aggregateElementType_of_member hms hlen hti
      rw [get_step_aggregate hes he hty]
      exact ih e ti h
    · rw [get_step_array hes he]
      exact ih e T h

theorem getElem?_set_of_ne {α : Type} {xs : List α} {i j : Nat} (x : α) (h : i ≠ j) :
    (xs.set i x)[j]? = xs[j]? := by
  simp [List.getElem?_set_ne h]

/-- Frame property of a set on the indexing helpers: a read along a valid path that
diverges from the written path sees, in the new value, what it saw in the old one. -/
theorem set_frame_helper (self : Ptr) (s : SymbolicValue) (A : Nat) :
    ∀ (p q : List Nat) (mem : Memory) (v : SymbolicValue) (t : SwiftType),
      IsObject mem self → validPath mem self p v t = true → validPath mem self q v t = true →
      ¬ p <+: q → ¬ q <+: p →
      ∃ v' ext, setIndexedElement mem v p s t A = .ok (v', mem ++ ext) ∧
        ∀ m2, Agree self (mem ++ ext) m2 →
          getIndexedElement m2 v' q t = getIndexedElement mem v q t := by
  intro p
  induction p with
  | nil =>
    intro q mem v t _ _ _ hpq _
    exact absurd (List.nil_prefix) hpq
  | cons i rest ih =>
    intro q mem v t hobj h hq hpq hqp
    have hself := isObject_lt hobj
    cases q with
    | nil => exact absurd (List.nil_prefix) hqp
    | cons j qrest =>
    have hdiv : i = j → ¬ rest <+: qrest ∧ ¬ qrest <+: rest := by
      rintro rfl
      constructor
      · intro hc; exact hpq (List.cons_prefix_cons.mpr ⟨rfl, hc⟩)
      · intro hc; exact hqp (List.cons_prefix_cons.mpr ⟨rfl, hc⟩)
    rcases validPath_cons.mp h with ⟨rfl, ms, ti, hms, hlen, hti, h⟩ |
      ⟨es, ms, e, ti, hes, hms, hlen, he, hti, h⟩ | ⟨es, T, e, hne, hes, he, h⟩
    · -- uninitialised memory: scalarised, then every sibling is uninitialised
      have hkq : ∃ tj, ms[j]? = some tj := by
        rcases validPath_cons.mp hq with ⟨_, ms2, tj, hms2, _, htj, _⟩ |
          ⟨es2, _, _, _, hes2, _⟩ | ⟨es2, T2, _, _, hes2, _⟩
        · rw [hms] at hms2; cases hms2; exact ⟨tj, htj⟩
        · have := getAggregateValue_kind hes2; simp [getKind] at this
        · have := getArrayValue_kind hes2; simp [getKind] at this
      obtain ⟨tj, htj⟩ := hkq
      have hn := scalarizedNumMembers_of_member hms
      have hty := aggregateElementType_of_member hms hlen hti
      have htyj := aggregateElementType_of_member hms hlen htj
      have hnv : (toUnsigned ms.length).val = ms.length := toUnsigned_of_lt hlen
      have hi : i < (toUnsigned ms.length).val := by
        rw [hnv]; exact getElem?_lt hti
      generalize hc : Allocation.mk A (.values (List.replicate (toUnsigned ms.length).val
        .RK_UninitMemory)) = cell at *
      have hobj1 : IsObject (mem ++ [cell]) self := isObject_append hobj _
      have hv1 : validPath (mem ++ [cell]) self rest .RK_UninitMemory ti = true :=
        validPath_agree hobj (agree_append self mem _) _ _ _ h
      obtain ⟨e', ext, hrec, _⟩ := set_get_helper self s A rest (mem ++ [cell])
        .RK_UninitMemory ti hobj1 hv1
      have hset := set_cons_uninit hn hty hi (hc ▸ hrec)
      rw [getAggregate_eq, hc] at hset
      generalize hes : (List.replicate (toUnsigned ms.length).val
        SymbolicValue.RK_UninitMemory).set i e' = newElts at *
      have hlen' : newElts.length < 4294967296 := by
        rw [← hes]; simp [hnv, hlen]
      refine ⟨.RK_Aggregate (mem ++ [cell] ++ ext).length (toUnsigned newElts.length),
        [cell] ++ ext ++ [Allocation.mk A (.values newElts)], ?_, ?_⟩
      · rw [hset]
        simp only [List.append_assoc]
      · intro m2 hag
        have hag' : Agree self ((mem ++ [cell] ++ ext) ++ [Allocation.mk A (.values newElts)])
            m2 := by
          simpa only [List.append_assoc] using hag
        rw [get_cons_uninit]
        by_cases hij : i = j
        · subst hij
          obtain ⟨e2, ext2, hrec2, hfr⟩ := ih qrest (mem ++ [cell]) .RK_UninitMemory ti hobj1 hv1
            (by
              rcases validPath_cons.mp hq with ⟨_, ms2, tj2, hms2, _, htj2, hq2⟩ |
                ⟨es2, _, _, _, hes2, _⟩ | ⟨es2, T2, _, _, hes2, _⟩
              · rw [hms] at hms2; cases hms2
                rw [hti] at htj2; cases htj2
                exact validPath_agree hobj (agree_append self mem _) _ _ _ hq2
              · have := getAggregateValue_kind hes2; simp [getKind] at this
              · have := getArrayValue_kind hes2; simp [getKind] at this)
            (hdiv rfl).1 (hdiv rfl).2
          rw [hrec] at hrec2
          obtain ⟨he2, hext⟩ := Prod.mk.inj (Except.ok.inj hrec2)
          have hext2 := List.append_cancel_left hext
          subst he2
          subst hext2
          have he' : newElts[i]? = some e' := by
            rw [← hes]; exact getElem?_set_self_of_lt e' (by simpa using hi)
          rw [get_new_aggregate (lt_length_append (lt_length_append hself _) _) hlen' he' hty
            hag', hfr m2 (agree_of_append hag'), get_uninit]
        · have hej : newElts[j]? = some .RK_UninitMemory := by
            rw [← hes, getElem?_set_of_ne e' hij]
            have hj : j < (toUnsigned ms.length).val := by rw [hnv]; exact getElem?_lt htj
            simp [hj]
          rw [get_new_aggregate (lt_length_append (lt_length_append hself _) _) hlen' hej htyj
            hag', get_uninit]
    · -- an aggregate: the sibling handles are shared
      have hkq : ∃ ej tj, es[j]? = some ej ∧ ms[j]? = some tj ∧
          validPath mem self qrest ej tj = true := by
        rcases validPath_cons.mp hq with ⟨rfl, _⟩ |
          ⟨es2, ms2, ej, tj, hes2, hms2, _, hej, htj, hq2⟩ | ⟨es2, T2, _, _, hes2, _⟩
        · have := getAggregateValue_kind hes; simp [getKind] at this
        · rw [hes] at hes2; cases hes2
          rw [hms] at hms2; cases hms2
          exact ⟨ej, tj, hej, htj, hq2⟩
        · have h1 := getAggregateValue_kind hes
          have h2 := getArrayValue_kind hes2
          rw [h1] at h2; cases h2
      obtain ⟨ej, tj, hej, htj, hq2⟩ := hkq
      have hty := aggregateElementType_of_member hms hlen hti
      have htyj := aggregateElementType_of_member hms hlen htj
      obtain ⟨e', ext, hrec, _⟩ := set_get_helper self s A rest mem e ti hobj h
      have hset := set_cons_aggregate hes hty he hrec
      rw [getAggregate_eq] at hset
      have hlen' : (es.set i e').length < 4294967296 := by
        simpa using getAggregateValue_length hes
      refine ⟨.RK_Aggregate (mem ++ ext).length (toUnsigned (es.set i e').length),
        ext ++ [Allocation.mk A (.values (es.set i e'))], ?_, ?_⟩
      · rw [hset]
        simp only [List.append_assoc]
      · intro m2 hag
        have hag' : Agree self ((mem ++ ext) ++ [Allocation.mk A (.values (es.set i e'))])
            m2 := by
          simpa only [List.append_assoc] using hag
        rw [get_step_aggregate hes hej htyj]
        by_cases hij : i = j
        · subst hij
          rw [he] at hej; cases hej
          rw [hti] at htj; cases htj
          obtain ⟨e2, ext2, hrec2, hfr⟩ := ih qrest mem e ti hobj h hq2 (hdiv rfl).1 (hdiv rfl).2
          rw [hrec] at hrec2
          obtain ⟨he2, hext⟩ := Prod.mk.inj (Except.ok.inj hrec2)
          have hext2 := List.append_cancel_left hext
          subst he2
          subst hext2
          rw [get_new_aggregate (lt_length_append hself _) hlen'
            (getElem?_set_self_of_lt e' (getElem?_lt he)) hty hag']
          exact hfr m2 (agree_of_append hag')
        · rw [get_new_aggregate (lt_length_append hself _) hlen'
            ((getElem?_set_of_ne e' hij).trans hej) htyj hag']
          exact get_agree hobj (agree_of_append (agree_of_append hag')) _ _ _ hq2
    · -- an array: the sibling handles are shared
      have hkq : ∃ ej, es[j]? = some ej ∧ validPath mem self qrest ej T = true := by
        rcases validPath_cons.mp hq with ⟨rfl, _⟩ |
          ⟨es2, _, _, _, hes2, _⟩ | ⟨es2, T2, ej, _, hes2, hej, hq2⟩
        · have := getArrayValue_kind hes; simp [getKind] at this
        · have h1 := getArrayValue_kind hes
          have h2 := getAggregateValue_kind hes2
          rw [h1] at h2; cases h2
        · rw [hes] at hes2; cases hes2
          exact ⟨ej, hej, hq2⟩
      obtain ⟨ej, hej, hq2⟩ := hkq
      obtain ⟨e', ext, hrec, _⟩ := set_get_helper self s A rest mem e T hobj h
      have hset := @set_cons_array _ _ _ _ _ _ _ _ t _ _ _ hes he hrec
      rw [getArray_eq] at hset
      have hlen' : (es.set i e').length < 4294967296 := by
        simpa using getArrayValue_length hes
      refine ⟨.RK_Array (mem ++ ext).length,
        ext ++ [Allocation.mk A (.ArraySymbolicValue T (toUnsigned (es.set i e').length)
          (es.set i e'))], ?_, ?_⟩
      · rw [hset]
        simp only [List.append_assoc]
      · intro m2 hag
        have hag' : Agree self ((mem ++ ext) ++ [Allocation.mk A (.ArraySymbolicValue T
            (toUnsigned (es.set i e').length) (es.set i e'))]) m2 := by
          simpa only [List.append_assoc] using hag
        rw [get_step_array hes hej]
        by_cases hij : i = j
        · subst hij
          rw [he] at hej; cases hej
          obtain ⟨e2, ext2, hrec2, hfr⟩ := ih qrest mem e T hobj h hq2 (hdiv rfl).1 (hdiv rfl).2
          rw [hrec] at hrec2
          obtain ⟨he2, hext⟩ := Prod.mk.inj (Except.ok.inj hrec2)
          have hext2 := List.append_cancel_left hext
          subst he2
          subst hext2
          rw [get_new_array (lt_length_append hself _) hlen'
            (getElem?_set_self_of_lt e' (getElem?_lt he)) hag']
          exact hfr m2 (agree_of_append hag')
        · rw [get_new_array (lt_length_append hself _) hlen'
            ((getElem?_set_of_ne e' hij).trans hej) hag']
          exact get_agree hobj (agree_of_append (agree_of_append hag')) _ _ _ hq2

/-! ## Memory objects -/

theorem fields_ok {mem : Memory} {self : Ptr} {T : SwiftType} {V : SymbolicValue} :
    SymbolicValueMemoryObject.fields mem self = .ok (T, V) ↔
      mem.load self = .ok (.SymbolicValueMemoryObject T V) := by
  unfold SymbolicValueMemoryObject.fields
  cases hl : mem.load self with
  | error e => simp [bind, Except.bind]
  | ok o => cases o <;> simp [bind, Except.bind, pure, Except.pure]

theorem isObject_of_fields {mem : Memory} {self : Ptr} {T : SwiftType} {V : SymbolicValue}
    (h : SymbolicValueMemoryObject.fields mem self = .ok (T, V)) : IsObject mem self :=
  ⟨T, V, fields_ok.mp h⟩

theorem load_store_self {mem : Memory} {self : Ptr} (h : self < mem.length) (o : ArenaObject) :
    (mem.store self o).load self = .ok o := by
  unfold Memory.store Memory.load
  rw [List.getElem?_eq_getElem h]
  simp [List.getElem?_set_self h]

theorem agree_store (mem : Memory) (self : Ptr) (o : ArenaObject) :
    Agree self mem (mem.store self o) := by
  intro a _ hne
  unfold Memory.store
  cases mem[self]? with
  | none => rfl
  | some c => simp [List.getElem?_set_ne (Ne.symm hne)]

theorem length_store (mem : Memory) (self : Ptr) (o : ArenaObject) :
    (mem.store self o).length = mem.length := by
  unfold Memory.store
  cases mem[self]? <;> simp

theorem objValidPath_iff {mem : Memory} {self : Ptr} {p : List Nat} :
    SymbolicValueMemoryObject.validPath mem self p = true ↔
      ∃ T V, SymbolicValueMemoryObject.fields mem self = .ok (T, V) ∧
        validPath mem self p V T = true := by
  unfold SymbolicValueMemoryObject.validPath
  cases h : SymbolicValueMemoryObject.fields mem self with
  | error e => simp
  | ok r =>
    obtain ⟨T, V⟩ := r
    constructor
    · intro hv
      exact ⟨T, V, rfl, hv⟩
    · rintro ⟨T2, V2, he, hv⟩
      cases he
      exact hv

/-- The method `setIndexedElement` in terms of the helper. -/
theorem obj_set_eq {mem mem2 : Memory} {self : Ptr} {p : List Nat} {s v' : SymbolicValue}
    {A : Nat} {T : SwiftType} {V : SymbolicValue}
    (hf : SymbolicValueMemoryObject.fields mem self = .ok (T, V))
    (hs : setIndexedElement mem V p s T A = .ok (v', mem2)) :
    SymbolicValueMemoryObject.setIndexedElement mem self p s A =
      .ok (mem2.store self (.SymbolicValueMemoryObject T v')) := by
  simp [SymbolicValueMemoryObject.setIndexedElement, hf, hs, bind, Except.bind, pure,
    Except.pure]

/-- The method `getIndexedElement` in terms of the helper. -/
theorem obj_get_eq {mem : Memory} {self : Ptr} {p : List Nat}
    {T : SwiftType} {V : SymbolicValue}
    (hf : SymbolicValueMemoryObject.fields mem self = .ok (T, V)) :
    SymbolicValueMemoryObject.getIndexedElement mem self p = getIndexedElement mem V p T := by
  simp [SymbolicValueMemoryObject.getIndexedElement, hf, bind, Except.bind]

/-- What a set through a memory object along a valid path does: it returns, a get of
the same path then returns the scalar, and a get of any valid path that diverges from
the written one returns what it returned before. -/
theorem obj_set_spec (mem : Memory) (self : Ptr) (p : List Nat) (s : SymbolicValue) (A : Nat)
    (hvalid : SymbolicValueMemoryObject.validPath mem self p = true) :
    ∃ mem', SymbolicValueMemoryObject.setIndexedElement mem self p s A = .ok mem' ∧
      SymbolicValueMemoryObject.getIndexedElement mem' self p = .ok s ∧
      ∀ q, SymbolicValueMemoryObject.validPath mem self q = true → ¬ p <+: q → ¬ q <+: p →
        SymbolicValueMemoryObject.getIndexedElement mem' self q =
          SymbolicValueMemoryObject.getIndexedElement mem self q := by
  obtain ⟨T, V, hf, hv⟩ := objValidPath_iff.mp hvalid
  have hobj := isObject_of_fields hf
  obtain ⟨v', ext, hset, hget⟩ := set_get_helper self s A p mem V T hobj hv
  have hlt : self < (mem ++ ext).length := lt_length_append (isObject_lt hobj) ext
  have hf' : SymbolicValueMemoryObject.fields
      ((mem ++ ext).store self (.SymbolicValueMemoryObject T v')) self = .ok (T, v') :=
    fields_ok.mpr (load_store_self hlt _)
  refine ⟨_, obj_set_eq hf hset, ?_, ?_⟩
  · rw [obj_get_eq hf']
    exact hget _ (agree_store _ _ _)
  · intro q hq hpq hqp
    obtain ⟨T2, V2, hf2, hvq⟩ := objValidPath_iff.mp hq
    rw [hf] at hf2
    cases hf2
    obtain ⟨v2, ext2, hset2, hfr⟩ := set_frame_helper self s A p q mem V T hobj hv hvq hpq hqp
    rw [hset] at hset2
    obtain ⟨hv2, hext⟩ := Prod.mk.inj (Except.ok.inj hset2)
    have hext2 := List.append_cancel_left hext
    subst hv2
    subst hext2
    rw [obj_get_eq hf', obj_get_eq hf]
    exact hfr _ (agree_store _ _ _)

/-! ## Inversion of a returning set -/

theorem getElem?_replicate_some {α : Type} {n i : Nat} {a x : α}
    (h : (List.replicate n a)[i]? = some x) : i < n ∧ x = a := by
  have hlt := getElem?_lt h
  simp at hlt
  simp [hlt] at h
  exact ⟨hlt, h.symm⟩

/-- The shape of a returning set along a non-empty path. -/
theorem set_cons_inv {mem mem' : Memory} {v s v' : SymbolicValue} {i : Nat} {rest : List Nat}
    {t : SwiftType} {A : Nat}
    (h : setIndexedElement mem v (i :: rest) s t A = .ok (v', mem')) :
    (v = .RK_UninitMemory ∧ ∃ n ti e' mem2, scalarizedNumMembers t = .ok n ∧
        aggregateElementType t i = .ok ti ∧ i < n.val ∧
        setIndexedElement (mem ++ [⟨A, .values (List.replicate n.val .RK_UninitMemory)⟩])
          .RK_UninitMemory rest s ti A = .ok (e', mem2) ∧
        (v', mem') = getAggregate mem2 ((List.replicate n.val .RK_UninitMemory).set i e') A) ∨
    (∃ es e ti e' mem2, getAggregateValue mem v = .ok es ∧ aggregateElementType t i = .ok ti ∧
        es[i]? = some e ∧ setIndexedElement mem e rest s ti A = .ok (e', mem2) ∧
        (v', mem') = getAggregate mem2 (es.set i e') A) ∨
    (∃ es T e e' mem2, getArrayValue mem v = .ok (es, T) ∧ es[i]? = some e ∧
        setIndexedElement mem e rest s T A = .ok (e', mem2) ∧
        (v', mem') = getArray mem2 (es.set i e') T A) := by
  cases hk : v.getKind
  case UninitMemory =>
    have hv := getKind_eq_uninit hk
    subst hv
    left
    refine ⟨rfl, ?_⟩
    cases hn : scalarizedNumMembers t with
    | error e => simp [setIndexedElement, getKind, hn, bind, Except.bind] at h
    | ok n =>
      have hagg : getAggregateValue
          (mem ++ [⟨A, .values (List.replicate n.val .RK_UninitMemory)⟩])
          (.RK_Aggregate mem.length n) = .ok (List.replicate n.val .RK_UninitMemory) := by
        have := @getAggregateValue_of_load _ _ n _ (load_append_last mem
          ⟨A, .values (List.replicate n.val .RK_UninitMemory)⟩) (by simp)
        simpa using this
      cases hty : aggregateElementType t i with
      | error e =>
        simp [setIndexedElement, getKind, hn, getUninitMemory, getAggregate, Memory.allocate,
          hagg, toUnsigned_val, hty, swift.assert, bind, Except.bind, pure, Except.pure] at h
      | ok ti =>
        by_cases hi : i < n.val
        · cases hrec : setIndexedElement
              (mem ++ [⟨A, .values (List.replicate n.val .RK_UninitMemory)⟩])
              .RK_UninitMemory rest s ti A with
          | error e =>
            simp [setIndexedElement, getKind, hn, getUninitMemory, getAggregate,
              Memory.allocate, hagg, toUnsigned_val, hty, swift.assert, indexChecked, hi, hrec,
              bind, Except.bind, pure, Except.pure] at h
          | ok r =>
            obtain ⟨e', mem2⟩ := r
            rw [set_cons_uninit hn hty hi hrec] at h
            exact ⟨n, ti, e', mem2, rfl, rfl, hi, hrec, (Except.ok.inj h).symm⟩
        · have hnone : (List.replicate n.val SymbolicValue.RK_UninitMemory)[i]? = none := by
            simp [Nat.le_of_not_lt hi]
          simp [setIndexedElement, getKind, hn, getUninitMemory, getAggregate,
            Memory.allocate, hagg, toUnsigned_val, hty, swift.assert, indexChecked, hnone,
            bind, Except.bind, pure, Except.pure] at h
  case Aggregate =>
    right; left
    cases hes : getAggregateValue mem v with
    | error e =>
      simp [setIndexedElement, hk, hes, swift.assert, bind, Except.bind, pure,
        Except.pure] at h
    | ok es =>
      cases hty : aggregateElementType t i with
      | error e =>
        simp [setIndexedElement, hk, hes, hty, swift.assert, bind, Except.bind, pure,
          Except.pure] at h
      | ok ti =>
        cases he : es[i]? with
        | none =>
          simp [setIndexedElement, hk, hes, hty, swift.assert, indexChecked, he, bind,
            Except.bind, pure, Except.pure] at h
        | some e =>
          cases hrec : setIndexedElement mem e rest s ti A with
          | error err =>
            simp [setIndexedElement, hk, hes, hty, swift.assert, indexChecked, he, hrec, bind,
              Except.bind, pure, Except.pure] at h
          | ok r =>
            obtain ⟨e', mem2⟩ := r
            rw [set_cons_aggregate hes hty he hrec] at h
            exact ⟨es, e, ti, e', mem2, rfl, rfl, he, hrec, (Except.ok.inj h).symm⟩
  case Array =>
    right; right
    cases hes : getArrayValue mem v with
    | error e =>
      simp [setIndexedElement, hk, hes, swift.assert, bind, Except.bind, pure,
        Except.pure] at h
    | ok r =>
      obtain ⟨es, T⟩ := r
      cases he : es[i]? with
      | none =>
        simp [setIndexedElement, hk, hes, swift.assert, indexChecked, he, bind,
          Except.bind, pure, Except.pure] at h
      | some e =>
        cases hrec : setIndexedElement mem e rest s T A with
        | error err =>
          simp [setIndexedElement, hk, hes, swift.assert, indexChecked, he, hrec, bind,
            Except.bind, pure, Except.pure] at h
        | ok r =>
          obtain ⟨e', mem2⟩ := r
          rw [@set_cons_array _ _ _ _ _ _ _ _ t _ _ _ hes he hrec] at h
          exact ⟨es, T, e, e', mem2, rfl, he, hrec, (Except.ok.inj h).symm⟩
  all_goals
    simp [setIndexedElement, hk, swift.assert, bind, Except.bind, pure, Except.pure] at h

/-- A returning set only appends to the memory. -/
theorem set_appends (s : SymbolicValue) (A : Nat) :
    ∀ (p : List Nat) (mem mem' : Memory) (v v' : SymbolicValue) (t : SwiftType),
      setIndexedElement mem v p s t A = .ok (v', mem') → ∃ ext, mem' = mem ++ ext := by
  intro p
  induction p with
  | nil =>
    intro mem mem' v v' t h
    rw [set_nil] at h
    obtain ⟨_, hm⟩ := Prod.mk.inj (Except.ok.inj h)
    exact ⟨[], by simp [hm]⟩
  | cons i rest ih =>
    intro mem mem' v v' t h
    rcases set_cons_inv h with ⟨_, n, ti, e', mem2, _, _, _, hrec, hr⟩ |
      ⟨es, e, ti, e', mem2, _, _, _, hrec, hr⟩ | ⟨es, T, e, e', mem2, _, _, hrec, hr⟩
    · obtain ⟨ext, hext⟩ := ih _ mem2 _ e' ti hrec
      rw [getAggregate_eq] at hr
      obtain ⟨_, hm⟩ := Prod.mk.inj hr
      exact ⟨[Allocation.mk A (.values (List.replicate n.val .RK_UninitMemory))] ++ ext ++
        [Allocation.mk A (.values ((List.replicate n.val .RK_UninitMemory).set i e'))],
        by rw [hm, hext]; simp⟩
    · obtain ⟨ext, hext⟩ := ih _ mem2 _ e' ti hrec
      rw [getAggregate_eq] at hr
      obtain ⟨_, hm⟩ := Prod.mk.inj hr
      exact ⟨ext ++ [Allocation.mk A (.values (es.set i e'))], by rw [hm, hext]; simp⟩
    · obtain ⟨ext, hext⟩ := ih _ mem2 _ e' T hrec
      rw [getArray_eq] at hr
      obtain ⟨_, hm⟩ := Prod.mk.inj hr
      exact ⟨ext ++ [Allocation.mk A (.ArraySymbolicValue T (toUnsigned (es.set i e').length)
        (es.set i e'))], by rw [hm, hext]; simp⟩

/-! ## Inversion of a returning get -/

/-- The shape of a returning get along a non-empty path. -/
theorem get_cons_inv {mem : Memory} {v r : SymbolicValue} {i : Nat} {rest : List Nat}
    {t : SwiftType} (h : getIndexedElement mem v (i :: rest) t = .ok r) :
    (v = .RK_UninitMemory ∧ r = .RK_UninitMemory) ∨
    (∃ es e ti, getAggregateValue mem v = .ok es ∧ es[i]? = some e ∧
        aggregateElementType t i = .ok ti ∧ getIndexedElement mem e rest ti = .ok r) ∨
    (∃ es T e, getArrayValue mem v = .ok (es, T) ∧ es[i]? = some e ∧
        getIndexedElement mem e rest T = .ok r) := by
  cases hk : v.getKind
  case UninitMemory =>
    have hv := getKind_eq_uninit hk
    subst hv
    rw [get_cons_uninit] at h
    exact Or.inl ⟨rfl, (Except.ok.inj h).symm⟩
  case Aggregate =>
    right; left
    cases hes : getAggregateValue mem v with
    | error e =>
      simp [getIndexedElement, hk, hes, swift.assert, bind, Except.bind] at h
    | ok es =>
      rw [get_cons_aggregate mem v i rest t es hk hes] at h
      cases he : es[i]? with
      | none => simp [indexChecked, he, bind, Except.bind] at h
      | some e =>
        cases hty : aggregateElementType t i with
        | error err => simp [indexChecked, he, hty, bind, Except.bind] at h
        | ok ti =>
          simp [indexChecked, he, hty, bind, Except.bind] at h
          exact ⟨es, e, ti, rfl, he, rfl, h⟩
  case Array =>
    right; right
    cases hes : getArrayValue mem v with
    | error e =>
      simp [getIndexedElement, hk, hes, swift.assert, bind, Except.bind] at h
    | ok p =>
      obtain ⟨es, T⟩ := p
      rw [get_cons_array mem v i rest t es T hk hes] at h
      cases he : es[i]? with
      | none => simp [indexChecked, he, bind, Except.bind] at h
      | some e =>
        simp [indexChecked, he, bind, Except.bind] at h
        exact ⟨es, T, e, rfl, he, h⟩
  all_goals
    simp [getIndexedElement, hk, swift.assert, bind, Except.bind] at h

/-- Once a read has arrived at uninitialised memory, a longer path reads uninitialised
memory too. -/
theorem get_append_uninit (mem : Memory) :
    ∀ (p1 p2 : List Nat) (v : SymbolicValue) (t : SwiftType),
      getIndexedElement mem v p1 t = .ok .RK_UninitMemory →
      getIndexedElement mem v (p1 ++ p2) t = .ok .RK_UninitMemory := by
  intro p1
  induction p1 with
  | nil =>
    intro p2 v t h
    rw [get_nil] at h
    cases h
    exact get_uninit mem _ t
  | cons i rest ih =>
    intro p2 v t h
    rcases get_cons_inv h with ⟨rfl, _⟩ | ⟨es, e, ti, hes, he, hty, hr⟩ | ⟨es, T, e, hes, he, hr⟩
    · exact get_uninit mem _ t
    · rw [List.cons_append, get_step_aggregate hes he hty]
      exact ih p2 e ti hr
    · rw [List.cons_append, get_step_array hes he]
      exact ih p2 e T hr

theorem agree_trans {self : Ptr} {m1 m2 m3 : Memory} (h12 : Agree self m1 m2)
    (h23 : Agree self m2 m3) (hlen : m1.length ≤ m2.length) : Agree self m1 m3 := by
  intro a ha hne
  rw [h23 a (Nat.lt_of_lt_of_le ha hlen) hne, h12 a ha hne]

/-- The shape of a returning set through a memory object. -/
theorem obj_set_inv {mem mem' : Memory} {self : Ptr} {p : List Nat} {s : SymbolicValue}
    {A : Nat} (h : SymbolicValueMemoryObject.setIndexedElement mem self p s A = .ok mem') :
    ∃ T V v' ext, SymbolicValueMemoryObject.fields mem self = .ok (T, V) ∧
      setIndexedElement mem V p s T A = .ok (v', mem ++ ext) ∧
      mem' = (mem ++ ext).store self (.SymbolicValueMemoryObject T v') := by
  unfold SymbolicValueMemoryObject.setIndexedElement at h
  cases hf : SymbolicValueMemoryObject.fields mem self with
  | error e => simp [hf, bind, Except.bind] at h
  | ok r =>
    obtain ⟨T, V⟩ := r
    cases hs : setIndexedElement mem V p s T A with
    | error e => simp [hf, hs, bind, Except.bind] at h
    | ok r2 =>
      obtain ⟨v', m2⟩ := r2
      obtain ⟨ext, hext⟩ := set_appends s A p mem m2 V v' T hs
      subst hext
      simp [hf, hs, bind, Except.bind, pure, Except.pure] at h
      exact ⟨T, V, v', ext, rfl, hs, h.symm⟩

/-- A returning set through a memory object leaves every allocation other than the
object itself as it was. -/
theorem obj_set_agree {mem mem' : Memory} {self : Ptr} {p : List Nat} {s : SymbolicValue}
    {A : Nat} (h : SymbolicValueMemoryObject.setIndexedElement mem self p s A = .ok mem') :
    IsObject mem self ∧ Agree self mem mem' := by
  obtain ⟨T, V, v', ext, hf, _, hm⟩ := obj_set_inv h
  subst hm
  exact ⟨isObject_of_fields hf,
    agree_trans (agree_append self mem ext) (agree_store _ _ _) (by simp)⟩

/-! ## Sets into uninitialised memory and fresh composites -/

/-- Validity of a path for uninitialised memory depends on the static type only. -/
theorem validPath_uninit_indep (mem mem2 : Memory) (self self2 : Ptr) :
    ∀ (p : List Nat) (t : SwiftType),
      validPath mem self p .RK_UninitMemory t = true →
      validPath mem2 self2 p .RK_UninitMemory t = true := by
  intro p
  induction p with
  | nil => intro t _; simp [validPath]
  | cons i rest ih =>
    intro t h
    rcases validPath_cons.mp h with ⟨_, ms, ti, hms, hlen, hti, h⟩ |
      ⟨es, _, _, _, hes, _⟩ | ⟨es, T, _, _, hes, _⟩
    · exact validPath_cons.mpr (Or.inl ⟨rfl, ms, ti, hms, hlen, hti, ih ti h⟩)
    · have := getAggregateValue_kind hes; simp [getKind] at this
    · have := getArrayValue_kind hes; simp [getKind] at this

/-- A set into uninitialised memory along a valid path returns. -/
theorem set_uninit_ok (self : Ptr) (s : SymbolicValue) (A : Nat) :
    ∀ (p : List Nat) (mem : Memory) (t : SwiftType),
      validPath mem self p .RK_UninitMemory t = true →
      ∃ r, setIndexedElement mem .RK_UninitMemory p s t A = .ok r := by
  intro p
  induction p with
  | nil => intro mem t _; exact ⟨_, set_nil _ _ _ _ _⟩
  | cons i rest ih =>
    intro mem t h
    rcases validPath_cons.mp h with ⟨_, ms, ti, hms, hlen, hti, h⟩ |
      ⟨es, _, _, _, hes, _⟩ | ⟨es, T, _, _, hes, _⟩
    · have hn := scalarizedNumMembers_of_member hms
      have hty := aggregateElementType_of_member hms hlen hti
      have hi : i < (toUnsigned ms.length).val := by
        rw [toUnsigned_of_lt hlen]; exact getElem?_lt hti
      obtain ⟨⟨e', mem2⟩, hrec⟩ := ih
        (mem ++ [⟨A, .values (List.replicate (toUnsigned ms.length).val .RK_UninitMemory)⟩]) ti
        (validPath_uninit_indep _ _ _ _ _ _ h)
      exact ⟨_, set_cons_uninit hn hty hi hrec⟩
    · have := getAggregateValue_kind hes; simp [getKind] at this
    · have := getArrayValue_kind hes; simp [getKind] at this

/-- Reading back the aggregate that `getAggregate` has just built. -/
theorem getAggregateValue_getAggregate (mem : Memory) (es : List SymbolicValue) (A : Nat)
    (hlen : es.length < 4294967296) :
    getAggregateValue (getAggregate mem es A).2 (getAggregate mem es A).1 = .ok es := by
  rw [getAggregate_eq]
  have := @getAggregateValue_of_load _ _ (toUnsigned es.length) _
    (load_append_last mem ⟨A, .values es⟩) (Nat.le_of_eq (toUnsigned_of_lt hlen))
  simpa [toUnsigned_of_lt hlen] using this

/-- Reading back the array that `getArray` has just built. -/
theorem getArrayValue_getArray (mem : Memory) (es : List SymbolicValue) (T : SwiftType)
    (A : Nat) (hlen : es.length < 4294967296) :
    getArrayValue (getArray mem es T A).2 (getArray mem es T A).1 = .ok (es, T) := by
  rw [getArray_eq]
  have := @getArrayValue_of_load _ _ (toUnsigned es.length) T _
    (load_append_last mem ⟨A, .ArraySymbolicValue T (toUnsigned es.length) es⟩)
    (Nat.le_of_eq (toUnsigned_of_lt hlen))
  simpa [toUnsigned_of_lt hlen] using this

theorem elements_aggregate {mem : Memory} {v : SymbolicValue} {es : List SymbolicValue}
    (hk : v.getKind = .Aggregate) (h : v.elements mem = .ok es) :
    getAggregateValue mem v = .ok es := by
  simpa [SymbolicValue.elements, hk] using h

theorem elements_array {mem : Memory} {v : SymbolicValue} {es : List SymbolicValue}
    (hk : v.getKind = .Array) (h : v.elements mem = .ok es) :
    ∃ T, getArrayValue mem v = .ok (es, T) := by
  simp only [SymbolicValue.elements, hk, if_true] at h
  cases hr : getArrayValue mem v with
  | error e => simp [hr, Except.map] at h
  | ok r =>
    obtain ⟨es2, T⟩ := r
    simp [hr, Except.map] at h
    exact ⟨T, by rw [h]⟩

/-! ## Faulty paths -/

theorem failsFast_bind {α β : Type} {x : Result α} (f : α → Result β) (h : FailsFast x) :
    FailsFast (x >>= f) := by
  rcases h with h | h <;> rw [h]
  · exact Or.inl rfl
  · exact Or.inr rfl

theorem aggregateElementType_struct (ps : List SwiftType) (i : Nat) (ti : SwiftType)
    (h : ps[i]? = some ti) : aggregateElementType (.structType ps) i = .ok ti := by
  simp [aggregateElementType, SwiftType.getStructOrBoundGenericStruct,
    StructDecl.storedPropertyType, h]

theorem aggregateElementType_tuple (ts : List SwiftType) (i : Nat) :
    (∃ ti, ts[i]? = some ti ∧ aggregateElementType (.tupleType ts) i = .ok ti) ∨
      aggregateElementType (.tupleType ts) i = .error .assertion := by
  simp only [aggregateElementType, SwiftType.getStructOrBoundGenericStruct,
    SwiftType.getAsTupleType, swift.assert, TupleType.getElementType, indexChecked]
  by_cases hc : i < (TupleType.getNumElements ts).val
  · cases hti : ts[i]? with
    | none => right; simp [hc, bind, Except.bind]
    | some ti => left; exact ⟨ti, rfl, by simp [hc, bind, Except.bind]⟩
  · right; simp [hc, bind, Except.bind]

theorem aggregateElementType_tuple_none (ts : List SwiftType) (i : Nat) (h : ts[i]? = none) :
    aggregateElementType (.tupleType ts) i = .error .assertion := by
  rcases aggregateElementType_tuple ts i with ⟨ti, hti, _⟩ | h2
  · rw [h] at hti; cases hti
  · exact h2

theorem aggregateElementType_other (id i : Nat) :
    aggregateElementType (.otherType id) i = .error .unreachable := by
  simp [aggregateElementType, SwiftType.getStructOrBoundGenericStruct,
    SwiftType.getAsTupleType, llvm_unreachable]

/-- A get along a faulty path fails fast, as long as no uninitialised memory is met. -/
theorem get_failsFast (mem : Memory) :
    ∀ (p : List Nat) (v : SymbolicValue) (t : SwiftType),
      faultyPath mem false p v t = true → FailsFast (getIndexedElement mem v p t) := by
  intro p
  induction p with
  | nil => intro v t h; simp [faultyPath] at h
  | cons i rest ih =>
    intro v t h
    rw [faultyPath] at h
    unfold faultyStep at h
    cases hk : v.getKind
    case UninitMemory => simp [hk] at h
    case Aggregate =>
      simp only [hk] at h
      cases hes : getAggregateValue mem v with
      | error e => simp [hes] at h
      | ok es =>
        simp only [hes] at h
        rw [get_cons_aggregate mem v i rest t es hk hes]
        cases he : es[i]? with
        | none => left; simp [indexChecked, he, bind, Except.bind]
        | some e =>
          simp only [indexChecked, he, bind, Except.bind]
          cases t with
          | structType ps =>
            cases hps : ps[i]? with
            | none => simp [hps, he] at h
            | some ti =>
              simp only [hps, he] at h
              rw [aggregateElementType_struct ps i ti hps]
              exact ih e ti h
          | tupleType ts =>
            rcases aggregateElementType_tuple ts i with ⟨ti, hti, hty⟩ | hty
            · simp only [hti, he] at h
              rw [hty]
              exact ih e ti h
            · rw [hty]; exact Or.inl rfl
          | otherType id =>
            rw [aggregateElementType_other]; exact Or.inr rfl
    case Array =>
      simp only [hk] at h
      cases hes : getArrayValue mem v with
      | error e => simp [hes] at h
      | ok r =>
        obtain ⟨es, T⟩ := r
        simp only [hes] at h
        rw [get_cons_array mem v i rest t es T hk hes]
        cases he : es[i]? with
        | none => left; simp [indexChecked, he, bind, Except.bind]
        | some e =>
          simp only [indexChecked, he, bind, Except.bind]
          simp only [he] at h
          exact ih e T h
    all_goals
      left
      simp [getIndexedElement, hk, swift.assert, bind, Except.bind]

/-- A set one step into an aggregate, as a chain of its four steps. -/
theorem set_aggregate_eq {mem : Memory} {v : SymbolicValue} {es : List SymbolicValue}
    (hes : getAggregateValue mem v = .ok es) (i : Nat) (rest : List Nat) (s : SymbolicValue)
    (t : SwiftType) (A : Nat) :
    setIndexedElement mem v (i :: rest) s t A =
      (aggregateElementType t i >>= fun ti =>
        indexChecked es i >>= fun e =>
        setIndexedElement mem e rest s ti A >>= fun r =>
        pure (getAggregate r.2 (es.set i r.1) A)) := by
  have hk := getAggregateValue_kind hes
  simp only [setIndexedElement, hk, hes, swift.assert, bind, Except.bind, pure, Except.pure]
  cases aggregateElementType t i with
  | error e => rfl
  | ok ti =>
    cases indexChecked es i with
    | error e => rfl
    | ok e =>
      simp only []
      cases setIndexedElement mem e rest s ti A with
      | error e => rfl
      | ok r => rfl

/-- A set one step into an array, as a chain of its three steps. -/
theorem set_array_eq {mem : Memory} {v : SymbolicValue} {es : List SymbolicValue}
    {T : SwiftType} (hes : getArrayValue mem v = .ok (es, T)) (i : Nat) (rest : List Nat)
    (s : SymbolicValue) (t : SwiftType) (A : Nat) :
    setIndexedElement mem v (i :: rest) s t A =
      (indexChecked es i >>= fun e =>
        setIndexedElement mem e rest s T A >>= fun r =>
        pure (getArray r.2 (es.set i r.1) T A)) := by
  have hk := getArrayValue_kind hes
  simp only [setIndexedElement, hk, hes, swift.assert, bind, Except.bind, pure, Except.pure]
  cases indexChecked es i with
  | error e => rfl
  | ok e =>
    simp only []
    cases setIndexedElement mem e rest s T A with
    | error e => rfl
    | ok r => rfl

/-- A set one step into uninitialised memory, as a chain of its steps. -/
theorem set_uninit_eq (mem : Memory) (i : Nat) (rest : List Nat) (s : SymbolicValue)
    (t : SwiftType) (A : Nat) :
    setIndexedElement mem .RK_UninitMemory (i :: rest) s t A =
      (scalarizedNumMembers t >>= fun n =>
        aggregateElementType t i >>= fun ti =>
        indexChecked (List.replicate n.val .RK_UninitMemory) i >>= fun e =>
        setIndexedElement (mem ++ [⟨A, .values (List.replicate n.val .RK_UninitMemory)⟩])
          e rest s ti A >>= fun r =>
        pure (getAggregate r.2 ((List.replicate n.val .RK_UninitMemory).set i r.1) A)) := by
  cases hn : scalarizedNumMembers t with
  | error e => simp [setIndexedElement, getKind, hn, bind, Except.bind]
  | ok n =>
    have hagg : getAggregateValue
        (mem ++ [⟨A, .values (List.replicate n.val .RK_UninitMemory)⟩])
        (.RK_Aggregate mem.length n) = .ok (List.replicate n.val .RK_UninitMemory) := by
      have := @getAggregateValue_of_load _ _ n _ (load_append_last mem
        ⟨A, .values (List.replicate n.val .RK_UninitMemory)⟩) (by simp)
      simpa using this
    have hstep := set_aggregate_eq hagg i rest s t A
    have key : setIndexedElement mem .RK_UninitMemory (i :: rest) s t A =
        setIndexedElement (mem ++ [⟨A, .values (List.replicate n.val .RK_UninitMemory)⟩])
          (.RK_Aggregate mem.length n) (i :: rest) s t A := by
      simp only [setIndexedElement, getKind, hn, getUninitMemory, getAggregate,
        Memory.allocate, List.length_replicate, toUnsigned_val, bind, Except.bind, pure,
        Except.pure, if_true]
      rfl
    exact key.trans hstep

theorem indexChecked_cases {α : Type} (xs : List α) (i : Nat) :
    (∃ x, xs[i]? = some x ∧ indexChecked xs i = .ok x) ∨
      (xs[i]? = none ∧ indexChecked xs i = .error .assertion) := by
  unfold indexChecked
  cases xs[i]? with
  | none => exact Or.inr ⟨rfl, rfl⟩
  | some x => exact Or.inl ⟨x, rfl, rfl⟩

/-- Whether a path is faulty for uninitialised memory depends on the static type only. -/
theorem faultyPath_uninit_indep (mem mem2 : Memory) (b : Bool) :
    ∀ (p : List Nat) (t : SwiftType),
      faultyPath mem b p .RK_UninitMemory t = faultyPath mem2 b p .RK_UninitMemory t := by
  intro p
  induction p with
  | nil => intro t; simp [faultyPath]
  | cons i rest ih =>
    intro t
    rw [faultyPath, faultyPath]
    unfold faultyStep
    simp only [getKind]
    cases b
    · rfl
    · simp only [if_true]
      cases t with
      | structType ps => cases hps : ps[i]? <;> simp [hps, ih]
      | tupleType ts => cases hts : ts[i]? <;> simp [hts, ih]
      | otherType id => rfl

theorem failsFast_ok_bind {α β : Type} {a : α} {f : α → Result β} (h : FailsFast (f a)) :
    FailsFast ((Except.ok a : Result α) >>= f) := h

/-- A set along a faulty path fails fast. -/
theorem set_failsFast (s : SymbolicValue) (A : Nat) :
    ∀ (p : List Nat) (mem : Memory) (v : SymbolicValue) (t : SwiftType),
      faultyPath mem true p v t = true → FailsFast (setIndexedElement mem v p s t A) := by
  intro p
  induction p with
  | nil => intro mem v t h; simp [faultyPath] at h
  | cons i rest ih =>
    intro mem v t h
    rw [faultyPath] at h
    unfold faultyStep at h
    cases hk : v.getKind
    case UninitMemory =>
      have hv := getKind_eq_uninit hk
      subst hv
      simp only [hk, if_true] at h
      rw [set_uninit_eq]
      have inner : ∀ (n : Unsigned) (ti : SwiftType),
          faultyPath mem true rest .RK_UninitMemory ti = true →
          FailsFast (indexChecked (List.replicate n.val SymbolicValue.RK_UninitMemory) i >>=
            fun e => setIndexedElement
              (mem ++ [⟨A, .values (List.replicate n.val .RK_UninitMemory)⟩]) e rest s ti A >>=
            fun r => (pure (getAggregate r.2
              ((List.replicate n.val .RK_UninitMemory).set i r.1) A) :
                Result (SymbolicValue × Memory))) := by
        intro n ti hf
        rcases indexChecked_cases (List.replicate n.val SymbolicValue.RK_UninitMemory) i with
          ⟨e, he, hidx⟩ | ⟨_, hidx⟩
        · rw [hidx]
          obtain ⟨_, rfl⟩ := getElem?_replicate_some he
          apply failsFast_ok_bind
          apply failsFast_bind
          apply ih
          rw [faultyPath_uninit_indep _ mem]
          exact hf
        · rw [hidx]; exact Or.inl rfl
      cases t with
      | structType ps =>
        cases hps : ps[i]? with
        | none => simp [hps] at h
        | some ti =>
          simp only [hps] at h
          rw [aggregateElementType_struct ps i ti hps]
          simp only [scalarizedNumMembers, SwiftType.getStructOrBoundGenericStruct]
          exact inner _ ti h
      | tupleType ts =>
        simp only [scalarizedNumMembers, SwiftType.getStructOrBoundGenericStruct,
          SwiftType.getAsTupleType]
        rcases aggregateElementType_tuple ts i with ⟨ti, hti, hty⟩ | hty
        · simp only [hti] at h
          rw [hty]
          exact inner _ ti h
        · rw [hty]; exact Or.inl rfl
      | otherType id =>
        simp only [scalarizedNumMembers, SwiftType.getStructOrBoundGenericStruct,
          SwiftType.getAsTupleType, llvm_unreachable]
        exact Or.inr rfl
    case Aggregate =>
      simp only [hk] at h
      cases hes : getAggregateValue mem v with
      | error e => simp [hes] at h
      | ok es =>
        simp only [hes] at h
        rw [set_aggregate_eq hes]
        have inner : ∀ (ti : SwiftType),
            (∀ e, es[i]? = some e → faultyPath mem true rest e ti = true) →
            FailsFast (indexChecked es i >>= fun e =>
              setIndexedElement mem e rest s ti A >>= fun r =>
              (pure (getAggregate r.2 (es.set i r.1) A) : Result (SymbolicValue × Memory))) := by
          intro ti hf
          rcases indexChecked_cases es i with ⟨e, he, hidx⟩ | ⟨_, hidx⟩
          · rw [hidx]
            apply failsFast_ok_bind
            apply failsFast_bind
            exact ih mem e ti (hf e he)
          · rw [hidx]; exact Or.inl rfl
        cases t with
        | structType ps =>
          cases hps : ps[i]? with
          | none => simp [hps] at h
          | some ti =>
            simp only [hps] at h
            rw [aggregateElementType_struct ps i ti hps]
            apply failsFast_ok_bind
            apply inner
            intro e he
            simpa [he] using h
        | tupleType ts =>
          rcases aggregateElementType_tuple ts i with ⟨ti, hti, hty⟩ | hty
          · simp only [hti] at h
            rw [hty]
            apply failsFast_ok_bind
            apply inner
            intro e he
            simpa [he] using h
          · rw [hty]; exact Or.inl rfl
        | otherType id =>
          rw [aggregateElementType_other]; exact Or.inr rfl
    case Array =>
      simp only [hk] at h
      cases hes : getArrayValue mem v with
      | error e => simp [hes] at h
      | ok r =>
        obtain ⟨es, T⟩ := r
        simp only [hes] at h
        rw [set_array_eq hes]
        rcases indexChecked_cases es i with ⟨e, he, hidx⟩ | ⟨_, hidx⟩
        · rw [hidx]
          apply failsFast_ok_bind
          apply failsFast_bind
          apply ih mem e T
          simpa [he] using h
        · rw [hidx]; exact Or.inl rfl
    all_goals
      left
      simp [setIndexedElement, hk, swift.assert, bind, Except.bind, pure, Except.pure]

/-- A set through a memory object fails fast when the helper does. -/
theorem obj_set_failsFast {mem : Memory} {self : Ptr} {p : List Nat} {s : SymbolicValue}
    {A : Nat} {T : SwiftType} {V : SymbolicValue}
    (hf : SymbolicValueMemoryObject.fields mem self = .ok (T, V))
    (h : FailsFast (setIndexedElement mem V p s T A)) :
    FailsFast (SymbolicValueMemoryObject.setIndexedElement mem self p s A) := by
  unfold SymbolicValueMemoryObject.setIndexedElement
  rw [hf]
  apply failsFast_ok_bind
  exact failsFast_bind _ h

/-! ## Integers -/

theorem toUInt64_toInt64 (w : Nat) : toUInt64 (toInt64 w) = w % 18446744073709551616 := by
  unfold toUInt64 toInt64
  split <;> omega

theorem arrayRef_length {α : Type} (xs : List α) : arrayRef xs xs.length = .ok xs := by
  simp [arrayRef]

theorem set_eq_self_of_getElem? {α : Type} {xs : List α} {i : Nat} {x : α}
    (h : xs[i]? = some x) : xs.set i x = xs := by
  apply List.ext_getElem?
  intro j
  by_cases hij : i = j
  · subst hij
    rw [getElem?_set_self_of_lt x (getElem?_lt h), h]
  · exact getElem?_set_of_ne x hij

/-- An integer whose last word is zero has no unused bit to clear. -/
theorem clearUnusedBits_of_last_zero {a : APInt} (h : a.words[a.getNumWords - 1]? = some 0) :
    a.clearUnusedBits = a := by
  unfold APInt.clearUnusedBits
  rw [h]
  simp only [Nat.zero_mod]
  rw [set_eq_self_of_getElem? h]

/-- A valid integer with at most 64 bits has one word. -/
theorem valid_single_word {v : APInt} (hv : v.Valid) (h : v.BitWidth.val ≤ 64) :
    ∃ w, v.words = [w] ∧ w < 18446744073709551616 := by
  obtain ⟨hpos, hlen, hw, _⟩ := hv
  have hn : v.getNumWords = 1 := by
    unfold APInt.getNumWords
    omega
  rw [hn] at hlen
  match hws : v.words, hlen with
  | [w], _ => exact ⟨w, rfl, hw w (by rw [hws]; simp)⟩

/-- The inline case of `getInteger`: a valid integer of at most 64 bits. -/
theorem getIntegerAPInt_inline (mem : Memory) (A : Nat) {v : APInt} (hv : v.Valid)
    (h : v.BitWidth.val ≤ 64) :
    ∃ w, v.words = [w] ∧
      getIntegerAPInt mem v A = .ok (.RK_IntegerInline w v.BitWidth, mem) := by
  obtain ⟨w, hws, hw⟩ := valid_single_word hv h
  refine ⟨w, hws, ?_⟩
  have hn : v.getNumWords = 1 := by
    have := hv.2.1
    rw [hws] at this
    exact this.symm
  simp [getIntegerAPInt, hn, toUnsigned, APInt.getRawData, hws, getIntegerInt64,
    toUInt64_toInt64, Nat.mod_eq_of_lt hw, APInt.getBitWidth, pure, Except.pure]

/-- The boxed case of `getInteger`: a valid integer of more than 64 bits. -/
theorem getIntegerAPInt_boxed (mem : Memory) (A : Nat) {v : APInt} (hv : v.Valid)
    (h : 64 < v.BitWidth.val) :
    getIntegerAPInt mem v A =
      .ok (.RK_Integer mem.length v.BitWidth, mem ++ [⟨A, .words v.words⟩]) := by
  obtain ⟨hpos, hlen, hw, _⟩ := hv
  have hbw := v.BitWidth.isLt
  have hn : (toUnsigned v.getNumWords).val = v.words.length := by
    rw [hlen]
    apply toUnsigned_of_lt
    unfold APInt.getNumWords
    omega
  have hne : v.words.length ≠ 1 := by
    rw [hlen]
    unfold APInt.getNumWords
    omega
  simp [getIntegerAPInt, hn, hne, APInt.getRawData, arrayRef_length, Memory.allocate,
    APInt.getBitWidth, bind, Except.bind, pure, Except.pure]

/-- The round trip of an integer through `getInteger` and `getIntegerValue`, for the
bit widths `w` with `w + 63` below `2^32`. -/
theorem integer_round_trip_in_range (mem : Memory) (A : Nat) {v : APInt} (hv : v.Valid)
    (hrange : v.BitWidth.val + 63 < 4294967296) :
    ∃ sv mem', getIntegerAPInt mem v A = .ok (sv, mem') ∧
      getIntegerValue mem' sv = .ok v ∧ getIntegerValueBitWidth sv = .ok v.BitWidth := by
  by_cases h : v.BitWidth.val ≤ 64
  · obtain ⟨w, hws, hget⟩ := getIntegerAPInt_inline mem A hv h
    obtain ⟨_, hw⟩ := valid_single_word hv h
    refine ⟨_, _, hget, ?_, ?_⟩
    · obtain ⟨hpos, hlen, hall, hclear⟩ := hv
      have hw : w < 18446744073709551616 := hall w (by rw [hws]; simp)
      have hn : (v.BitWidth.val + 63) / 64 - 1 = 0 := by omega
      have hv' : v = ⟨v.BitWidth, [w]⟩ := by
        cases v; simp at hws; simp [hws]
      simp only [getIntegerValue, getKind, swift.assert, APInt.ofWord, hpos, hn,
        Nat.mod_eq_of_lt hw, bind, Except.bind, pure, Except.pure, List.replicate]
      simp only [beq_self_eq_true, if_true, decide_True]
      rw [← hv', hclear]
    · simp [getIntegerValueBitWidth, getKind, swift.assert, bind, Except.bind, pure,
        Except.pure]
  · have h64 : 64 < v.BitWidth.val := Nat.lt_of_not_le h
    have hget := getIntegerAPInt_boxed mem A hv h64
    refine ⟨_, _, hget, ?_, ?_⟩
    · obtain ⟨hpos, hlen, hall, hclear⟩ := hv
      have hnw : (toUnsigned (v.BitWidth.val + 63)).val / 64 = v.words.length := by
        rw [toUnsigned_of_lt hrange, hlen]
        rfl
      have hlen32 : v.words.length < 4294967296 := by
        rw [hlen]; unfold APInt.getNumWords; omega
      have hmin : min (toUnsigned v.words.length).val ((v.BitWidth.val + 63) / 64) =
          v.words.length := by
        rw [toUnsigned_of_lt hlen32, hlen]
        unfold APInt.getNumWords
        simp
      have hsub : (v.BitWidth.val + 63) / 64 - v.words.length = 0 := by
        rw [hlen]; unfold APInt.getNumWords; simp
      simp only [getIntegerValue, getKind, swift.assert, load_append_last, hnw,
        arrayRef_length, APInt.ofArray, hpos, h, hmin, hsub, bind, Except.bind, pure,
        Except.pure, List.replicate, List.take_length, List.append_nil]
      simp only [beq_self_eq_true, if_true, decide_True, if_false]
      rw [hclear]
    · simp [getIntegerValueBitWidth, getKind, swift.assert, bind, Except.bind, pure,
        Except.pure]

/-- The round trip of the integer 1 at a bit width `w` with `w + 63` at or above
`2^32`: the accessor reads no word and returns the integer 0. -/
theorem integer_round_trip_overflow (A : Nat) (bw : Unsigned) (m : Nat)
    (hn : (bw.val + 63) / 64 = m + 2) (hov : 4294967296 ≤ bw.val + 63) :
    APInt.Valid ⟨bw, 1 :: List.replicate (m + 1) 0⟩ ∧
    getIntegerAPInt [] ⟨bw, 1 :: List.replicate (m + 1) 0⟩ A =
      .ok (.RK_Integer 0 bw, [⟨A, .words (1 :: List.replicate (m + 1) 0)⟩]) ∧
    getIntegerValue [⟨A, .words (1 :: List.replicate (m + 1) 0)⟩] (.RK_Integer 0 bw) =
      .ok ⟨bw, 0 :: List.replicate (m + 1) 0⟩ := by
  have hbw := bw.isLt
  have hpos : 0 < bw.val := by omega
  have h64 : 64 < bw.val := by omega
  have hvalid : APInt.Valid ⟨bw, 1 :: List.replicate (m + 1) 0⟩ := by
    refine ⟨hpos, ?_, ?_, ?_⟩
    · simp only [APInt.getNumWords, hn, List.length_cons, List.length_replicate]
    · intro w hw
      rcases List.mem_cons.mp hw with rfl | hw
      · decide
      · rw [List.eq_of_mem_replicate hw]; decide
    · apply clearUnusedBits_of_last_zero
      simp only [APInt.getNumWords, hn]
      show (1 :: List.replicate (m + 1) 0)[m + 1]? = some 0
      rw [List.getElem?_cons_succ]
      simp
  refine ⟨hvalid, ?_, ?_⟩
  · exact getIntegerAPInt_boxed [] A hvalid h64
  · have hnw : (toUnsigned (bw.val + 63)).val / 64 = 0 := by
      simp only [toUnsigned]
      omega
    have hmin : min (toUnsigned ([] : List Nat).length).val ((bw.val + 63) / 64) = 0 := by
      simp [toUnsigned]
    have hnot : ¬ bw.val ≤ 64 := by omega
    have hload : Memory.load [⟨A, .words (1 :: List.replicate (m + 1) 0)⟩] 0 =
        .ok (.words (1 :: List.replicate (m + 1) 0)) := rfl
    simp only [getIntegerValue, getKind, swift.assert, hload, hnw, arrayRef, APInt.ofArray,
      hpos, hnot, hmin, hn, bind, Except.bind, pure, Except.pure, List.take_zero,
      List.nil_append, Nat.sub_zero]
    simp only [beq_self_eq_true, if_true, decide_True, if_false, Nat.zero_le]
    rw [clearUnusedBits_of_last_zero]
    · rfl
    · simp only [APInt.getNumWords, hn]
      show (List.replicate (m + 2) 0)[m + 1]? = some 0
      simp

/-- Why validity of a path excludes the array-address handle of the written object: such
a handle reads the object's own slot, so on `cyclicMemory` the path `[0, 1]`, which
goes through it, reads 7 before `set([1], 9)` and 9 after it.  No well-typed value is
like that: an element of the array would have the type of the array itself. -/
theorem get_through_own_address :
    SymbolicValueMemoryObject.validPath cyclicMemory 1 [1] = true ∧
    SymbolicValueMemoryObject.validPath cyclicMemory 1 [0, 1] = false ∧
    SymbolicValueMemoryObject.getIndexedElement cyclicMemory 1 [0, 1] = .ok (int32 7) ∧
    (SymbolicValueMemoryObject.setIndexedElement cyclicMemory 1 [1] (int32 9) 0 >>= fun m =>
      SymbolicValueMemoryObject.getIndexedElement m 1 [0, 1]) = .ok (int32 9) := by
  decide

/-! ## Round trips of the arena-backed factories -/

theorem arrayRef_zero {α : Type} (xs : List α) : arrayRef xs 0 = .ok [] := by
  simp [arrayRef]

theorem arrayRef_of_lt {α : Type} (xs : List α) (h : xs.length < 4294967296) :
    arrayRef xs (toUnsigned xs.length).val = .ok xs := by
  rw [toUnsigned_of_lt h]
  exact arrayRef_length xs

/-- The count of a sequence of `2^32` elements wraps to 0 in `unsigned`, so the range
read back with that count is empty. -/
theorem arrayRef_wrap {α : Type} (x : α) :
    arrayRef (List.replicate 4294967296 x)
      (toUnsigned (List.replicate 4294967296 x).length).val = .ok [] := by
  rw [List.length_replicate]
  have h : (toUnsigned 4294967296).val = 0 := by decide
  rw [h]
  exact arrayRef_zero _

theorem ok_nil_ne_replicate {α β : Type} (x : α) (f : List α → β)
    (hf : ∀ a b, f a = f b → a = b) :
    (Except.ok (f []) : Result β) ≠ .ok (f (List.replicate 4294967296 x)) := by
  intro h
  have h2 := congrArg List.length (hf _ _ (Except.ok.inj h))
  rw [List.length_replicate, List.length_nil] at h2
  exact absurd h2 (by decide)

theorem getStringValue_getString_eq (mem : Memory) (b : List Nat) (A : Nat) :
    getStringValue (getString mem b A).2 (getString mem b A).1 =
      arrayRef b (toUnsigned b.length).val := by
  simp [getString, Memory.allocate, getStringValue, getKind, swift.assert, bind, Except.bind,
    load_append_last]

theorem getAggregateValue_getAggregate_eq (mem : Memory) (es : List SymbolicValue) (A : Nat) :
    getAggregateValue (getAggregate mem es A).2 (getAggregate mem es A).1 =
      arrayRef es (toUnsigned es.length).val := by
  simp [getAggregate, Memory.allocate, getAggregateValue, getKind, swift.assert, bind,
    Except.bind, load_append_last]

theorem getArrayValue_getArray_eq (mem : Memory) (es : List SymbolicValue) (T : SwiftType)
    (A : Nat) :
    getArrayValue (getArray mem es T A).2 (getArray mem es T A).1 =
      (arrayRef es (toUnsigned es.length).val).map (fun r => (r, T)) := by
  simp only [getArray, ArraySymbolicValue.create, Memory.allocate, getArrayValue, getKind,
    swift.assert, bind, Except.bind, load_append_last, pure, Except.pure]
  cases arrayRef es (toUnsigned es.length).val <;> simp [Except.map]

theorem getAddress_nil (mem : Memory) (m : Ptr) (A : Nat) :
    getAddress mem m [] A = (getAddressDirect m, mem) := by
  simp [getAddress]

theorem getAddress_cons (mem : Memory) (m : Ptr) (i : Unsigned) (is : List Unsigned)
    (A : Nat) :
    getAddress mem m (i :: is) A =
      (.RK_DerivedAddress mem.length,
        mem ++ [⟨A, .DerivedAddressValue m (toUnsigned (i :: is).length) (i :: is)⟩]) := by
  simp [getAddress, DerivedAddressValue.create, Memory.allocate]

theorem getAddressValue_getAddress_eq (mem : Memory) (m : Ptr) (is old : List Unsigned)
    (A : Nat) :
    getAddressValue (getAddress mem m is A).2 (getAddress mem m is A).1 old =
      (arrayRef is (toUnsigned is.length).val).map (fun r => (m, r)) := by
  cases is with
  | nil =>
    have h0 : (toUnsigned 0).val = 0 := by decide
    simp [getAddress_nil, getAddressDirect, getAddressValue, getKind, swift.assert, bind,
      Except.bind, pure, Except.pure, arrayRef, Except.map, h0]
  | cons i is =>
    rw [getAddress_cons]
    simp only [getAddressValue, getKind, swift.assert, bind, Except.bind, load_append_last,
      pure, Except.pure, DerivedAddressValue.getElements]
    cases arrayRef (i :: is) (toUnsigned (i :: is).length).val <;> simp [Except.map]

theorem getAddressValueMemoryObject_getAddress (mem : Memory) (m : Ptr) (is : List Unsigned)
    (A : Nat) :
    getAddressValueMemoryObject (getAddress mem m is A).2 (getAddress mem m is A).1 = .ok m := by
  cases is with
  | nil =>
    simp [getAddress_nil, getAddressDirect, getAddressValueMemoryObject, pure, Except.pure]
  | cons i is =>
    rw [getAddress_cons]
    simp [getAddressValueMemoryObject, bind, Except.bind, load_append_last, pure, Except.pure]

theorem getUnknown_eq (mem : Memory) (n : Nat) (r : UnknownReason) (cs : List SourceLoc)
    (A : Nat) (hn : n ≠ 0) :
    getUnknown mem n r cs A =
      .ok (.RK_Unknown mem.length,
        mem ++ [⟨A, .UnknownSymbolicValue n r (toUnsigned cs.length) cs⟩]) := by
  simp [getUnknown, UnknownSymbolicValue.create, Memory.allocate, swift.assert, bind,
    Except.bind, pure, Except.pure, hn]

theorem getUnknown_null (mem : Memory) (r : UnknownReason) (cs : List SourceLoc) (A : Nat) :
    getUnknown mem 0 r cs A = .error .assertion := by
  simp [getUnknown, swift.assert, bind, Except.bind]

theorem unknown_accessors_new (mem : Memory) (n : Nat) (r : UnknownReason)
    (cs : List SourceLoc) (A : Nat) :
    getUnknownNode (mem ++ [⟨A, .UnknownSymbolicValue n r (toUnsigned cs.length) cs⟩])
        (.RK_Unknown mem.length) = .ok n ∧
    getUnknownReason (mem ++ [⟨A, .UnknownSymbolicValue n r (toUnsigned cs.length) cs⟩])
        (.RK_Unknown mem.length) = .ok r ∧
    getUnknownCallStack (mem ++ [⟨A, .UnknownSymbolicValue n r (toUnsigned cs.length) cs⟩])
        (.RK_Unknown mem.length) = arrayRef cs (toUnsigned cs.length).val := by
  simp [getUnknownNode, getUnknownReason, getUnknownCallStack, getKind, swift.assert, bind,
    Except.bind, load_append_last, pure, Except.pure, UnknownSymbolicValue.getCallStack]

theorem getEnumWithPayload_eq (mem : Memory) (c : Nat) (p : SymbolicValue) (A : Nat)
    (hc : c ≠ 0) (hp : p.isConstant = true) :
    getEnumWithPayload mem c p A =
      .ok (.RK_EnumWithPayload mem.length,
        mem ++ [⟨A, .EnumWithPayloadSymbolicValue c p⟩]) := by
  simp [getEnumWithPayload, Memory.allocate, swift.assert, bind, Except.bind, pure,
    Except.pure, hc, hp]

theorem getEnumWithPayload_fails (mem : Memory) (c : Nat) (p : SymbolicValue) (A : Nat)
    (h : c = 0 ∨ p.isConstant = false) :
    getEnumWithPayload mem c p A = .error .assertion := by
  rcases h with h | h <;> simp [getEnumWithPayload, swift.assert, bind, Except.bind, h]

theorem enum_accessors_new (mem : Memory) (c : Nat) (p : SymbolicValue) (A : Nat) :
    getEnumValue (mem ++ [⟨A, .EnumWithPayloadSymbolicValue c p⟩])
        (.RK_EnumWithPayload mem.length) = .ok c ∧
    getEnumPayloadValue (mem ++ [⟨A, .EnumWithPayloadSymbolicValue c p⟩])
        (.RK_EnumWithPayload mem.length) = .ok p := by
  simp [getEnumValue, getEnumPayloadValue, bind, Except.bind, load_append_last, pure,
    Except.pure]

/-! ## Canonical integers and the round trip of floats -/

theorem clearUnusedBits_bitWidth (a : APInt) : a.clearUnusedBits.BitWidth = a.BitWidth := by
  unfold APInt.clearUnusedBits
  cases a.words[a.getNumWords - 1]? <;> rfl

theorem clearUnusedBits_length (a : APInt) :
    a.clearUnusedBits.words.length = a.words.length := by
  unfold APInt.clearUnusedBits
  cases a.words[a.getNumWords - 1]? <;> simp

theorem clearUnusedBits_getNumWords (a : APInt) :
    a.clearUnusedBits.getNumWords = a.getNumWords := by
  unfold APInt.getNumWords
  rw [clearUnusedBits_bitWidth]

/-- Clearing the unused bits twice is clearing them once. -/
theorem clearUnusedBits_idem (a : APInt) :
    a.clearUnusedBits.clearUnusedBits = a.clearUnusedBits := by
  cases h : a.words[a.getNumWords - 1]? with
  | none =>
    have h1 : a.clearUnusedBits = a := by
      unfold APInt.clearUnusedBits
      rw [h]
    rw [h1, h1]
  | some w =>
    have h1 : a.clearUnusedBits =
        ⟨a.BitWidth, a.words.set (a.getNumWords - 1) (w % 2 ^ ((a.BitWidth.val - 1) % 64 + 1))⟩ := by
      unfold APInt.clearUnusedBits
      rw [h]
    rw [h1]
    unfold APInt.clearUnusedBits
    have hn : (APInt.mk a.BitWidth (a.words.set (a.getNumWords - 1)
        (w % 2 ^ ((a.BitWidth.val - 1) % 64 + 1)))).getNumWords = a.getNumWords := rfl
    simp only [hn]
    rw [getElem?_set_self_of_lt _ (getElem?_lt h)]
    simp only [List.set_set, Nat.mod_mod]

theorem list_length_one {α : Type} {xs : List α} (h : xs.length = 1) : ∃ x, xs = [x] := by
  match xs, h with
  | [x], _ => exact ⟨x, rfl⟩

theorem canonical_of_valid {a : APInt} (h : a.Valid) : a.Canonical :=
  ⟨h.1, h.2.1, h.2.2.2⟩

/-- A canonical integer of at most 64 bits has one word, below `2^64` and with no bit
above the bit width. -/
theorem canonical_single_word {x : APInt} (hx : x.Canonical) (h64 : x.BitWidth.val ≤ 64) :
    ∃ w, x.words = [w] ∧ w % 2 ^ ((x.BitWidth.val - 1) % 64 + 1) = w ∧
      w < 18446744073709551616 := by
  obtain ⟨hpos, hlen, hclear⟩ := hx
  have hn : x.getNumWords = 1 := by
    unfold APInt.getNumWords
    omega
  rw [hn] at hlen
  obtain ⟨w, hw⟩ := list_length_one hlen
  have hmod : w % 2 ^ ((x.BitWidth.val - 1) % 64 + 1) = w := by
    have := congrArg APInt.words hclear
    unfold APInt.clearUnusedBits at this
    rw [hn, hw] at this
    simpa using this
  refine ⟨w, hw, hmod, ?_⟩
  rw [← hmod]
  have h1 : (x.BitWidth.val - 1) % 64 + 1 ≤ 64 := by omega
  calc w % 2 ^ ((x.BitWidth.val - 1) % 64 + 1)
      < 2 ^ ((x.BitWidth.val - 1) % 64 + 1) := Nat.mod_lt _ (Nat.two_pow_pos _)
    _ ≤ 2 ^ 64 := Nat.pow_le_pow_right (by decide) h1
    _ = 18446744073709551616 := by norm_num

/-- The constructor from one word gives back a canonical integer of at most 64 bits. -/
theorem ofWord_of_canonical {x : APInt} {w : Nat} (hx : x.Canonical)
    (h64 : x.BitWidth.val ≤ 64) (hw : x.words = [w]) : APInt.ofWord x.BitWidth w = .ok x := by
  obtain ⟨w2, hw2, _, hlt⟩ := canonical_single_word hx h64
  rw [hw] at hw2
  obtain rfl : w = w2 := by simpa using hw2
  obtain ⟨hpos, hlen, hclear⟩ := hx
  have hn : (x.BitWidth.val + 63) / 64 - 1 = 0 := by omega
  have hx2 : x = ⟨x.BitWidth, [w]⟩ := by
    cases x
    simp at hw
    simp [hw]
  simp only [APInt.ofWord, swift.assert, hpos, hn, Nat.mod_eq_of_lt hlt, bind, Except.bind,
    pure, Except.pure, List.replicate, decide_True, if_true]
  rw [← hx2, hclear]

/-- The constructor from an array of words gives back a canonical integer from its own
words. -/
theorem ofArray_of_canonical {x : APInt} (hx : x.Canonical) :
    APInt.ofArray x.BitWidth x.words = .ok x := by
  by_cases h64 : x.BitWidth.val ≤ 64
  · obtain ⟨w, hw, _, _⟩ := canonical_single_word hx h64
    obtain ⟨hpos, hlen, hclear⟩ := hx
    have hx2 : x = ⟨x.BitWidth, [w]⟩ := by
      cases x
      simp at hw
      simp [hw]
    simp only [APInt.ofArray, swift.assert, hpos, h64, hw, indexChecked, bind, Except.bind,
      pure, Except.pure, decide_True, if_true, List.getElem?_cons_zero]
    rw [← hx2, hclear]
  · obtain ⟨hpos, hlen, hclear⟩ := hx
    have hbw := x.BitWidth.isLt
    have hlen32 : x.words.length < 4294967296 := by
      rw [hlen]; unfold APInt.getNumWords; omega
    have hmin : min (toUnsigned x.words.length).val ((x.BitWidth.val + 63) / 64) =
        x.words.length := by
      rw [toUnsigned_of_lt hlen32, hlen]
      unfold APInt.getNumWords
      simp
    have hsub : (x.BitWidth.val + 63) / 64 - x.words.length = 0 := by
      rw [hlen]; unfold APInt.getNumWords; simp
    simp only [APInt.ofArray, swift.assert, hpos, h64, hmin, hsub, bind, Except.bind, pure,
      Except.pure, List.replicate, List.take_length, List.append_nil, decide_True, if_true,
      if_false]
    rw [hclear]

/-- What the constructor from one word returns is canonical. -/
theorem ofWord_canonical {bw : Unsigned} {w : Nat} {x : APInt}
    (h : APInt.ofWord bw w = .ok x) : x.Canonical ∧ x.BitWidth = bw := by
  unfold APInt.ofWord at h
  by_cases hpos : 0 < bw.val
  · simp only [swift.assert, hpos, bind, Except.bind, pure, Except.pure, decide_True,
      if_true] at h
    have hx := (Except.ok.inj h).symm
    subst hx
    refine ⟨⟨?_, ?_, clearUnusedBits_idem _⟩, clearUnusedBits_bitWidth _⟩
    · rw [clearUnusedBits_bitWidth]
      exact hpos
    · rw [clearUnusedBits_length, clearUnusedBits_getNumWords]
      simp only [APInt.getNumWords, List.length_cons, List.length_replicate]
      omega
  · simp [swift.assert, hpos, bind, Except.bind] at h

/-- What the constructor from an array of words returns is canonical. -/
theorem ofArray_canonical {bw : Unsigned} {ref : List Nat} {x : APInt}
    (h : APInt.ofArray bw ref = .ok x) : x.Canonical ∧ x.BitWidth = bw := by
  unfold APInt.ofArray at h
  by_cases hpos : 0 < bw.val
  · simp only [swift.assert, hpos, bind, Except.bind, pure, Except.pure, decide_True,
      if_true] at h
    by_cases h64 : bw.val ≤ 64
    · simp only [h64, if_true] at h
      cases hi : indexChecked ref 0 with
      | error e => simp [hi] at h
      | ok w =>
        simp only [hi] at h
        have hx := (Except.ok.inj h).symm
        subst hx
        refine ⟨⟨?_, ?_, clearUnusedBits_idem _⟩, clearUnusedBits_bitWidth _⟩
        · rw [clearUnusedBits_bitWidth]
          exact hpos
        · rw [clearUnusedBits_length, clearUnusedBits_getNumWords]
          simp only [APInt.getNumWords, List.length_cons, List.length_nil]
          omega
    · simp only [h64, if_false] at h
      have hx := (Except.ok.inj h).symm
      subst hx
      refine ⟨⟨?_, ?_, clearUnusedBits_idem _⟩, clearUnusedBits_bitWidth _⟩
      · rw [clearUnusedBits_bitWidth]
        exact hpos
      · rw [clearUnusedBits_length, clearUnusedBits_getNumWords]
        have hle : (toUnsigned ref.length).val ≤ ref.length := Nat.mod_le _ _
        simp only [APInt.getNumWords, List.length_append, List.length_take,
          List.length_replicate, Nat.min_def]
        split_ifs <;> omega
  · simp [swift.assert, hpos, bind, Except.bind] at h

theorem getSizeInBits_le (sem : FltSemantics) : (APFloat.getSizeInBits sem).val ≤ 128 := by
  cases sem <;> decide

theorem numTrailingObjects_eq (sem : FltSemantics) :
    APFloatSymbolicValue.numTrailingObjects sem = ((APFloat.getSizeInBits sem).val + 63) / 64 := by
  cases sem <;> decide

theorem ofAPInt_eq {sem : FltSemantics} {x : APInt} (hsem : sem ≠ .Bogus)
    (hbw : x.BitWidth = APFloat.getSizeInBits sem) : APFloat.ofAPInt sem x = .ok ⟨sem, x⟩ := by
  simp [APFloat.ofAPInt, hsem, swift.assert, APInt.getBitWidth, hbw, bind, Except.bind, pure,
    Except.pure]

/-- The boxed case of `getFloat`: a format other than IEEE single and IEEE double. -/
theorem getFloat_boxed (mem : Memory) (A : Nat) {sem : FltSemantics} {x : APInt}
    (h1 : sem ≠ .IEEEsingle) (h2 : sem ≠ .IEEEdouble) (h3 : sem ≠ .Bogus) (hx : x.Canonical)
    (hbw : x.BitWidth = APFloat.getSizeInBits sem) :
    getFloat mem ⟨sem, x⟩ A =
      .ok (.RK_Float mem.length, mem ++ [⟨A, .APFloatSymbolicValue sem x.words⟩]) := by
  obtain ⟨hpos, hlen, hclear⟩ := hx
  have hle := getSizeInBits_le sem
  have hn : (toUnsigned ((APFloat.getSizeInBits sem).val + 63)).val / 64 = x.words.length := by
    rw [toUnsigned_of_lt (by omega), hlen, APInt.getNumWords, hbw]
  have href : arrayRef x.words x.getNumWords = .ok x.words := by
    rw [← hlen]
    exact arrayRef_length _
  simp [getFloat, APFloat.getSemantics, h1, h2, h3, APFloat.bitcastToAPInt, swift.assert,
    APInt.getRawData, href, APFloatSymbolicValue.create, hn, Memory.allocate, bind,
    Except.bind, pure, Except.pure]

/-- Reading a boxed float whose payload holds the words of a canonical bit pattern. -/
theorem getFloatValue_boxed {mem : Memory} {p : Ptr} {sem : FltSemantics} {x : APInt}
    (h3 : sem ≠ .Bogus) (hx : x.Canonical) (hbw : x.BitWidth = APFloat.getSizeInBits sem)
    (hl : mem.load p = .ok (.APFloatSymbolicValue sem x.words)) :
    getFloatValue mem (.RK_Float p) = .ok ⟨sem, x⟩ := by
  have hn : APFloatSymbolicValue.numTrailingObjects sem = x.words.length := by
    rw [numTrailingObjects_eq, hx.2.1, APInt.getNumWords, hbw]
  have hof := ofArray_of_canonical hx
  rw [hbw] at hof
  simp [getFloatValue, getKind, swift.assert, hl, APFloatSymbolicValue.getValue, hn,
    arrayRef_length, hof, ofAPInt_eq h3 hbw, bind, Except.bind]

/-- The round trip of a floating-point value through `getFloat` and `getFloatValue`,
with the storage `getFloat` chooses. -/
theorem float_round_trip_core (mem : Memory) (A : Nat) (f : APFloat)
    (hsem : f.semantics ≠ .Bogus) (hx : f.bits.Canonical)
    (hbw : f.bits.BitWidth = APFloat.getSizeInBits f.semantics) :
    ∃ v mem2, getFloat mem f A = .ok (v, mem2) ∧ getFloatValue mem2 v = .ok f ∧
      getFloatValueSemantics mem2 v = .ok f.semantics ∧ v.getKind = .Float ∧
      (f.semantics = .IEEEsingle → mem2 = mem ∧ ∃ w, f.bits.words = [w] ∧ v = .RK_Float32 w) ∧
      (f.semantics = .IEEEdouble → mem2 = mem ∧ ∃ w, f.bits.words = [w] ∧ v = .RK_Float64 w) ∧
      (f.semantics ≠ .IEEEsingle → f.semantics ≠ .IEEEdouble →
        v = .RK_Float mem.length ∧
        mem2 = mem ++ [⟨A, .APFloatSymbolicValue f.semantics f.bits.words⟩] ∧
        f.bits.words.length = ((APFloat.getSizeInBits f.semantics).val + 63) / 64) := by
  obtain ⟨sem, x⟩ := f
  simp only at hsem hx hbw ⊢
  by_cases h1 : sem = .IEEEsingle
  · subst h1
    have hv : x.BitWidth.val = 32 := by rw [hbw]; rfl
    obtain ⟨w, hw, hmod, hlt⟩ := canonical_single_word hx (by omega)
    have hmod2 : w % 4294967296 = w := by
      rw [hv] at hmod
      exact hmod
    have hof := ofWord_of_canonical hx (by omega) hw
    rw [hbw] at hof
    refine ⟨.RK_Float32 w, mem, ?_, ?_, ?_, rfl, ?_, ?_, ?_⟩
    · simp [getFloat, APFloat.getSemantics, APFloat.convertToFloat, APFloat.bitcastToAPInt,
        swift.assert, bind, Except.bind, pure, Except.pure, indexChecked, APInt.getRawData,
        hw, hmod2]
    · have hof2 : APInt.ofWord 32 w = .ok x := hof
      simp [getFloatValue, getKind, swift.assert, APFloat.ofFloat, hof2,
        ofAPInt_eq hsem hbw, bind, Except.bind]
    · simp [getFloatValueSemantics, getKind, swift.assert, bind, Except.bind, pure,
        Except.pure]
    · intro _
      exact ⟨rfl, w, hw, rfl⟩
    · intro h
      cases h
    · intro h
      exact absurd rfl h
  · by_cases h2 : sem = .IEEEdouble
    · subst h2
      have hv : x.BitWidth.val = 64 := by rw [hbw]; rfl
      obtain ⟨w, hw, hmod, hlt⟩ := canonical_single_word hx (by omega)
      have hof := ofWord_of_canonical hx (by omega) hw
      rw [hbw] at hof
      refine ⟨.RK_Float64 w, mem, ?_, ?_, ?_, rfl, ?_, ?_, ?_⟩
      · simp [getFloat, APFloat.getSemantics, APFloat.convertToDouble,
          APFloat.bitcastToAPInt, swift.assert, bind, Except.bind, pure, Except.pure,
          indexChecked, APInt.getRawData, hw, Nat.mod_eq_of_lt hlt]
      · have hof2 : APInt.ofWord 64 w = .ok x := hof
        simp [getFloatValue, getKind, swift.assert, APFloat.ofDouble, hof2,
          ofAPInt_eq hsem hbw, bind, Except.bind]
      · simp [getFloatValueSemantics, getKind, swift.assert, bind, Except.bind, pure,
          Except.pure]
      · intro h
        cases h
      · intro _
        exact ⟨rfl, w, hw, rfl⟩
      · intro _ h
        exact absurd rfl h
    · refine ⟨_, _, getFloat_boxed mem A h1 h2 hsem hx hbw, ?_, ?_, rfl, ?_, ?_, ?_⟩
      · exact getFloatValue_boxed hsem hx hbw (load_append_last mem _)
      · simp [getFloatValueSemantics, getKind, swift.assert, load_append_last, bind,
          Except.bind, pure, Except.pure]
      · intro h
        exact absurd h h1
      · intro h
        exact absurd h h2
      · intro _ _
        refine ⟨rfl, rfl, ?_⟩
        rw [hx.2.1, APInt.getNumWords, hbw]

/-! ## The kind of what the factories return -/

theorem getIntegerAPInt_kind {mem : Memory} {value : APInt} {A : Nat}
    {r : SymbolicValue × Memory} (h : getIntegerAPInt mem value A = .ok r) :
    r.1.getKind = .Integer := by
  by_cases hn : (toUnsigned value.getNumWords).val = 1
  · cases hw : value.getRawData[0]? with
    | none => simp [getIntegerAPInt, hn, hw] at h
    | some w =>
      simp only [getIntegerAPInt, hn, hw, pure, Except.pure, if_true] at h
      rw [← Except.ok.inj h]
      rfl
  · cases hc : arrayRef value.getRawData (toUnsigned value.getNumWords).val with
    | error e => simp [getIntegerAPInt, hn, hc, bind, Except.bind] at h
    | ok copied =>
      simp only [getIntegerAPInt, hn, hc, bind, Except.bind, pure, Except.pure,
        Memory.allocate, if_false] at h
      rw [← Except.ok.inj h]
      rfl

theorem getFloat_kind {mem : Memory} {value : APFloat} {A : Nat}
    {r : SymbolicValue × Memory} (h : getFloat mem value A = .ok r) :
    r.1.getKind = .Float := by
  by_cases h1 : value.getSemantics = .IEEEsingle
  · cases hc : value.convertToFloat with
    | error e => simp [getFloat, h1, hc, bind, Except.bind] at h
    | ok w =>
      simp only [getFloat, h1, hc, bind, Except.bind, pure, Except.pure, if_true] at h
      rw [← Except.ok.inj h]
      rfl
  · by_cases h2 : value.getSemantics = .IEEEdouble
    · cases hc : value.convertToDouble with
      | error e => simp [getFloat, h1, h2, hc, bind, Except.bind] at h
      | ok w =>
        simp only [getFloat, h1, h2, hc, bind, Except.bind, pure, Except.pure, if_true,
          if_false] at h
        rw [← Except.ok.inj h]
        rfl
    · cases hb : value.bitcastToAPInt with
      | error e => simp [getFloat, h1, h2, hb, bind, Except.bind] at h
      | ok val =>
        cases hr : arrayRef val.getRawData val.getNumWords with
        | error e => simp [getFloat, h1, h2, hb, hr, bind, Except.bind] at h
        | ok elements =>
          cases hc : APFloatSymbolicValue.create mem value.getSemantics elements A with
          | error e => simp [getFloat, h1, h2, hb, hr, hc, bind, Except.bind] at h
          | ok pm =>
            simp only [getFloat, h1, h2, hb, hr, hc, bind, Except.bind, pure, Except.pure,
              if_false] at h
            rw [← Except.ok.inj h]
            rfl

theorem getUnknown_kind {mem : Memory} {n : Nat} {rs : UnknownReason} {cs : List SourceLoc}
    {A : Nat} {r : SymbolicValue × Memory} (h : getUnknown mem n rs cs A = .ok r) :
    r.1.getKind = .Unknown := by
  by_cases hn : n = 0
  · rw [hn, getUnknown_null] at h
    cases h
  · rw [getUnknown_eq mem n rs cs A hn] at h
    rw [← Except.ok.inj h]
    rfl

theorem getEnumWithPayload_kind {mem : Memory} {c : Nat} {p : SymbolicValue} {A : Nat}
    {r : SymbolicValue × Memory} (h : getEnumWithPayload mem c p A = .ok r) :
    r.1.getKind = .EnumWithPayload := by
  by_cases hc : c ≠ 0 ∧ p.isConstant = true
  · rw [getEnumWithPayload_eq mem c p A hc.1 hc.2] at h
    rw [← Except.ok.inj h]
    rfl
  · have hf : c = 0 ∨ p.isConstant = false := by
      by_cases h0 : c = 0
      · exact Or.inl h0
      · right
        cases hp : p.isConstant
        · rfl
        · exact absurd ⟨h0, hp⟩ hc
    rw [getEnumWithPayload_fails mem c p A hf] at h
    cases h

theorem getAddress_kind (mem : Memory) (m : Ptr) (is : List Unsigned) (A : Nat) :
    (getAddress mem m is A).1.getKind = .Address := by
  cases is <;> rfl

/-! ## Which values fail the assertions of the accessors -/

theorem load_cases (mem : Memory) (p : Ptr) :
    mem.load p = .error .undefinedBehavior ∨ ∃ o, mem.load p = .ok o := by
  unfold Memory.load
  cases mem[p]? with
  | none => exact Or.inl rfl
  | some a => exact Or.inr ⟨a.object, rfl⟩

theorem arrayRef_ne_assertion {α : Type} (xs : List α) (n : Nat) :
    arrayRef xs n ≠ .error .assertion := by
  unfold arrayRef
  split <;> simp

theorem getStringValue_assertion_iff (mem : Memory) (v : SymbolicValue) :
    getStringValue mem v = .error .assertion ↔ v.getKind ≠ .String := by
  cases v <;> simp [getStringValue, getKind, swift.assert, bind, Except.bind]
  case RK_String p n =>
    rcases load_cases mem p with h | ⟨o, h⟩
    · simp [h]
    · cases o <;> simp [h, arrayRef_ne_assertion]

theorem getAggregateValue_assertion_iff (mem : Memory) (v : SymbolicValue) :
    getAggregateValue mem v = .error .assertion ↔ v.getKind ≠ .Aggregate := by
  cases v <;> simp [getAggregateValue, getKind, swift.assert, bind, Except.bind]
  case RK_Aggregate p n =>
    rcases load_cases mem p with h | ⟨o, h⟩
    · simp [h]
    · cases o <;> simp [h, arrayRef_ne_assertion]

theorem getIntegerValueBitWidth_assertion_iff (v : SymbolicValue) :
    getIntegerValueBitWidth v = .error .assertion ↔ v.getKind ≠ .Integer := by
  cases v <;> simp [getIntegerValueBitWidth, getKind, swift.assert, bind, Except.bind, pure,
    Except.pure]

theorem getFloatValueSemantics_assertion_iff (mem : Memory) (v : SymbolicValue) :
    getFloatValueSemantics mem v = .error .assertion ↔ v.getKind ≠ .Float := by
  cases v <;> simp [getFloatValueSemantics, getKind, swift.assert, bind, Except.bind, pure,
    Except.pure]
  case RK_Float p =>
    rcases load_cases mem p with h | ⟨o, h⟩
    · simp [h]
    · cases o <;> simp [h]

theorem getUnknownNode_assertion_iff (mem : Memory) (v : SymbolicValue) :
    getUnknownNode mem v = .error .assertion ↔ v.getKind ≠ .Unknown := by
  cases v <;> simp [getUnknownNode, getKind, swift.assert, bind, Except.bind, pure,
    Except.pure]
  case RK_Unknown p =>
    rcases load_cases mem p with h | ⟨o, h⟩
    · simp [h]
    · cases o <;> simp [h]

theorem getUnknownReason_assertion_iff (mem : Memory) (v : SymbolicValue) :
    getUnknownReason mem v = .error .assertion ↔ v.getKind ≠ .Unknown := by
  cases v <;> simp [getUnknownReason, getKind, swift.assert, bind, Except.bind, pure,
    Except.pure]
  case RK_Unknown p =>
    rcases load_cases mem p with h | ⟨o, h⟩
    · simp [h]
    · cases o <;> simp [h]

theorem getUnknownCallStack_assertion_iff (mem : Memory) (v : SymbolicValue) :
    getUnknownCallStack mem v = .error .assertion ↔ v.getKind ≠ .Unknown := by
  cases v <;> simp [getUnknownCallStack, getKind, swift.assert, bind, Except.bind]
  case RK_Unknown p =>
    rcases load_cases mem p with h | ⟨o, h⟩
    · simp [h]
    · cases o <;> simp [h, UnknownSymbolicValue.getCallStack, arrayRef_ne_assertion]

theorem getEnumValue_assertion_iff (mem : Memory) (v : SymbolicValue) :
    getEnumValue mem v = .error .assertion ↔
      (v.getKind ≠ .Enum ∧ v.getKind ≠ .EnumWithPayload) := by
  cases v <;> simp [getEnumValue, getKind, bind, Except.bind, pure, Except.pure]
  case RK_EnumWithPayload p =>
    rcases load_cases mem p with h | ⟨o, h⟩
    · simp [h]
    · cases o <;> simp [h]

theorem getEnumPayloadValue_assertion_iff (mem : Memory) (v : SymbolicValue) :
    getEnumPayloadValue mem v = .error .assertion ↔ v.getKind ≠ .EnumWithPayload := by
  cases v <;> simp [getEnumPayloadValue, getKind, bind, Except.bind, pure, Except.pure]
  case RK_EnumWithPayload p =>
    rcases load_cases mem p with h | ⟨o, h⟩
    · simp [h]
    · cases o <;> simp [h]

theorem getAddressValue_assertion_iff (mem : Memory) (v : SymbolicValue)
    (old : List Unsigned) :
    getAddressValue mem v old = .error .assertion ↔ v.getKind ≠ .Address := by
  cases v <;> simp [getAddressValue, getKind, swift.assert, bind, Except.bind, pure,
    Except.pure]
  case RK_DerivedAddress p =>
    rcases load_cases mem p with h | ⟨o, h⟩
    · simp [h]
    · cases o <;> simp [h, DerivedAddressValue.getElements]
      case DerivedAddressValue m n trailing =>
        cases h : arrayRef trailing n.val with
        | error e =>
          simp
          intro he
          exact arrayRef_ne_assertion _ _ (he ▸ h)
        | ok r => simp

theorem getAddressValueMemoryObject_assertion_iff (mem : Memory) (v : SymbolicValue) :
    getAddressValueMemoryObject mem v = .error .assertion ↔ v.getKind ≠ .Address := by
  cases v <;> simp [getAddressValueMemoryObject, getKind, bind, Except.bind, pure,
    Except.pure]
  case RK_DerivedAddress p =>
    rcases load_cases mem p with h | ⟨o, h⟩
    · simp [h]
    · cases o <;> simp [h]

theorem unsigned_pos {bw : Unsigned} (h : bw ≠ 0) : 0 < bw.val := by
  rcases Nat.eq_zero_or_pos bw.val with h0 | h0
  · exact absurd (Fin.ext h0) h
  · exact h0

theorem ofWord_assertion_iff (bw : Unsigned) (w : Nat) :
    APInt.ofWord bw w = .error .assertion ↔ bw = 0 := by
  constructor
  · intro h
    by_contra hne
    simp [APInt.ofWord, swift.assert, unsigned_pos hne, bind, Except.bind, pure,
      Except.pure] at h
  · rintro rfl
    rfl

theorem ofArray_zero (ref : List Nat) : APInt.ofArray 0 ref = .error .assertion := rfl

/-- The constructor from an array of words returns when the bit width is positive and a
single-word integer is given a word. -/
theorem ofArray_ok {bw : Unsigned} {ref : List Nat} (hpos : 0 < bw.val)
    (href : bw.val ≤ 64 → ref ≠ []) : ∃ x, APInt.ofArray bw ref = .ok x := by
  by_cases h64 : bw.val ≤ 64
  · cases ref with
    | nil => exact absurd rfl (href h64)
    | cons w ws =>
      exact ⟨APInt.clearUnusedBits ⟨bw, [w]⟩, by
        simp [APInt.ofArray, swift.assert, hpos, h64, indexChecked, bind, Except.bind, pure,
          Except.pure]⟩
  · exact ⟨APInt.clearUnusedBits ⟨bw,
        ref.take (min (toUnsigned ref.length).val ((bw.val + 63) / 64)) ++
          List.replicate ((bw.val + 63) / 64 -
            min (toUnsigned ref.length).val ((bw.val + 63) / 64)) 0⟩, by
      simp [APInt.ofArray, swift.assert, hpos, h64, bind, Except.bind, pure, Except.pure]⟩

theorem arrayRef_ok {α : Type} {xs ys : List α} {n : Nat} (h : arrayRef xs n = .ok ys) :
    n ≤ xs.length ∧ ys = xs.take n := by
  unfold arrayRef at h
  split at h
  · exact ⟨by assumption, (Except.ok.inj h).symm⟩
  · cases h

theorem arrayRef_cases {α : Type} (xs : List α) (n : Nat) :
    arrayRef xs n = .error .undefinedBehavior ∨ (n ≤ xs.length ∧ arrayRef xs n = .ok (xs.take n)) := by
  unfold arrayRef
  split
  · exact Or.inr ⟨by assumption, rfl⟩
  · exact Or.inl rfl

theorem getIntegerValue_assertion_iff (mem : Memory) (v : SymbolicValue) :
    getIntegerValue mem v = .error .assertion ↔
      (v.getKind ≠ .Integer ∨ (∃ w, v = .RK_IntegerInline w 0) ∨
        ∃ p data, v = .RK_Integer p 0 ∧ mem.load p = .ok (.words data)) := by
  cases v <;> simp [getIntegerValue, getKind, swift.assert, bind, Except.bind]
  case RK_IntegerInline w bw =>
    exact ofWord_assertion_iff bw w
  case RK_Integer p bw =>
    rcases load_cases mem p with h | ⟨o, h⟩
    · simp [h]
    · cases o <;> simp [h]
      case words data =>
        by_cases hbw : bw = 0
        · subst hbw
          have h0 : (toUnsigned 63).val / 64 = 0 := by decide
          simp [arrayRef, ofArray_zero, h0, h]
        · simp only [hbw, iff_false]
          have hpos := unsigned_pos hbw
          have hlt := bw.isLt
          rcases arrayRef_cases data ((toUnsigned (bw.val + 63)).val / 64) with hr | ⟨hle, hr⟩
          · simp [hr]
          · rw [hr]
            simp only
            obtain ⟨x, hx⟩ := @ofArray_ok bw (data.take ((toUnsigned (bw.val + 63)).val / 64))
              hpos (by
                intro h64 hnil
                have hlen := congrArg List.length hnil
                have hn : (toUnsigned (bw.val + 63)).val / 64 = 1 := by
                  rw [toUnsigned_of_lt (by omega)]
                  omega
                rw [hn] at hlen hle
                simp only [List.length_take, List.length_nil] at hlen
                omega)
            rw [hx]
            simp

theorem getArrayValue_assertion_iff (mem : Memory) (v : SymbolicValue) :
    getArrayValue mem v = .error .assertion ↔
      (v.getKind ≠ .Array ∨ ∃ m T val, v = .RK_ArrayAddress m ∧
        mem.load m = .ok (.SymbolicValueMemoryObject T val) ∧ ∀ a, val ≠ .RK_Array a) := by
  have key : ∀ a, getArrayValue mem (.RK_Array a) ≠ .error .assertion := by
    intro a
    rcases load_cases mem a with h | ⟨o, h⟩
    · simp [getArrayValue, getKind, swift.assert, bind, Except.bind, pure, Except.pure, h]
    · cases o <;>
        simp [getArrayValue, getKind, swift.assert, bind, Except.bind, pure, Except.pure, h]
      case ArraySymbolicValue T n trailing =>
        rcases arrayRef_cases trailing n.val with hr | ⟨_, hr⟩ <;> simp [hr]
  cases v
  case RK_Array p =>
    simp only [getKind, ne_eq, not_true_eq_false, false_or]
    constructor
    · intro h
      exact absurd h (key p)
    · rintro ⟨m, T, val, hv, _⟩
      cases hv
  case RK_ArrayAddress m =>
    simp only [getKind, ne_eq, not_true_eq_false, false_or]
    constructor
    · intro hf
      rcases load_cases mem m with h | ⟨o, h⟩
      · simp [getArrayValue, getKind, swift.assert, bind, Except.bind, pure, Except.pure,
          h] at hf
      · cases o
        case SymbolicValueMemoryObject T val =>
          refine ⟨m, T, val, rfl, h, ?_⟩
          rintro a rfl
          apply key a
          rw [← hf]
          simp [getArrayValue, getKind, swift.assert, bind, Except.bind, pure, Except.pure, h]
        all_goals
          simp [getArrayValue, getKind, swift.assert, bind, Except.bind, pure, Except.pure,
            h] at hf
    · rintro ⟨m2, T, val, hv, hl, hne⟩
      cases hv
      cases val
      case RK_Array a => exact absurd rfl (hne a)
      all_goals
        simp [getArrayValue, getKind, swift.assert, bind, Except.bind, pure, Except.pure, hl]
  all_goals simp [getArrayValue, getKind, swift.assert, bind, Except.bind]

theorem ofWord_ok {bw : Unsigned} (w : Nat) (hpos : 0 < bw.val) :
    ∃ x, APInt.ofWord bw w = .ok x ∧ x.BitWidth = bw := by
  refine ⟨APInt.clearUnusedBits
    ⟨bw, (w % 18446744073709551616) :: List.replicate ((bw.val + 63) / 64 - 1) 0⟩, ?_,
    clearUnusedBits_bitWidth _⟩
  simp [APInt.ofWord, swift.assert, hpos, bind, Except.bind, pure, Except.pure]

theorem getFloatValue_assertion_iff (mem : Memory) (v : SymbolicValue) :
    getFloatValue mem v = .error .assertion ↔
      (v.getKind ≠ .Float ∨ ∃ p trailing, v = .RK_Float p ∧
        mem.load p = .ok (.APFloatSymbolicValue .Bogus trailing)) := by
  cases v <;> simp [getFloatValue, getKind, swift.assert, bind, Except.bind]
  case RK_Float32 w =>
    obtain ⟨x, hx, hbw⟩ := @ofWord_ok 32 w (by decide)
    simp [APFloat.ofFloat, hx, bind, Except.bind, @ofAPInt_eq .IEEEsingle x (by decide) hbw]
  case RK_Float64 w =>
    obtain ⟨x, hx, hbw⟩ := @ofWord_ok 64 w (by decide)
    simp [APFloat.ofDouble, hx, bind, Except.bind, @ofAPInt_eq .IEEEdouble x (by decide) hbw]
  case RK_Float p =>
    rcases load_cases mem p with h | ⟨o, h⟩
    · simp [h]
    · cases o <;> simp [h]
      case APFloatSymbolicValue sem trailing =>
        by_cases hs : sem = .Bogus
        · subst hs
          simp [APFloatSymbolicValue.getValue, numTrailingObjects_eq, arrayRef_zero,
            APFloat.getSizeInBits, bind, Except.bind, ofArray_zero]
        · simp only [hs, iff_false]
          have hpos : 0 < (APFloat.getSizeInBits sem).val := by
            cases sem <;> first | decide | exact absurd rfl hs
          rcases arrayRef_cases trailing (APFloatSymbolicValue.numTrailingObjects sem) with
            hr | ⟨hle, hr⟩
          · simp [APFloatSymbolicValue.getValue, hr, bind, Except.bind]
          · obtain ⟨x, hx⟩ := @ofArray_ok (APFloat.getSizeInBits sem)
              (trailing.take (APFloatSymbolicValue.numTrailingObjects sem)) hpos (by
                intro h64 hnil
                have hlen := congrArg List.length hnil
                have hn : APFloatSymbolicValue.numTrailingObjects sem = 1 := by
                  rw [numTrailingObjects_eq]
                  omega
                rw [hn] at hlen hle
                simp only [List.length_take, List.length_nil] at hlen
                omega)
            have hbw := (ofArray_canonical hx).2
            simp [APFloatSymbolicValue.getValue, hr, hx, ofAPInt_eq hs hbw, bind, Except.bind]

/-! ## Accessors in an extended memory -/

theorem load_append {mem : Memory} {p : Ptr} {o : ArenaObject} (ext : Memory)
    (h : mem.load p = .ok o) : Memory.load (mem ++ ext) p = .ok o := by
  have hlt := load_lt h
  unfold Memory.load at h ⊢
  rw [List.getElem?_append_left hlt]
  exact h

theorem getUnknownNode_append {mem : Memory} {v : SymbolicValue} {r : Nat} (ext : Memory)
    (h : getUnknownNode mem v = .ok r) : getUnknownNode (mem ++ ext) v = .ok r := by
  cases v <;> simp [getUnknownNode, getKind, swift.assert, bind, Except.bind] at h ⊢
  case RK_Unknown p =>
    rcases load_cases mem p with hl | ⟨o, hl⟩
    · simp [hl] at h
    · rw [load_append ext hl]
      rw [hl] at h
      exact h

theorem getUnknownReason_append {mem : Memory} {v : SymbolicValue} {r : UnknownReason}
    (ext : Memory) (h : getUnknownReason mem v = .ok r) :
    getUnknownReason (mem ++ ext) v = .ok r := by
  cases v <;> simp [getUnknownReason, getKind, swift.assert, bind, Except.bind] at h ⊢
  case RK_Unknown p =>
    rcases load_cases mem p with hl | ⟨o, hl⟩
    · simp [hl] at h
    · rw [load_append ext hl]
      rw [hl] at h
      exact h

theorem getUnknownCallStack_append {mem : Memory} {v : SymbolicValue} {r : List SourceLoc}
    (ext : Memory) (h : getUnknownCallStack mem v = .ok r) :
    getUnknownCallStack (mem ++ ext) v = .ok r := by
  cases v <;> simp [getUnknownCallStack, getKind, swift.assert, bind, Except.bind] at h ⊢
  case RK_Unknown p =>
    rcases load_cases mem p with hl | ⟨o, hl⟩
    · simp [hl] at h
    · rw [load_append ext hl]
      rw [hl] at h
      exact h

theorem getIntegerValue_append {mem : Memory} {v : SymbolicValue} {r : APInt} (ext : Memory)
    (h : getIntegerValue mem v = .ok r) : getIntegerValue (mem ++ ext) v = .ok r := by
  cases v <;> simp [getIntegerValue, getKind, swift.assert, bind, Except.bind] at h ⊢
  case RK_IntegerInline w bw => exact h
  case RK_Integer p bw =>
    rcases load_cases mem p with hl | ⟨o, hl⟩
    · simp [hl] at h
    · rw [load_append ext hl]
      rw [hl] at h
      exact h

theorem getFloatValue_append {mem : Memory} {v : SymbolicValue} {r : APFloat} (ext : Memory)
    (h : getFloatValue mem v = .ok r) : getFloatValue (mem ++ ext) v = .ok r := by
  cases v <;> simp [getFloatValue, getKind, swift.assert, bind, Except.bind] at h ⊢
  case RK_Float32 w => exact h
  case RK_Float64 w => exact h
  case RK_Float p =>
    rcases load_cases mem p with hl | ⟨o, hl⟩
    · simp [hl] at h
    · rw [load_append ext hl]
      rw [hl] at h
      exact h

theorem getStringValue_append {mem : Memory} {v : SymbolicValue} {r : List Nat} (ext : Memory)
    (h : getStringValue mem v = .ok r) : getStringValue (mem ++ ext) v = .ok r := by
  cases v <;> simp [getStringValue, getKind, swift.assert, bind, Except.bind] at h ⊢
  case RK_String p n =>
    rcases load_cases mem p with hl | ⟨o, hl⟩
    · simp [hl] at h
    · rw [load_append ext hl]
      rw [hl] at h
      exact h

theorem getAggregateValue_append {mem : Memory} {v : SymbolicValue} {r : List SymbolicValue}
    (ext : Memory) (h : getAggregateValue mem v = .ok r) :
    getAggregateValue (mem ++ ext) v = .ok r := by
  rcases getAggregateValue_ok h with ⟨p, n, data, rfl, hl, hn, rfl⟩
  exact getAggregateValue_of_load (load_append ext hl) hn

theorem getArrayValue_append {mem : Memory} {v : SymbolicValue}
    {r : List SymbolicValue × SwiftType} (ext : Memory) (h : getArrayValue mem v = .ok r) :
    getArrayValue (mem ++ ext) v = .ok r := by
  obtain ⟨es, T⟩ := r
  rcases getArrayValue_ok h with ⟨p, n, data, hl, hn, rfl, hcase⟩
  rcases hcase with rfl | ⟨m, T2, rfl, hm⟩
  · exact getArrayValue_of_load (load_append ext hl) hn
  · exact getArrayValue_of_load_address (load_append ext hm) (load_append ext hl) hn

theorem getEnumValue_append {mem : Memory} {v : SymbolicValue} {r : Nat} (ext : Memory)
    (h : getEnumValue mem v = .ok r) : getEnumValue (mem ++ ext) v = .ok r := by
  cases v <;> simp [getEnumValue, bind, Except.bind] at h ⊢
  case RK_Enum d => exact h
  case RK_EnumWithPayload p =>
    rcases load_cases mem p with hl | ⟨o, hl⟩
    · simp [hl] at h
    · rw [load_append ext hl]
      rw [hl] at h
      exact h

theorem getEnumPayloadValue_append {mem : Memory} {v : SymbolicValue} {r : SymbolicValue}
    (ext : Memory) (h : getEnumPayloadValue mem v = .ok r) :
    getEnumPayloadValue (mem ++ ext) v = .ok r := by
  cases v <;> simp [getEnumPayloadValue, bind, Except.bind] at h ⊢
  case RK_EnumWithPayload p =>
    rcases load_cases mem p with hl | ⟨o, hl⟩
    · simp [hl] at h
    · rw [load_append ext hl]
      rw [hl] at h
      exact h

theorem getAddressValue_append {mem : Memory} {v : SymbolicValue} {old : List Unsigned}
    {r : Ptr × List Unsigned} (ext : Memory) (h : getAddressValue mem v old = .ok r) :
    getAddressValue (mem ++ ext) v old = .ok r := by
  cases v <;> simp [getAddressValue, getKind, swift.assert, bind, Except.bind] at h ⊢
  case RK_DirectAddress m => exact h
  case RK_DerivedAddress p =>
    rcases load_cases mem p with hl | ⟨o, hl⟩
    · simp [hl] at h
    · rw [load_append ext hl]
      rw [hl] at h
      exact h

theorem fields_append {mem : Memory} {m : Ptr} {r : SwiftType × SymbolicValue} (ext : Memory)
    (h : SymbolicValueMemoryObject.fields mem m = .ok r) :
    SymbolicValueMemoryObject.fields (mem ++ ext) m = .ok r := by
  simp only [SymbolicValueMemoryObject.fields, bind, Except.bind] at h ⊢
  rcases load_cases mem m with hl | ⟨o, hl⟩
  · simp [hl] at h
  · rw [load_append ext hl]
    rw [hl] at h
    exact h

/-! ## The structure of a value in an extended memory -/

theorem contentElements_mono {f g : SymbolicValue → Option Content}
    (hfg : ∀ e c, f e = some c → g e = some c) :
    ∀ (es : List SymbolicValue) (cs : List Content),
      contentElements f es = some cs → contentElements g es = some cs := by
  intro es
  induction es with
  | nil =>
    intro cs h
    exact h
  | cons e es ih =>
    intro cs h
    unfold contentElements at h ⊢
    cases hf : f e with
    | none => simp [hf] at h
    | some c =>
      cases hr : contentElements f es with
      | none => simp [hf, hr] at h
      | some cs2 =>
        rw [hfg e c hf, ih cs2 hr]
        simpa [hf, hr] using h

theorem content_integer {d : Nat} {mem : Memory} {v : SymbolicValue}
    (hk : v.getKind = .Integer) :
    content (d + 1) mem v =
      match getIntegerValue mem v with
      | .ok value => some (.integer value)
      | .error _ => none := by
  simp only [content, hk]

theorem content_float {d : Nat} {mem : Memory} {v : SymbolicValue}
    (hk : v.getKind = .Float) :
    content (d + 1) mem v =
      match getFloatValue mem v with
      | .ok value => some (.float value)
      | .error _ => none := by
  simp only [content, hk]

theorem content_string {d : Nat} {mem : Memory} {v : SymbolicValue}
    (hk : v.getKind = .String) :
    content (d + 1) mem v =
      match getStringValue mem v with
      | .ok bytes => some (.string bytes)
      | .error _ => none := by
  simp only [content, hk]

theorem content_aggregate {d : Nat} {mem : Memory} {v : SymbolicValue}
    (hk : v.getKind = .Aggregate) :
    content (d + 1) mem v =
      match getAggregateValue mem v with
      | .ok elements => (contentElements (content d mem) elements).map .aggregate
      | .error _ => none := by
  simp only [content, hk]

theorem content_array {d : Nat} {mem : Memory} {v : SymbolicValue}
    (hk : v.getKind = .Array) :
    content (d + 1) mem v =
      match getArrayValue mem v with
      | .ok (elements, elementType) =>
        (contentElements (content d mem) elements).map (.array elementType)
      | .error _ => none := by
  simp only [content, hk]

theorem content_unknown {d : Nat} {mem : Memory} {v : SymbolicValue}
    (hk : v.getKind = .Unknown) :
    content (d + 1) mem v =
      match getUnknownNode mem v, getUnknownReason mem v, getUnknownCallStack mem v with
      | .ok node, .ok reason, .ok callStack => some (.unknown node reason callStack)
      | _, _, _ => none := by
  simp only [content, hk]

theorem content_enum {d : Nat} {mem : Memory} {v : SymbolicValue}
    (hk : v.getKind = .Enum) :
    content (d + 1) mem v =
      match getEnumValue mem v with
      | .ok decl => some (.enum decl)
      | .error _ => none := by
  simp only [content, hk]

theorem content_enumWithPayload {d : Nat} {mem : Memory} {v : SymbolicValue}
    (hk : v.getKind = .EnumWithPayload) :
    content (d + 1) mem v =
      match getEnumValue mem v, getEnumPayloadValue mem v with
      | .ok decl, .ok payload =>
        if decl ≠ 0 ∧ payload.isConstant = true then some (.enumWithPayload decl payload)
        else none
      | _, _ => none := by
  simp only [content, hk]

theorem content_address {d : Nat} {mem : Memory} {v : SymbolicValue}
    (hk : v.getKind = .Address) :
    content (d + 1) mem v =
      match getAddressValue mem v [] with
      | .ok (memoryObject, accessPath) =>
        match SymbolicValueMemoryObject.fields mem memoryObject with
        | .ok (type, value) => some (.address type value accessPath)
        | .error _ => none
      | .error _ => none := by
  simp only [content, hk]

/-- The structure of a value is the same in every extension of the memory. -/
theorem content_append (ext : Memory) :
    ∀ (d : Nat) (mem : Memory) (v : SymbolicValue) (c : Content),
      content d mem v = some c → content d (mem ++ ext) v = some c := by
  intro d
  induction d with
  | zero =>
    intro mem v c h
    simp [content] at h
  | succ d ih =>
    intro mem v c h
    cases hk : v.getKind
    case UninitMemory =>
      simp only [content, hk] at h ⊢
      exact h
    case Unknown =>
      rw [content_unknown hk] at h ⊢
      cases h1 : getUnknownNode mem v with
      | error e => simp [h1] at h
      | ok n =>
        cases h2 : getUnknownReason mem v with
        | error e => simp [h1, h2] at h
        | ok r =>
          cases h3 : getUnknownCallStack mem v with
          | error e => simp [h1, h2, h3] at h
          | ok cs =>
            rw [getUnknownNode_append ext h1, getUnknownReason_append ext h2,
              getUnknownCallStack_append ext h3]
            simpa [h1, h2, h3] using h
    case Metatype =>
      simp only [content, hk] at h ⊢
      exact h
    case Function =>
      simp only [content, hk] at h ⊢
      exact h
    case Integer =>
      rw [content_integer hk] at h ⊢
      cases h1 : getIntegerValue mem v with
      | error e => simp [h1] at h
      | ok x =>
        rw [getIntegerValue_append ext h1]
        simpa [h1] using h
    case Float =>
      rw [content_float hk] at h ⊢
      cases h1 : getFloatValue mem v with
      | error e => simp [h1] at h
      | ok x =>
        rw [getFloatValue_append ext h1]
        simpa [h1] using h
    case String =>
      rw [content_string hk] at h ⊢
      cases h1 : getStringValue mem v with
      | error e => simp [h1] at h
      | ok x =>
        rw [getStringValue_append ext h1]
        simpa [h1] using h
    case Aggregate =>
      rw [content_aggregate hk] at h ⊢
      cases h1 : getAggregateValue mem v with
      | error e => simp [h1] at h
      | ok es =>
        rw [getAggregateValue_append ext h1]
        simp only [h1] at h ⊢
        cases h2 : contentElements (content d mem) es with
        | none => simp [h2] at h
        | some cs =>
          rw [contentElements_mono (ih mem) es cs h2]
          simpa [h2] using h
    case Enum =>
      rw [content_enum hk] at h ⊢
      cases h1 : getEnumValue mem v with
      | error e => simp [h1] at h
      | ok x =>
        rw [getEnumValue_append ext h1]
        simpa [h1] using h
    case EnumWithPayload =>
      rw [content_enumWithPayload hk] at h ⊢
      cases h1 : getEnumValue mem v with
      | error e => simp [h1] at h
      | ok x =>
        cases h2 : getEnumPayloadValue mem v with
        | error e => simp [h1, h2] at h
        | ok p =>
          rw [getEnumValue_append ext h1, getEnumPayloadValue_append ext h2]
          simpa [h1, h2] using h
    case Address =>
      rw [content_address hk] at h ⊢
      cases h1 : getAddressValue mem v [] with
      | error e => simp [h1] at h
      | ok r =>
        obtain ⟨m, path⟩ := r
        cases h2 : SymbolicValueMemoryObject.fields mem m with
        | error e => simp [h1, h2] at h
        | ok r2 =>
          rw [getAddressValue_append ext h1]
          simp only
          rw [fields_append ext h2]
          simpa [h1, h2] using h
    case Array =>
      rw [content_array hk] at h ⊢
      cases h1 : getArrayValue mem v with
      | error e => simp [h1] at h
      | ok r =>
        obtain ⟨es, T⟩ := r
        rw [getArrayValue_append ext h1]
        simp only [h1] at h ⊢
        cases h2 : contentElements (content d mem) es with
        | none => simp [h2] at h
        | some cs =>
          rw [contentElements_mono (ih mem) es cs h2]
          simpa [h2] using h

/-! ## Cloning the scalars -/

theorem valid_of_canonical_single {x : APInt} (hx : x.Canonical) (h64 : x.BitWidth.val ≤ 64) :
    x.Valid := by
  obtain ⟨w, hw, _, hlt⟩ := canonical_single_word hx h64
  refine ⟨hx.1, hx.2.1, ?_, hx.2.2⟩
  intro w2 hw2
  rw [hw] at hw2
  simp at hw2
  rw [hw2]
  exact hlt

/-- The boxed case of `getInteger` on a canonical integer. -/
theorem getIntegerAPInt_boxed_canonical (mem : Memory) (A : Nat) {v : APInt}
    (hv : v.Canonical) (h : 64 < v.BitWidth.val) :
    getIntegerAPInt mem v A =
      .ok (.RK_Integer mem.length v.BitWidth, mem ++ [⟨A, .words v.words⟩]) := by
  obtain ⟨hpos, hlen, _⟩ := hv
  have hbw := v.BitWidth.isLt
  have hn : (toUnsigned v.getNumWords).val = v.words.length := by
    rw [hlen]
    apply toUnsigned_of_lt
    unfold APInt.getNumWords
    omega
  have hne : v.words.length ≠ 1 := by
    rw [hlen]
    unfold APInt.getNumWords
    omega
  simp [getIntegerAPInt, hn, hne, APInt.getRawData, arrayRef_length, Memory.allocate,
    APInt.getBitWidth, bind, Except.bind, pure, Except.pure]

theorem getElem?_append_replicate_last {ref : List Nat} {n : Nat} (hk : ref.length < n) :
    (ref ++ List.replicate (n - ref.length) 0)[n - 1]? = some 0 := by
  rw [List.getElem?_append_right (by omega)]
  rw [List.getElem?_replicate]
  have : n - 1 - ref.length < n - ref.length := by omega
  simp [this]

/-- Reading a wide integer again from the first words of what was read gives the same
integer. -/
theorem ofArray_take_words {bw : Unsigned} {ref : List Nat} {x : APInt}
    (h : APInt.ofArray bw ref = .ok x) (h64 : 64 < bw.val)
    (hk : ref.length ≤ (bw.val + 63) / 64) :
    APInt.ofArray bw (x.words.take ref.length) = .ok x := by
  have hbw := bw.isLt
  have hpos : 0 < bw.val := by omega
  have hnot : ¬ bw.val ≤ 64 := by omega
  have hk32 : ref.length < 4294967296 := by omega
  obtain ⟨hcan, hxbw⟩ := ofArray_canonical h
  have hxlen : x.words.length = (bw.val + 63) / 64 := by
    rw [hcan.2.1, APInt.getNumWords, hxbw]
  have hmin : min (toUnsigned ref.length).val ((bw.val + 63) / 64) = ref.length := by
    rw [toUnsigned_of_lt hk32]
    exact Nat.min_eq_left hk
  have hx : x = APInt.clearUnusedBits
      ⟨bw, ref ++ List.replicate ((bw.val + 63) / 64 - ref.length) 0⟩ := by
    simp only [APInt.ofArray, swift.assert, hpos, hnot, hmin, bind, Except.bind, pure,
      Except.pure, decide_True, if_true, if_false, List.take_length] at h
    exact (Except.ok.inj h).symm
  have hwords : x.words.take ref.length ++
      List.replicate ((bw.val + 63) / 64 - ref.length) 0 = x.words := by
    by_cases hkn : ref.length = (bw.val + 63) / 64
    · rw [hkn, Nat.sub_self, List.replicate_zero, List.append_nil]
      exact List.take_of_length_le (Nat.le_of_eq hxlen)
    · have hlt : ref.length < (bw.val + 63) / 64 := Nat.lt_of_le_of_ne hk hkn
      have hx2 : x = ⟨bw, ref ++ List.replicate ((bw.val + 63) / 64 - ref.length) 0⟩ := by
        rw [hx]
        apply clearUnusedBits_of_last_zero
        exact getElem?_append_replicate_last hlt
      rw [hx2]
      simp only [List.take_left']
  have hlen2 : (x.words.take ref.length).length = ref.length := by
    rw [List.length_take, hxlen]
    exact Nat.min_eq_left hk
  have hmin2 : min (toUnsigned (x.words.take ref.length).length).val ((bw.val + 63) / 64) =
      ref.length := by
    rw [hlen2]
    exact hmin
  have htake : (x.words.take ref.length).take ref.length = x.words.take ref.length := by
    rw [List.take_take, Nat.min_self]
  simp only [APInt.ofArray, swift.assert, hpos, hnot, hmin2, htake, hwords, bind, Except.bind,
    pure, Except.pure, decide_True, if_true, if_false]
  have hx3 : (APInt.mk bw x.words) = x := by
    cases x
    simp at hxbw
    simp [hxbw]
  rw [hx3, hcan.2.2]

/-- Cloning a boxed integer: `getInteger` on what `getIntegerValue` returns gives a
value on which `getIntegerValue` returns the same integer. -/
theorem clone_integer {mem : Memory} {p : Ptr} {bw : Unsigned} {x : APInt} (A : Nat)
    (h : getIntegerValue mem (.RK_Integer p bw) = .ok x) :
    ∃ v2 ext, getIntegerAPInt mem x A = .ok (v2, mem ++ ext) ∧ v2.getKind = .Integer ∧
      getIntegerValue (mem ++ ext) v2 = .ok x := by
  simp only [getIntegerValue, getKind, swift.assert, bind, Except.bind, beq_self_eq_true,
    if_true] at h
  rcases load_cases mem p with hl | ⟨o, hl⟩
  · simp [hl] at h
  · cases o <;> simp [hl] at h
    case words data =>
      rcases arrayRef_cases data ((toUnsigned (bw.val + 63)).val / 64) with hr | ⟨hle, hr⟩
      · simp [hr] at h
      · rw [hr] at h
        simp only at h
        obtain ⟨hcan, hxbw⟩ := ofArray_canonical h
        have hlt := bw.isLt
        have hk : (toUnsigned (bw.val + 63)).val / 64 ≤ (bw.val + 63) / 64 :=
          Nat.div_le_div_right (Nat.mod_le _ _)
        have hreflen : (data.take ((toUnsigned (bw.val + 63)).val / 64)).length =
            (toUnsigned (bw.val + 63)).val / 64 := by
          rw [List.length_take]
          exact Nat.min_eq_left hle
        by_cases h64 : bw.val ≤ 64
        · have h64x : x.BitWidth.val ≤ 64 := by rw [hxbw]; exact h64
          obtain ⟨w, hw, hget⟩ := getIntegerAPInt_inline mem A
            (valid_of_canonical_single hcan h64x) h64x
          refine ⟨.RK_IntegerInline w x.BitWidth, [], ?_, rfl, ?_⟩
          · rw [List.append_nil]
            exact hget
          · rw [List.append_nil]
            have := ofWord_of_canonical hcan h64x hw
            simpa [getIntegerValue, getKind, swift.assert, bind, Except.bind] using this
        · have h64x : 64 < x.BitWidth.val := by rw [hxbw]; omega
          refine ⟨.RK_Integer mem.length x.BitWidth, [⟨A, .words x.words⟩],
            getIntegerAPInt_boxed_canonical mem A hcan h64x, rfl, ?_⟩
          have htake := ofArray_take_words h (by omega) (by rw [hreflen]; exact hk)
          rw [hreflen] at htake
          have hxlen : x.words.length = (bw.val + 63) / 64 := by
            rw [hcan.2.1, APInt.getNumWords, hxbw]
          have href2 : arrayRef x.words ((toUnsigned (bw.val + 63)).val / 64) =
              .ok (x.words.take ((toUnsigned (bw.val + 63)).val / 64)) := by
            unfold arrayRef
            rw [if_pos (by rw [hxlen]; exact hk)]
          simp only [getIntegerValue, getKind, swift.assert, bind, Except.bind,
            beq_self_eq_true, if_true, load_append_last, hxbw, href2, htake]

theorem ofAPInt_ok {sem : FltSemantics} {x : APInt} {f : APFloat}
    (h : APFloat.ofAPInt sem x = .ok f) :
    sem ≠ .Bogus ∧ x.BitWidth = APFloat.getSizeInBits sem ∧ f = ⟨sem, x⟩ := by
  unfold APFloat.ofAPInt at h
  by_cases hs : sem = .Bogus
  · simp [hs, llvm_unreachable] at h
  · by_cases hb : x.getBitWidth = APFloat.getSizeInBits sem
    · simp only [hs, if_false, swift.assert, hb, beq_self_eq_true, if_true, bind,
        Except.bind, pure, Except.pure] at h
      exact ⟨hs, hb, (Except.ok.inj h).symm⟩
    · simp [hs, swift.assert, hb, bind, Except.bind] at h

/-- What `getFloatValue` returns has a known format and a canonical bit pattern of the
width of the format. -/
theorem getFloatValue_props {mem : Memory} {v : SymbolicValue} {f : APFloat}
    (h : getFloatValue mem v = .ok f) :
    f.semantics ≠ .Bogus ∧ f.bits.Canonical ∧
      f.bits.BitWidth = APFloat.getSizeInBits f.semantics := by
  cases v <;> simp [getFloatValue, getKind, swift.assert, bind, Except.bind] at h
  case RK_Float32 w =>
    simp only [APFloat.ofFloat, bind, Except.bind] at h
    cases hw : APInt.ofWord 32 w with
    | error e => simp [hw] at h
    | ok x =>
      rw [hw] at h
      obtain ⟨hs, hb, rfl⟩ := ofAPInt_ok h
      exact ⟨hs, (ofWord_canonical hw).1, hb⟩
  case RK_Float64 w =>
    simp only [APFloat.ofDouble, bind, Except.bind] at h
    cases hw : APInt.ofWord 64 w with
    | error e => simp [hw] at h
    | ok x =>
      rw [hw] at h
      obtain ⟨hs, hb, rfl⟩ := ofAPInt_ok h
      exact ⟨hs, (ofWord_canonical hw).1, hb⟩
  case RK_Float p =>
    rcases load_cases mem p with hl | ⟨o, hl⟩
    · simp [hl] at h
    · cases o <;> simp [hl] at h
      case APFloatSymbolicValue sem trailing =>
        simp only [APFloatSymbolicValue.getValue, bind, Except.bind] at h
        cases hr : arrayRef trailing (APFloatSymbolicValue.numTrailingObjects sem) with
        | error e => simp [hr] at h
        | ok ref =>
          rw [hr] at h
          simp only at h
          cases hw : APInt.ofArray (APFloat.getSizeInBits sem) ref with
          | error e => simp [hw] at h
          | ok x =>
            rw [hw] at h
            obtain ⟨hs, hb, rfl⟩ := ofAPInt_ok h
            exact ⟨hs, (ofArray_canonical hw).1, hb⟩

/-- Cloning a float: `getFloat` on what `getFloatValue` returns gives a value on which
`getFloatValue` returns the same float. -/
theorem clone_float {mem : Memory} {v : SymbolicValue} {f : APFloat} (A : Nat)
    (h : getFloatValue mem v = .ok f) :
    ∃ v2 ext, getFloat mem f A = .ok (v2, mem ++ ext) ∧ v2.getKind = .Float ∧
      getFloatValue (mem ++ ext) v2 = .ok f := by
  obtain ⟨hs, hc, hb⟩ := getFloatValue_props h
  obtain ⟨v2, mem2, hget, hval, _, hk, h1, h2, h3⟩ := float_round_trip_core mem A f hs hc hb
  by_cases e1 : f.semantics = .IEEEsingle
  · obtain ⟨hm, _⟩ := h1 e1
    subst hm
    exact ⟨v2, [], by rw [List.append_nil]; exact hget, hk, by rw [List.append_nil]; exact hval⟩
  · by_cases e2 : f.semantics = .IEEEdouble
    · obtain ⟨hm, _⟩ := h2 e2
      subst hm
      exact ⟨v2, [], by rw [List.append_nil]; exact hget, hk,
        by rw [List.append_nil]; exact hval⟩
    · obtain ⟨_, hm, _⟩ := h3 e1 e2
      subst hm
      exact ⟨v2, _, hget, hk, hval⟩

theorem getStringValue_length {mem : Memory} {v : SymbolicValue} {s : List Nat}
    (h : getStringValue mem v = .ok s) : s.length < 4294967296 := by
  cases v <;> simp [getStringValue, getKind, swift.assert, bind, Except.bind] at h
  case RK_String p n =>
    rcases load_cases mem p with hl | ⟨o, hl⟩
    · simp [hl] at h
    · cases o <;> simp [hl] at h
      case chars data =>
        obtain ⟨hle, rfl⟩ := arrayRef_ok h
        rw [List.length_take, Nat.min_eq_left hle]
        exact n.isLt

theorem getAddressValue_length {mem : Memory} {v : SymbolicValue} {old : List Unsigned}
    {m : Ptr} {path : List Unsigned} (h : getAddressValue mem v old = .ok (m, path)) :
    path.length < 4294967296 := by
  cases v <;> simp [getAddressValue, getKind, swift.assert, bind, Except.bind, pure,
    Except.pure] at h
  case RK_DirectAddress d =>
    rw [h.2]
    decide
  case RK_DerivedAddress p =>
    rcases load_cases mem p with hl | ⟨o, hl⟩
    · simp [hl] at h
    · cases o <;> simp [hl] at h
      case DerivedAddressValue m2 n trailing =>
        simp only [DerivedAddressValue.getElements] at h
        rcases arrayRef_cases trailing n.val with hr | ⟨hle, hr⟩
        · simp [hr] at h
        · rw [hr] at h
          simp only [Except.ok.injEq, Prod.mk.injEq] at h
          rw [← h.2, List.length_take, Nat.min_eq_left hle]
          exact n.isLt

theorem getAggregateValue_length_lt {mem : Memory} {v : SymbolicValue}
    {es : List SymbolicValue} (h : getAggregateValue mem v = .ok es) :
    es.length < 4294967296 := by
  rcases getAggregateValue_ok h with ⟨p, n, data, rfl, hl, hn, rfl⟩
  rw [List.length_take, Nat.min_eq_left hn]
  exact n.isLt

theorem getArrayValue_length_lt {mem : Memory} {v : SymbolicValue}
    {es : List SymbolicValue} {T : SwiftType} (h : getArrayValue mem v = .ok (es, T)) :
    es.length < 4294967296 := by
  rcases getArrayValue_ok h with ⟨p, n, data, hl, hn, rfl, _⟩
  rw [List.length_take, Nat.min_eq_left hn]
  exact n.isLt

theorem getAddress_extends (mem : Memory) (m : Ptr) (is : List Unsigned) (A : Nat) :
    ∃ ext, (getAddress mem m is A).2 = mem ++ ext := by
  cases is with
  | nil => exact ⟨[], by rw [getAddress_nil, List.append_nil]⟩
  | cons i is => exact ⟨_, by rw [getAddress_cons]⟩

/-! ## Cloning -/

theorem contentElements_cons {f : SymbolicValue → Option Content} {e : SymbolicValue}
    {es : List SymbolicValue} {cs : List Content}
    (h : contentElements f (e :: es) = some cs) :
    ∃ c cs2, f e = some c ∧ contentElements f es = some cs2 ∧ cs = c :: cs2 := by
  unfold contentElements at h
  cases hf : f e with
  | none => simp [hf] at h
  | some c =>
    cases hr : contentElements f es with
    | none => simp [hf, hr] at h
    | some cs2 =>
      simp [hf, hr] at h
      exact ⟨c, cs2, rfl, rfl, h.symm⟩

theorem contentElements_cons_eq {f : SymbolicValue → Option Content} {e : SymbolicValue}
    {es : List SymbolicValue} {c : Content} {cs : List Content}
    (h1 : f e = some c) (h2 : contentElements f es = some cs) :
    contentElements f (e :: es) = some (c :: cs) := by
  unfold contentElements
  rw [h1, h2]

/-- Cloning the elements of a sequence one after the other, when cloning one element
keeps its structure: the clones have the structures of the elements, in order. -/
theorem cloneElements_content {d A : Nat}
    (ih : ∀ (mem : Memory) (v : SymbolicValue) (c : Content), content d mem v = some c →
      ∃ v2 ext, cloneInto d mem v A = some (.ok (v2, mem ++ ext)) ∧
        v2.getKind = v.getKind ∧ content d (mem ++ ext) v2 = some c) :
    ∀ (es : List SymbolicValue) (mem : Memory) (cs : List Content),
      contentElements (content d mem) es = some cs →
      ∃ rs ext, cloneElements (fun mem elt => cloneInto d mem elt A) mem es =
          some (.ok (rs, mem ++ ext)) ∧
        rs.length = es.length ∧ contentElements (content d (mem ++ ext)) rs = some cs := by
  intro es
  induction es with
  | nil =>
    intro mem cs h
    refine ⟨[], [], ?_, rfl, ?_⟩
    · simp [cloneElements]
    · simpa [contentElements] using h
  | cons e es ihl =>
    intro mem cs h
    obtain ⟨c, cs2, hc, hcs, rfl⟩ := contentElements_cons h
    obtain ⟨r, ext1, hclone, _, hr⟩ := ih mem e c hc
    have hcs1 := contentElements_mono (content_append ext1 d mem) es cs2 hcs
    obtain ⟨rs, ext2, hclones, hlen, hrs⟩ := ihl (mem ++ ext1) cs2 hcs1
    refine ⟨r :: rs, ext1 ++ ext2, ?_, by simp [hlen], ?_⟩
    · unfold cloneElements
      simp only [hclone, hclones, List.append_assoc]
    · rw [← List.append_assoc]
      exact contentElements_cons_eq (content_append ext2 d _ r c hr) hrs

/-- Cloning a value that is not copied: the handle is returned and nothing is
allocated. -/
theorem clone_trivial {d : Nat} {mem : Memory} {v : SymbolicValue} {A : Nat} {c : Content}
    (hclone : cloneInto (d + 1) mem v A = some (.ok (v, mem)))
    (h : content (d + 1) mem v = some c) :
    ∃ v2 ext, cloneInto (d + 1) mem v A = some (.ok (v2, mem ++ ext)) ∧
      v2.getKind = v.getKind ∧ content (d + 1) (mem ++ ext) v2 = some c :=
  ⟨v, [], by rw [List.append_nil]; exact hclone, rfl, by rw [List.append_nil]; exact h⟩

/-- Cloning an aggregate whose elements are cloned with their structure. -/
theorem clone_aggregate {d A : Nat} {mem : Memory} {p : Ptr} {n : Unsigned} {c : Content}
    (ih : ∀ (mem : Memory) (v : SymbolicValue) (c : Content), content d mem v = some c →
      ∃ v2 ext, cloneInto d mem v A = some (.ok (v2, mem ++ ext)) ∧
        v2.getKind = v.getKind ∧ content d (mem ++ ext) v2 = some c)
    (h : content (d + 1) mem (.RK_Aggregate p n) = some c) :
    ∃ v2 ext, cloneInto (d + 1) mem (.RK_Aggregate p n) A = some (.ok (v2, mem ++ ext)) ∧
      v2.getKind = .Aggregate ∧ content (d + 1) (mem ++ ext) v2 = some c := by
  rw [@content_aggregate _ _ (SymbolicValue.RK_Aggregate p n) rfl] at h
  cases h1 : getAggregateValue mem (.RK_Aggregate p n) with
  | error e => simp [h1] at h
  | ok es =>
    simp only [h1] at h
    cases h2 : contentElements (content d mem) es with
    | none => simp [h2] at h
    | some cs =>
      rw [h2] at h
      obtain ⟨rs, ext, hclones, hlen, hrs⟩ := cloneElements_content ih es mem cs h2
      have hlt : rs.length < 4294967296 := by
        rw [hlen]
        exact getAggregateValue_length_lt h1
      refine ⟨(getAggregate (mem ++ ext) rs A).1, ext ++ [⟨A, .values rs⟩], ?_, rfl, ?_⟩
      · simp only [cloneInto, h1, hclones]
        rw [getAggregate_eq, List.append_assoc]
      · have hread := getAggregateValue_getAggregate (mem ++ ext) rs A hlt
        rw [getAggregate_eq] at hread
        simp only at hread
        rw [getAggregate_eq, ← List.append_assoc,
          @content_aggregate _ _ (SymbolicValue.RK_Aggregate _ _) rfl]
        simp only [hread]
        rw [contentElements_mono (content_append _ d (mem ++ ext)) rs cs hrs]
        exact h

/-- Cloning an array or an array address whose elements are cloned with their
structure: the clone is an array with the same element type. -/
theorem clone_array {d A : Nat} {mem : Memory} {v : SymbolicValue} {c : Content}
    (ih : ∀ (mem : Memory) (v : SymbolicValue) (c : Content), content d mem v = some c →
      ∃ v2 ext, cloneInto d mem v A = some (.ok (v2, mem ++ ext)) ∧
        v2.getKind = v.getKind ∧ content d (mem ++ ext) v2 = some c)
    (hv : (∃ p, v = .RK_Array p) ∨ ∃ m, v = .RK_ArrayAddress m)
    (h : content (d + 1) mem v = some c) :
    ∃ v2 ext, cloneInto (d + 1) mem v A = some (.ok (v2, mem ++ ext)) ∧
      v2.getKind = .Array ∧ content (d + 1) (mem ++ ext) v2 = some c := by
  have hk : v.getKind = .Array := by
    rcases hv with ⟨p, rfl⟩ | ⟨m, rfl⟩ <;> rfl
  rw [content_array hk] at h
  cases h1 : getArrayValue mem v with
  | error e => simp [h1] at h
  | ok r =>
    obtain ⟨es, T⟩ := r
    simp only [h1] at h
    cases h2 : contentElements (content d mem) es with
    | none => simp [h2] at h
    | some cs =>
      rw [h2] at h
      obtain ⟨rs, ext, hclones, hlen, hrs⟩ := cloneElements_content ih es mem cs h2
      have hlt : rs.length < 4294967296 := by
        rw [hlen]
        exact getArrayValue_length_lt h1
      refine ⟨(getArray (mem ++ ext) rs T A).1,
        ext ++ [⟨A, .ArraySymbolicValue T (toUnsigned rs.length) rs⟩], ?_, rfl, ?_⟩
      · rcases hv with ⟨p, rfl⟩ | ⟨m, rfl⟩
        · simp only [cloneInto, h1, hclones]
          rw [getArray_eq, List.append_assoc]
        · simp only [cloneInto, h1, hclones]
          rw [getArray_eq, List.append_assoc]
      · have hread := getArrayValue_getArray (mem ++ ext) rs T A hlt
        rw [getArray_eq] at hread
        simp only at hread
        rw [getArray_eq, ← List.append_assoc,
          @content_array _ _ (SymbolicValue.RK_Array _) rfl]
        simp only [hread]
        rw [contentElements_mono (content_append _ d (mem ++ ext)) rs cs hrs]
        exact h

/-- Cloning a boxed integer keeps the integer. -/
theorem clone_content_integer {d A : Nat} {mem : Memory} {p : Ptr} {bw : Unsigned}
    {c : Content} (h : content (d + 1) mem (.RK_Integer p bw) = some c) :
    ∃ v2 ext, cloneInto (d + 1) mem (.RK_Integer p bw) A = some (.ok (v2, mem ++ ext)) ∧
      v2.getKind = .Integer ∧ content (d + 1) (mem ++ ext) v2 = some c := by
  rw [@content_integer _ _ (SymbolicValue.RK_Integer p bw) rfl] at h
  cases h1 : getIntegerValue mem (.RK_Integer p bw) with
  | error e => simp [h1] at h
  | ok x =>
    simp only [h1] at h
    obtain ⟨v2, ext, hget, hk, hval⟩ := clone_integer A h1
    refine ⟨v2, ext, ?_, hk, ?_⟩
    · simp only [cloneInto, h1, bind, Except.bind, hget]
    · rw [content_integer hk]
      simp only [hval]
      exact h

/-- Cloning a boxed float keeps the float. -/
theorem clone_content_float {d A : Nat} {mem : Memory} {p : Ptr} {c : Content}
    (h : content (d + 1) mem (.RK_Float p) = some c) :
    ∃ v2 ext, cloneInto (d + 1) mem (.RK_Float p) A = some (.ok (v2, mem ++ ext)) ∧
      v2.getKind = .Float ∧ content (d + 1) (mem ++ ext) v2 = some c := by
  rw [@content_float _ _ (SymbolicValue.RK_Float p) rfl] at h
  cases h1 : getFloatValue mem (.RK_Float p) with
  | error e => simp [h1] at h
  | ok x =>
    simp only [h1] at h
    obtain ⟨v2, ext, hget, hk, hval⟩ := clone_float A h1
    refine ⟨v2, ext, ?_, hk, ?_⟩
    · simp only [cloneInto, h1, bind, Except.bind, hget]
    · rw [content_float hk]
      simp only [hval]
      exact h

/-- Cloning a string keeps the bytes. -/
theorem clone_content_string {d A : Nat} {mem : Memory} {p : Ptr} {n : Unsigned}
    {c : Content} (h : content (d + 1) mem (.RK_String p n) = some c) :
    ∃ v2 ext, cloneInto (d + 1) mem (.RK_String p n) A = some (.ok (v2, mem ++ ext)) ∧
      v2.getKind = .String ∧ content (d + 1) (mem ++ ext) v2 = some c := by
  rw [@content_string _ _ (SymbolicValue.RK_String p n) rfl] at h
  cases h1 : getStringValue mem (.RK_String p n) with
  | error e => simp [h1] at h
  | ok s =>
    simp only [h1] at h
    have hread := getStringValue_getString_eq mem s A
    rw [arrayRef_of_lt s (getStringValue_length h1)] at hread
    refine ⟨(getString mem s A).1, [⟨A, .chars s⟩], ?_, rfl, ?_⟩
    · simp only [cloneInto, h1, bind, Except.bind, pure, Except.pure]
      rfl
    · have hmem : mem ++ [⟨A, .chars s⟩] = (getString mem s A).2 := rfl
      rw [hmem, @content_string _ _ (getString mem s A).1 rfl]
      simp only [hread]
      exact h

/-- Cloning an enum with payload keeps the case and the payload. -/
theorem clone_content_enum {d A : Nat} {mem : Memory} {p : Ptr} {c : Content}
    (h : content (d + 1) mem (.RK_EnumWithPayload p) = some c) :
    ∃ v2 ext, cloneInto (d + 1) mem (.RK_EnumWithPayload p) A =
        some (.ok (v2, mem ++ ext)) ∧
      v2.getKind = .EnumWithPayload ∧ content (d + 1) (mem ++ ext) v2 = some c := by
  rw [@content_enumWithPayload _ _ (SymbolicValue.RK_EnumWithPayload p) rfl] at h
  cases h1 : getEnumValue mem (.RK_EnumWithPayload p) with
  | error e => simp [h1] at h
  | ok decl =>
    cases h2 : getEnumPayloadValue mem (.RK_EnumWithPayload p) with
    | error e => simp [h1, h2] at h
    | ok payload =>
      simp only [h1, h2] at h
      by_cases hwf : decl ≠ 0 ∧ payload.isConstant = true
      · rw [if_pos hwf] at h
        have hnew := enum_accessors_new mem decl payload A
        refine ⟨.RK_EnumWithPayload mem.length,
          [⟨A, .EnumWithPayloadSymbolicValue decl payload⟩], ?_, rfl, ?_⟩
        · simp only [cloneInto, h1, h2, bind, Except.bind,
            getEnumWithPayload_eq mem decl payload A hwf.1 hwf.2]
        · rw [@content_enumWithPayload _ _ (SymbolicValue.RK_EnumWithPayload mem.length) rfl]
          simp only [hnew.1, hnew.2]
          rw [if_pos hwf]
          exact h
      · rw [if_neg hwf] at h
        cases h

/-- Cloning an address keeps the access path and copies the memory object, with its
type and the value it holds. -/
theorem clone_content_address {d A : Nat} {mem : Memory} {v : SymbolicValue} {c : Content}
    (hv : (∃ m, v = .RK_DirectAddress m) ∨ ∃ p, v = .RK_DerivedAddress p)
    (h : content (d + 1) mem v = some c) :
    ∃ v2 ext, cloneInto (d + 1) mem v A = some (.ok (v2, mem ++ ext)) ∧
      v2.getKind = .Address ∧ content (d + 1) (mem ++ ext) v2 = some c := by
  have hk : v.getKind = .Address := by
    rcases hv with ⟨p, rfl⟩ | ⟨m, rfl⟩ <;> rfl
  rw [content_address hk] at h
  cases h1 : getAddressValue mem v [] with
  | error e => simp [h1] at h
  | ok r =>
    obtain ⟨m, path⟩ := r
    cases h2 : SymbolicValueMemoryObject.fields mem m with
    | error e => simp [h1, h2] at h
    | ok r2 =>
      obtain ⟨T, val⟩ := r2
      simp only [h1, h2] at h
      have hlen := getAddressValue_length h1
      obtain ⟨ext, hext⟩ := getAddress_extends
        (mem ++ [⟨A, .SymbolicValueMemoryObject T val⟩]) mem.length path A
      have hread := getAddressValue_getAddress_eq
        (mem ++ [⟨A, .SymbolicValueMemoryObject T val⟩]) mem.length path [] A
      rw [arrayRef_of_lt path hlen] at hread
      have hfields : SymbolicValueMemoryObject.fields
          (mem ++ [⟨A, .SymbolicValueMemoryObject T val⟩]) mem.length = .ok (T, val) := by
        simp [SymbolicValueMemoryObject.fields, load_append_last, bind, Except.bind, pure,
          Except.pure]
      have hfields2 := fields_append ext hfields
      rw [← hext] at hfields2
      refine ⟨(getAddress (mem ++ [⟨A, .SymbolicValueMemoryObject T val⟩]) mem.length path
        A).1, [⟨A, .SymbolicValueMemoryObject T val⟩] ++ ext, ?_, getAddress_kind _ _ _ _, ?_⟩
      · rw [← List.append_assoc, ← hext]
        rcases hv with ⟨p, rfl⟩ | ⟨p, rfl⟩ <;>
          simp only [cloneInto, h1, h2, bind, Except.bind, pure, Except.pure,
            SymbolicValueMemoryObject.create, Memory.allocate]
      · rw [← List.append_assoc, ← hext, content_address (getAddress_kind _ _ _ _)]
        simp only [hread, Except.map, hfields2]
        exact h

/-- Clone fidelity: a value whose structure can be read down to some depth is cloned
within that depth, the clone has the kind and the structure of the value, and the
memory is only extended. -/
theorem clone_content (A : Nat) :
    ∀ (d : Nat) (mem : Memory) (v : SymbolicValue) (c : Content),
      content d mem v = some c →
      ∃ v2 ext, cloneInto d mem v A = some (.ok (v2, mem ++ ext)) ∧
        v2.getKind = v.getKind ∧ content d (mem ++ ext) v2 = some c := by
  intro d
  induction d with
  | zero =>
    intro mem v c h
    simp [content] at h
  | succ d ih =>
    intro mem v c h
    cases v
    case RK_UninitMemory => exact clone_trivial (by simp only [cloneInto]) h
    case RK_Unknown p => exact clone_trivial (by simp only [cloneInto]) h
    case RK_Metatype t => exact clone_trivial (by simp only [cloneInto]) h
    case RK_Function f => exact clone_trivial (by simp only [cloneInto]) h
    case RK_Enum e => exact clone_trivial (by simp only [cloneInto]) h
    case RK_IntegerInline w bw => exact clone_trivial (by simp only [cloneInto]) h
    case RK_Float32 w => exact clone_trivial (by simp only [cloneInto]) h
    case RK_Float64 w => exact clone_trivial (by simp only [cloneInto]) h
    case RK_Integer p bw => exact clone_content_integer h
    case RK_Float p => exact clone_content_float h
    case RK_String p n => exact clone_content_string h
    case RK_Aggregate p n => exact clone_aggregate ih h
    case RK_EnumWithPayload p => exact clone_content_enum h
    case RK_DirectAddress m => exact clone_content_address (Or.inl ⟨m, rfl⟩) h
    case RK_DerivedAddress p => exact clone_content_address (Or.inr ⟨p, rfl⟩) h
    case RK_Array p => exact clone_array ih (Or.inl ⟨p, rfl⟩) h
    case RK_ArrayAddress m => exact clone_array ih (Or.inr ⟨m, rfl⟩) h

/-! ## The fields of a memory object through create and set -/

theorem fields_create (mem : Memory) (type : SwiftType) (value : SymbolicValue) (A : Nat) :
    SymbolicValueMemoryObject.fields (SymbolicValueMemoryObject.create mem type value A).2
      (SymbolicValueMemoryObject.create mem type value A).1 = .ok (type, value) := by
  simp [SymbolicValueMemoryObject.create, Memory.allocate, SymbolicValueMemoryObject.fields,
    load_append_last, bind, Except.bind, pure, Except.pure]

/-- The type of a memory object after a set through it is its type before. -/
theorem obj_set_type {mem mem' : Memory} {self : Ptr} {p : List Nat} {s : SymbolicValue}
    {A : Nat} {T : SwiftType} {V : SymbolicValue}
    (hf : SymbolicValueMemoryObject.fields mem self = .ok (T, V))
    (h : SymbolicValueMemoryObject.setIndexedElement mem self p s A = .ok mem') :
    ∃ V', SymbolicValueMemoryObject.fields mem' self = .ok (T, V') := by
  obtain ⟨T2, V2, v', ext, hf2, _, hm⟩ := obj_set_inv h
  rw [hf] at hf2
  obtain ⟨hT, _⟩ := Prod.mk.inj (Except.ok.inj hf2)
  subst hT
  subst hm
  have hlt : self < (mem ++ ext).length :=
    lt_length_append (isObject_lt (isObject_of_fields hf)) ext
  exact ⟨v', fields_ok.mpr (load_store_self hlt _)⟩

/-! ## Looking through single-element aggregates -/

theorem look_not_aggregate (fuel : Nat) (mem : Memory) {v : SymbolicValue}
    (hk : v.getKind ≠ .Aggregate) :
    lookThroughSingleElementAggregates (fuel + 1) mem v = some (.ok v) := by
  simp [lookThroughSingleElementAggregates, hk]

theorem look_not_single (fuel : Nat) {mem : Memory} {v : SymbolicValue}
    {es : List SymbolicValue} (h : getAggregateValue mem v = .ok es) (hlen : es.length ≠ 1) :
    lookThroughSingleElementAggregates (fuel + 1) mem v = some (.ok v) := by
  simp [lookThroughSingleElementAggregates, getAggregateValue_kind h, h, hlen]

theorem look_single (fuel : Nat) {mem : Memory} {v e : SymbolicValue}
    (h : getAggregateValue mem v = .ok [e]) :
    lookThroughSingleElementAggregates (fuel + 1) mem v =
      lookThroughSingleElementAggregates fuel mem e := by
  simp [lookThroughSingleElementAggregates, getAggregateValue_kind h, h, indexChecked]

/-- What the loop returns is not an Aggregate, or is an Aggregate whose number of
elements is not 1. -/
theorem look_result :
    ∀ (fuel : Nat) (mem : Memory) (v r : SymbolicValue),
      lookThroughSingleElementAggregates fuel mem v = some (.ok r) →
      r.getKind ≠ .Aggregate ∨
        ∃ es, getAggregateValue mem r = .ok es ∧ es.length ≠ 1 := by
  intro fuel
  induction fuel with
  | zero =>
    intro mem v r h
    simp [lookThroughSingleElementAggregates] at h
  | succ fuel ih =>
    intro mem v r h
    by_cases hk : v.getKind = .Aggregate
    · cases hes : getAggregateValue mem v with
      | error e => simp [lookThroughSingleElementAggregates, hk, hes] at h
      | ok es =>
        by_cases hlen : es.length = 1
        · obtain ⟨e, rfl⟩ := list_length_one hlen
          rw [look_single fuel hes] at h
          exact ih mem e r h
        · rw [look_not_single fuel hes hlen] at h
          obtain rfl : v = r := by simpa using h
          exact Or.inr ⟨es, hes, hlen⟩
    · rw [look_not_aggregate fuel mem hk] at h
      obtain rfl : v = r := by simpa using h
      exact Or.inl hk

/-- The loop returns what it has returned on itself. -/
theorem look_idem {fuel : Nat} {mem : Memory} {v r : SymbolicValue}
    (h : lookThroughSingleElementAggregates fuel mem v = some (.ok r)) (fuel2 : Nat) :
    lookThroughSingleElementAggregates (fuel2 + 1) mem r = some (.ok r) := by
  rcases look_result fuel mem v r h with hk | ⟨es, hes, hlen⟩
  · exact look_not_aggregate fuel2 mem hk
  · exact look_not_single fuel2 hes hlen

/-- More iterations do not change what the loop returns. -/
theorem look_mono :
    ∀ (fuel : Nat) (mem : Memory) (v : SymbolicValue) (x : Result SymbolicValue),
      lookThroughSingleElementAggregates fuel mem v = some x →
      lookThroughSingleElementAggregates (fuel + 1) mem v = some x := by
  intro fuel
  induction fuel with
  | zero =>
    intro mem v x h
    simp [lookThroughSingleElementAggregates] at h
  | succ fuel ih =>
    intro mem v x h
    by_cases hk : v.getKind = .Aggregate
    · cases hes : getAggregateValue mem v with
      | error e =>
        simp only [lookThroughSingleElementAggregates, hk, hes, ne_eq, not_true_eq_false,
          if_false] at h ⊢
        exact h
      | ok es =>
        by_cases hlen : es.length = 1
        · obtain ⟨e, rfl⟩ := list_length_one hlen
          rw [look_single fuel hes] at h
          rw [look_single (fuel + 1) hes]
          exact ih mem e x h
        · rw [look_not_single fuel hes hlen] at h
          rw [look_not_single (fuel + 1) hes hlen]
          exact h
    · rw [look_not_aggregate fuel mem hk] at h
      rw [look_not_aggregate (fuel + 1) mem hk]
      exact h

theorem look_mono_le {fuel fuel2 : Nat} {mem : Memory} {v : SymbolicValue}
    {x : Result SymbolicValue}
    (h : lookThroughSingleElementAggregates fuel mem v = some x) (hle : fuel ≤ fuel2) :
    lookThroughSingleElementAggregates fuel2 mem v = some x := by
  induction hle with
  | refl => exact h
  | step _ ih => exact look_mono _ mem v x ih

theorem nestsWithin_aggregate {d : Nat} {mem : Memory} {v : SymbolicValue}
    {es : List SymbolicValue} (h : getAggregateValue mem v = .ok es) :
    nestsWithin (d + 1) mem v = es.all (nestsWithin d mem) := by
  simp only [nestsWithin, getAggregateValue_kind h, h]

theorem nestsWithin_aggregate_error {d : Nat} {mem : Memory} {v : SymbolicValue} {e : Fault}
    (hk : v.getKind = .Aggregate) (h : getAggregateValue mem v = .error e) :
    nestsWithin (d + 1) mem v = false := by
  simp only [nestsWithin, hk, h]

theorem nestsWithin_array {d : Nat} {mem : Memory} {v : SymbolicValue}
    {es : List SymbolicValue} {T : SwiftType} (h : getArrayValue mem v = .ok (es, T)) :
    nestsWithin (d + 1) mem v = es.all (nestsWithin d mem) := by
  simp only [nestsWithin, getArrayValue_kind h, h]

theorem nestsWithin_array_error {d : Nat} {mem : Memory} {v : SymbolicValue} {e : Fault}
    (hk : v.getKind = .Array) (h : getArrayValue mem v = .error e) :
    nestsWithin (d + 1) mem v = false := by
  simp only [nestsWithin, hk, h]

theorem nestsWithin_other {d : Nat} {mem : Memory} {v : SymbolicValue}
    (h1 : v.getKind ≠ .Aggregate) (h2 : v.getKind ≠ .Array) :
    nestsWithin (d + 1) mem v = true := by
  cases v <;> simp [nestsWithin, getKind] at h1 h2 ⊢

/-- On a value of finite nesting depth the loop returns a value within that many
iterations. -/
theorem look_returns :
    ∀ (d : Nat) (mem : Memory) (v : SymbolicValue), nestsWithin d mem v = true →
      ∃ r, lookThroughSingleElementAggregates d mem v = some (.ok r) := by
  intro d
  induction d with
  | zero =>
    intro mem v h
    simp [nestsWithin] at h
  | succ d ih =>
    intro mem v h
    by_cases hk : v.getKind = .Aggregate
    · cases hes : getAggregateValue mem v with
      | error e =>
        rw [nestsWithin_aggregate_error hk hes] at h
        cases h
      | ok es =>
        rw [nestsWithin_aggregate hes] at h
        by_cases hlen : es.length = 1
        · obtain ⟨e, rfl⟩ := list_length_one hlen
          rw [look_single d hes]
          exact ih mem e (by simpa using h)
        · exact ⟨v, look_not_single d hes hlen⟩
    · exact ⟨v, look_not_aggregate d mem hk⟩

/-! ## Cloning only appends to the memory -/

theorem getIntegerAPInt_appends {mem mem' : Memory} {x : APInt} {A : Nat} {v : SymbolicValue}
    (h : getIntegerAPInt mem x A = .ok (v, mem')) : ∃ ext, mem' = mem ++ ext := by
  by_cases hn : (toUnsigned x.getNumWords).val = 1
  · cases hw : x.getRawData[0]? with
    | none => simp [getIntegerAPInt, hn, hw] at h
    | some w =>
      simp only [getIntegerAPInt, hn, hw, pure, Except.pure, if_true] at h
      obtain ⟨_, hm⟩ := Prod.mk.inj (Except.ok.inj h)
      exact ⟨[], by rw [← hm, List.append_nil]⟩
  · cases hc : arrayRef x.getRawData (toUnsigned x.getNumWords).val with
    | error e => simp [getIntegerAPInt, hn, hc, bind, Except.bind] at h
    | ok copied =>
      simp only [getIntegerAPInt, hn, hc, bind, Except.bind, pure, Except.pure,
        Memory.allocate, if_false] at h
      obtain ⟨_, hm⟩ := Prod.mk.inj (Except.ok.inj h)
      exact ⟨_, hm.symm⟩

theorem getFloat_appends {mem mem' : Memory} {f : APFloat} {A : Nat} {v : SymbolicValue}
    (h : getFloat mem f A = .ok (v, mem')) : ∃ ext, mem' = mem ++ ext := by
  by_cases h1 : f.getSemantics = .IEEEsingle
  · cases hc : f.convertToFloat with
    | error e => simp [getFloat, h1, hc, bind, Except.bind] at h
    | ok w =>
      simp only [getFloat, h1, hc, bind, Except.bind, pure, Except.pure, if_true] at h
      obtain ⟨_, hm⟩ := Prod.mk.inj (Except.ok.inj h)
      exact ⟨[], by rw [← hm, List.append_nil]⟩
  · by_cases h2 : f.getSemantics = .IEEEdouble
    · cases hc : f.convertToDouble with
      | error e => simp [getFloat, h1, h2, hc, bind, Except.bind] at h
      | ok w =>
        simp only [getFloat, h1, h2, hc, bind, Except.bind, pure, Except.pure, if_true,
          if_false] at h
        obtain ⟨_, hm⟩ := Prod.mk.inj (Except.ok.inj h)
        exact ⟨[], by rw [← hm, List.append_nil]⟩
    · cases hb : f.bitcastToAPInt with
      | error e => simp [getFloat, h1, h2, hb, bind, Except.bind] at h
      | ok val =>
        cases hr : arrayRef val.getRawData val.getNumWords with
        | error e => simp [getFloat, h1, h2, hb, hr, bind, Except.bind] at h
        | ok elements =>
          cases hc : APFloatSymbolicValue.create mem f.getSemantics elements A with
          | error e => simp [getFloat, h1, h2, hb, hr, hc, bind, Except.bind] at h
          | ok pm =>
            simp only [getFloat, h1, h2, hb, hr, hc, bind, Except.bind, pure, Except.pure,
              if_false] at h
            obtain ⟨_, hm⟩ := Prod.mk.inj (Except.ok.inj h)
            subst hm
            unfold APFloatSymbolicValue.create at hc
            cases ha : swift.assert (decide ((toUnsigned
                ((APFloat.getSizeInBits f.getSemantics).val + 63)).val / 64 =
                elements.length)) with
            | error e => simp [ha, bind, Except.bind] at hc
            | ok u =>
              simp only [ha, bind, Except.bind, pure, Except.pure, Memory.allocate] at hc
              rw [← Except.ok.inj hc]
              exact ⟨_, rfl⟩

theorem getEnumWithPayload_appends {mem mem' : Memory} {c : Nat} {p v : SymbolicValue}
    {A : Nat} (h : getEnumWithPayload mem c p A = .ok (v, mem')) :
    ∃ ext, mem' = mem ++ ext := by
  by_cases hc : c ≠ 0 ∧ p.isConstant = true
  · rw [getEnumWithPayload_eq mem c p A hc.1 hc.2] at h
    obtain ⟨_, hm⟩ := Prod.mk.inj (Except.ok.inj h)
    exact ⟨_, hm.symm⟩
  · have hf : c = 0 ∨ p.isConstant = false := by
      by_cases h0 : c = 0
      · exact Or.inl h0
      · right
        cases hp : p.isConstant
        · rfl
        · exact absurd ⟨h0, hp⟩ hc
    rw [getEnumWithPayload_fails mem c p A hf] at h
    cases h

/-- What a returning loop over a non-empty sequence of elements has done: cloned the
first element and gone on with the others in the memory after that. -/
theorem cloneElements_cons_inv
    {f : Memory → SymbolicValue → Option (Result (SymbolicValue × Memory))}
    {mem mem' : Memory} {e : SymbolicValue} {es rs : List SymbolicValue}
    (h : cloneElements f mem (e :: es) = some (.ok (rs, mem'))) :
    ∃ r mem1 rs2, f mem e = some (.ok (r, mem1)) ∧
      cloneElements f mem1 es = some (.ok (rs2, mem')) ∧ rs = r :: rs2 := by
  unfold cloneElements at h
  cases hf : f mem e with
  | none => simp [hf] at h
  | some x =>
    cases x with
    | error err => simp [hf] at h
    | ok rm =>
      obtain ⟨r, mem1⟩ := rm
      simp only [hf] at h
      cases hr : cloneElements f mem1 es with
      | none => simp [hr] at h
      | some y =>
        cases y with
        | error err => simp [hr] at h
        | ok rsm =>
          obtain ⟨rs2, mem2⟩ := rsm
          simp only [hr, Option.some.injEq, Except.ok.injEq, Prod.mk.injEq] at h
          obtain ⟨h1, h2⟩ := h
          subst h1 h2
          exact ⟨r, mem1, rs2, rfl, hr, rfl⟩

theorem cloneElements_appends
    {f : Memory → SymbolicValue → Option (Result (SymbolicValue × Memory))}
    (hf : ∀ mem e r mem', f mem e = some (.ok (r, mem')) → ∃ ext, mem' = mem ++ ext) :
    ∀ (es : List SymbolicValue) (mem mem' : Memory) (rs : List SymbolicValue),
      cloneElements f mem es = some (.ok (rs, mem')) → ∃ ext, mem' = mem ++ ext := by
  intro es
  induction es with
  | nil =>
    intro mem mem' rs h
    simp only [cloneElements, Option.some.injEq, Except.ok.injEq, Prod.mk.injEq] at h
    exact ⟨[], by rw [← h.2, List.append_nil]⟩
  | cons e es ih =>
    intro mem mem' rs h
    obtain ⟨r, mem1, rs2, h1, h2, _⟩ := cloneElements_cons_inv h
    obtain ⟨ext1, rfl⟩ := hf mem e r mem1 h1
    obtain ⟨ext2, rfl⟩ := ih _ _ _ h2
    exact ⟨ext1 ++ ext2, by rw [List.append_assoc]⟩

/-- A returning `cloneInto` only appends allocations to the memory. -/
theorem cloneInto_appends (A : Nat) :
    ∀ (fuel : Nat) (mem mem' : Memory) (v v2 : SymbolicValue),
      cloneInto fuel mem v A = some (.ok (v2, mem')) → ∃ ext, mem' = mem ++ ext := by
  intro fuel
  induction fuel with
  | zero =>
    intro mem mem' v v2 h
    simp [cloneInto] at h
  | succ fuel ih =>
    intro mem mem' v v2 h
    have htriv : (some (Except.ok (v, mem)) : Option (Result (SymbolicValue × Memory))) =
        some (Except.ok (v2, mem')) →
        ∃ ext, mem' = mem ++ ext := by
      intro e
      simp only [Option.some.injEq, Except.ok.injEq, Prod.mk.injEq] at e
      exact ⟨[], by rw [← e.2, List.append_nil]⟩
    have hlist : ∀ es rs m2, cloneElements (fun mem elt => cloneInto fuel mem elt A) mem es =
        some (.ok (rs, m2)) → ∃ ext, m2 = mem ++ ext :=
      fun es rs m2 hc => cloneElements_appends (fun m e r m' he => ih m m' e r he) es mem m2 rs hc
    cases v
    case RK_UninitMemory => exact htriv (by simpa only [cloneInto] using h)
    case RK_Unknown p => exact htriv (by simpa only [cloneInto] using h)
    case RK_Metatype t => exact htriv (by simpa only [cloneInto] using h)
    case RK_Function f => exact htriv (by simpa only [cloneInto] using h)
    case RK_Enum e => exact htriv (by simpa only [cloneInto] using h)
    case RK_IntegerInline w bw => exact htriv (by simpa only [cloneInto] using h)
    case RK_Float32 w => exact htriv (by simpa only [cloneInto] using h)
    case RK_Float64 w => exact htriv (by simpa only [cloneInto] using h)
    case RK_Integer p bw =>
      simp only [cloneInto, Option.some.injEq] at h
      cases hv : getIntegerValue mem (.RK_Integer p bw) with
      | error e => simp [hv, bind, Except.bind] at h
      | ok x =>
        simp only [hv, bind, Except.bind] at h
        exact getIntegerAPInt_appends h
    case RK_Float p =>
      simp only [cloneInto, Option.some.injEq] at h
      cases hv : getFloatValue mem (.RK_Float p) with
      | error e => simp [hv, bind, Except.bind] at h
      | ok x =>
        simp only [hv, bind, Except.bind] at h
        exact getFloat_appends h
    case RK_String p n =>
      simp only [cloneInto, Option.some.injEq] at h
      cases hv : getStringValue mem (.RK_String p n) with
      | error e => simp [hv, bind, Except.bind] at h
      | ok x =>
        simp only [hv, bind, Except.bind, pure, Except.pure, Except.ok.injEq] at h
        obtain ⟨_, hm⟩ := Prod.mk.inj h
        exact ⟨[⟨A, .chars x⟩], hm.symm⟩
    case RK_Aggregate p n =>
      simp only [cloneInto] at h
      cases hv : getAggregateValue mem (.RK_Aggregate p n) with
      | error e => simp [hv] at h
      | ok es =>
        simp only [hv] at h
        cases hc : cloneElements (fun mem elt => cloneInto fuel mem elt A) mem es with
        | none => simp [hc] at h
        | some y =>
          cases y with
          | error err => simp [hc] at h
          | ok rsm =>
            obtain ⟨rs, m2⟩ := rsm
            simp only [hc, Option.some.injEq, Except.ok.injEq] at h
            obtain ⟨ext, rfl⟩ := hlist es rs m2 hc
            rw [getAggregate_eq] at h
            obtain ⟨_, hm⟩ := Prod.mk.inj h
            exact ⟨ext ++ [⟨A, .values rs⟩], by rw [← hm, List.append_assoc]⟩
    case RK_EnumWithPayload p =>
      simp only [cloneInto, Option.some.injEq] at h
      cases hv : getEnumValue mem (.RK_EnumWithPayload p) with
      | error e => simp [hv, bind, Except.bind] at h
      | ok d =>
        cases hp : getEnumPayloadValue mem (.RK_EnumWithPayload p) with
        | error e => simp [hv, hp, bind, Except.bind] at h
        | ok pl =>
          simp only [hv, hp, bind, Except.bind] at h
          exact getEnumWithPayload_appends h
    case RK_Array p =>
      simp only [cloneInto] at h
      cases hv : getArrayValue mem (.RK_Array p) with
      | error e => simp [hv] at h
      | ok r =>
        obtain ⟨es, T⟩ := r
        simp only [hv] at h
        cases hc : cloneElements (fun mem elt => cloneInto fuel mem elt A) mem es with
        | none => simp [hc] at h
        | some y =>
          cases y with
          | error err => simp [hc] at h
          | ok rsm =>
            obtain ⟨rs, m2⟩ := rsm
            simp only [hc, Option.some.injEq, Except.ok.injEq] at h
            obtain ⟨ext, rfl⟩ := hlist es rs m2 hc
            rw [getArray_eq] at h
            obtain ⟨_, hm⟩ := Prod.mk.inj h
            exact ⟨ext ++ [⟨A, .ArraySymbolicValue T (toUnsigned rs.length) rs⟩],
              by rw [← hm, List.append_assoc]⟩
    case RK_ArrayAddress p =>
      simp only [cloneInto] at h
      cases hv : getArrayValue mem (.RK_ArrayAddress p) with
      | error e => simp [hv] at h
      | ok r =>
        obtain ⟨es, T⟩ := r
        simp only [hv] at h
        cases hc : cloneElements (fun mem elt => cloneInto fuel mem elt A) mem es with
        | none => simp [hc] at h
        | some y =>
          cases y with
          | error err => simp [hc] at h
          | ok rsm =>
            obtain ⟨rs, m2⟩ := rsm
            simp only [hc, Option.some.injEq, Except.ok.injEq] at h
            obtain ⟨ext, rfl⟩ := hlist es rs m2 hc
            rw [getArray_eq] at h
            obtain ⟨_, hm⟩ := Prod.mk.inj h
            exact ⟨ext ++ [⟨A, .ArraySymbolicValue T (toUnsigned rs.length) rs⟩],
              by rw [← hm, List.append_assoc]⟩
    case RK_DirectAddress m =>
      simp only [cloneInto, Option.some.injEq] at h
      have haddr : ∀ self : SymbolicValue,
          (do
            let accessPath : List Unsigned := []
            let (memObject, accessPath) ← self.getAddressValue mem accessPath
            let (type, value) ← SymbolicValueMemoryObject.fields mem memObject
            let (newMemObject, mem) := SymbolicValueMemoryObject.create mem type value A
            pure (getAddress mem newMemObject accessPath A) :
              Result (SymbolicValue × Memory)) = .ok (v2, mem') →
          ∃ ext, mem' = mem ++ ext := by
        intro self hs
        cases h1 : getAddressValue mem self [] with
        | error e => simp [h1, bind, Except.bind] at hs
        | ok r =>
          obtain ⟨m, path⟩ := r
          cases h2 : SymbolicValueMemoryObject.fields mem m with
          | error e => simp [h1, h2, bind, Except.bind] at hs
          | ok r2 =>
            obtain ⟨T, val⟩ := r2
            simp only [h1, h2, bind, Except.bind, pure, Except.pure,
              SymbolicValueMemoryObject.create, Memory.allocate, Except.ok.injEq] at hs
            obtain ⟨ext, hext⟩ := getAddress_extends
              (mem ++ [⟨A, .SymbolicValueMemoryObject T val⟩]) mem.length path A
            rw [hs] at hext
            exact ⟨[⟨A, .SymbolicValueMemoryObject T val⟩] ++ ext,
              by rw [← List.append_assoc]; exact hext⟩
      exact haddr _ h
    case RK_DerivedAddress m =>
      simp only [cloneInto, Option.some.injEq] at h
      have haddr : ∀ self : SymbolicValue,
          (do
            let accessPath : List Unsigned := []
            let (memObject, accessPath) ← self.getAddressValue mem accessPath
            let (type, value) ← SymbolicValueMemoryObject.fields mem memObject
            let (newMemObject, mem) := SymbolicValueMemoryObject.create mem type value A
            pure (getAddress mem newMemObject accessPath A) :
              Result (SymbolicValue × Memory)) = .ok (v2, mem') →
          ∃ ext, mem' = mem ++ ext := by
        intro self hs
        cases h1 : getAddressValue mem self [] with
        | error e => simp [h1, bind, Except.bind] at hs
        | ok r =>
          obtain ⟨m, path⟩ := r
          cases h2 : SymbolicValueMemoryObject.fields mem m with
          | error e => simp [h1, h2, bind, Except.bind] at hs
          | ok r2 =>
            obtain ⟨T, val⟩ := r2
            simp only [h1, h2, bind, Except.bind, pure, Except.pure,
              SymbolicValueMemoryObject.create, Memory.allocate, Except.ok.injEq] at hs
            obtain ⟨ext, hext⟩ := getAddress_extends
              (mem ++ [⟨A, .SymbolicValueMemoryObject T val⟩]) mem.length path A
            rw [hs] at hext
            exact ⟨[⟨A, .SymbolicValueMemoryObject T val⟩] ++ ext,
              by rw [← List.append_assoc]; exact hext⟩
      exact haddr _ h

/-! ## Termination of cloning -/

/-- The nesting depth of a value is the same in every extension of the memory. -/
theorem nestsWithin_append (ext : Memory) :
    ∀ (d : Nat) (mem : Memory) (v : SymbolicValue),
      nestsWithin d mem v = true → nestsWithin d (mem ++ ext) v = true := by
  intro d
  induction d with
  | zero =>
    intro mem v h
    simp [nestsWithin] at h
  | succ d ih =>
    intro mem v h
    by_cases hk : v.getKind = .Aggregate
    · cases hes : getAggregateValue mem v with
      | error e =>
        rw [nestsWithin_aggregate_error hk hes] at h
        cases h
      | ok es =>
        rw [nestsWithin_aggregate hes] at h
        rw [nestsWithin_aggregate (getAggregateValue_append ext hes)]
        rw [List.all_eq_true] at h ⊢
        exact fun e he => ih mem e (h e he)
    · by_cases hk2 : v.getKind = .Array
      · cases hes : getArrayValue mem v with
        | error e =>
          rw [nestsWithin_array_error hk2 hes] at h
          cases h
        | ok r =>
          obtain ⟨es, T⟩ := r
          rw [nestsWithin_array hes] at h
          rw [nestsWithin_array (getArrayValue_append ext hes)]
          rw [List.all_eq_true] at h ⊢
          exact fun e he => ih mem e (h e he)
      · exact nestsWithin_other hk hk2

theorem cloneElements_mono
    {f g : Memory → SymbolicValue → Option (Result (SymbolicValue × Memory))}
    (hfg : ∀ mem e x, f mem e = some x → g mem e = some x) :
    ∀ (es : List SymbolicValue) (mem : Memory) (x : Result (List SymbolicValue × Memory)),
      cloneElements f mem es = some x → cloneElements g mem es = some x := by
  intro es
  induction es with
  | nil =>
    intro mem x h
    simpa [cloneElements] using h
  | cons e es ih =>
    intro mem x h
    unfold cloneElements at h ⊢
    cases hf : f mem e with
    | none => simp [hf] at h
    | some y =>
      rw [hfg mem e y hf]
      rw [hf] at h
      cases y with
      | error err => exact h
      | ok rm =>
        obtain ⟨r, mem1⟩ := rm
        simp only at h ⊢
        cases hr : cloneElements f mem1 es with
        | none => simp [hr] at h
        | some z =>
          rw [ih mem1 z hr]
          rw [hr] at h
          exact h

/-- A deeper bound on the recursion does not change what `cloneInto` returns. -/
theorem cloneInto_mono (A : Nat) :
    ∀ (fuel : Nat) (mem : Memory) (v : SymbolicValue) (x : Result (SymbolicValue × Memory)),
      cloneInto fuel mem v A = some x → cloneInto (fuel + 1) mem v A = some x := by
  intro fuel
  induction fuel with
  | zero =>
    intro mem v x h
    simp [cloneInto] at h
  | succ fuel ih =>
    intro mem v x h
    have hlist := @cloneElements_mono (fun mem elt => cloneInto fuel mem elt A)
      (fun mem elt => cloneInto (fuel + 1) mem elt A) (fun m e y hy => ih m e y hy)
    cases v
    case RK_Aggregate p n =>
      rw [cloneInto] at h ⊢
      cases hv : getAggregateValue mem (.RK_Aggregate p n) with
      | error e =>
        rw [hv] at h
        exact h
      | ok es =>
        rw [hv] at h
        simp only at h ⊢
        cases hc : cloneElements (fun mem elt => cloneInto fuel mem elt A) mem es with
        | none => simp [hc] at h
        | some y =>
          rw [hlist es mem y hc]
          rw [hc] at h
          exact h
    case RK_Array p =>
      rw [cloneInto] at h ⊢
      cases hv : getArrayValue mem (.RK_Array p) with
      | error e =>
        rw [hv] at h
        exact h
      | ok r =>
        obtain ⟨es, T⟩ := r
        rw [hv] at h
        simp only at h ⊢
        cases hc : cloneElements (fun mem elt => cloneInto fuel mem elt A) mem es with
        | none => simp [hc] at h
        | some y =>
          rw [hlist es mem y hc]
          rw [hc] at h
          exact h
    case RK_ArrayAddress p =>
      rw [cloneInto] at h ⊢
      cases hv : getArrayValue mem (.RK_ArrayAddress p) with
      | error e =>
        rw [hv] at h
        exact h
      | ok r =>
        obtain ⟨es, T⟩ := r
        rw [hv] at h
        simp only at h ⊢
        cases hc : cloneElements (fun mem elt => cloneInto fuel mem elt A) mem es with
        | none => simp [hc] at h
        | some y =>
          rw [hlist es mem y hc]
          rw [hc] at h
          exact h
    all_goals
      rw [cloneInto] at h ⊢
      exact h

theorem cloneInto_mono_le (A : Nat) {fuel fuel2 : Nat} {mem : Memory} {v : SymbolicValue}
    {x : Result (SymbolicValue × Memory)}
    (h : cloneInto fuel mem v A = some x) (hle : fuel ≤ fuel2) :
    cloneInto fuel2 mem v A = some x := by
  induction hle with
  | refl => exact h
  | step _ ih => exact cloneInto_mono A _ mem v x ih

/-- The loop over the elements returns when cloning each element returns and only
appends to the memory. -/
theorem cloneElements_returns {d : Nat}
    {f : Memory → SymbolicValue → Option (Result (SymbolicValue × Memory))}
    (hret : ∀ mem e, nestsWithin d mem e = true → ∃ x, f mem e = some x)
    (happ : ∀ mem e r mem', f mem e = some (.ok (r, mem')) → ∃ ext, mem' = mem ++ ext) :
    ∀ (es : List SymbolicValue) (mem : Memory),
      (∀ e ∈ es, nestsWithin d mem e = true) → ∃ x, cloneElements f mem es = some x := by
  intro es
  induction es with
  | nil =>
    intro mem _
    exact ⟨.ok ([], mem), by simp [cloneElements]⟩
  | cons e es ih =>
    intro mem h
    obtain ⟨x, hx⟩ := hret mem e (h e (by simp))
    unfold cloneElements
    rw [hx]
    cases x with
    | error err => exact ⟨_, rfl⟩
    | ok rm =>
      obtain ⟨r, mem1⟩ := rm
      obtain ⟨ext, rfl⟩ := happ mem e r mem1 hx
      obtain ⟨y, hy⟩ := ih (mem ++ ext)
        (fun e2 he2 => nestsWithin_append ext d mem e2 (h e2 (by simp [he2])))
      simp only [hy]
      cases y with
      | error err => exact ⟨_, rfl⟩
      | ok rsm => exact ⟨_, rfl⟩

/-- On a value of finite nesting depth `cloneInto` returns within that depth. -/
theorem cloneInto_returns (A : Nat) :
    ∀ (d : Nat) (mem : Memory) (v : SymbolicValue), nestsWithin d mem v = true →
      ∃ x, cloneInto d mem v A = some x := by
  intro d
  induction d with
  | zero =>
    intro mem v h
    simp [nestsWithin] at h
  | succ d ih =>
    intro mem v h
    have hlist := @cloneElements_returns d (fun mem elt => cloneInto d mem elt A)
      (fun m e he => ih m e he) (fun m e r m' he => cloneInto_appends A d m m' e r he)
    cases v
    case RK_Aggregate p n =>
      simp only [cloneInto]
      cases hv : getAggregateValue mem (.RK_Aggregate p n) with
      | error e => exact ⟨_, rfl⟩
      | ok es =>
        rw [nestsWithin_aggregate hv, List.all_eq_true] at h
        obtain ⟨y, hy⟩ := hlist es mem h
        simp only [hy]
        cases y with
        | error err => exact ⟨_, rfl⟩
        | ok rsm => exact ⟨_, rfl⟩
    case RK_Array p =>
      simp only [cloneInto]
      cases hv : getArrayValue mem (.RK_Array p) with
      | error e => exact ⟨_, rfl⟩
      | ok r =>
        obtain ⟨es, T⟩ := r
        rw [nestsWithin_array hv, List.all_eq_true] at h
        obtain ⟨y, hy⟩ := hlist es mem h
        simp only [hy]
        cases y with
        | error err => exact ⟨_, rfl⟩
        | ok rsm => exact ⟨_, rfl⟩
    case RK_ArrayAddress p =>
      simp only [cloneInto]
      cases hv : getArrayValue mem (.RK_ArrayAddress p) with
      | error e => exact ⟨_, rfl⟩
      | ok r =>
        obtain ⟨es, T⟩ := r
        rw [nestsWithin_array hv, List.all_eq_true] at h
        obtain ⟨y, hy⟩ := hlist es mem h
        simp only [hy]
        cases y with
        | error err => exact ⟨_, rfl⟩
        | ok rsm => exact ⟨_, rfl⟩
    all_goals
      simp only [cloneInto]
      exact ⟨_, rfl⟩

/-- On the value of `cyclicMemory`, whose array is read again through the array address
it holds, `cloneInto` does not return within any bound. -/
theorem cloneInto_cyclic (A : Nat) :
    ∀ fuel, cloneInto fuel cyclicMemory (.RK_ArrayAddress 1) A = none := by
  intro fuel
  induction fuel with
  | zero => rfl
  | succ fuel ih =>
    have hv : getArrayValue cyclicMemory (.RK_ArrayAddress 1) =
        .ok ([.RK_ArrayAddress 1, int32 7], Int32Type) := by decide
    simp only [cloneInto, hv, cloneElements, ih]

/-- An aggregate built by `getAggregate` from elements of finite nesting depth has
finite nesting depth. -/
theorem nestsWithin_getAggregate {d : Nat} {mem : Memory} {es : List SymbolicValue} (A : Nat)
    (hlen : es.length < 4294967296) (h : ∀ e ∈ es, nestsWithin d mem e = true) :
    nestsWithin (d + 1) (getAggregate mem es A).2 (getAggregate mem es A).1 = true := by
  have hv := getAggregateValue_getAggregate_eq mem es A
  rw [arrayRef_of_lt es hlen] at hv
  rw [nestsWithin_aggregate hv, List.all_eq_true]
  intro e he
  exact nestsWithin_append _ d mem e (h e he)

/-- An array built by `getArray` from elements of finite nesting depth has finite
nesting depth. -/
theorem nestsWithin_getArray {d : Nat} {mem : Memory} {es : List SymbolicValue}
    (T : SwiftType) (A : Nat)
    (hlen : es.length < 4294967296) (h : ∀ e ∈ es, nestsWithin d mem e = true) :
    nestsWithin (d + 1) (getArray mem es T A).2 (getArray mem es T A).1 = true := by
  have hv := getArrayValue_getArray_eq mem es T A
  rw [arrayRef_of_lt es hlen] at hv
  rw [nestsWithin_array hv, List.all_eq_true]
  intro e he
  exact nestsWithin_append _ d mem e (h e he)

/-! ## Lemmas on the diagnostic notes -/

theorem emitNoteDiagnostic_found {badInst : SILInstruction} (reason : UnknownReason)
    (fallbackLoc : SILLocation) (error : String)
    (h : (resolvedLocation badInst).isNull = false) :
    emitNoteDiagnostic badInst reason fallbackLoc error =
      (true, [⟨(resolvedLocation badInst).getSourceLoc, .constexpr_unknown_reason, [error],
        some (resolvedLocation badInst).getSourceRange⟩]) := by
  unfold resolvedLocation at h
  simp [emitNoteDiagnostic, resolvedLocation, h]

theorem emitNoteDiagnostic_fallback {badInst : SILInstruction} {reason : UnknownReason}
    {fallbackLoc : SILLocation} (error : String)
    (h : (resolvedLocation badInst).isNull = true) (hr : reason ≠ .Default)
    (hf : fallbackLoc.isNull = false) :
    emitNoteDiagnostic badInst reason fallbackLoc error =
      (true, [⟨fallbackLoc.getSourceLoc, .constexpr_unknown_reason, [error],
        some fallbackLoc.getSourceRange⟩]) := by
  unfold resolvedLocation at h
  simp [emitNoteDiagnostic, h, hr, hf]

theorem emitNoteDiagnostic_nothing {badInst : SILInstruction} {reason : UnknownReason}
    {fallbackLoc : SILLocation} (error : String)
    (h : (resolvedLocation badInst).isNull = true)
    (hr : reason = .Default ∨ fallbackLoc.isNull = true) :
    emitNoteDiagnostic badInst reason fallbackLoc error = (false, []) := by
  unfold resolvedLocation at h
  simp [emitNoteDiagnostic, h, hr]

/-- The reason note is one note at most, it is a `constexpr_unknown_reason` note whose
argument is the message, and the flag tells whether it was emitted. -/
theorem emitNoteDiagnostic_shape (badInst : SILInstruction) (reason : UnknownReason)
    (fallbackLoc : SILLocation) (error : String) :
    (emitNoteDiagnostic badInst reason fallbackLoc error = (false, [])) ∨
    (∃ loc range, emitNoteDiagnostic badInst reason fallbackLoc error =
      (true, [⟨loc, .constexpr_unknown_reason, [error], some range⟩])) := by
  cases h : (resolvedLocation badInst).isNull
  · exact Or.inr ⟨_, _, emitNoteDiagnostic_found reason fallbackLoc error h⟩
  · by_cases hr : reason = .Default ∨ fallbackLoc.isNull = true
    · exact Or.inl (emitNoteDiagnostic_nothing error h hr)
    · have hr1 : reason ≠ .Default := fun e => hr (Or.inl e)
      have hf : fallbackLoc.isNull = false := by
        cases hf : fallbackLoc.isNull
        · rfl
        · exact absurd (Or.inr hf) hr
      exact Or.inr ⟨_, _, emitNoteDiagnostic_fallback error h hr1 hf⟩

theorem emitCallStackNotes_emitted (SM : SourceManager) (line : Unsigned) :
    ∀ frames : List SourceLoc, emitCallStackNotes SM line true frames =
      (frames.filter (qualifies SM line)).map
        (fun l => (⟨l, .constexpr_called_from, [], none⟩ : Diagnostic)) := by
  intro frames
  induction frames with
  | nil => simp [emitCallStackNotes]
  | cons f rest ih =>
    by_cases hv : f.isValid = true
    · by_cases hl : SM.getLineNumber f = line
      · simp [emitCallStackNotes, qualifies, hv, hl, ih]
      · simp [emitCallStackNotes, qualifies, hv, hl, ih]
    · simp [emitCallStackNotes, qualifies, hv, ih]

/-- The notes of the loop over the call stack: one per qualifying frame, in order; the
first is `constexpr_not_evaluable` when no note was emitted before, every other one is
`constexpr_called_from`. -/
theorem emitCallStackNotes_eq (SM : SourceManager) (line : Unsigned) (b : Bool) :
    ∀ frames : List SourceLoc, emitCallStackNotes SM line b frames =
      specFrameNotes b (frames.filter (qualifies SM line)) := by
  intro frames
  induction frames with
  | nil => simp [emitCallStackNotes, specFrameNotes]
  | cons f rest ih =>
    by_cases hv : f.isValid = true
    · by_cases hl : SM.getLineNumber f = line
      · simp [emitCallStackNotes, qualifies, hv, hl, ih]
      · have hq : qualifies SM line f = true := by simp [qualifies, hv, hl]
        rw [List.filter_cons_of_pos hq]
        simp [emitCallStackNotes, specFrameNotes, hv, hl, emitCallStackNotes_emitted]
    · simp [emitCallStackNotes, qualifies, hv, ih]

theorem emitCallStackNotes_length (SM : SourceManager) (line : Unsigned) (b : Bool)
    (frames : List SourceLoc) :
    (emitCallStackNotes SM line b frames).length =
      (frames.filter (qualifies SM line)).length := by
  induction frames generalizing b with
  | nil => simp [emitCallStackNotes]
  | cons f rest ih =>
    by_cases hv : f.isValid = true
    · by_cases hl : SM.getLineNumber f = line
      · simp [emitCallStackNotes, qualifies, hv, hl, ih]
      · simp [emitCallStackNotes, qualifies, hv, hl, ih]
    · simp [emitCallStackNotes, qualifies, hv, ih]

theorem unknown_fields {mem : Memory} {self : SymbolicValue} {n : Nat}
    (hn : getUnknownNode mem self = .ok n) :
    ∃ p r sz tr, self = .RK_Unknown p ∧ mem.load p = .ok (.UnknownSymbolicValue n r sz tr) ∧
      getUnknownReason mem self = .ok r ∧
      getUnknownCallStack mem self = arrayRef tr sz.val := by
  cases self <;> simp [getUnknownNode, getKind, swift.assert, bind, Except.bind, pure,
    Except.pure] at hn
  case RK_Unknown p =>
    rcases load_cases mem p with h | ⟨o, h⟩
    · simp [h] at hn
    · cases o <;> simp [h] at hn
      case UnknownSymbolicValue n' r sz tr =>
        subst hn
        refine ⟨p, r, sz, tr, rfl, h, ?_, ?_⟩
        · simp [getUnknownReason, getKind, swift.assert, bind, Except.bind, pure,
            Except.pure, h]
        · simp [getUnknownCallStack, getKind, swift.assert, bind, Except.bind, pure,
            Except.pure, h, UnknownSymbolicValue.getCallStack]

/-- The notes of `emitUnknownDiagnosticNotes`, case by case. -/
theorem emit_cases {mem : Memory} {self : SymbolicValue} {fallbackLoc : SILLocation}
    {nodes : Nat → Option SILInstruction} {SM : SourceManager} {notes : List Diagnostic}
    (h : emitUnknownDiagnosticNotes mem self fallbackLoc nodes SM = .ok notes) :
    ∃ n r, getUnknownNode mem self = .ok n ∧ getUnknownReason mem self = .ok r ∧
      ((nodes n = none ∧ notes = []) ∨
       ∃ badInst, nodes n = some badInst ∧
        ((fallbackLoc.getSourceLoc.isValid = false ∧
          notes = (emitNoteDiagnostic badInst r fallbackLoc (specReasonMessage r)).2 ++
            [⟨fallbackLoc.getSourceLoc, .constexpr_not_evaluable, [], none⟩]) ∨
         (fallbackLoc.getSourceLoc.isValid = true ∧
          ∃ cs, getUnknownCallStack mem self = .ok cs ∧
            notes = (emitNoteDiagnostic badInst r fallbackLoc (specReasonMessage r)).2 ++
              specFrameNotes (emitNoteDiagnostic badInst r fallbackLoc (specReasonMessage r)).1
                (cs.reverse.filter
                  (qualifies SM (SM.getLineNumber fallbackLoc.getSourceLoc)))))) := by
  cases hn : getUnknownNode mem self with
  | error e => simp [emitUnknownDiagnosticNotes, hn, bind, Except.bind] at h
  | ok n =>
    obtain ⟨p, r, sz, tr, rfl, hl, hr, hc⟩ := unknown_fields hn
    refine ⟨n, r, rfl, hr, ?_⟩
    cases hi : nodes n with
    | none =>
      simp [emitUnknownDiagnosticNotes, hn, bind, Except.bind, hi, pure, Except.pure] at h
      exact Or.inl ⟨rfl, h⟩
    | some badInst =>
      refine Or.inr ⟨badInst, rfl, ?_⟩
      cases hv : fallbackLoc.getSourceLoc.isValid with
      | false =>
        refine Or.inl ⟨rfl, ?_⟩
        cases r <;>
          simp [emitUnknownDiagnosticNotes, hn, bind, Except.bind, hi, pure, Except.pure, hr,
            SourceLoc.isInvalid, hv, specReasonMessage] at h ⊢ <;> exact h.symm
      | true =>
        cases hcs : getUnknownCallStack mem (.RK_Unknown p) with
        | error e =>
          cases r <;>
            simp [emitUnknownDiagnosticNotes, hn, bind, Except.bind, hi, pure, Except.pure, hr,
              SourceLoc.isInvalid, hv, hcs] at h
        | ok cs =>
          refine Or.inr ⟨rfl, cs, rfl, ?_⟩
          cases r <;>
            simp [emitUnknownDiagnosticNotes, hn, bind, Except.bind, hi, pure, Except.pure, hr,
              SourceLoc.isInvalid, hv, hcs, emitCallStackNotes_eq, specReasonMessage] at h ⊢ <;>
            exact h.symm

theorem specFrameNotes_length (b : Bool) (frames : List SourceLoc) :
    (specFrameNotes b frames).length = frames.length := by
  cases frames <;> simp [specFrameNotes]

theorem specFrameNotes_mem {b : Bool} {frames : List SourceLoc} {d : Diagnostic}
    (h : d ∈ specFrameNotes b frames) :
    d.loc ∈ frames ∧ d.id ≠ .constexpr_unknown_reason ∧ d.args = [] ∧ d.highlight = none := by
  cases frames with
  | nil => simp [specFrameNotes] at h
  | cons f rest =>
    simp only [specFrameNotes, List.mem_cons, List.mem_map] at h
    rcases h with h | ⟨l, hl, h⟩
    · subst h
      cases b <;> simp
    · subst h
      simp [hl]

theorem specFrameNotes_of_mem (b : Bool) {frames : List SourceLoc} {l : SourceLoc}
    (h : l ∈ frames) :
    ∃ d ∈ specFrameNotes b frames, d.loc = l ∧ d.id ≠ .constexpr_unknown_reason := by
  cases frames with
  | nil => simp at h
  | cons f rest =>
    rcases List.mem_cons.1 h with h | h
    · subst h
      refine ⟨_, List.mem_cons_self _ _, rfl, ?_⟩
      cases b <;> simp
    · refine ⟨⟨l, .constexpr_called_from, [], none⟩, ?_, rfl, by simp⟩
      simp only [specFrameNotes, List.mem_cons, List.mem_map]
      exact Or.inr ⟨l, h, rfl⟩

theorem qualifies_iff (SM : SourceManager) (line : Unsigned) (l : SourceLoc) :
    qualifies SM line l = true ↔ l.isValid = true ∧ SM.getLineNumber l ≠ line := by
  simp [qualifies]

theorem emitNoteDiagnostic_mem {badInst : SILInstruction} {reason : UnknownReason}
    {fallbackLoc : SILLocation} {error : String} {d : Diagnostic}
    (h : d ∈ (emitNoteDiagnostic badInst reason fallbackLoc error).2) :
    d.id = .constexpr_unknown_reason ∧ d.args = [error] := by
  rcases emitNoteDiagnostic_shape badInst reason fallbackLoc error with e | ⟨loc, range, e⟩
  · simp [e] at h
  · simp [e] at h
    subst h
    simp

theorem emitNoteDiagnostic_length (badInst : SILInstruction) (reason : UnknownReason)
    (fallbackLoc : SILLocation) (error : String) :
    (emitNoteDiagnostic badInst reason fallbackLoc error).2.length ≤ 1 ∧
    (emitNoteDiagnostic badInst reason fallbackLoc error).1 =
      !(emitNoteDiagnostic badInst reason fallbackLoc error).2.isEmpty := by
  rcases emitNoteDiagnostic_shape badInst reason fallbackLoc error with e | ⟨loc, range, e⟩
  · simp [e]
  · simp [e]

theorem filter_same_line_le (SM : SourceManager) (line : Unsigned) (cs : List SourceLoc) :
    (cs.filter (qualifies SM line)).length +
      (cs.filter (fun l => decide (SM.getLineNumber l = line))).length ≤ cs.length := by
  induction cs with
  | nil => simp
  | cons f rest ih =>
    by_cases hl : SM.getLineNumber f = line
    · have hq : qualifies SM line f = false := by simp [qualifies, hl]
      simp [List.filter_cons, hq, hl]
      omega
    · by_cases hq : qualifies SM line f = true
      · simp [List.filter_cons, hq, hl]
        omega
      · simp [List.filter_cons, hq, hl]
        omega

/-! ## Lemmas on the Unknown values a value holds -/

theorem containsUnknown_unknown {mem : Memory} {v : SymbolicValue} (d : Nat)
    (hk : v.getKind = .Unknown) : containsUnknown (d + 1) mem v = true := by
  simp only [containsUnknown, hk]

theorem containsUnknown_aggregate {d : Nat} {mem : Memory} {v : SymbolicValue}
    {es : List SymbolicValue} (h : getAggregateValue mem v = .ok es) :
    containsUnknown (d + 1) mem v = es.any (containsUnknown d mem) := by
  simp only [containsUnknown, getAggregateValue_kind h, h]

theorem containsUnknown_array {d : Nat} {mem : Memory} {v : SymbolicValue}
    {es : List SymbolicValue} {T : SwiftType} (h : getArrayValue mem v = .ok (es, T)) :
    containsUnknown (d + 1) mem v = es.any (containsUnknown d mem) := by
  simp only [containsUnknown, getArrayValue_kind h, h]

theorem containsUnknown_payload {d : Nat} {mem : Memory} {v p : SymbolicValue}
    (hk : v.getKind = .EnumWithPayload) (h : getEnumPayloadValue mem v = .ok p) :
    containsUnknown (d + 1) mem v = containsUnknown d mem p := by
  simp only [containsUnknown, hk, h]

/-- How a value holds an Unknown value. -/
theorem containsUnknown_inv {d : Nat} {mem : Memory} {v : SymbolicValue}
    (h : containsUnknown (d + 1) mem v = true) :
    v.getKind = .Unknown ∨
    (∃ es e, getAggregateValue mem v = .ok es ∧ e ∈ es ∧ containsUnknown d mem e = true) ∨
    (∃ es T e, getArrayValue mem v = .ok (es, T) ∧ e ∈ es ∧
      containsUnknown d mem e = true) ∨
    (∃ p, v.getKind = .EnumWithPayload ∧ getEnumPayloadValue mem v = .ok p ∧
      containsUnknown d mem p = true) := by
  cases hk : v.getKind
  case Unknown => exact Or.inl rfl
  case Aggregate =>
    cases hv : getAggregateValue mem v with
    | error e => simp [containsUnknown, hk, hv] at h
    | ok es =>
      rw [containsUnknown_aggregate hv, List.any_eq_true] at h
      obtain ⟨e, he, hc⟩ := h
      exact Or.inr (Or.inl ⟨es, e, rfl, he, hc⟩)
  case Array =>
    cases hv : getArrayValue mem v with
    | error e => simp [containsUnknown, hk, hv] at h
    | ok r =>
      obtain ⟨es, T⟩ := r
      rw [containsUnknown_array hv, List.any_eq_true] at h
      obtain ⟨e, he, hc⟩ := h
      exact Or.inr (Or.inr (Or.inl ⟨es, T, e, rfl, he, hc⟩))
  case EnumWithPayload =>
    cases hv : getEnumPayloadValue mem v with
    | error e => simp [containsUnknown, hk, hv] at h
    | ok p =>
      rw [containsUnknown_payload hk hv] at h
      exact Or.inr (Or.inr (Or.inr ⟨p, rfl, rfl, h⟩))
  all_goals simp [containsUnknown, hk] at h

/-- A value of a kind that holds no value holds no Unknown value. -/
theorem containsUnknown_leaf {mem : Memory} {v : SymbolicValue} (d : Nat)
    (h1 : v.getKind ≠ .Unknown) (h2 : v.getKind ≠ .Aggregate) (h3 : v.getKind ≠ .Array)
    (h4 : v.getKind ≠ .EnumWithPayload) : containsUnknown d mem v = false := by
  cases d with
  | zero => simp [containsUnknown]
  | succ d =>
    cases hk : v.getKind <;> simp_all [containsUnknown]

theorem containsUnknown_append (ext : Memory) :
    ∀ (d : Nat) (mem : Memory) (v : SymbolicValue),
      containsUnknown d mem v = true → containsUnknown d (mem ++ ext) v = true := by
  intro d
  induction d with
  | zero =>
    intro mem v h
    simp [containsUnknown] at h
  | succ d ih =>
    intro mem v h
    rcases containsUnknown_inv h with hk | ⟨es, e, hv, he, hc⟩ | ⟨es, T, e, hv, he, hc⟩ |
      ⟨p, hk, hv, hc⟩
    · exact containsUnknown_unknown d hk
    · rw [containsUnknown_aggregate (getAggregateValue_append ext hv), List.any_eq_true]
      exact ⟨e, he, ih mem e hc⟩
    · rw [containsUnknown_array (getArrayValue_append ext hv), List.any_eq_true]
      exact ⟨e, he, ih mem e hc⟩
    · rw [containsUnknown_payload hk (getEnumPayloadValue_append ext hv)]
      exact ih mem p hc

theorem ContainsUnknown_append {mem : Memory} {v : SymbolicValue} (ext : Memory)
    (h : ContainsUnknown mem v) : ContainsUnknown (mem ++ ext) v := by
  obtain ⟨d, hd⟩ := h
  exact ⟨d, containsUnknown_append ext d mem v hd⟩

theorem ContainsUnknown_of_aggregate {mem : Memory} {v e : SymbolicValue}
    {es : List SymbolicValue} (hv : getAggregateValue mem v = .ok es) (he : e ∈ es)
    (h : ContainsUnknown mem e) : ContainsUnknown mem v := by
  obtain ⟨d, hd⟩ := h
  refine ⟨d + 1, ?_⟩
  rw [containsUnknown_aggregate hv, List.any_eq_true]
  exact ⟨e, he, hd⟩

theorem ContainsUnknown_of_array {mem : Memory} {v e : SymbolicValue}
    {es : List SymbolicValue} {T : SwiftType} (hv : getArrayValue mem v = .ok (es, T))
    (he : e ∈ es) (h : ContainsUnknown mem e) : ContainsUnknown mem v := by
  obtain ⟨d, hd⟩ := h
  refine ⟨d + 1, ?_⟩
  rw [containsUnknown_array hv, List.any_eq_true]
  exact ⟨e, he, hd⟩

theorem ContainsUnknown_of_payload {mem : Memory} {v p : SymbolicValue}
    (hk : v.getKind = .EnumWithPayload) (hv : getEnumPayloadValue mem v = .ok p)
    (h : ContainsUnknown mem p) : ContainsUnknown mem v := by
  obtain ⟨d, hd⟩ := h
  refine ⟨d + 1, ?_⟩
  rw [containsUnknown_payload hk hv]
  exact hd

theorem ContainsUnknown_inv {mem : Memory} {v : SymbolicValue} (h : ContainsUnknown mem v) :
    v.getKind = .Unknown ∨
    (∃ es e, getAggregateValue mem v = .ok es ∧ e ∈ es ∧ ContainsUnknown mem e) ∨
    (∃ es T e, getArrayValue mem v = .ok (es, T) ∧ e ∈ es ∧ ContainsUnknown mem e) ∨
    (∃ p, v.getKind = .EnumWithPayload ∧ getEnumPayloadValue mem v = .ok p ∧
      ContainsUnknown mem p) := by
  obtain ⟨d, hd⟩ := h
  cases d with
  | zero => simp [containsUnknown] at hd
  | succ d =>
    rcases containsUnknown_inv hd with hk | ⟨es, e, hv, he, hc⟩ | ⟨es, T, e, hv, he, hc⟩ |
      ⟨p, hk, hv, hc⟩
    · exact Or.inl hk
    · exact Or.inr (Or.inl ⟨es, e, hv, he, d, hc⟩)
    · exact Or.inr (Or.inr (Or.inl ⟨es, T, e, hv, he, d, hc⟩))
    · exact Or.inr (Or.inr (Or.inr ⟨p, hk, hv, d, hc⟩))

theorem ContainsUnknown_leaf {mem : Memory} {v : SymbolicValue}
    (h1 : v.getKind ≠ .Unknown) (h2 : v.getKind ≠ .Aggregate) (h3 : v.getKind ≠ .Array)
    (h4 : v.getKind ≠ .EnumWithPayload) : ¬ ContainsUnknown mem v := by
  rintro ⟨d, hd⟩
  rw [containsUnknown_leaf d h1 h2 h3 h4] at hd
  cases hd

theorem ContainsUnknown_unknown {mem : Memory} {v : SymbolicValue}
    (hk : v.getKind = .Unknown) : ContainsUnknown mem v :=
  ⟨1, containsUnknown_unknown 0 hk⟩

theorem arrayRef_count {α : Type} (xs : List α) :
    arrayRef xs (toUnsigned xs.length).val = .ok (xs.take (toUnsigned xs.length).val) := by
  have hle : (toUnsigned xs.length).val ≤ xs.length := Nat.mod_le _ _
  simp [arrayRef, hle]

/-- The elements of a freshly built aggregate, read in an extension of the memory. -/
theorem getAggregateValue_built (mem : Memory) (es : List SymbolicValue) (A : Nat)
    (ext : Memory) :
    getAggregateValue ((getAggregate mem es A).2 ++ ext) (getAggregate mem es A).1 =
      .ok (es.take (toUnsigned es.length).val) := by
  apply getAggregateValue_append
  rw [getAggregateValue_getAggregate_eq, arrayRef_count]

/-- The elements of a freshly built array, read in an extension of the memory. -/
theorem getArrayValue_built (mem : Memory) (es : List SymbolicValue) (T : SwiftType) (A : Nat)
    (ext : Memory) :
    getArrayValue ((getArray mem es T A).2 ++ ext) (getArray mem es T A).1 =
      .ok (es.take (toUnsigned es.length).val, T) := by
  apply getArrayValue_append
  rw [getArrayValue_getArray_eq, arrayRef_count]
  rfl

/-- An Unknown value in a freshly built aggregate is in one of the elements. -/
theorem ContainsUnknown_new_aggregate {mem : Memory} {es : List SymbolicValue} {A : Nat}
    {ext : Memory}
    (h : ContainsUnknown ((getAggregate mem es A).2 ++ ext) (getAggregate mem es A).1) :
    ∃ e ∈ es, ContainsUnknown ((getAggregate mem es A).2 ++ ext) e := by
  have hv := getAggregateValue_built mem es A ext
  rcases ContainsUnknown_inv h with hk | ⟨es2, e, hv2, he, hc⟩ | ⟨es2, T, e, hv2, he, hc⟩ |
    ⟨p, hk, _⟩
  · cases hk
  · rw [hv] at hv2
    cases hv2
    exact ⟨e, List.mem_of_mem_take he, hc⟩
  · have := getArrayValue_kind hv2
    cases this
  · cases hk

/-- An Unknown value in a freshly built array is in one of the elements. -/
theorem ContainsUnknown_new_array {mem : Memory} {es : List SymbolicValue} {T : SwiftType}
    {A : Nat} {ext : Memory}
    (h : ContainsUnknown ((getArray mem es T A).2 ++ ext) (getArray mem es T A).1) :
    ∃ e ∈ es, ContainsUnknown ((getArray mem es T A).2 ++ ext) e := by
  have hv := getArrayValue_built mem es T A ext
  rcases ContainsUnknown_inv h with hk | ⟨es2, e, hv2, he, hc⟩ | ⟨es2, T2, e, hv2, he, hc⟩ |
    ⟨p, hk, _⟩
  · cases hk
  · have := getAggregateValue_kind hv2
    cases this
  · rw [hv] at hv2
    cases hv2
    exact ⟨e, List.mem_of_mem_take he, hc⟩
  · cases hk

/-! ## Unknown values through get, set, looking through and cloning -/

theorem mem_of_getElem?_some {α : Type} {xs : List α} {i : Nat} {x : α}
    (h : xs[i]? = some x) : x ∈ xs := by
  obtain ⟨hlt, hx⟩ := List.getElem?_eq_some_iff.mp h
  rw [← hx]
  exact List.getElem_mem hlt

theorem getAggregateValue_extended {mem M : Memory} {v : SymbolicValue}
    {es : List SymbolicValue} (hp : mem <+: M) (h : getAggregateValue mem v = .ok es) :
    getAggregateValue M v = .ok es := by
  obtain ⟨t, rfl⟩ := hp
  exact getAggregateValue_append t h

theorem getArrayValue_extended {mem M : Memory} {v : SymbolicValue}
    {r : List SymbolicValue × SwiftType} (hp : mem <+: M) (h : getArrayValue mem v = .ok r) :
    getArrayValue M v = .ok r := by
  obtain ⟨t, rfl⟩ := hp
  exact getArrayValue_append t h

theorem getEnumPayloadValue_extended {mem M : Memory} {v p : SymbolicValue}
    (hp : mem <+: M) (h : getEnumPayloadValue mem v = .ok p) :
    getEnumPayloadValue M v = .ok p := by
  obtain ⟨t, rfl⟩ := hp
  exact getEnumPayloadValue_append t h

theorem ContainsUnknown_extended {mem M : Memory} {v : SymbolicValue} (hp : mem <+: M)
    (h : ContainsUnknown mem v) : ContainsUnknown M v := by
  obtain ⟨t, rfl⟩ := hp
  exact ContainsUnknown_append t h

/-- An Unknown value in an aggregate built by `getAggregate`, read in an extension of the
memory after the call, is in one of the elements. -/
theorem ContainsUnknown_built_aggregate {mem M : Memory} {es : List SymbolicValue} {A : Nat}
    (hp : (getAggregate mem es A).2 <+: M)
    (h : ContainsUnknown M (getAggregate mem es A).1) :
    ∃ e ∈ es, ContainsUnknown M e := by
  obtain ⟨t, rfl⟩ := hp
  exact ContainsUnknown_new_aggregate h

theorem ContainsUnknown_built_array {mem M : Memory} {es : List SymbolicValue}
    {T : SwiftType} {A : Nat}
    (hp : (getArray mem es T A).2 <+: M)
    (h : ContainsUnknown M (getArray mem es T A).1) :
    ∃ e ∈ es, ContainsUnknown M e := by
  obtain ⟨t, rfl⟩ := hp
  exact ContainsUnknown_new_array h

theorem getAggregate_grows (mem : Memory) (es : List SymbolicValue) (A : Nat) :
    mem <+: (getAggregate mem es A).2 :=
  ⟨_, rfl⟩

theorem getArray_grows (mem : Memory) (es : List SymbolicValue) (T : SwiftType) (A : Nat) :
    mem <+: (getArray mem es T A).2 :=
  ⟨_, rfl⟩

theorem not_ContainsUnknown_uninit (M : Memory) : ¬ ContainsUnknown M .RK_UninitMemory :=
  ContainsUnknown_leaf (by decide) (by decide) (by decide) (by decide)

/-- What `getIndexedElement` returns holds an Unknown value only if the value it reads
in holds one. -/
theorem get_unknown :
    ∀ (p : List Nat) (mem : Memory) (v r : SymbolicValue) (t : SwiftType),
      getIndexedElement mem v p t = .ok r → ContainsUnknown mem r → ContainsUnknown mem v := by
  intro p
  induction p with
  | nil =>
    intro mem v r t h hc
    rw [get_nil] at h
    cases h
    exact hc
  | cons i rest ih =>
    intro mem v r t h hc
    rcases get_cons_inv h with ⟨_, rfl⟩ | ⟨es, e, ti, hv, he, _, hrec⟩ | ⟨es, T, e, hv, he, hrec⟩
    · exact absurd hc (not_ContainsUnknown_uninit mem)
    · exact ContainsUnknown_of_aggregate hv (mem_of_getElem?_some he) (ih mem e r ti hrec hc)
    · exact ContainsUnknown_of_array hv (mem_of_getElem?_some he) (ih mem e r T hrec hc)

theorem set_extended {mem mem' : Memory} {v v' s : SymbolicValue} {p : List Nat}
    {t : SwiftType} {A : Nat} (h : setIndexedElement mem v p s t A = .ok (v', mem')) :
    mem <+: mem' := by
  obtain ⟨ext, rfl⟩ := set_appends s A p mem mem' v v' t h
  exact ⟨ext, rfl⟩

/-- What `setIndexedElement` returns holds an Unknown value, in the memory after the
call or an extension of it, only if the value it rebuilds or the scalar holds one. -/
theorem set_unknown (s : SymbolicValue) (A : Nat) :
    ∀ (p : List Nat) (mem mem' : Memory) (v v' : SymbolicValue) (t : SwiftType),
      setIndexedElement mem v p s t A = .ok (v', mem') →
      ∀ M, mem' <+: M → ContainsUnknown M v' → ContainsUnknown M v ∨ ContainsUnknown M s := by
  intro p
  induction p with
  | nil =>
    intro mem mem' v v' t h M _ hc
    rw [set_nil] at h
    obtain ⟨hv, _⟩ := Prod.mk.inj (Except.ok.inj h)
    rw [← hv] at hc
    exact Or.inr hc
  | cons i rest ih =>
    intro mem mem' v v' t h M hM hc
    rcases set_cons_inv h with ⟨_, n, ti, e', mem2, _, _, _, hrec, hr⟩ |
      ⟨es, e, ti, e', mem2, hv, _, he, hrec, hr⟩ | ⟨es, T, e, e', mem2, hv, he, hrec, hr⟩
    · obtain ⟨hr1, hr2⟩ := Prod.mk.inj hr
      subst hr1
      subst hr2
      obtain ⟨x, hx, hcx⟩ := ContainsUnknown_built_aggregate hM hc
      have hM2 : mem2 <+: M := (getAggregate_grows mem2 _ A).trans hM
      rcases List.mem_or_eq_of_mem_set hx with hx | rfl
      · rw [List.eq_of_mem_replicate hx] at hcx
        exact absurd hcx (not_ContainsUnknown_uninit M)
      · rcases ih _ mem2 _ x ti hrec M hM2 hcx with h1 | h1
        · exact absurd h1 (not_ContainsUnknown_uninit M)
        · exact Or.inr h1
    · obtain ⟨hr1, hr2⟩ := Prod.mk.inj hr
      subst hr1
      subst hr2
      obtain ⟨x, hx, hcx⟩ := ContainsUnknown_built_aggregate hM hc
      have hM2 : mem2 <+: M := (getAggregate_grows mem2 _ A).trans hM
      have hM0 : mem <+: M := (set_extended hrec).trans hM2
      rcases List.mem_or_eq_of_mem_set hx with hx | rfl
      · exact Or.inl (ContainsUnknown_of_aggregate (getAggregateValue_extended hM0 hv) hx hcx)
      · rcases ih mem mem2 e x ti hrec M hM2 hcx with h1 | h1
        · exact Or.inl (ContainsUnknown_of_aggregate (getAggregateValue_extended hM0 hv)
            (mem_of_getElem?_some he) h1)
        · exact Or.inr h1
    · obtain ⟨hr1, hr2⟩ := Prod.mk.inj hr
      subst hr1
      subst hr2
      obtain ⟨x, hx, hcx⟩ := ContainsUnknown_built_array hM hc
      have hM2 : mem2 <+: M := (getArray_grows mem2 _ T A).trans hM
      have hM0 : mem <+: M := (set_extended hrec).trans hM2
      rcases List.mem_or_eq_of_mem_set hx with hx | rfl
      · exact Or.inl (ContainsUnknown_of_array (getArrayValue_extended hM0 hv) hx hcx)
      · rcases ih mem mem2 e x T hrec M hM2 hcx with h1 | h1
        · exact Or.inl (ContainsUnknown_of_array (getArrayValue_extended hM0 hv)
            (mem_of_getElem?_some he) h1)
        · exact Or.inr h1

/-- What the loop of `lookThroughSingleElementAggregates` returns holds an Unknown value
only if the value it starts from holds one. -/
theorem look_unknown :
    ∀ (fuel : Nat) (mem : Memory) (v r : SymbolicValue),
      lookThroughSingleElementAggregates fuel mem v = some (.ok r) →
      ContainsUnknown mem r → ContainsUnknown mem v := by
  intro fuel
  induction fuel with
  | zero =>
    intro mem v r h
    simp [lookThroughSingleElementAggregates] at h
  | succ fuel ih =>
    intro mem v r h hc
    by_cases hk : v.getKind = .Aggregate
    · cases hv : getAggregateValue mem v with
      | error e => simp [lookThroughSingleElementAggregates, hk, hv] at h
      | ok es =>
        by_cases hlen : es.length = 1
        · obtain ⟨e, rfl⟩ := List.length_eq_one.1 hlen
          rw [look_single fuel hv] at h
          exact ContainsUnknown_of_aggregate hv (List.mem_singleton_self e) (ih mem e r h hc)
        · rw [look_not_single fuel hv hlen] at h
          cases h
          exact hc
    · rw [look_not_aggregate fuel mem hk] at h
      cases h
      exact hc

theorem cloneElements_unknown
    {f : Memory → SymbolicValue → Option (Result (SymbolicValue × Memory))}
    (hf : ∀ mem e r mem', f mem e = some (.ok (r, mem')) →
      ∀ M, mem' <+: M → ContainsUnknown M r → ContainsUnknown M e)
    (happ : ∀ mem e r mem', f mem e = some (.ok (r, mem')) → ∃ ext, mem' = mem ++ ext) :
    ∀ (es : List SymbolicValue) (mem mem' : Memory) (rs : List SymbolicValue),
      cloneElements f mem es = some (.ok (rs, mem')) →
      ∀ M, mem' <+: M → ∀ r ∈ rs, ContainsUnknown M r → ∃ e ∈ es, ContainsUnknown M e := by
  intro es
  induction es with
  | nil =>
    intro mem mem' rs h M _ r hr
    simp only [cloneElements, Option.some.injEq, Except.ok.injEq, Prod.mk.injEq] at h
    rw [← h.1] at hr
    cases hr
  | cons e es ih =>
    intro mem mem' rs h M hM r hr hc
    obtain ⟨r0, mem1, rs2, h1, h2, rfl⟩ := cloneElements_cons_inv h
    obtain ⟨ext1, hext1⟩ := cloneElements_appends happ es mem1 mem' rs2 h2
    have hM1 : mem1 <+: M := List.IsPrefix.trans ⟨ext1, hext1.symm⟩ hM
    rcases List.mem_cons.1 hr with rfl | hr
    · exact ⟨e, List.mem_cons_self _ _, hf mem e r mem1 h1 M hM1 hc⟩
    · obtain ⟨x, hx, hcx⟩ := ih mem1 mem' rs2 h2 M hM r hr hc
      exact ⟨x, List.mem_cons_of_mem _ hx, hcx⟩

/-- What `cloneInto` returns holds an Unknown value, in the memory after the call or an
extension of it, only if the value it clones holds one. -/
theorem clone_unknown (A : Nat) :
    ∀ (fuel : Nat) (mem mem' : Memory) (v r : SymbolicValue),
      cloneInto fuel mem v A = some (.ok (r, mem')) →
      ∀ M, mem' <+: M → ContainsUnknown M r → ContainsUnknown M v := by
  intro fuel
  induction fuel with
  | zero =>
    intro mem mem' v r h
    simp [cloneInto] at h
  | succ fuel ih =>
    intro mem mem' v r h M hM hc
    have htriv : (some (Except.ok (v, mem)) : Option (Result (SymbolicValue × Memory))) =
        some (Except.ok (r, mem')) → ContainsUnknown M v := by
      intro e
      simp only [Option.some.injEq, Except.ok.injEq, Prod.mk.injEq] at e
      rw [e.1]
      exact hc
    have hleaf : r.getKind ≠ .Unknown → r.getKind ≠ .Aggregate → r.getKind ≠ .Array →
        r.getKind ≠ .EnumWithPayload → ContainsUnknown M v :=
      fun h1 h2 h3 h4 => absurd hc (ContainsUnknown_leaf h1 h2 h3 h4)
    have hlist : ∀ es rs m2, cloneElements (fun mem elt => cloneInto fuel mem elt A) mem es =
        some (.ok (rs, m2)) → mem <+: m2 ∧
        ∀ M, m2 <+: M → ∀ r ∈ rs, ContainsUnknown M r → ∃ e ∈ es, ContainsUnknown M e := by
      intro es rs m2 hcl
      obtain ⟨ext, hext⟩ := cloneElements_appends
        (fun m e r m' he => cloneInto_appends A fuel m m' e r he) es mem m2 rs hcl
      exact ⟨⟨ext, hext.symm⟩, cloneElements_unknown (fun m e r m' he => ih m m' e r he)
        (fun m e r m' he => cloneInto_appends A fuel m m' e r he) es mem m2 rs hcl⟩
    have harray : ∀ self : SymbolicValue,
        (match self.getArrayValue mem with
          | .error e => some (.error e)
          | .ok (elts, elementType) =>
            match cloneElements (fun mem elt => cloneInto fuel mem elt A) mem elts with
            | none => none
            | some (.error e) => some (.error e)
            | some (.ok (results, mem)) =>
              some (.ok (getArray mem results elementType A)) :
                Option (Result (SymbolicValue × Memory))) = some (.ok (r, mem')) →
        ContainsUnknown M self := by
      intro self h
      cases hv : getArrayValue mem self with
      | error e => simp [hv] at h
      | ok x =>
        obtain ⟨es, T⟩ := x
        simp only [hv] at h
        cases hcl : cloneElements (fun mem elt => cloneInto fuel mem elt A) mem es with
        | none => simp [hcl] at h
        | some y =>
          cases y with
          | error err => simp [hcl] at h
          | ok rsm =>
            obtain ⟨rs, m2⟩ := rsm
            simp only [hcl, Option.some.injEq, Except.ok.injEq] at h
            obtain ⟨hr1, hr2⟩ := Prod.mk.inj h
            subst hr1
            subst hr2
            obtain ⟨hp, hl⟩ := hlist es rs m2 hcl
            obtain ⟨x, hx, hcx⟩ := ContainsUnknown_built_array hM hc
            have hM2 : m2 <+: M := (getArray_grows m2 rs T A).trans hM
            obtain ⟨e, he, hce⟩ := hl M hM2 x hx hcx
            exact ContainsUnknown_of_array (getArrayValue_extended (hp.trans hM2) hv) he hce
    have haddr : ∀ self : SymbolicValue,
        (do
          let accessPath : List Unsigned := []
          let (memObject, accessPath) ← self.getAddressValue mem accessPath
          let (type, value) ← SymbolicValueMemoryObject.fields mem memObject
          let (newMemObject, mem) := SymbolicValueMemoryObject.create mem type value A
          pure (getAddress mem newMemObject accessPath A) :
            Result (SymbolicValue × Memory)) = .ok (r, mem') →
        r.getKind = .Address := by
      intro self hs
      cases h1 : getAddressValue mem self [] with
      | error e => simp [h1, bind, Except.bind] at hs
      | ok x =>
        obtain ⟨m, path⟩ := x
        cases h2 : SymbolicValueMemoryObject.fields mem m with
        | error e => simp [h1, h2, bind, Except.bind] at hs
        | ok r2 =>
          obtain ⟨T, val⟩ := r2
          simp only [h1, h2, bind, Except.bind, pure, Except.pure,
            SymbolicValueMemoryObject.create, Memory.allocate, Except.ok.injEq] at hs
          have hk := getAddress_kind (mem ++ [⟨A, .SymbolicValueMemoryObject T val⟩])
            mem.length path A
          rw [hs] at hk
          exact hk
    cases v
    case RK_UninitMemory => exact htriv (by simpa only [cloneInto] using h)
    case RK_Unknown p => exact htriv (by simpa only [cloneInto] using h)
    case RK_Metatype t => exact htriv (by simpa only [cloneInto] using h)
    case RK_Function f => exact htriv (by simpa only [cloneInto] using h)
    case RK_Enum e => exact htriv (by simpa only [cloneInto] using h)
    case RK_IntegerInline w bw => exact htriv (by simpa only [cloneInto] using h)
    case RK_Float32 w => exact htriv (by simpa only [cloneInto] using h)
    case RK_Float64 w => exact htriv (by simpa only [cloneInto] using h)
    case RK_Integer p bw =>
      simp only [cloneInto, Option.some.injEq] at h
      cases hv : getIntegerValue mem (.RK_Integer p bw) with
      | error e => simp [hv, bind, Except.bind] at h
      | ok x =>
        simp only [hv, bind, Except.bind] at h
        have hk := getIntegerAPInt_kind h
        simp only at hk
        exact hleaf (by simp [hk]) (by simp [hk]) (by simp [hk]) (by simp [hk])
    case RK_Float p =>
      simp only [cloneInto, Option.some.injEq] at h
      cases hv : getFloatValue mem (.RK_Float p) with
      | error e => simp [hv, bind, Except.bind] at h
      | ok x =>
        simp only [hv, bind, Except.bind] at h
        have hk := getFloat_kind h
        simp only at hk
        exact hleaf (by simp [hk]) (by simp [hk]) (by simp [hk]) (by simp [hk])
    case RK_String p n =>
      simp only [cloneInto, Option.some.injEq] at h
      cases hv : getStringValue mem (.RK_String p n) with
      | error e => simp [hv, bind, Except.bind] at h
      | ok x =>
        simp only [hv, bind, Except.bind, pure, Except.pure, Except.ok.injEq] at h
        obtain ⟨hr, _⟩ := Prod.mk.inj h
        have hk : r.getKind = .String := by
          rw [← hr]
          rfl
        exact hleaf (by simp [hk]) (by simp [hk]) (by simp [hk]) (by simp [hk])
    case RK_Aggregate p n =>
      simp only [cloneInto] at h
      cases hv : getAggregateValue mem (.RK_Aggregate p n) with
      | error e => simp [hv] at h
      | ok es =>
        simp only [hv] at h
        cases hcl : cloneElements (fun mem elt => cloneInto fuel mem elt A) mem es with
        | none => simp [hcl] at h
        | some y =>
          cases y with
          | error err => simp [hcl] at h
          | ok rsm =>
            obtain ⟨rs, m2⟩ := rsm
            simp only [hcl, Option.some.injEq, Except.ok.injEq] at h
            obtain ⟨hr1, hr2⟩ := Prod.mk.inj h
            subst hr1
            subst hr2
            obtain ⟨hp, hl⟩ := hlist es rs m2 hcl
            obtain ⟨x, hx, hcx⟩ := ContainsUnknown_built_aggregate hM hc
            have hM2 : m2 <+: M := (getAggregate_grows m2 rs A).trans hM
            obtain ⟨e, he, hce⟩ := hl M hM2 x hx hcx
            exact ContainsUnknown_of_aggregate (getAggregateValue_extended (hp.trans hM2) hv)
              he hce
    case RK_EnumWithPayload p =>
      simp only [cloneInto, Option.some.injEq] at h
      cases hv : getEnumValue mem (.RK_EnumWithPayload p) with
      | error e => simp [hv, bind, Except.bind] at h
      | ok d =>
        cases hp : getEnumPayloadValue mem (.RK_EnumWithPayload p) with
        | error e => simp [hv, hp, bind, Except.bind] at h
        | ok pl =>
          simp only [hv, hp, bind, Except.bind] at h
          by_cases hcond : d ≠ 0 ∧ pl.isConstant = true
          · rw [getEnumWithPayload_eq mem d pl A hcond.1 hcond.2] at h
            obtain ⟨hr1, hr2⟩ := Prod.mk.inj (Except.ok.inj h)
            subst hr1
            subst hr2
            have hnew := getEnumPayloadValue_extended hM (enum_accessors_new mem d pl A).2
            have hold := getEnumPayloadValue_extended
              (List.IsPrefix.trans ⟨[⟨A, .EnumWithPayloadSymbolicValue d pl⟩], rfl⟩ hM) hp
            rcases ContainsUnknown_inv hc with hk | ⟨es2, e, hv2, _⟩ | ⟨es2, T, e, hv2, _⟩ |
              ⟨p2, _, hv2, hc2⟩
            · cases hk
            · have := getAggregateValue_kind hv2
              cases this
            · have := getArrayValue_kind hv2
              cases this
            · rw [hnew] at hv2
              cases hv2
              exact ContainsUnknown_of_payload rfl hold hc2
          · have hf : d = 0 ∨ pl.isConstant = false := by
              by_cases h0 : d = 0
              · exact Or.inl h0
              · right
                cases hpc : pl.isConstant
                · rfl
                · exact absurd ⟨h0, hpc⟩ hcond
            rw [getEnumWithPayload_fails mem d pl A hf] at h
            cases h
    case RK_Array p =>
      simp only [cloneInto] at h
      exact harray _ h
    case RK_ArrayAddress p =>
      simp only [cloneInto] at h
      exact harray _ h
    case RK_DirectAddress m =>
      simp only [cloneInto, Option.some.injEq] at h
      have hk := haddr _ h
      exact hleaf (by simp [hk]) (by simp [hk]) (by simp [hk]) (by simp [hk])
    case RK_DerivedAddress m =>
      simp only [cloneInto, Option.some.injEq] at h
      have hk := haddr _ h
      exact hleaf (by simp [hk]) (by simp [hk]) (by simp [hk]) (by simp [hk])

/-! ## Values free of Unknown values -/

theorem unknownFree_unknown {mem : Memory} {v : SymbolicValue} (d : Nat)
    (hk : v.getKind = .Unknown) : unknownFree d mem v = false := by
  cases d with
  | zero => simp [unknownFree]
  | succ d => simp only [unknownFree, hk]

theorem unknownFree_aggregate {d : Nat} {mem : Memory} {v : SymbolicValue}
    {es : List SymbolicValue} (h : getAggregateValue mem v = .ok es) :
    unknownFree (d + 1) mem v = es.all (unknownFree d mem) := by
  simp only [unknownFree, getAggregateValue_kind h, h]

theorem unknownFree_array {d : Nat} {mem : Memory} {v : SymbolicValue}
    {es : List SymbolicValue} {T : SwiftType} (h : getArrayValue mem v = .ok (es, T)) :
    unknownFree (d + 1) mem v = es.all (unknownFree d mem) := by
  simp only [unknownFree, getArrayValue_kind h, h]

theorem unknownFree_payload {d : Nat} {mem : Memory} {v p : SymbolicValue}
    (hk : v.getKind = .EnumWithPayload) (h : getEnumPayloadValue mem v = .ok p) :
    unknownFree (d + 1) mem v = unknownFree d mem p := by
  simp only [unknownFree, hk, h]

/-- A value that is free of Unknown values down to a depth at which it can be read holds
no Unknown value at any depth. -/
theorem unknownFree_not_contains :
    ∀ (d : Nat) (mem : Memory) (v : SymbolicValue), unknownFree d mem v = true →
      ¬ ContainsUnknown mem v := by
  intro d
  induction d with
  | zero =>
    intro mem v h
    simp [unknownFree] at h
  | succ d ih =>
    intro mem v h hc
    rcases ContainsUnknown_inv hc with hk | ⟨es, e, hv, he, hce⟩ | ⟨es, T, e, hv, he, hce⟩ |
      ⟨p, hk, hv, hcp⟩
    · rw [unknownFree_unknown (d + 1) hk] at h
      cases h
    · rw [unknownFree_aggregate hv, List.all_eq_true] at h
      exact ih mem e (h e he) hce
    · rw [unknownFree_array hv, List.all_eq_true] at h
      exact ih mem e (h e he) hce
    · rw [unknownFree_payload hk hv] at h
      exact ih mem p h hcp

theorem unknownFree_append (ext : Memory) :
    ∀ (d : Nat) (mem : Memory) (v : SymbolicValue),
      unknownFree d mem v = true → unknownFree d (mem ++ ext) v = true := by
  intro d
  induction d with
  | zero =>
    intro mem v h
    simp [unknownFree] at h
  | succ d ih =>
    intro mem v h
    cases hk : v.getKind
    case Unknown =>
      rw [unknownFree_unknown (d + 1) hk] at h
      cases h
    case Aggregate =>
      cases hv : getAggregateValue mem v with
      | error e => simp [unknownFree, hk, hv] at h
      | ok es =>
        rw [unknownFree_aggregate hv, List.all_eq_true] at h
        rw [unknownFree_aggregate (getAggregateValue_append ext hv), List.all_eq_true]
        exact fun e he => ih mem e (h e he)
    case Array =>
      cases hv : getArrayValue mem v with
      | error e => simp [unknownFree, hk, hv] at h
      | ok r =>
        obtain ⟨es, T⟩ := r
        rw [unknownFree_array hv, List.all_eq_true] at h
        rw [unknownFree_array (getArrayValue_append ext hv), List.all_eq_true]
        exact fun e he => ih mem e (h e he)
    case EnumWithPayload =>
      cases hv : getEnumPayloadValue mem v with
      | error e => simp [unknownFree, hk, hv] at h
      | ok p =>
        rw [unknownFree_payload hk hv] at h
        rw [unknownFree_payload hk (getEnumPayloadValue_append ext hv)]
        exact ih mem p h
    all_goals simp [unknownFree, hk]

/-- A value free of Unknown values holds none in any extension of the memory. -/
theorem unknownFree_extended {d : Nat} {mem M : Memory} {v : SymbolicValue} (hp : mem <+: M)
    (h : unknownFree d mem v = true) : ¬ ContainsUnknown M v := by
  obtain ⟨t, rfl⟩ := hp
  exact unknownFree_not_contains d _ v (unknownFree_append t d mem v h)

theorem clone_extended {A fuel : Nat} {mem mem' : Memory} {v r : SymbolicValue}
    (h : cloneInto fuel mem v A = some (.ok (r, mem'))) : mem <+: mem' := by
  obtain ⟨ext, rfl⟩ := cloneInto_appends A fuel mem mem' v r h
  exact ⟨ext, rfl⟩

theorem fields_of_obj_get {mem : Memory} {self : Ptr} {p : List Nat} {r : SymbolicValue}
    (h : SymbolicValueMemoryObject.getIndexedElement mem self p = .ok r) :
    ∃ T V, SymbolicValueMemoryObject.fields mem self = .ok (T, V) ∧
      getIndexedElement mem V p T = .ok r := by
  cases hf : SymbolicValueMemoryObject.fields mem self with
  | error e => simp [SymbolicValueMemoryObject.getIndexedElement, hf, bind, Except.bind] at h
  | ok x =>
    obtain ⟨T, V⟩ := x
    rw [obj_get_eq hf] at h
    exact ⟨T, V, rfl, h⟩

/-! ## Indexing into values that are no composites and past the elements of composites -/

theorem get_not_composite (mem : Memory) {v : SymbolicValue} (i : Nat) (rest : List Nat)
    (t : SwiftType) (h1 : v.getKind ≠ .UninitMemory) (h2 : v.getKind ≠ .Aggregate)
    (h3 : v.getKind ≠ .Array) :
    getIndexedElement mem v (i :: rest) t = .error .assertion := by
  simp [getIndexedElement, h1, h2, h3, swift.assert, bind, Except.bind]

theorem set_not_composite (mem : Memory) {v : SymbolicValue} (i : Nat) (rest : List Nat)
    (s : SymbolicValue) (t : SwiftType) (A : Nat)
    (h1 : v.getKind ≠ .UninitMemory) (h2 : v.getKind ≠ .Aggregate)
    (h3 : v.getKind ≠ .Array) :
    setIndexedElement mem v (i :: rest) s t A = .error .assertion := by
  simp [setIndexedElement, h1, h2, h3, swift.assert, bind, Except.bind, pure, Except.pure]

theorem obj_set_error {mem : Memory} {self : Ptr} {p : List Nat} {s : SymbolicValue}
    {A : Nat} {T : SwiftType} {V : SymbolicValue} {f : Fault}
    (hf : SymbolicValueMemoryObject.fields mem self = .ok (T, V))
    (hs : setIndexedElement mem V p s T A = .error f) :
    SymbolicValueMemoryObject.setIndexedElement mem self p s A = .error f := by
  simp [SymbolicValueMemoryObject.setIndexedElement, hf, hs, bind, Except.bind]

theorem indexChecked_of_le {α : Type} {xs : List α} {i : Nat} (h : xs.length ≤ i) :
    indexChecked xs i = .error .assertion := by
  simp [indexChecked, List.getElem?_eq_none h]

theorem get_past_aggregate {mem : Memory} {v : SymbolicValue} {es : List SymbolicValue}
    {i : Nat} (rest : List Nat) (t : SwiftType)
    (hes : getAggregateValue mem v = .ok es) (hi : es.length ≤ i) :
    getIndexedElement mem v (i :: rest) t = .error .assertion := by
  rw [get_cons_aggregate mem v i rest t es (getAggregateValue_kind hes) hes,
    indexChecked_of_le hi]
  rfl

theorem get_past_array {mem : Memory} {v : SymbolicValue} {es : List SymbolicValue}
    {T : SwiftType} {i : Nat} (rest : List Nat) (t : SwiftType)
    (hes : getArrayValue mem v = .ok (es, T)) (hi : es.length ≤ i) :
    getIndexedElement mem v (i :: rest) t = .error .assertion := by
  rw [get_cons_array mem v i rest t es T (getArrayValue_kind hes) hes, indexChecked_of_le hi]
  rfl

theorem set_past_array {mem : Memory} {v : SymbolicValue} {es : List SymbolicValue}
    {T : SwiftType} {i : Nat} (rest : List Nat) (s : SymbolicValue) (t : SwiftType) (A : Nat)
    (hes : getArrayValue mem v = .ok (es, T)) (hi : es.length ≤ i) :
    setIndexedElement mem v (i :: rest) s t A = .error .assertion := by
  have hk := getArrayValue_kind hes
  simp [setIndexedElement, hk, hes, swift.assert, indexChecked_of_le hi, bind, Except.bind,
    pure, Except.pure]

/-- A set past the elements of an Aggregate whose static type has a member for the index
fails the bounds assertion. -/
theorem set_past_aggregate {mem : Memory} {v : SymbolicValue} {es : List SymbolicValue}
    {i : Nat} {t ti : SwiftType} (rest : List Nat) (s : SymbolicValue) (A : Nat)
    (hes : getAggregateValue mem v = .ok es) (hi : es.length ≤ i)
    (hty : aggregateElementType t i = .ok ti) :
    setIndexedElement mem v (i :: rest) s t A = .error .assertion := by
  have hk := getAggregateValue_kind hes
  simp [setIndexedElement, hk, hes, hty, swift.assert, indexChecked_of_le hi, bind,
    Except.bind, pure, Except.pure]

/-- A set into an Aggregate stops at the fault of the static type before it indexes the
elements. -/
theorem set_aggregate_type_fault {mem : Memory} {v : SymbolicValue}
    {es : List SymbolicValue} {i : Nat} {t : SwiftType} {f : Fault} (rest : List Nat)
    (s : SymbolicValue) (A : Nat)
    (hes : getAggregateValue mem v = .ok es)
    (hty : aggregateElementType t i = .error f) :
    setIndexedElement mem v (i :: rest) s t A = .error f := by
  have hk := getAggregateValue_kind hes
  simp [setIndexedElement, hk, hes, hty, swift.assert, bind, Except.bind, pure, Except.pure]

theorem aggregateElementType_struct_past {ps : List SwiftType} {i : Nat}
    (h : ps.length ≤ i) :
    aggregateElementType (.structType ps) i = .error .undefinedBehavior := by
  simp [aggregateElementType, SwiftType.getStructOrBoundGenericStruct,
    StructDecl.storedPropertyType, List.getElem?_eq_none h]

/-! ## The levels a path reaches -/

theorem reachedAlong_nil (mem : Memory) (v : SymbolicValue) (t : SwiftType) :
    reachedAlong mem [] v t = some (v, t) := by
  simp [reachedAlong]

theorem reachedAlong_aggregate {mem : Memory} {v e : SymbolicValue} {i : Nat}
    {t ti : SwiftType} {es : List SymbolicValue} (rest : List Nat)
    (hes : getAggregateValue mem v = .ok es) (hty : aggregateElementType t i = .ok ti)
    (he : es[i]? = some e) :
    reachedAlong mem (i :: rest) v t = reachedAlong mem rest e ti := by
  simp only [reachedAlong, getAggregateValue_kind hes, hes, hty, he]

theorem reachedAlong_array {mem : Memory} {v e : SymbolicValue} {i : Nat}
    {T : SwiftType} {es : List SymbolicValue} (rest : List Nat) (t : SwiftType)
    (hes : getArrayValue mem v = .ok (es, T)) (he : es[i]? = some e) :
    reachedAlong mem (i :: rest) v t = reachedAlong mem rest e T := by
  simp only [reachedAlong, getArrayValue_kind hes, hes, he]

/-- How a path that is not empty reaches a level. -/
theorem reachedAlong_cons_inv {mem : Memory} {v c : SymbolicValue} {i : Nat}
    {rest : List Nat} {t tc : SwiftType}
    (h : reachedAlong mem (i :: rest) v t = some (c, tc)) :
    (∃ es e ti, getAggregateValue mem v = .ok es ∧ aggregateElementType t i = .ok ti ∧
      es[i]? = some e ∧ reachedAlong mem rest e ti = some (c, tc)) ∨
    (∃ es T e, getArrayValue mem v = .ok (es, T) ∧ es[i]? = some e ∧
      reachedAlong mem rest e T = some (c, tc)) := by
  cases hk : v.getKind
  case Aggregate =>
    cases hes : getAggregateValue mem v with
    | error f => simp [reachedAlong, hk, hes] at h
    | ok es =>
      cases hty : aggregateElementType t i with
      | error f => simp [reachedAlong, hk, hes, hty] at h
      | ok ti =>
        cases he : es[i]? with
        | none => simp [reachedAlong, hk, hes, hty, he] at h
        | some e =>
          rw [reachedAlong_aggregate rest hes hty he] at h
          exact Or.inl ⟨es, e, ti, rfl, rfl, he, h⟩
  case Array =>
    cases hes : getArrayValue mem v with
    | error f => simp [reachedAlong, hk, hes] at h
    | ok r =>
      obtain ⟨es, T⟩ := r
      cases he : es[i]? with
      | none => simp [reachedAlong, hk, hes, he] at h
      | some e =>
        rw [reachedAlong_array rest t hes he] at h
        exact Or.inr ⟨es, T, e, rfl, he, h⟩
  all_goals simp [reachedAlong, hk] at h

/-- A get along a path that goes on from a level it reaches is the get from that level. -/
theorem get_reached (mem : Memory) (q : List Nat) :
    ∀ (p1 : List Nat) (v c : SymbolicValue) (t tc : SwiftType),
      reachedAlong mem p1 v t = some (c, tc) →
      getIndexedElement mem v (p1 ++ q) t = getIndexedElement mem c q tc := by
  intro p1
  induction p1 with
  | nil =>
    intro v c t tc h
    rw [reachedAlong_nil] at h
    cases h
    rfl
  | cons i rest ih =>
    intro v c t tc h
    rcases reachedAlong_cons_inv h with ⟨es, e, ti, hes, hty, he, hr⟩ | ⟨es, T, e, hes, he, hr⟩
    · rw [List.cons_append, get_step_aggregate hes he hty]
      exact ih e c ti tc hr
    · rw [List.cons_append, get_step_array hes he]
      exact ih e c T tc hr

theorem set_step_aggregate_error {mem : Memory} {v e s : SymbolicValue} {i : Nat}
    {rest : List Nat} {t ti : SwiftType} {A : Nat} {es : List SymbolicValue} {f : Fault}
    (hes : getAggregateValue mem v = .ok es)
    (hty : aggregateElementType t i = .ok ti) (hi : es[i]? = some e)
    (hrec : setIndexedElement mem e rest s ti A = .error f) :
    setIndexedElement mem v (i :: rest) s t A = .error f := by
  have hk := getAggregateValue_kind hes
  simp [setIndexedElement, hk, hes, hty, swift.assert, indexChecked, hi, hrec, bind,
    Except.bind, pure, Except.pure]

theorem set_step_array_error {mem : Memory} {v e s : SymbolicValue} {i : Nat}
    {rest : List Nat} {t T : SwiftType} {A : Nat} {es : List SymbolicValue} {f : Fault}
    (hes : getArrayValue mem v = .ok (es, T)) (hi : es[i]? = some e)
    (hrec : setIndexedElement mem e rest s T A = .error f) :
    setIndexedElement mem v (i :: rest) s t A = .error f := by
  have hk := getArrayValue_kind hes
  simp [setIndexedElement, hk, hes, swift.assert, indexChecked, hi, hrec, bind,
    Except.bind, pure, Except.pure]

/-- A set along a path that goes on from a level it reaches stops at the fault the set
from that level stops at. -/
theorem set_reached_error (mem : Memory) (q : List Nat) (s : SymbolicValue) (A : Nat)
    (f : Fault) :
    ∀ (p1 : List Nat) (v c : SymbolicValue) (t tc : SwiftType),
      reachedAlong mem p1 v t = some (c, tc) →
      setIndexedElement mem c q s tc A = .error f →
      setIndexedElement mem v (p1 ++ q) s t A = .error f := by
  intro p1
  induction p1 with
  | nil =>
    intro v c t tc h hs
    rw [reachedAlong_nil] at h
    cases h
    exact hs
  | cons i rest ih =>
    intro v c t tc h hs
    rcases reachedAlong_cons_inv h with ⟨es, e, ti, hes, hty, he, hr⟩ | ⟨es, T, e, hes, he, hr⟩
    · exact set_step_aggregate_error hes hty he (ih e c ti tc hr hs)
    · exact set_step_array_error hes he (ih e c T tc hr hs)

theorem reachedAlong_append (ext : Memory) :
    ∀ (p : List Nat) (mem : Memory) (v c : SymbolicValue) (t tc : SwiftType),
      reachedAlong mem p v t = some (c, tc) →
      reachedAlong (mem ++ ext) p v t = some (c, tc) := by
  intro p
  induction p with
  | nil =>
    intro mem v c t tc h
    rw [reachedAlong_nil] at h ⊢
    exact h
  | cons i rest ih =>
    intro mem v c t tc h
    rcases reachedAlong_cons_inv h with ⟨es, e, ti, hes, hty, he, hr⟩ | ⟨es, T, e, hes, he, hr⟩
    · rw [reachedAlong_aggregate rest (getAggregateValue_append ext hes) hty he]
      exact ih mem e c ti tc hr
    · rw [reachedAlong_array rest t (getArrayValue_append ext hes) he]
      exact ih mem e c T tc hr

theorem getElem?_set_self_some {α : Type} {xs : List α} {i : Nat} {x y : α}
    (h : xs[i]? = some x) : (xs.set i y)[i]? = some y := by
  have hlt := getElem?_lt h
  simp [List.getElem?_set_self hlt]

/-- A returning set along a path that goes on from a level it reaches has set that level,
and the new value reaches the new level along the same path. -/
theorem set_reached_ok (q : List Nat) (s : SymbolicValue) (A : Nat) :
    ∀ (p1 : List Nat) (mem mem' : Memory) (v v' c : SymbolicValue) (t tc : SwiftType),
      reachedAlong mem p1 v t = some (c, tc) →
      setIndexedElement mem v (p1 ++ q) s t A = .ok (v', mem') →
      ∃ c' m2 ext, setIndexedElement mem c q s tc A = .ok (c', m2) ∧ mem' = m2 ++ ext ∧
        reachedAlong mem' p1 v' t = some (c', tc) := by
  intro p1
  induction p1 with
  | nil =>
    intro mem mem' v v' c t tc h hs
    rw [reachedAlong_nil] at h
    cases h
    exact ⟨v', mem', [], hs, by simp, reachedAlong_nil _ _ _⟩
  | cons i rest ih =>
    intro mem mem' v v' c t tc h hs
    rw [List.cons_append] at hs
    rcases reachedAlong_cons_inv h with ⟨es, e, ti, hes, hty, he, hr⟩ | ⟨es, T, e, hes, he, hr⟩
    · rcases set_cons_inv hs with ⟨rfl, _⟩ | ⟨es2, e2, ti2, e', mem2, hes2, hty2, he2, hrec, hres⟩ |
        ⟨es2, T2, e2, e', mem2, hes2, _⟩
      · have := getAggregateValue_kind hes
        cases this
      · rw [hes] at hes2
        cases hes2
        rw [hty] at hty2
        cases hty2
        rw [he] at he2
        cases he2
        obtain ⟨c', m2, ext, hc, hm, hreach⟩ := ih mem mem2 e e' c ti tc hr hrec
        have hv' := congrArg Prod.fst hres
        have hmem' := congrArg Prod.snd hres
        simp only at hv' hmem'
        refine ⟨c', m2, ext ++ [⟨A, .values (es.set i e')⟩], hc, ?_, ?_⟩
        · rw [hmem', getAggregate_eq, hm, List.append_assoc]
        · have hlen : (es.set i e').length < 4294967296 := by
            rw [List.length_set]
            exact getAggregateValue_length hes
          have hnew : getAggregateValue mem' v' = .ok (es.set i e') := by
            rw [hv', hmem', getAggregateValue_getAggregate_eq, arrayRef_of_lt _ hlen]
          rw [reachedAlong_aggregate rest hnew hty (getElem?_set_self_some he)]
          rw [hmem', getAggregate_eq]
          exact reachedAlong_append _ rest mem2 e' c' ti tc hreach
      · have h1 := getAggregateValue_kind hes
        have h2 := getArrayValue_kind hes2
        rw [h1] at h2
        cases h2
    · rcases set_cons_inv hs with ⟨rfl, _⟩ | ⟨es2, e2, ti2, e', mem2, hes2, _⟩ |
        ⟨es2, T2, e2, e', mem2, hes2, he2, hrec, hres⟩
      · have := getArrayValue_kind hes
        cases this
      · have h1 := getArrayValue_kind hes
        have h2 := getAggregateValue_kind hes2
        rw [h1] at h2
        cases h2
      · rw [hes] at hes2
        cases hes2
        rw [he] at he2
        cases he2
        obtain ⟨c', m2, ext, hc, hm, hreach⟩ := ih mem mem2 e e' c T tc hr hrec
        have hv' := congrArg Prod.fst hres
        have hmem' := congrArg Prod.snd hres
        simp only at hv' hmem'
        refine ⟨c', m2, ext ++ [⟨A, .ArraySymbolicValue T (toUnsigned (es.set i e').length)
          (es.set i e')⟩], hc, ?_, ?_⟩
        · rw [hmem', getArray_eq, hm, List.append_assoc]
        · have hlen : (es.set i e').length < 4294967296 := by
            rw [List.length_set]
            exact getArrayValue_length hes
          have hnew : getArrayValue mem' v' = .ok (es.set i e', T) := by
            rw [hv', hmem', getArrayValue_getArray_eq, arrayRef_of_lt _ hlen]
            rfl
          rw [reachedAlong_array rest t hnew (getElem?_set_self_some he)]
          rw [hmem', getArray_eq]
          exact reachedAlong_append _ rest mem2 e' c' T tc hreach

/-- A returning set along a path that is not empty gives a composite of the kind, the
number of elements and, for an Array, the element type of the composite it is given. -/
theorem set_shape {mem mem' : Memory} {v v' s : SymbolicValue} {i : Nat} {rest : List Nat}
    {t : SwiftType} {A : Nat}
    (h : setIndexedElement mem v (i :: rest) s t A = .ok (v', mem')) :
    (∀ es, getAggregateValue mem v = .ok es →
      ∃ e e' ti m2, es[i]? = some e ∧ aggregateElementType t i = .ok ti ∧
        setIndexedElement mem e rest s ti A = .ok (e', m2) ∧
        getAggregateValue mem' v' = .ok (es.set i e')) ∧
    (∀ es T, getArrayValue mem v = .ok (es, T) →
      ∃ e e' m2, es[i]? = some e ∧ setIndexedElement mem e rest s T A = .ok (e', m2) ∧
        getArrayValue mem' v' = .ok (es.set i e', T)) := by
  constructor
  · intro es hes
    rcases set_cons_inv h with ⟨rfl, _⟩ | ⟨es2, e2, ti2, e', mem2, hes2, hty2, he2, hrec, hres⟩ |
      ⟨es2, T2, e2, e', mem2, hes2, _⟩
    · have := getAggregateValue_kind hes
      cases this
    · rw [hes] at hes2
      cases hes2
      have hv' := congrArg Prod.fst hres
      have hmem' := congrArg Prod.snd hres
      simp only at hv' hmem'
      have hlen : (es.set i e').length < 4294967296 := by
        rw [List.length_set]
        exact getAggregateValue_length hes
      refine ⟨e2, e', ti2, mem2, he2, hty2, hrec, ?_⟩
      rw [hv', hmem', getAggregateValue_getAggregate_eq, arrayRef_of_lt _ hlen]
    · have h1 := getAggregateValue_kind hes
      have h2 := getArrayValue_kind hes2
      rw [h1] at h2
      cases h2
  · intro es T hes
    rcases set_cons_inv h with ⟨rfl, _⟩ | ⟨es2, e2, ti2, e', mem2, hes2, _⟩ |
      ⟨es2, T2, e2, e', mem2, hes2, he2, hrec, hres⟩
    · have := getArrayValue_kind hes
      cases this
    · have h1 := getArrayValue_kind hes
      have h2 := getAggregateValue_kind hes2
      rw [h1] at h2
      cases h2
    · rw [hes] at hes2
      cases hes2
      have hv' := congrArg Prod.fst hres
      have hmem' := congrArg Prod.snd hres
      simp only at hv' hmem'
      have hlen : (es.set i e').length < 4294967296 := by
        rw [List.length_set]
        exact getArrayValue_length hes
      refine ⟨e2, e', mem2, he2, hrec, ?_⟩
      rw [hv', hmem', getArrayValue_getArray_eq, arrayRef_of_lt _ hlen]
      rfl

/-! ## The integer of a machine word -/

theorem toUInt64_lt (v : Int) : toUInt64 v < 18446744073709551616 := by
  unfold toUInt64
  have h1 : 0 ≤ v % 18446744073709551616 := Int.emod_nonneg v (by decide)
  have h2 : v % 18446744073709551616 < 18446744073709551616 := Int.emod_lt_of_pos v (by decide)
  omega

theorem foldr_replicate_zero (k : Nat) :
    (List.replicate k 0).foldr (fun w acc => w + 18446744073709551616 * acc) 0 = 0 := by
  induction k with
  | zero => rfl
  | succ k ih => simp [List.replicate_succ, ih]

/-- The integer `APInt(numBits, val)` of a 64-bit word: its unsigned value is the word
reduced modulo `2^numBits`. -/
theorem ofWord_value {bw : Unsigned} {val : Nat} (hpos : 0 < bw.val)
    (hval : val < 18446744073709551616) :
    ∃ a, APInt.ofWord bw val = .ok a ∧ a.BitWidth = bw ∧
      a.unsignedValue = val % 2 ^ bw.val ∧
      (bw.val ≤ 64 → a.words = [val % 2 ^ bw.val]) ∧
      (64 < bw.val → a.words = val :: List.replicate ((bw.val + 63) / 64 - 1) 0) := by
  have hmod : val % 18446744073709551616 = val := Nat.mod_eq_of_lt hval
  by_cases h64 : bw.val ≤ 64
  · have hn : (bw.val + 63) / 64 - 1 = 0 := by omega
    have hbits : (bw.val - 1) % 64 + 1 = bw.val := by omega
    refine ⟨⟨bw, [val % 2 ^ bw.val]⟩, ?_, rfl, ?_, fun _ => rfl, fun h => absurd h64 (by omega)⟩
    · simp only [APInt.ofWord, swift.assert, hpos, hn, hmod, bind, Except.bind, pure,
        Except.pure, List.replicate, decide_True, if_true, APInt.clearUnusedBits,
        APInt.getNumWords]
      have hn1 : (bw.val + 63) / 64 - 1 = 0 := hn
      simp [hn1, hbits]
    · simp [APInt.unsignedValue]
  · have h64' : 64 < bw.val := Nat.lt_of_not_le h64
    have hk : 1 ≤ (bw.val + 63) / 64 - 1 := by omega
    have hlast : (val :: List.replicate ((bw.val + 63) / 64 - 1) 0)[(bw.val + 63) / 64 - 1]? =
        some 0 := by
      obtain ⟨k, hk2⟩ : ∃ k, (bw.val + 63) / 64 - 1 = k + 1 := ⟨(bw.val + 63) / 64 - 2, by omega⟩
      rw [hk2]
      simp
    have hclear : APInt.clearUnusedBits
        ⟨bw, val :: List.replicate ((bw.val + 63) / 64 - 1) 0⟩ =
        ⟨bw, val :: List.replicate ((bw.val + 63) / 64 - 1) 0⟩ :=
      clearUnusedBits_of_last_zero hlast
    refine ⟨⟨bw, val :: List.replicate ((bw.val + 63) / 64 - 1) 0⟩, ?_, rfl, ?_,
      fun h => absurd h h64, fun _ => rfl⟩
    · simp only [APInt.ofWord, swift.assert, hpos, hmod, bind, Except.bind, pure,
        Except.pure, decide_True, if_true]
      rw [hclear]
    · have hpow : 18446744073709551616 ≤ 2 ^ bw.val := by
        have : (2 : Nat) ^ 64 ≤ 2 ^ bw.val := Nat.pow_le_pow_right (by decide) (by omega)
        simpa using this
      simp only [APInt.unsignedValue, List.foldr_cons, foldr_replicate_zero]
      rw [Nat.mod_eq_of_lt (by omega)]
      omega

theorem getIntegerValue_inline (mem : Memory) (w : Nat) (bw : Unsigned) :
    getIntegerValue mem (.RK_IntegerInline w bw) = APInt.ofWord bw w := by
  simp [getIntegerValue, getKind, swift.assert, bind, Except.bind]

/-! ## Skipping internal locations -/

theorem chain_self (ds : SILDebugScope) : ds ∈ ds.chain := by
  cases ds <;> simp [SILDebugScope.chain]

/-- What the loop of `skipInternalLocations` finds is the valid location of a scope of
the chain. -/
theorem skipInternalLocationsLoop_found :
    ∀ (ds : SILDebugScope) (r : SILDebugLocation), skipInternalLocationsLoop ds = some r →
      ∃ d ∈ ds.chain, r = ⟨d.Loc, some d⟩ ∧ d.Loc.getSourceLoc.isValid = true := by
  intro ds
  induction ds with
  | last Loc F =>
    intro r h
    by_cases hv : Loc.getSourceLoc.isValid = true
    · simp only [skipInternalLocationsLoop, hv, if_true, Option.some.injEq] at h
      exact ⟨.last Loc F, chain_self _, h.symm, hv⟩
    · simp [skipInternalLocationsLoop, hv] at h
  | inlinedInto Loc F ics ih =>
    intro r h
    by_cases hv : Loc.getSourceLoc.isValid = true
    · simp only [skipInternalLocationsLoop, hv, if_true, Option.some.injEq] at h
      exact ⟨.inlinedInto Loc F ics, chain_self _, h.symm, hv⟩
    · have hrec : ∀ r, skipInternalLocationsLoop ics = some r →
          ∃ d ∈ (SILDebugScope.inlinedInto Loc F ics).chain,
            r = ⟨d.Loc, some d⟩ ∧ d.Loc.getSourceLoc.isValid = true := by
        intro r hr
        obtain ⟨d, hd, hr2, hdv⟩ := ih r hr
        exact ⟨d, by simp [SILDebugScope.chain, hd], hr2, hdv⟩
      cases F with
      | none =>
        simp only [skipInternalLocationsLoop, hv] at h
        exact hrec r (by simpa using h)
      | some F0 =>
        by_cases hF : F0.getLocation.getSourceLoc.isValid = true
        · simp [skipInternalLocationsLoop, hv, hF] at h
        · simp only [skipInternalLocationsLoop, hv, hF] at h
          exact hrec r (by simpa using h)

theorem skipInternalLocations_no_scope {loc : SILDebugLocation} (h : loc.getScope = none) :
    skipInternalLocations loc = loc := by
  simp [skipInternalLocations, h]

theorem skipInternalLocations_valid {loc : SILDebugLocation}
    (h : loc.getLocation.getSourceLoc.isValid = true) : skipInternalLocations loc = loc := by
  unfold skipInternalLocations
  cases loc.getScope with
  | none => rfl
  | some ds => simp [h]

theorem skipInternalLocations_cases (loc : SILDebugLocation) :
    skipInternalLocations loc = loc ∨
    ∃ ds0 d, loc.getScope = some ds0 ∧ d ∈ ds0.chain ∧
      skipInternalLocations loc = ⟨d.Loc, some d⟩ ∧ d.Loc.getSourceLoc.isValid = true := by
  cases hs : loc.getScope with
  | none => exact Or.inl (skipInternalLocations_no_scope hs)
  | some ds0 =>
    by_cases hv : loc.getLocation.getSourceLoc.isValid = true
    · exact Or.inl (skipInternalLocations_valid hv)
    · cases hl : skipInternalLocationsLoop ds0 with
      | none =>
        left
        simp [skipInternalLocations, hs, hv, hl]
      | some r =>
        right
        obtain ⟨d, hd, hr, hdv⟩ := skipInternalLocationsLoop_found ds0 r hl
        refine ⟨ds0, d, rfl, hd, ?_, hdv⟩
        simp [skipInternalLocations, hs, hv, hl, hr]

/-! ## The notes of the call-stack frames -/

/-- The notes of a run whose node is an instruction and whose fallback location has a
valid source location. -/
theorem emit_valid {mem : Memory} {self : SymbolicValue} {fallbackLoc : SILLocation}
    {nodes : Nat → Option SILInstruction} (SM : SourceManager) {n : Nat}
    {badInst : SILInstruction} {r : UnknownReason} {cs : List SourceLoc}
    (hn : getUnknownNode mem self = .ok n) (hi : nodes n = some badInst)
    (hr : getUnknownReason mem self = .ok r)
    (hcs : getUnknownCallStack mem self = .ok cs)
    (hv : fallbackLoc.getSourceLoc.isValid = true) :
    emitUnknownDiagnosticNotes mem self fallbackLoc nodes SM =
      .ok ((emitNoteDiagnostic badInst r fallbackLoc (specReasonMessage r)).2 ++
        specFrameNotes (emitNoteDiagnostic badInst r fallbackLoc (specReasonMessage r)).1
          (cs.reverse.filter (qualifies SM (SM.getLineNumber fallbackLoc.getSourceLoc)))) := by
  cases r <;>
    simp [emitUnknownDiagnosticNotes, hn, bind, Except.bind, hi, pure, Except.pure, hr,
      SourceLoc.isInvalid, hv, hcs, emitCallStackNotes_eq, specReasonMessage,
      List.filter_reverse]

/-- A run whose node is no instruction emits nothing. -/
theorem emit_no_instruction {mem : Memory} {self : SymbolicValue} (fallbackLoc : SILLocation)
    {nodes : Nat → Option SILInstruction} (SM : SourceManager) {n : Nat}
    (hn : getUnknownNode mem self = .ok n) (hi : nodes n = none) :
    emitUnknownDiagnosticNotes mem self fallbackLoc nodes SM = .ok [] := by
  simp [emitUnknownDiagnosticNotes, hn, bind, Except.bind, hi, pure, Except.pure]

theorem frameNotes_specFrameNotes (b : Bool) (fs : List SourceLoc) :
    frameNotes (specFrameNotes b fs) = specFrameNotes b fs := by
  unfold frameNotes
  rw [List.filter_eq_self]
  intro d hd
  have := (specFrameNotes_mem hd).2.1
  simpa using this

theorem frameNotes_append_reason {rn rest : List Diagnostic}
    (h : ∀ d ∈ rn, d.id = .constexpr_unknown_reason) :
    frameNotes (rn ++ rest) = frameNotes rest := by
  unfold frameNotes
  rw [List.filter_append]
  have : rn.filter (fun d => d.id != .constexpr_unknown_reason) = [] := by
    rw [List.filter_eq_nil_iff]
    intro d hd
    simp [h d hd]
  rw [this, List.nil_append]

theorem specFrameNotes_locs (b : Bool) (fs : List SourceLoc) :
    (specFrameNotes b fs).map (fun d => d.loc) = fs := by
  cases fs with
  | nil => rfl
  | cons f rest =>
    simp [specFrameNotes, List.map_map, Function.comp_def]

/-- The reason note is not emitted exactly when the instruction resolves to the null
location and the reason is `Default` or the fallback location is null. -/
theorem emitNoteDiagnostic_flag (badInst : SILInstruction) (r : UnknownReason)
    (fallbackLoc : SILLocation) (error : String) :
    ((emitNoteDiagnostic badInst r fallbackLoc error).1 = false ↔
      (resolvedLocation badInst).isNull = true ∧ (r = .Default ∨ fallbackLoc.isNull = true)) ∧
    ((emitNoteDiagnostic badInst r fallbackLoc error).2 = [] ↔
      (emitNoteDiagnostic badInst r fallbackLoc error).1 = false) := by
  cases hnull : (resolvedLocation badInst).isNull
  · rw [emitNoteDiagnostic_found r fallbackLoc error hnull]
    simp
  · by_cases hr : r = .Default ∨ fallbackLoc.isNull = true
    · rw [emitNoteDiagnostic_nothing error hnull hr]
      simp [hr]
    · have hr1 : r ≠ .Default := fun e => hr (Or.inl e)
      have hf : fallbackLoc.isNull = false := by
        cases hf : fallbackLoc.isNull
        · rfl
        · exact absurd (Or.inr hf) hr
      rw [emitNoteDiagnostic_fallback error hnull hr1 hf]
      simp [hr1, hf]

theorem specFrameNotes_tail (b : Bool) (fs : List SourceLoc) :
    ∀ d ∈ (specFrameNotes b fs).tail, d.id = .constexpr_called_from := by
  intro d hd
  cases fs with
  | nil => simp [specFrameNotes] at hd
  | cons f rest =>
    simp only [specFrameNotes, List.tail_cons, List.mem_map] at hd
    obtain ⟨l, _, rfl⟩ := hd
    rfl

theorem specFrameNotes_emitted (fs : List SourceLoc) :
    ∀ d ∈ specFrameNotes true fs, d.id = .constexpr_called_from := by
  intro d hd
  cases fs with
  | nil => simp [specFrameNotes] at hd
  | cons f rest =>
    simp only [specFrameNotes, List.mem_cons, List.mem_map] at hd
    rcases hd with rfl | ⟨l, _, rfl⟩ <;> rfl

/-! ## The structure of a value -/

theorem structureElements_iff {f : SymbolicValue → Option Structure} :
    ∀ {es : List SymbolicValue} {Ts : List Structure},
      structureElements f es = some Ts ↔ List.Forall₂ (fun e T => f e = some T) es Ts := by
  intro es
  induction es with
  | nil =>
    intro Ts
    simp only [structureElements, Option.some.injEq]
    constructor
    · intro h
      rw [← h]
      exact List.Forall₂.nil
    · intro h
      cases h
      rfl
  | cons e es ih =>
    intro Ts
    constructor
    · intro h
      unfold structureElements at h
      cases h1 : f e with
      | none => simp [h1] at h
      | some c =>
        cases h2 : structureElements f es with
        | none => simp [h1, h2] at h
        | some cs =>
          simp only [h1, h2, Option.some.injEq] at h
          rw [← h]
          exact List.Forall₂.cons h1 (ih.mp h2)
    · intro h
      cases h with
      | cons h1 h2 =>
        unfold structureElements
        simp only [h1, ih.mpr h2]

theorem forall2_imp {α β : Type} {R S : α → β → Prop} (h : ∀ a b, R a b → S a b) :
    ∀ {xs : List α} {ys : List β}, List.Forall₂ R xs ys → List.Forall₂ S xs ys := by
  intro xs ys hf
  induction hf with
  | nil => exact List.Forall₂.nil
  | cons h1 _ ih => exact List.Forall₂.cons (h _ _ h1) ih

theorem forall2_mem_imp {α β : Type} {R S : α → β → Prop} :
    ∀ {xs : List α} {ys : List β}, List.Forall₂ R xs ys →
      (∀ a ∈ xs, ∀ b, R a b → S a b) → List.Forall₂ S xs ys := by
  intro xs ys hf
  induction hf with
  | nil => intro _; exact List.Forall₂.nil
  | cons h1 _ ih =>
    intro h
    exact List.Forall₂.cons (h _ (List.mem_cons_self _ _) _ h1)
      (ih (fun a ha b hr => h a (List.mem_cons_of_mem _ ha) b hr))

theorem forall2_getElem? {α β : Type} {R : α → β → Prop} :
    ∀ {xs : List α} {ys : List β}, List.Forall₂ R xs ys → ∀ (i : Nat) (x : α),
      xs[i]? = some x → ∃ y, ys[i]? = some y ∧ R x y := by
  intro xs ys hf
  induction hf with
  | nil => intro i x h; simp at h
  | cons h1 _ ih =>
    intro i x h
    cases i with
    | zero =>
      simp only [List.getElem?_cons_zero, Option.some.injEq] at h
      subst h
      exact ⟨_, by simp, h1⟩
    | succ i =>
      simp only [List.getElem?_cons_succ] at h ⊢
      exact ih i x h

theorem forall2_getElem?_right {α β : Type} {R : α → β → Prop} :
    ∀ {xs : List α} {ys : List β}, List.Forall₂ R xs ys → ∀ (i : Nat) (y : β),
      ys[i]? = some y → ∃ x, xs[i]? = some x ∧ R x y := by
  intro xs ys hf
  induction hf with
  | nil => intro i x h; simp at h
  | cons h1 _ ih =>
    intro i x h
    cases i with
    | zero =>
      simp only [List.getElem?_cons_zero, Option.some.injEq] at h
      subst h
      exact ⟨_, by simp, h1⟩
    | succ i =>
      simp only [List.getElem?_cons_succ] at h ⊢
      exact ih i x h

theorem forall2_set {α β : Type} {R : α → β → Prop} :
    ∀ {xs : List α} {ys : List β}, List.Forall₂ R xs ys → ∀ (i : Nat) (x : α) (y : β),
      R x y → List.Forall₂ R (xs.set i x) (ys.set i y) := by
  intro xs ys hf
  induction hf with
  | nil => intro i x y _; exact List.Forall₂.nil
  | cons h1 h2 ih =>
    intro i x y h
    cases i with
    | zero => exact List.Forall₂.cons h h2
    | succ i => exact List.Forall₂.cons h1 (ih i x y h)

theorem forall2_replicate {α β : Type} {R : α → β → Prop} {a : α} {b : β} (h : R a b) :
    ∀ n : Nat, List.Forall₂ R (List.replicate n a) (List.replicate n b) := by
  intro n
  induction n with
  | zero => exact List.Forall₂.nil
  | succ n ih => exact List.Forall₂.cons h ih

/-- The structure of a value does not change with more depth. -/
theorem structureOf_mono :
    ∀ (d : Nat) (mem : Memory) (self : Ptr) (v : SymbolicValue) (T : Structure),
      structureOf d mem self v = some T → structureOf (d + 1) mem self v = some T := by
  intro d
  induction d with
  | zero =>
    intro mem self v T h
    simp [structureOf] at h
  | succ d ih =>
    intro mem self v T h
    cases v
    case RK_Aggregate p n =>
      cases hv : getAggregateValue mem (.RK_Aggregate p n) with
      | error e => simp [structureOf, hv] at h
      | ok es =>
        simp only [structureOf, hv, Option.map_eq_some'] at h ⊢
        obtain ⟨Ts, hTs, rfl⟩ := h
        exact ⟨Ts, structureElements_iff.mpr
          (forall2_imp (fun e T he => ih mem self e T he) (structureElements_iff.mp hTs)), rfl⟩
    case RK_Array p =>
      cases hv : getArrayValue mem (.RK_Array p) with
      | error e => simp [structureOf, hv] at h
      | ok r =>
        obtain ⟨es, T0⟩ := r
        simp only [structureOf, hv, Option.map_eq_some'] at h ⊢
        obtain ⟨Ts, hTs, rfl⟩ := h
        exact ⟨Ts, structureElements_iff.mpr
          (forall2_imp (fun e T he => ih mem self e T he) (structureElements_iff.mp hTs)), rfl⟩
    case RK_ArrayAddress m =>
      by_cases hm : m = self
      · simp [structureOf, hm] at h
      · cases hv : getArrayValue mem (.RK_ArrayAddress m) with
        | error e => simp [structureOf, hm, hv] at h
        | ok r =>
          obtain ⟨es, T0⟩ := r
          simp only [structureOf, hm, if_false, hv, Option.map_eq_some'] at h ⊢
          obtain ⟨Ts, hTs, rfl⟩ := h
          exact ⟨Ts, structureElements_iff.mpr
            (forall2_imp (fun e T he => ih mem self e T he) (structureElements_iff.mp hTs)),
            rfl⟩
    all_goals (simp only [structureOf] at h ⊢; exact h)

theorem structureOf_mono_le {d d2 : Nat} {mem : Memory} {self : Ptr} {v : SymbolicValue}
    {T : Structure} (h : structureOf d mem self v = some T) (hle : d ≤ d2) :
    structureOf d2 mem self v = some T := by
  induction hle with
  | refl => exact h
  | step _ ih => exact structureOf_mono _ mem self v T ih

/-- A value has one structure at most. -/
theorem hasStructure_unique {mem : Memory} {self : Ptr} {v : SymbolicValue}
    {T1 T2 : Structure}
    (h1 : HasStructure mem self v T1) (h2 : HasStructure mem self v T2) : T1 = T2 := by
  obtain ⟨d1, h1⟩ := h1
  obtain ⟨d2, h2⟩ := h2
  have a := structureOf_mono_le h1 (Nat.le_max_left d1 d2)
  have b := structureOf_mono_le h2 (Nat.le_max_right d1 d2)
  rw [a] at b
  exact Option.some.inj b

/-- The elements of a sequence that have structures have them at one depth. -/
theorem forall2_hasStructure {mem : Memory} {self : Ptr} :
    ∀ {es : List SymbolicValue} {Ts : List Structure},
      List.Forall₂ (HasStructure mem self) es Ts →
      ∃ d, List.Forall₂ (fun e T => structureOf d mem self e = some T) es Ts := by
  intro es Ts hf
  induction hf with
  | nil => exact ⟨0, List.Forall₂.nil⟩
  | cons h1 _ ih =>
    obtain ⟨d1, h1⟩ := h1
    obtain ⟨d2, h2⟩ := ih
    refine ⟨max d1 d2, List.Forall₂.cons (structureOf_mono_le h1 (Nat.le_max_left _ _)) ?_⟩
    exact forall2_imp (fun e T he => structureOf_mono_le he (Nat.le_max_right _ _)) h2

theorem hasStructure_aggregate_iff {mem : Memory} {self : Ptr} {p : Ptr} {n : Unsigned}
    {T : Structure} :
    HasStructure mem self (.RK_Aggregate p n) T ↔
      ∃ es Ts, getAggregateValue mem (.RK_Aggregate p n) = .ok es ∧ T = .aggregate Ts ∧
        List.Forall₂ (HasStructure mem self) es Ts := by
  constructor
  · rintro ⟨d, h⟩
    cases d with
    | zero => simp [structureOf] at h
    | succ d =>
      cases hv : getAggregateValue mem (.RK_Aggregate p n) with
      | error e => simp [structureOf, hv] at h
      | ok es =>
        simp only [structureOf, hv, Option.map_eq_some'] at h
        obtain ⟨Ts, hTs, rfl⟩ := h
        exact ⟨es, Ts, rfl, rfl,
          forall2_imp (fun e T he => ⟨d, he⟩) (structureElements_iff.mp hTs)⟩
  · rintro ⟨es, Ts, hv, rfl, hf⟩
    obtain ⟨d, hd⟩ := forall2_hasStructure hf
    refine ⟨d + 1, ?_⟩
    simp only [structureOf, hv, Option.map_eq_some']
    exact ⟨Ts, structureElements_iff.mpr hd, rfl⟩

theorem hasStructure_array_iff {mem : Memory} {self : Ptr} {p : Ptr} {T : Structure} :
    HasStructure mem self (.RK_Array p) T ↔
      ∃ es T0 Ts, getArrayValue mem (.RK_Array p) = .ok (es, T0) ∧ T = .array T0 Ts ∧
        List.Forall₂ (HasStructure mem self) es Ts := by
  constructor
  · rintro ⟨d, h⟩
    cases d with
    | zero => simp [structureOf] at h
    | succ d =>
      cases hv : getArrayValue mem (.RK_Array p) with
      | error e => simp [structureOf, hv] at h
      | ok r =>
        obtain ⟨es, T0⟩ := r
        simp only [structureOf, hv, Option.map_eq_some'] at h
        obtain ⟨Ts, hTs, rfl⟩ := h
        exact ⟨es, T0, Ts, rfl, rfl,
          forall2_imp (fun e T he => ⟨d, he⟩) (structureElements_iff.mp hTs)⟩
  · rintro ⟨es, T0, Ts, hv, rfl, hf⟩
    obtain ⟨d, hd⟩ := forall2_hasStructure hf
    refine ⟨d + 1, ?_⟩
    simp only [structureOf, hv, Option.map_eq_some']
    exact ⟨Ts, structureElements_iff.mpr hd, rfl⟩

/-- An array held by the address of a memory object other than the one at `self` has the
structure of the array it is read as. -/
theorem hasStructure_arrayAddress_iff {mem : Memory} {self : Ptr} {m : Ptr}
    {T : Structure} :
    HasStructure mem self (.RK_ArrayAddress m) T ↔
      m ≠ self ∧ ∃ es T0 Ts, getArrayValue mem (.RK_ArrayAddress m) = .ok (es, T0) ∧
        T = .array T0 Ts ∧ List.Forall₂ (HasStructure mem self) es Ts := by
  constructor
  · rintro ⟨d, h⟩
    cases d with
    | zero => simp [structureOf] at h
    | succ d =>
      by_cases hm : m = self
      · simp [structureOf, hm] at h
      · cases hv : getArrayValue mem (.RK_ArrayAddress m) with
        | error e => simp [structureOf, hm, hv] at h
        | ok r =>
          obtain ⟨es, T0⟩ := r
          simp only [structureOf, hm, if_false, hv, Option.map_eq_some'] at h
          obtain ⟨Ts, hTs, rfl⟩ := h
          exact ⟨hm, es, T0, Ts, rfl, rfl,
            forall2_imp (fun e T he => ⟨d, he⟩) (structureElements_iff.mp hTs)⟩
  · rintro ⟨hm, es, T0, Ts, hv, rfl, hf⟩
    obtain ⟨d, hd⟩ := forall2_hasStructure hf
    refine ⟨d + 1, ?_⟩
    simp only [structureOf, hm, if_false, hv, Option.map_eq_some']
    exact ⟨Ts, structureElements_iff.mpr hd, rfl⟩

/-- The values that are leaves: neither an Aggregate nor an Array. -/
theorem hasStructure_leaf {mem : Memory} {self : Ptr} {v : SymbolicValue}
    (h1 : v.getKind ≠ .Aggregate) (h2 : v.getKind ≠ .Array) :
    HasStructure mem self v (.leaf v) := by
  refine ⟨1, ?_⟩
  cases v <;> simp [structureOf, getKind] at h1 h2 ⊢

theorem hasStructure_uninit (mem : Memory) (self : Ptr) :
    HasStructure mem self .RK_UninitMemory Structure.uninit :=
  hasStructure_leaf (by decide) (by decide)

/-- How a value has a structure, by the kind of the structure. -/
theorem hasStructure_cases {mem : Memory} {self : Ptr} {v : SymbolicValue} {T : Structure}
    (h : HasStructure mem self v T) :
    (T = .leaf v ∧ v.getKind ≠ .Aggregate ∧ v.getKind ≠ .Array) ∨
    (∃ es Ts, getAggregateValue mem v = .ok es ∧ T = .aggregate Ts ∧
      List.Forall₂ (HasStructure mem self) es Ts) ∨
    (∃ es T0 Ts, getArrayValue mem v = .ok (es, T0) ∧ T = .array T0 Ts ∧
      v ≠ .RK_ArrayAddress self ∧
      List.Forall₂ (HasStructure mem self) es Ts) := by
  cases v
  case RK_Aggregate p n =>
    obtain ⟨es, Ts, hv, hT, hf⟩ := hasStructure_aggregate_iff.mp h
    exact Or.inr (Or.inl ⟨es, Ts, hv, hT, hf⟩)
  case RK_Array p =>
    obtain ⟨es, T0, Ts, hv, hT, hf⟩ := hasStructure_array_iff.mp h
    exact Or.inr (Or.inr ⟨es, T0, Ts, hv, hT, by simp, hf⟩)
  case RK_ArrayAddress m =>
    obtain ⟨hm, es, T0, Ts, hv, hT, hf⟩ := hasStructure_arrayAddress_iff.mp h
    refine Or.inr (Or.inr ⟨es, T0, Ts, hv, hT, ?_, hf⟩)
    intro hc
    cases hc
    exact hm rfl
  all_goals
    obtain ⟨d, h⟩ := h
    cases d with
    | zero => simp [structureOf] at h
    | succ d =>
      simp only [structureOf, Option.some.injEq] at h
      exact Or.inl ⟨h.symm, by simp [getKind], by simp [getKind]⟩

/-- The array address of a memory object is read as the value of that object, which is
an array held directly: a value of the object that holds its own array address holds
itself. -/
theorem getArrayValue_own_address {mem : Memory} {self : Ptr} {t : SwiftType}
    {V : SymbolicValue} {r : List SymbolicValue × SwiftType}
    (hf : SymbolicValueMemoryObject.fields mem self = .ok (t, V))
    (h : getArrayValue mem (.RK_ArrayAddress self) = .ok r) :
    (∃ p, V = .RK_Array p) ∧ getArrayValue mem V = .ok r := by
  have hl := fields_ok.mp hf
  cases V
  case RK_Array p =>
    refine ⟨⟨p, rfl⟩, ?_⟩
    simpa [getArrayValue, getKind, swift.assert, hl, bind, Except.bind, pure, Except.pure]
      using h
  all_goals
    simp [getArrayValue, getKind, swift.assert, hl, bind, Except.bind, pure, Except.pure] at h

/-! ## The structure of a value in another memory -/

/-- The structure of a value is the same in every memory in which the accessors return
what they return in the first. -/
theorem structureOf_frame {mem M : Memory} {self : Ptr}
    (hagg : ∀ v es, getAggregateValue mem v = .ok es → getAggregateValue M v = .ok es)
    (harr : ∀ v r, v ≠ .RK_ArrayAddress self → getArrayValue mem v = .ok r →
      getArrayValue M v = .ok r) :
    ∀ (d : Nat) (v : SymbolicValue) (T : Structure),
      structureOf d mem self v = some T → structureOf d M self v = some T := by
  intro d
  induction d with
  | zero =>
    intro v T h
    simp [structureOf] at h
  | succ d ih =>
    intro v T h
    cases v
    case RK_Aggregate p n =>
      cases hv : getAggregateValue mem (.RK_Aggregate p n) with
      | error e => simp [structureOf, hv] at h
      | ok es =>
        simp only [structureOf, hv, hagg _ _ hv, Option.map_eq_some'] at h ⊢
        obtain ⟨Ts, hTs, rfl⟩ := h
        exact ⟨Ts, structureElements_iff.mpr
          (forall2_imp (fun e T he => ih e T he) (structureElements_iff.mp hTs)), rfl⟩
    case RK_Array p =>
      cases hv : getArrayValue mem (.RK_Array p) with
      | error e => simp [structureOf, hv] at h
      | ok r =>
        obtain ⟨es, T0⟩ := r
        simp only [structureOf, hv, harr _ _ (by simp) hv, Option.map_eq_some'] at h ⊢
        obtain ⟨Ts, hTs, rfl⟩ := h
        exact ⟨Ts, structureElements_iff.mpr
          (forall2_imp (fun e T he => ih e T he) (structureElements_iff.mp hTs)), rfl⟩
    case RK_ArrayAddress m =>
      by_cases hm : m = self
      · simp [structureOf, hm] at h
      · have hne : SymbolicValue.RK_ArrayAddress m ≠ .RK_ArrayAddress self := by
          intro hc
          cases hc
          exact hm rfl
        cases hv : getArrayValue mem (.RK_ArrayAddress m) with
        | error e => simp [structureOf, hm, hv] at h
        | ok r =>
          obtain ⟨es, T0⟩ := r
          simp only [structureOf, hm, if_false, hv, harr _ _ hne hv,
            Option.map_eq_some'] at h ⊢
          obtain ⟨Ts, hTs, rfl⟩ := h
          exact ⟨Ts, structureElements_iff.mpr
            (forall2_imp (fun e T he => ih e T he) (structureElements_iff.mp hTs)), rfl⟩
    all_goals (simp only [structureOf] at h ⊢; exact h)

theorem hasStructure_append {mem : Memory} {self : Ptr} {v : SymbolicValue} {T : Structure}
    (ext : Memory) (h : HasStructure mem self v T) : HasStructure (mem ++ ext) self v T := by
  obtain ⟨d, h⟩ := h
  exact ⟨d, structureOf_frame (fun v es hv => getAggregateValue_append ext hv)
    (fun v r _ hv => getArrayValue_append ext hv) d v T h⟩

/-- The structure of a value is the same in every memory that agrees with the first
outside the object at `self`: no structure is read through the slot of that object. -/
theorem hasStructure_agree {self : Ptr} {mem M : Memory} {v : SymbolicValue} {T : Structure}
    (hobj : IsObject mem self) (hag : Agree self mem M) (h : HasStructure mem self v T) :
    HasStructure M self v T := by
  obtain ⟨d, h⟩ := h
  exact ⟨d, structureOf_frame (fun v es hv => getAggregateValue_agree hobj hag hv)
    (fun v r hne hv => getArrayValue_agree hobj hag hne hv) d v T h⟩

theorem forall2_hasStructure_append {mem : Memory} {self : Ptr} {es : List SymbolicValue}
    {Ts : List Structure} (ext : Memory) (h : List.Forall₂ (HasStructure mem self) es Ts) :
    List.Forall₂ (HasStructure (mem ++ ext) self) es Ts :=
  forall2_imp (fun _ _ he => hasStructure_append ext he) h

/-- The structure of a freshly built aggregate. -/
theorem hasStructure_getAggregate {mem : Memory} {self : Ptr} {es : List SymbolicValue}
    {Ts : List Structure} (A : Nat) (hlen : es.length < 4294967296)
    (h : List.Forall₂ (HasStructure mem self) es Ts) :
    HasStructure (getAggregate mem es A).2 self (getAggregate mem es A).1 (.aggregate Ts) := by
  have hv := getAggregateValue_getAggregate_eq mem es A
  rw [arrayRef_of_lt es hlen] at hv
  rw [getAggregate_eq] at hv ⊢
  exact hasStructure_aggregate_iff.mpr ⟨es, Ts, hv, rfl, forall2_hasStructure_append _ h⟩

/-- The structure of a freshly built array. -/
theorem hasStructure_getArray {mem : Memory} {self : Ptr} {es : List SymbolicValue}
    {Ts : List Structure} (T : SwiftType) (A : Nat) (hlen : es.length < 4294967296)
    (h : List.Forall₂ (HasStructure mem self) es Ts) :
    HasStructure (getArray mem es T A).2 self (getArray mem es T A).1 (.array T Ts) := by
  have hv := getArrayValue_getArray_eq mem es T A
  rw [arrayRef_of_lt es hlen] at hv
  rw [getArray_eq] at hv ⊢
  exact hasStructure_array_iff.mpr ⟨es, T, Ts, hv, rfl, forall2_hasStructure_append _ h⟩

/-! ## Valid paths on structures -/

theorem memberType_eq {t : SwiftType} {ms : List SwiftType} {i : Nat} {ti : SwiftType}
    (hms : t.memberTypes = some ms) (hti : ms[i]? = some ti) : t.memberType i = ti := by
  simp [SwiftType.memberType, hms, hti]

theorem structureValid_leaf {i : Nat} {rest : List Nat} {v : SymbolicValue} {t : SwiftType} :
    structureValid (i :: rest) (.leaf v) t = true ↔
      v = .RK_UninitMemory ∧ ∃ ms ti, t.memberTypes = some ms ∧ ms.length < 4294967296 ∧
        ms[i]? = some ti ∧ structureValid rest .uninit ti = true := by
  cases hms : t.memberTypes with
  | none => simp [structureValid, hms]
  | some ms =>
    cases hti : ms[i]? with
    | none => simp [structureValid, hms, hti]
    | some ti => simp [structureValid, hms, hti]

theorem structureValid_aggregate {i : Nat} {rest : List Nat} {es : List Structure}
    {t : SwiftType} :
    structureValid (i :: rest) (.aggregate es) t = true ↔
      ∃ ms e ti, t.memberTypes = some ms ∧ ms.length < 4294967296 ∧ es[i]? = some e ∧
        ms[i]? = some ti ∧ structureValid rest e ti = true := by
  cases hms : t.memberTypes with
  | none => simp [structureValid, hms]
  | some ms =>
    cases hti : ms[i]? with
    | none =>
      cases he : es[i]? <;> simp [structureValid, hms, hti, he]
    | some ti =>
      cases he : es[i]? <;> simp [structureValid, hms, hti, he]

theorem structureValid_array {i : Nat} {rest : List Nat} {es : List Structure}
    {T t : SwiftType} :
    structureValid (i :: rest) (.array T es) t = true ↔
      ∃ e, es[i]? = some e ∧ structureValid rest e T = true := by
  cases he : es[i]? <;> simp [structureValid, he]

theorem structureSet_nil (T s : Structure) (t : SwiftType) : structureSet [] T s t = s := by
  cases T <;> rfl

theorem structureSet_uninit {i : Nat} {rest : List Nat} {t : SwiftType}
    {ms : List SwiftType} (s : Structure) (hms : t.memberTypes = some ms) :
    structureSet (i :: rest) .uninit s t =
      .aggregate ((List.replicate ms.length Structure.uninit).set i
        (structureSet rest .uninit s (t.memberType i))) := by
  simp [structureSet, Structure.uninit, hms]

theorem structureSet_aggregate {i : Nat} {rest : List Nat} {es : List Structure}
    {e : Structure} (s : Structure) (t : SwiftType) (he : es[i]? = some e) :
    structureSet (i :: rest) (.aggregate es) s t =
      .aggregate (es.set i (structureSet rest e s (t.memberType i))) := by
  simp [structureSet, he]

theorem structureSet_array {i : Nat} {rest : List Nat} {es : List Structure}
    {e : Structure} (s : Structure) (T t : SwiftType) (he : es[i]? = some e) :
    structureSet (i :: rest) (.array T es) s t =
      .array T (es.set i (structureSet rest e s T)) := by
  simp [structureSet, he]

theorem structureGet_nil (T : Structure) : structureGet [] T = T := by
  cases T <;> rfl

theorem structureGet_uninit (p : List Nat) : structureGet p .uninit = .uninit := by
  cases p <;> rfl

theorem structureGet_aggregate {i : Nat} {rest : List Nat} {es : List Structure}
    {e : Structure} (he : es[i]? = some e) :
    structureGet (i :: rest) (.aggregate es) = structureGet rest e := by
  simp [structureGet, he]

theorem structureGet_array {i : Nat} {rest : List Nat} {es : List Structure}
    {e : Structure} (T : SwiftType) (he : es[i]? = some e) :
    structureGet (i :: rest) (.array T es) = structureGet rest e := by
  simp [structureGet, he]

/-! ## The indexing helpers on structures -/

theorem forall2_length {α β : Type} {R : α → β → Prop} {xs : List α} {ys : List β}
    (h : List.Forall₂ R xs ys) : xs.length = ys.length := by
  induction h with
  | nil => rfl
  | cons _ _ ih => simp [ih]

theorem forall2_replicate_eq {α β : Type} {R : α → β → Prop} {a : α} {b : β} (h : R a b)
    {n m : Nat} (hnm : n = m) : List.Forall₂ R (List.replicate n a) (List.replicate m b) := by
  subst hnm
  exact forall2_replicate h n

/-- A set along a path that is valid for the structure of a value returns, only appends
to the memory, and gives a value whose structure is the set along the path on the
structure. -/
theorem set_structure (self : Ptr) (s : SymbolicValue) (Ts : Structure) (A : Nat) :
    ∀ (p : List Nat) (mem : Memory) (v : SymbolicValue) (T : Structure) (t : SwiftType),
      HasStructure mem self v T → HasStructure mem self s Ts → structureValid p T t = true →
      ∃ v' ext, setIndexedElement mem v p s t A = .ok (v', mem ++ ext) ∧
        HasStructure (mem ++ ext) self v' (structureSet p T Ts t) := by
  intro p
  induction p with
  | nil =>
    intro mem v T t _ hs _
    refine ⟨s, [], by simp [set_nil], ?_⟩
    rw [List.append_nil, structureSet_nil]
    exact hs
  | cons i rest ih =>
    intro mem v T t hv hs hvalid
    rcases hasStructure_cases hv with ⟨rfl, _, _⟩ | ⟨es, Tes, hes, rfl, hf⟩ |
      ⟨es, T0, Tes, hes, rfl, _, hf⟩
    · obtain ⟨rfl, ms, ti, hms, hlen, hti, hrest⟩ := structureValid_leaf.mp hvalid
      have hn := scalarizedNumMembers_of_member hms
      have hty := aggregateElementType_of_member hms hlen hti
      have hnval : (toUnsigned ms.length).val = ms.length := toUnsigned_of_lt hlen
      have hi : i < (toUnsigned ms.length).val := by
        rw [hnval]
        exact getElem?_lt hti
      obtain ⟨e', ext2, hrec, hstruct⟩ := ih
        (mem ++ [⟨A, .values (List.replicate (toUnsigned ms.length).val .RK_UninitMemory)⟩])
        .RK_UninitMemory .uninit ti (hasStructure_uninit _ _) (hasStructure_append _ hs) hrest
      have hset := set_cons_uninit hn hty hi hrec
      have hlen2 : ((List.replicate (toUnsigned ms.length).val
          SymbolicValue.RK_UninitMemory).set i e').length < 4294967296 := by
        simp [hnval, hlen]
      have hfor : List.Forall₂ (HasStructure
          (mem ++ [⟨A, .values (List.replicate (toUnsigned ms.length).val .RK_UninitMemory)⟩]
            ++ ext2) self)
          ((List.replicate (toUnsigned ms.length).val SymbolicValue.RK_UninitMemory).set i e')
          ((List.replicate ms.length Structure.uninit).set i
            (structureSet rest .uninit Ts ti)) := by
        exact forall2_set (forall2_replicate_eq (hasStructure_uninit _ _) hnval) i _ _ hstruct
      have hres := hasStructure_getAggregate A hlen2 hfor
      have hmem : (getAggregate (mem ++ [⟨A, .values (List.replicate
          (toUnsigned ms.length).val .RK_UninitMemory)⟩] ++ ext2)
          ((List.replicate (toUnsigned ms.length).val SymbolicValue.RK_UninitMemory).set i e')
          A).2 = mem ++ ([⟨A, .values (List.replicate (toUnsigned ms.length).val
            .RK_UninitMemory)⟩] ++ ext2 ++ [⟨A, .values ((List.replicate
              (toUnsigned ms.length).val SymbolicValue.RK_UninitMemory).set i e')⟩]) := by
        rw [getAggregate_eq]
        simp only [List.append_assoc]
      refine ⟨_, _, hset.trans (congrArg Except.ok (Prod.ext rfl hmem)), ?_⟩
      have hst : structureSet (i :: rest) (.leaf .RK_UninitMemory) Ts t =
          .aggregate ((List.replicate ms.length Structure.uninit).set i
            (structureSet rest .uninit Ts ti)) := by
        rw [← memberType_eq hms hti]
        exact structureSet_uninit Ts hms
      rw [hst, ← hmem]
      exact hres
    · obtain ⟨ms, Te, ti, hms, hlen, hTe, hti, hrest⟩ := structureValid_aggregate.mp hvalid
      obtain ⟨e, he, hse⟩ := forall2_getElem?_right hf i Te hTe
      have hty := aggregateElementType_of_member hms hlen hti
      obtain ⟨e', ext2, hrec, hstruct⟩ := ih mem e Te ti hse hs hrest
      have hset := set_cons_aggregate hes hty he hrec
      have hlen2 : (es.set i e').length < 4294967296 := by
        rw [List.length_set]
        exact getAggregateValue_length hes
      have hfor : List.Forall₂ (HasStructure (mem ++ ext2) self) (es.set i e')
          (Tes.set i (structureSet rest Te Ts ti)) :=
        forall2_set (forall2_hasStructure_append ext2 hf) i _ _ hstruct
      have hres := hasStructure_getAggregate A hlen2 hfor
      have hmem : (getAggregate (mem ++ ext2) (es.set i e') A).2 =
          mem ++ (ext2 ++ [⟨A, .values (es.set i e')⟩]) := by
        rw [getAggregate_eq]
        simp only [List.append_assoc]
      refine ⟨_, _, hset.trans (congrArg Except.ok (Prod.ext rfl hmem)), ?_⟩
      rw [structureSet_aggregate Ts t hTe, memberType_eq hms hti, ← hmem]
      exact hres
    · obtain ⟨Te, hTe, hrest⟩ := structureValid_array.mp hvalid
      obtain ⟨e, he, hse⟩ := forall2_getElem?_right hf i Te hTe
      obtain ⟨e', ext2, hrec, hstruct⟩ := ih mem e Te T0 hse hs hrest
      have hset := @set_cons_array _ _ _ _ _ _ _ _ t _ _ _ hes he hrec
      have hlen2 : (es.set i e').length < 4294967296 := by
        rw [List.length_set]
        exact getArrayValue_length hes
      have hfor : List.Forall₂ (HasStructure (mem ++ ext2) self) (es.set i e')
          (Tes.set i (structureSet rest Te Ts T0)) :=
        forall2_set (forall2_hasStructure_append ext2 hf) i _ _ hstruct
      have hres := hasStructure_getArray T0 A hlen2 hfor
      have hmem : (getArray (mem ++ ext2) (es.set i e') T0 A).2 =
          mem ++ (ext2 ++ [⟨A, .ArraySymbolicValue T0 (toUnsigned (es.set i e').length)
            (es.set i e')⟩]) := by
        rw [getArray_eq]
        simp only [List.append_assoc]
      refine ⟨_, _, hset.trans (congrArg Except.ok (Prod.ext rfl hmem)), ?_⟩
      rw [structureSet_array Ts T0 t hTe, ← hmem]
      exact hres

/-- A get along a path that is valid for the structure of a value returns a value whose
structure is the get along the path on the structure. -/
theorem get_structure (self : Ptr) :
    ∀ (p : List Nat) (mem : Memory) (v : SymbolicValue) (T : Structure) (t : SwiftType),
      HasStructure mem self v T → structureValid p T t = true →
      ∃ r, getIndexedElement mem v p t = .ok r ∧ HasStructure mem self r (structureGet p T) := by
  intro p
  induction p with
  | nil =>
    intro mem v T t hv _
    exact ⟨v, get_nil _ _ _, by rw [structureGet_nil]; exact hv⟩
  | cons i rest ih =>
    intro mem v T t hv hvalid
    rcases hasStructure_cases hv with ⟨rfl, _, _⟩ | ⟨es, Tes, hes, rfl, hf⟩ |
      ⟨es, T0, Tes, hes, rfl, _, hf⟩
    · obtain ⟨rfl, _⟩ := structureValid_leaf.mp hvalid
      exact ⟨_, get_cons_uninit _ _ _ _, hasStructure_uninit _ _⟩
    · obtain ⟨ms, Te, ti, hms, hlen, hTe, hti, hrest⟩ := structureValid_aggregate.mp hvalid
      obtain ⟨e, he, hse⟩ := forall2_getElem?_right hf i Te hTe
      have hty := aggregateElementType_of_member hms hlen hti
      rw [get_step_aggregate hes he hty, structureGet_aggregate hTe]
      exact ih mem e Te ti hse hrest
    · obtain ⟨Te, hTe, hrest⟩ := structureValid_array.mp hvalid
      obtain ⟨e, he, hse⟩ := forall2_getElem?_right hf i Te hTe
      rw [get_step_array hes he, structureGet_array T0 hTe]
      exact ih mem e Te T0 hse hrest

/-- A path that is valid for a value is valid for its structure. -/
theorem structureValid_of_validPath {self : Ptr} :
    ∀ (p : List Nat) (mem : Memory) (v : SymbolicValue) (T : Structure) (t : SwiftType),
      validPath mem self p v t = true → HasStructure mem self v T →
      structureValid p T t = true := by
  intro p
  induction p with
  | nil =>
    intro mem v T t _ _
    cases T <;> rfl
  | cons i rest ih =>
    intro mem v T t h hv
    rcases validPath_cons.mp h with ⟨rfl, ms, ti, hms, hlen, hti, h⟩ |
      ⟨es, ms, e, ti, hes, hms, hlen, he, hti, h⟩ | ⟨es, T0, e, hne, hes, he, h⟩
    · have hT := hasStructure_unique hv (hasStructure_uninit mem self)
      subst hT
      exact structureValid_leaf.mpr ⟨rfl, ms, ti, hms, hlen, hti,
        ih mem _ _ ti h (hasStructure_uninit mem self)⟩
    · rcases hasStructure_cases hv with ⟨_, hk, _⟩ | ⟨es2, Tes, hes2, rfl, hf⟩ |
        ⟨es2, T1, Tes, hes2, _⟩
      · exact absurd (getAggregateValue_kind hes) hk
      · rw [hes] at hes2
        cases hes2
        obtain ⟨Te, hTe, hse⟩ := forall2_getElem? hf i e he
        exact structureValid_aggregate.mpr ⟨ms, Te, ti, hms, hlen, hTe, hti,
          ih mem e Te ti h hse⟩
      · have h1 := getAggregateValue_kind hes
        have h2 := getArrayValue_kind hes2
        rw [h1] at h2
        cases h2
    · rcases hasStructure_cases hv with ⟨_, _, hk⟩ | ⟨es2, Tes, hes2, _⟩ |
        ⟨es2, T1, Tes, hes2, rfl, _, hf⟩
      · exact absurd (getArrayValue_kind hes) hk
      · have h1 := getArrayValue_kind hes
        have h2 := getAggregateValue_kind hes2
        rw [h1] at h2
        cases h2
      · rw [hes] at hes2
        cases hes2
        obtain ⟨Te, hTe, hse⟩ := forall2_getElem? hf i e he
        exact structureValid_array.mpr ⟨Te, hTe, ih mem e Te T0 h hse⟩

/-! ## Sets on structures: overwriting, commuting, writing back -/

theorem set_set_getD {α : Type} (xs : List α) (i : Nat) (x d : α) (f : α → α) :
    (xs.set i x).set i (f ((xs.set i x)[i]?.getD d)) = xs.set i (f x) := by
  by_cases hi : i < xs.length
  · rw [List.set_set]
    simp [List.getElem?_set_self hi]
  · have hle : xs.length ≤ i := Nat.le_of_not_lt hi
    rw [List.set_eq_of_length_le (by simpa using hle), List.set_eq_of_length_le hle,
      List.set_eq_of_length_le hle]

theorem set_getD_of_le {α : Type} {xs : List α} {i : Nat} (x y : α)
    (hle : xs.length ≤ i) : xs.set i x = xs.set i y := by
  rw [List.set_eq_of_length_le hle, List.set_eq_of_length_le hle]

/-- A set along a path overwrites an earlier set along the same path. -/
theorem structureSet_overwrite (a b : Structure) :
    ∀ (p : List Nat) (T : Structure) (t : SwiftType),
      structureSet p (structureSet p T a t) b t = structureSet p T b t := by
  intro p
  induction p with
  | nil =>
    intro T t
    rw [structureSet_nil, structureSet_nil]
  | cons i rest ih =>
    intro T t
    cases T with
    | leaf v =>
      by_cases hv : v = .RK_UninitMemory
      · subst hv
        cases hms : t.memberTypes with
        | none => simp [structureSet, hms]
        | some ms =>
          have h1 := @structureSet_uninit i rest t ms a hms
          have h2 := @structureSet_uninit i rest t ms b hms
          unfold Structure.uninit at h1 h2
          rw [h1, h2]
          simp only [structureSet]
          rw [set_set_getD _ i _ Structure.uninit
            (fun x => structureSet rest x b (t.memberType i))]
          rw [ih]
      · simp [structureSet, hv]
    | aggregate es =>
      simp only [structureSet]
      rw [set_set_getD es i _ Structure.uninit
        (fun x => structureSet rest x b (t.memberType i))]
      rw [ih]
    | array T0 es =>
      simp only [structureSet]
      rw [set_set_getD es i _ Structure.uninit (fun x => structureSet rest x b T0)]
      rw [ih]

theorem getD_set_ne {α : Type} (xs : List α) {i j : Nat} (x d : α) (h : i ≠ j) :
    (xs.set i x)[j]?.getD d = xs[j]?.getD d := by
  rw [List.getElem?_set_ne h]

theorem getD_replicate {α : Type} (n j : Nat) (d : α) :
    (List.replicate n d)[j]?.getD d = d := by
  by_cases h : j < n
  · simp [h]
  · simp [Nat.le_of_not_lt h]

/-- Sets along two paths of which neither is a prefix of the other commute. -/
theorem structureSet_comm (a b : Structure) :
    ∀ (p q : List Nat) (T : Structure) (t : SwiftType), ¬ p <+: q → ¬ q <+: p →
      structureSet q (structureSet p T a t) b t = structureSet p (structureSet q T b t) a t := by
  intro p
  induction p with
  | nil =>
    intro q T t hpq _
    exact absurd List.nil_prefix hpq
  | cons i p' ih =>
    intro q T t hpq hqp
    cases q with
    | nil => exact absurd List.nil_prefix hqp
    | cons j q' =>
      have hsame : i = j → ∀ (x : Structure) (t2 : SwiftType),
          structureSet q' (structureSet p' x a t2) b t2 =
            structureSet p' (structureSet q' x b t2) a t2 := by
        intro hij x t2
        subst hij
        exact ih q' x t2 (fun h => hpq (List.cons_prefix_cons.mpr ⟨rfl, h⟩))
          (fun h => hqp (List.cons_prefix_cons.mpr ⟨rfl, h⟩))
      have hlist : ∀ (es : List Structure) (t2 t3 : SwiftType), (i = j → t2 = t3) →
          (es.set i (structureSet p' (es[i]?.getD .uninit) a t2)).set j
            (structureSet q' ((es.set i (structureSet p' (es[i]?.getD .uninit) a t2))[j]?.getD
              .uninit) b t3) =
          (es.set j (structureSet q' (es[j]?.getD .uninit) b t3)).set i
            (structureSet p' ((es.set j (structureSet q' (es[j]?.getD .uninit) b t3))[i]?.getD
              .uninit) a t2) := by
        intro es t2 t3 ht
        by_cases hij : i = j
        · have ht2 := ht hij
          subst hij
          subst ht2
          rw [set_set_getD es i _ Structure.uninit (fun x => structureSet q' x b t2),
            set_set_getD es i _ Structure.uninit (fun x => structureSet p' x a t2)]
          rw [hsame rfl]
        · rw [getD_set_ne es _ _ hij, getD_set_ne es _ _ (Ne.symm hij)]
          exact List.set_comm _ _ _ hij
      cases T with
      | leaf v =>
        by_cases hv : v = .RK_UninitMemory
        · subst hv
          cases hms : t.memberTypes with
          | none => simp [structureSet, hms]
          | some ms =>
            have h1 := @structureSet_uninit i p' t ms a hms
            have h2 := @structureSet_uninit j q' t ms b hms
            unfold Structure.uninit at h1 h2
            rw [h1, h2]
            simp only [structureSet]
            by_cases hij : i = j
            · subst hij
              rw [set_set_getD _ i _ Structure.uninit
                  (fun x => structureSet q' x b (t.memberType i)),
                set_set_getD _ i _ Structure.uninit
                  (fun x => structureSet p' x a (t.memberType i))]
              rw [hsame rfl]
            · have hrep : ∀ k, (List.replicate ms.length
                  (Structure.leaf .RK_UninitMemory))[k]?.getD Structure.uninit =
                  Structure.leaf .RK_UninitMemory :=
                fun k => getD_replicate ms.length k Structure.uninit
              rw [getD_set_ne _ _ _ hij, getD_set_ne _ _ _ (Ne.symm hij)]
              rw [List.set_comm _ _ _ hij, hrep, hrep]
        · simp [structureSet, hv]
      | aggregate es =>
        simp only [structureSet]
        rw [hlist es (t.memberType i) (t.memberType j) (fun h => by rw [h])]
      | array T0 es =>
        simp only [structureSet]
        rw [hlist es T0 T0 (fun _ => rfl)]

/-! ## Validity of paths after a set on structures -/

theorem getElem?_replicate_of_lt {α : Type} {n i : Nat} (a : α) (h : i < n) :
    (List.replicate n a)[i]? = some a := by
  simp [h]

theorem getElem?_set_self_of_some {α : Type} {xs : List α} {i : Nat} {x : α} (y : α)
    (h : xs[i]? = some x) : (xs.set i y)[i]? = some y := by
  have hlt := getElem?_lt h
  simp [List.getElem?_set_self hlt]

/-- The path of a set is valid for what the set gives. -/
theorem structureValid_set_self (a : Structure) :
    ∀ (p : List Nat) (T : Structure) (t : SwiftType), structureValid p T t = true →
      structureValid p (structureSet p T a t) t = true := by
  intro p
  induction p with
  | nil =>
    intro T t _
    rw [structureSet_nil]
    cases a <;> rfl
  | cons i rest ih =>
    intro T t h
    cases T with
    | leaf v =>
      obtain ⟨rfl, ms, ti, hms, hlen, hti, hrest⟩ := structureValid_leaf.mp h
      have h1 := @structureSet_uninit i rest t ms a hms
      unfold Structure.uninit at h1
      rw [h1, memberType_eq hms hti]
      have hi := getElem?_lt hti
      exact structureValid_aggregate.mpr ⟨ms, _, ti, hms, hlen,
        getElem?_set_self_of_some _ (getElem?_replicate_of_lt Structure.uninit hi), hti,
        ih _ ti hrest⟩
    | aggregate es =>
      obtain ⟨ms, e, ti, hms, hlen, he, hti, hrest⟩ := structureValid_aggregate.mp h
      rw [structureSet_aggregate a t he, memberType_eq hms hti]
      exact structureValid_aggregate.mpr ⟨ms, _, ti, hms, hlen,
        getElem?_set_self_of_some _ he, hti, ih e ti hrest⟩
    | array T0 es =>
      obtain ⟨e, he, hrest⟩ := structureValid_array.mp h
      rw [structureSet_array a T0 t he]
      exact structureValid_array.mpr ⟨_, getElem?_set_self_of_some _ he, ih e T0 hrest⟩

/-- A path is valid for what a set along a path gives when both paths are valid and
neither is a prefix of the other. -/
theorem structureValid_set_other (a : Structure) :
    ∀ (p q : List Nat) (T : Structure) (t : SwiftType), structureValid p T t = true →
      structureValid q T t = true → ¬ p <+: q → ¬ q <+: p →
      structureValid q (structureSet p T a t) t = true := by
  intro p
  induction p with
  | nil =>
    intro q T t _ _ hpq _
    exact absurd List.nil_prefix hpq
  | cons i p' ih =>
    intro q T t hp hq hpq hqp
    cases q with
    | nil => exact absurd List.nil_prefix hqp
    | cons j q' =>
      have hdiv : i = j → ¬ p' <+: q' ∧ ¬ q' <+: p' := by
        intro hij
        subst hij
        exact ⟨fun h => hpq (List.cons_prefix_cons.mpr ⟨rfl, h⟩),
          fun h => hqp (List.cons_prefix_cons.mpr ⟨rfl, h⟩)⟩
      cases T with
      | leaf v =>
        obtain ⟨rfl, ms, ti, hms, hlen, hti, hrest⟩ := structureValid_leaf.mp hp
        obtain ⟨_, ms2, tj, hms2, _, htj, hrestq⟩ := structureValid_leaf.mp hq
        rw [hms] at hms2
        cases hms2
        have h1 := @structureSet_uninit i p' t ms a hms
        unfold Structure.uninit at h1
        rw [h1, memberType_eq hms hti]
        have hi := getElem?_lt hti
        have hj := getElem?_lt htj
        by_cases hij : i = j
        · subst hij
          rw [hti] at htj
          cases htj
          exact structureValid_aggregate.mpr ⟨ms, _, ti, hms, hlen,
            getElem?_set_self_of_some _ (getElem?_replicate_of_lt Structure.uninit hi), hti,
            ih q' _ ti hrest hrestq (hdiv rfl).1 (hdiv rfl).2⟩
        · refine structureValid_aggregate.mpr ⟨ms, Structure.uninit, tj, hms, hlen, ?_, htj,
            hrestq⟩
          rw [List.getElem?_set_ne hij]
          exact getElem?_replicate_of_lt Structure.uninit hj
      | aggregate es =>
        obtain ⟨ms, e, ti, hms, hlen, he, hti, hrest⟩ := structureValid_aggregate.mp hp
        obtain ⟨ms2, e2, tj, hms2, _, he2, htj, hrestq⟩ := structureValid_aggregate.mp hq
        rw [hms] at hms2
        cases hms2
        rw [structureSet_aggregate a t he, memberType_eq hms hti]
        by_cases hij : i = j
        · subst hij
          rw [hti] at htj
          cases htj
          rw [he] at he2
          cases he2
          exact structureValid_aggregate.mpr ⟨ms, _, ti, hms, hlen,
            getElem?_set_self_of_some _ he, hti,
            ih q' e ti hrest hrestq (hdiv rfl).1 (hdiv rfl).2⟩
        · refine structureValid_aggregate.mpr ⟨ms, e2, tj, hms, hlen, ?_, htj, hrestq⟩
          rw [List.getElem?_set_ne hij]
          exact he2
      | array T0 es =>
        obtain ⟨e, he, hrest⟩ := structureValid_array.mp hp
        obtain ⟨e2, he2, hrestq⟩ := structureValid_array.mp hq
        rw [structureSet_array a T0 t he]
        by_cases hij : i = j
        · subst hij
          rw [he] at he2
          cases he2
          exact structureValid_array.mpr ⟨_, getElem?_set_self_of_some _ he,
            ih q' e T0 hrest hrestq (hdiv rfl).1 (hdiv rfl).2⟩
        · refine structureValid_array.mpr ⟨e2, ?_, hrestq⟩
          rw [List.getElem?_set_ne hij]
          exact he2

/-! ## Writing back what was read, on structures -/

theorem set_getElem?_self {α : Type} {xs : List α} {i : Nat} {x : α} (h : xs[i]? = some x) :
    xs.set i x = xs := by
  apply List.ext_getElem?
  intro k
  by_cases hk : i = k
  · subst hk
    rw [getElem?_set_self_of_some x h, h]
  · rw [List.getElem?_set_ne hk]

/-- Writing back what a get gives is the identity when no uninitialised memory is met
along the path before its last step. -/
theorem structureSet_get_self :
    ∀ (p : List Nat) (T : Structure) (t : SwiftType), structureValid p T t = true →
      meetsUninit p T = false → structureSet p T (structureGet p T) t = T := by
  intro p
  induction p with
  | nil =>
    intro T t _ _
    rw [structureSet_nil, structureGet_nil]
  | cons i rest ih =>
    intro T t h hm
    cases T with
    | leaf v =>
      obtain ⟨rfl, _⟩ := structureValid_leaf.mp h
      simp [meetsUninit] at hm
    | aggregate es =>
      obtain ⟨ms, e, ti, hms, hlen, he, hti, hrest⟩ := structureValid_aggregate.mp h
      have hm2 : meetsUninit rest e = false := by
        simpa [meetsUninit, he] using hm
      rw [structureSet_aggregate _ t he, memberType_eq hms hti, structureGet_aggregate he,
        ih e ti hrest hm2, set_getElem?_self he]
    | array T0 es =>
      obtain ⟨e, he, hrest⟩ := structureValid_array.mp h
      have hm2 : meetsUninit rest e = false := by
        simpa [meetsUninit, he] using hm
      rw [structureSet_array _ T0 t he, structureGet_array T0 he, ih e T0 hrest hm2,
        set_getElem?_self he]

/-- Writing back what a get gives changes the structure when uninitialised memory is met
along the path before its last step, and what the get gives is uninitialised memory. -/
theorem structureSet_get_uninit :
    ∀ (p : List Nat) (T : Structure) (t : SwiftType), structureValid p T t = true →
      meetsUninit p T = true →
      structureGet p T = .uninit ∧ structureSet p T (structureGet p T) t ≠ T := by
  intro p
  induction p with
  | nil =>
    intro T t _ hm
    cases T <;> simp [meetsUninit] at hm
  | cons i rest ih =>
    intro T t h hm
    cases T with
    | leaf v =>
      obtain ⟨rfl, ms, ti, hms, _⟩ := structureValid_leaf.mp h
      refine ⟨rfl, ?_⟩
      have h1 := @structureSet_uninit i rest t ms
        (structureGet (i :: rest) (.leaf .RK_UninitMemory)) hms
      unfold Structure.uninit at h1
      rw [h1]
      intro hc
      cases hc
    | aggregate es =>
      obtain ⟨ms, e, ti, hms, hlen, he, hti, hrest⟩ := structureValid_aggregate.mp h
      have hm2 : meetsUninit rest e = true := by
        simpa [meetsUninit, he] using hm
      obtain ⟨hg, hne⟩ := ih e ti hrest hm2
      rw [structureSet_aggregate _ t he, memberType_eq hms hti, structureGet_aggregate he]
      refine ⟨hg, ?_⟩
      intro hc
      have hes := Structure.aggregate.inj hc
      have := congrArg (fun l => l[i]?) hes
      simp only [getElem?_set_self_of_some _ he, he, Option.some.injEq] at this
      exact hne this
    | array T0 es =>
      obtain ⟨e, he, hrest⟩ := structureValid_array.mp h
      have hm2 : meetsUninit rest e = true := by
        simpa [meetsUninit, he] using hm
      obtain ⟨hg, hne⟩ := ih e T0 hrest hm2
      rw [structureSet_array _ T0 t he, structureGet_array T0 he]
      refine ⟨hg, ?_⟩
      intro hc
      have hes := (Structure.array.inj hc).2
      have := congrArg (fun l => l[i]?) hes
      simp only [getElem?_set_self_of_some _ he, he, Option.some.injEq] at this
      exact hne this

/-- Uninitialised memory is met along a path exactly when a get along a proper prefix of
the path gives uninitialised memory. -/
theorem meetsUninit_iff :
    ∀ (p : List Nat) (T : Structure) (t : SwiftType), structureValid p T t = true →
      (meetsUninit p T = true ↔
        ∃ p1 i rest, p = p1 ++ i :: rest ∧ structureGet p1 T = .uninit) := by
  intro p
  induction p with
  | nil =>
    intro T t _
    constructor
    · intro hm
      cases T <;> simp [meetsUninit] at hm
    · rintro ⟨p1, i, rest, hp, _⟩
      cases p1 <;> simp at hp
  | cons i rest ih =>
    intro T t h
    cases T with
    | leaf v =>
      obtain ⟨rfl, _⟩ := structureValid_leaf.mp h
      constructor
      · intro _
        exact ⟨[], i, rest, rfl, rfl⟩
      · intro _
        simp [meetsUninit]
    | aggregate es =>
      obtain ⟨ms, e, ti, hms, hlen, he, hti, hrest⟩ := structureValid_aggregate.mp h
      have hme : meetsUninit (i :: rest) (.aggregate es) = meetsUninit rest e := by
        simp [meetsUninit, he]
      rw [hme, ih e ti hrest]
      constructor
      · rintro ⟨p1, j, r, hp, hg⟩
        exact ⟨i :: p1, j, r, by rw [hp]; rfl, by rw [structureGet_aggregate he]; exact hg⟩
      · rintro ⟨p1, j, r, hp, hg⟩
        cases p1 with
        | nil =>
          rw [structureGet_nil] at hg
          cases hg
        | cons k p1' =>
          simp only [List.cons_append, List.cons.injEq] at hp
          obtain ⟨hk, hp⟩ := hp
          subst hk
          rw [structureGet_aggregate he] at hg
          exact ⟨p1', j, r, hp, hg⟩
    | array T0 es =>
      obtain ⟨e, he, hrest⟩ := structureValid_array.mp h
      have hme : meetsUninit (i :: rest) (.array T0 es) = meetsUninit rest e := by
        simp [meetsUninit, he]
      rw [hme, ih e T0 hrest]
      constructor
      · rintro ⟨p1, j, r, hp, hg⟩
        exact ⟨i :: p1, j, r, by rw [hp]; rfl, by rw [structureGet_array T0 he]; exact hg⟩
      · rintro ⟨p1, j, r, hp, hg⟩
        cases p1 with
        | nil =>
          rw [structureGet_nil] at hg
          cases hg
        | cons k p1' =>
          simp only [List.cons_append, List.cons.injEq] at hp
          obtain ⟨hk, hp⟩ := hp
          subst hk
          rw [structureGet_array T0 he] at hg
          exact ⟨p1', j, r, hp, hg⟩

/-- A prefix of a valid path is valid. -/
theorem structureValid_of_append :
    ∀ (p1 p2 : List Nat) (T : Structure) (t : SwiftType),
      structureValid (p1 ++ p2) T t = true → structureValid p1 T t = true := by
  intro p1
  induction p1 with
  | nil =>
    intro p2 T t _
    cases T <;> rfl
  | cons i rest ih =>
    intro p2 T t h
    rw [List.cons_append] at h
    cases T with
    | leaf v =>
      obtain ⟨rfl, ms, ti, hms, hlen, hti, hrest⟩ := structureValid_leaf.mp h
      exact structureValid_leaf.mpr ⟨rfl, ms, ti, hms, hlen, hti, ih p2 _ ti hrest⟩
    | aggregate es =>
      obtain ⟨ms, e, ti, hms, hlen, he, hti, hrest⟩ := structureValid_aggregate.mp h
      exact structureValid_aggregate.mpr ⟨ms, e, ti, hms, hlen, he, hti, ih p2 e ti hrest⟩
    | array T0 es =>
      obtain ⟨e, he, hrest⟩ := structureValid_array.mp h
      exact structureValid_array.mpr ⟨e, he, ih p2 e T0 hrest⟩

/-! ## Sets and gets through a memory object, on structures -/

theorem hasStructure_uninit_inv {mem : Memory} {self : Ptr} {v : SymbolicValue}
    (h : HasStructure mem self v Structure.uninit) : v = .RK_UninitMemory := by
  rcases hasStructure_cases h with ⟨hT, _, _⟩ | ⟨es, Ts, _, hT, _⟩ | ⟨es, T0, Ts, _, hT, _⟩
  · exact (Structure.leaf.inj hT).symm
  · cases hT
  · cases hT

/-- A set through a memory object whose value has a structure, along a path valid for
that structure, returns and leaves the object with a value of the structure given by
`structureSet`; the structures of the values of the memory are kept, those of the arrays
held by the address of another memory object among them. -/
theorem obj_set_structure {mem : Memory} {self : Ptr} {t : SwiftType} {V s : SymbolicValue}
    {TV Ts : Structure} (p : List Nat) (A : Nat)
    (hf : SymbolicValueMemoryObject.fields mem self = .ok (t, V))
    (hV : HasStructure mem self V TV) (hs : HasStructure mem self s Ts)
    (hval : structureValid p TV t = true) :
    ∃ mem' V', SymbolicValueMemoryObject.setIndexedElement mem self p s A = .ok mem' ∧
      SymbolicValueMemoryObject.fields mem' self = .ok (t, V') ∧
      HasStructure mem' self V' (structureSet p TV Ts t) ∧
      ∀ x Tx, HasStructure mem self x Tx → HasStructure mem' self x Tx := by
  have hobj := isObject_of_fields hf
  obtain ⟨v', ext, hset, hres⟩ := set_structure self s Ts A p mem V TV t hV hs hval
  have hlt : self < (mem ++ ext).length := lt_length_append (isObject_lt hobj) ext
  have hobj2 : IsObject (mem ++ ext) self := isObject_append hobj ext
  refine ⟨_, v', obj_set_eq hf hset, fields_ok.mpr (load_store_self hlt _), ?_, ?_⟩
  · exact hasStructure_agree hobj2 (agree_store _ _ _) hres
  · intro x Tx hx
    exact hasStructure_agree hobj2 (agree_store _ _ _) (hasStructure_append ext hx)

/-- A get through a memory object whose value has a structure, along a path valid for
that structure, returns a value of the structure given by `structureGet`. -/
theorem obj_get_structure {mem : Memory} {self : Ptr} {t : SwiftType} {V : SymbolicValue}
    {TV : Structure} (p : List Nat)
    (hf : SymbolicValueMemoryObject.fields mem self = .ok (t, V))
    (hV : HasStructure mem self V TV) (hval : structureValid p TV t = true) :
    ∃ r, SymbolicValueMemoryObject.getIndexedElement mem self p = .ok r ∧
      HasStructure mem self r (structureGet p TV) := by
  rw [obj_get_eq hf]
  exact get_structure self p mem V TV t hV hval

/-- A path valid for a memory object is valid for the structure of its value. -/
theorem obj_structureValid {mem : Memory} {self : Ptr} {t : SwiftType} {V : SymbolicValue}
    {TV : Structure} {p : List Nat}
    (hf : SymbolicValueMemoryObject.fields mem self = .ok (t, V))
    (hV : HasStructure mem self V TV)
    (hvalid : SymbolicValueMemoryObject.validPath mem self p = true) :
    structureValid p TV t = true := by
  obtain ⟨T2, V2, hf2, hv⟩ := objValidPath_iff.mp hvalid
  rw [hf] at hf2
  cases hf2
  exact structureValid_of_validPath p mem V TV t hv hV

/-- Uninitialised memory is met along a valid path before its last step exactly when a
get through the memory object along a proper prefix of the path returns uninitialised
memory. -/
theorem obj_meetsUninit_iff {mem : Memory} {self : Ptr} {t : SwiftType} {V : SymbolicValue}
    {TV : Structure} {p : List Nat}
    (hf : SymbolicValueMemoryObject.fields mem self = .ok (t, V))
    (hV : HasStructure mem self V TV) (hval : structureValid p TV t = true) :
    meetsUninit p TV = true ↔
      ∃ p1 i rest, p = p1 ++ i :: rest ∧
        SymbolicValueMemoryObject.getIndexedElement mem self p1 = .ok .RK_UninitMemory := by
  rw [meetsUninit_iff p TV t hval]
  constructor
  · rintro ⟨p1, i, rest, hp, hg⟩
    refine ⟨p1, i, rest, hp, ?_⟩
    have hv1 : structureValid p1 TV t = true := by
      rw [hp] at hval
      exact structureValid_of_append p1 (i :: rest) TV t hval
    obtain ⟨r, hr, hst⟩ := obj_get_structure p1 hf hV hv1
    rw [hg] at hst
    rw [hr, hasStructure_uninit_inv hst]
  · rintro ⟨p1, i, rest, hp, hg⟩
    refine ⟨p1, i, rest, hp, ?_⟩
    have hv1 : structureValid p1 TV t = true := by
      rw [hp] at hval
      exact structureValid_of_append p1 (i :: rest) TV t hval
    obtain ⟨r, hr, hst⟩ := obj_get_structure p1 hf hV hv1
    rw [hg] at hr
    cases hr
    exact hasStructure_unique hst (hasStructure_uninit mem self)

/-- A get through a memory object along a path that extends one along which the get
returns uninitialised memory returns uninitialised memory. -/
theorem obj_get_append_uninit {mem : Memory} {self : Ptr} {p1 : List Nat} (p2 : List Nat)
    (h : SymbolicValueMemoryObject.getIndexedElement mem self p1 = .ok .RK_UninitMemory) :
    SymbolicValueMemoryObject.getIndexedElement mem self (p1 ++ p2) = .ok .RK_UninitMemory := by
  cases hf : SymbolicValueMemoryObject.fields mem self with
  | error e =>
    simp [SymbolicValueMemoryObject.getIndexedElement, hf, bind, Except.bind] at h
  | ok r =>
    obtain ⟨t, V⟩ := r
    rw [obj_get_eq hf] at h ⊢
    exact get_append_uninit mem p1 p2 V t h

/-! ## A set after a set along the same path, on structures -/

theorem getAggregateValue_getAggregate_agree {self : Ptr} {m M : Memory}
    {es : List SymbolicValue} {A : Nat} (hobj : IsObject m self)
    (hlen : es.length < 4294967296)
    (hag : Agree self (getAggregate m es A).2 M) :
    getAggregateValue M (getAggregate m es A).1 = .ok es := by
  have hv := getAggregateValue_getAggregate_eq m es A
  rw [arrayRef_of_lt es hlen] at hv
  have hobj2 : IsObject (getAggregate m es A).2 self := by
    rw [getAggregate_eq]
    exact isObject_append hobj _
  exact getAggregateValue_agree hobj2 hag hv

theorem getArrayValue_getArray_agree {self : Ptr} {m M : Memory}
    {es : List SymbolicValue} {T : SwiftType} {A : Nat} (hobj : IsObject m self)
    (hlen : es.length < 4294967296)
    (hag : Agree self (getArray m es T A).2 M) :
    getArrayValue M (getArray m es T A).1 = .ok (es, T) := by
  have hv := getArrayValue_getArray_eq m es T A
  rw [arrayRef_of_lt es hlen] at hv
  have hobj2 : IsObject (getArray m es T A).2 self := by
    rw [getArray_eq]
    exact isObject_append hobj _
  have hne : (getArray m es T A).1 ≠ .RK_ArrayAddress self := by
    rw [getArray_eq]
    simp
  exact getArrayValue_agree hobj2 hag hne hv

/-- A set of any scalar `a` along a path that is valid for the structure of a value
returns, and a set of `b` along the same path on what it gives, in any memory that agrees
with the one it leaves outside the object at `self`, returns and gives a value whose
structure is the set of `b` along the path on the structure: the first scalar is
replaced without being read. -/
theorem set_overwrite_structure (self : Ptr) (a b : SymbolicValue) (Tb : Structure)
    (A : Nat) :
    ∀ (p : List Nat) (mem : Memory) (v : SymbolicValue) (T : Structure) (t : SwiftType),
      IsObject mem self → HasStructure mem self v T → structureValid p T t = true →
      ∃ v1 ext, setIndexedElement mem v p a t A = .ok (v1, mem ++ ext) ∧
        ∀ M, Agree self (mem ++ ext) M → HasStructure M self b Tb →
          ∃ v2 ext2, setIndexedElement M v1 p b t A = .ok (v2, M ++ ext2) ∧
            HasStructure (M ++ ext2) self v2 (structureSet p T Tb t) := by
  intro p
  induction p with
  | nil =>
    intro mem v T t _ _ _
    refine ⟨a, [], by simp [set_nil], ?_⟩
    intro M _ hb
    refine ⟨b, [], by simp [set_nil], ?_⟩
    rw [List.append_nil, structureSet_nil]
    exact hb
  | cons i rest ih =>
    intro mem v T t hobj hv hvalid
    rcases hasStructure_cases hv with ⟨rfl, _, _⟩ | ⟨es, Tes, hes, rfl, hf⟩ |
      ⟨es, T0, Tes, hes, rfl, _, hf⟩
    · obtain ⟨rfl, ms, ti, hms, hlen, hti, hrest⟩ := structureValid_leaf.mp hvalid
      have hn := scalarizedNumMembers_of_member hms
      have hty := aggregateElementType_of_member hms hlen hti
      have hnval : (toUnsigned ms.length).val = ms.length := toUnsigned_of_lt hlen
      have hi : i < (toUnsigned ms.length).val := by
        rw [hnval]
        exact getElem?_lt hti
      obtain ⟨e1, ext1, hrec1, hnext⟩ := ih
        (mem ++ [⟨A, .values (List.replicate (toUnsigned ms.length).val .RK_UninitMemory)⟩])
        .RK_UninitMemory .uninit ti (isObject_append hobj _) (hasStructure_uninit _ _) hrest
      have hset1 := @set_cons_uninit _ _ a _ _ _ _ _ _ _ hn hty hi hrec1
      have hlen1 : ((List.replicate (toUnsigned ms.length).val
          SymbolicValue.RK_UninitMemory).set i e1).length < 4294967296 := by
        simp [hnval, hlen]
      have hmem : (getAggregate (mem ++ [⟨A, .values (List.replicate
          (toUnsigned ms.length).val .RK_UninitMemory)⟩] ++ ext1)
          ((List.replicate (toUnsigned ms.length).val SymbolicValue.RK_UninitMemory).set i e1)
          A).2 = mem ++ ([⟨A, .values (List.replicate (toUnsigned ms.length).val
            .RK_UninitMemory)⟩] ++ ext1 ++ [⟨A, .values ((List.replicate
              (toUnsigned ms.length).val SymbolicValue.RK_UninitMemory).set i e1)⟩]) := by
        rw [getAggregate_eq]
        simp only [List.append_assoc]
      refine ⟨_, _, hset1.trans (congrArg Except.ok (Prod.ext rfl hmem)), ?_⟩
      intro M hag hb
      rw [← hmem] at hag
      have hobj1 : IsObject (mem ++ [⟨A, .values (List.replicate
          (toUnsigned ms.length).val .RK_UninitMemory)⟩] ++ ext1) self :=
        isObject_append (isObject_append hobj _) _
      have hread := getAggregateValue_getAggregate_agree hobj1 hlen1 hag
      have hag1 : Agree self (mem ++ [⟨A, .values (List.replicate
          (toUnsigned ms.length).val .RK_UninitMemory)⟩] ++ ext1) M := by
        rw [getAggregate_eq] at hag
        exact agree_of_append hag
      obtain ⟨e2, ext2, hrec2, hst2⟩ := hnext M hag1 hb
      have he1 : ((List.replicate (toUnsigned ms.length).val
          SymbolicValue.RK_UninitMemory).set i e1)[i]? = some e1 :=
        getElem?_set_self_of_some e1
          (getElem?_replicate_of_lt SymbolicValue.RK_UninitMemory hi)
      have hset2 := set_cons_aggregate hread hty he1 hrec2
      rw [List.set_set] at hset2
      have hlen2 : ((List.replicate (toUnsigned ms.length).val
          SymbolicValue.RK_UninitMemory).set i e2).length < 4294967296 := by
        simp [hnval, hlen]
      have hfor : List.Forall₂ (HasStructure (M ++ ext2) self)
          ((List.replicate (toUnsigned ms.length).val SymbolicValue.RK_UninitMemory).set i e2)
          ((List.replicate ms.length Structure.uninit).set i
            (structureSet rest .uninit Tb ti)) :=
        forall2_set (forall2_replicate_eq (hasStructure_uninit _ _) hnval) i _ _ hst2
      have hres := hasStructure_getAggregate A hlen2 hfor
      have hmem2 : (getAggregate (M ++ ext2)
          ((List.replicate (toUnsigned ms.length).val SymbolicValue.RK_UninitMemory).set i e2)
          A).2 = M ++ (ext2 ++ [⟨A, .values ((List.replicate
              (toUnsigned ms.length).val SymbolicValue.RK_UninitMemory).set i e2)⟩]) := by
        rw [getAggregate_eq]
        simp only [List.append_assoc]
      refine ⟨_, _, hset2.trans (congrArg Except.ok (Prod.ext rfl hmem2)), ?_⟩
      have hst : structureSet (i :: rest) (.leaf .RK_UninitMemory) Tb t =
          .aggregate ((List.replicate ms.length Structure.uninit).set i
            (structureSet rest .uninit Tb ti)) := by
        rw [← memberType_eq hms hti]
        exact structureSet_uninit Tb hms
      rw [hst, ← hmem2]
      exact hres
    · obtain ⟨ms, Te, ti, hms, hlen, hTe, hti, hrest⟩ := structureValid_aggregate.mp hvalid
      obtain ⟨e, he, hse⟩ := forall2_getElem?_right hf i Te hTe
      have hty := aggregateElementType_of_member hms hlen hti
      obtain ⟨e1, ext1, hrec1, hnext⟩ := ih mem e Te ti hobj hse hrest
      have hset1 := set_cons_aggregate hes hty he hrec1
      have hlen1 : (es.set i e1).length < 4294967296 := by
        rw [List.length_set]
        exact getAggregateValue_length hes
      have hmem : (getAggregate (mem ++ ext1) (es.set i e1) A).2 =
          mem ++ (ext1 ++ [⟨A, .values (es.set i e1)⟩]) := by
        rw [getAggregate_eq]
        simp only [List.append_assoc]
      refine ⟨_, _, hset1.trans (congrArg Except.ok (Prod.ext rfl hmem)), ?_⟩
      intro M hag hb
      rw [← hmem] at hag
      have hread := getAggregateValue_getAggregate_agree (isObject_append hobj ext1) hlen1 hag
      have hag1 : Agree self (mem ++ ext1) M := by
        rw [getAggregate_eq] at hag
        exact agree_of_append hag
      have hag0 : Agree self mem M := agree_of_append hag1
      obtain ⟨e2, ext2, hrec2, hst2⟩ := hnext M hag1 hb
      have he1 : (es.set i e1)[i]? = some e1 := getElem?_set_self_of_some e1 he
      have hset2 := set_cons_aggregate hread hty he1 hrec2
      rw [List.set_set] at hset2
      have hlen2 : (es.set i e2).length < 4294967296 := by
        rw [List.length_set]
        exact getAggregateValue_length hes
      have hfor : List.Forall₂ (HasStructure (M ++ ext2) self) (es.set i e2)
          (Tes.set i (structureSet rest Te Tb ti)) :=
        forall2_set (forall2_imp
          (fun _ _ h => hasStructure_append ext2 (hasStructure_agree hobj hag0 h)) hf)
          i _ _ hst2
      have hres := hasStructure_getAggregate A hlen2 hfor
      have hmem2 : (getAggregate (M ++ ext2) (es.set i e2) A).2 =
          M ++ (ext2 ++ [⟨A, .values (es.set i e2)⟩]) := by
        rw [getAggregate_eq]
        simp only [List.append_assoc]
      refine ⟨_, _, hset2.trans (congrArg Except.ok (Prod.ext rfl hmem2)), ?_⟩
      rw [structureSet_aggregate Tb t hTe, memberType_eq hms hti, ← hmem2]
      exact hres
    · obtain ⟨Te, hTe, hrest⟩ := structureValid_array.mp hvalid
      obtain ⟨e, he, hse⟩ := forall2_getElem?_right hf i Te hTe
      obtain ⟨e1, ext1, hrec1, hnext⟩ := ih mem e Te T0 hobj hse hrest
      have hset1 := @set_cons_array _ _ _ _ _ _ _ _ t _ _ _ hes he hrec1
      have hlen1 : (es.set i e1).length < 4294967296 := by
        rw [List.length_set]
        exact getArrayValue_length hes
      have hmem : (getArray (mem ++ ext1) (es.set i e1) T0 A).2 =
          mem ++ (ext1 ++ [⟨A, .ArraySymbolicValue T0 (toUnsigned (es.set i e1).length)
            (es.set i e1)⟩]) := by
        rw [getArray_eq]
        simp only [List.append_assoc]
      refine ⟨_, _, hset1.trans (congrArg Except.ok (Prod.ext rfl hmem)), ?_⟩
      intro M hag hb
      rw [← hmem] at hag
      have hread := getArrayValue_getArray_agree (isObject_append hobj ext1) hlen1 hag
      have hag1 : Agree self (mem ++ ext1) M := by
        rw [getArray_eq] at hag
        exact agree_of_append hag
      have hag0 : Agree self mem M := agree_of_append hag1
      obtain ⟨e2, ext2, hrec2, hst2⟩ := hnext M hag1 hb
      have he1 : (es.set i e1)[i]? = some e1 := getElem?_set_self_of_some e1 he
      have hset2 := @set_cons_array _ _ _ _ _ _ _ _ t _ _ _ hread he1 hrec2
      rw [List.set_set] at hset2
      have hlen2 : (es.set i e2).length < 4294967296 := by
        rw [List.length_set]
        exact getArrayValue_length hes
      have hfor : List.Forall₂ (HasStructure (M ++ ext2) self) (es.set i e2)
          (Tes.set i (structureSet rest Te Tb T0)) :=
        forall2_set (forall2_imp
          (fun _ _ h => hasStructure_append ext2 (hasStructure_agree hobj hag0 h)) hf)
          i _ _ hst2
      have hres := hasStructure_getArray T0 A hlen2 hfor
      have hmem2 : (getArray (M ++ ext2) (es.set i e2) T0 A).2 =
          M ++ (ext2 ++ [⟨A, .ArraySymbolicValue T0 (toUnsigned (es.set i e2).length)
            (es.set i e2)⟩]) := by
        rw [getArray_eq]
        simp only [List.append_assoc]
      refine ⟨_, _, hset2.trans (congrArg Except.ok (Prod.ext rfl hmem2)), ?_⟩
      rw [structureSet_array Tb T0 t hTe, ← hmem2]
      exact hres

/-- A set of any scalar `a` through a memory object whose value has a structure, along a
path valid for that structure, returns, and a set of `b` along the same path after it
returns and leaves the object with a value of the structure given by `structureSet` for
`b`. -/
theorem obj_set_overwrite_structure {mem : Memory} {self : Ptr} {t : SwiftType}
    {V b : SymbolicValue} {TV Tb : Structure} (a : SymbolicValue) (p : List Nat) (A : Nat)
    (hf : SymbolicValueMemoryObject.fields mem self = .ok (t, V))
    (hV : HasStructure mem self V TV) (hb : HasStructure mem self b Tb)
    (hval : structureValid p TV t = true) :
    ∃ m1 m2 V2, SymbolicValueMemoryObject.setIndexedElement mem self p a A = .ok m1 ∧
      SymbolicValueMemoryObject.setIndexedElement m1 self p b A = .ok m2 ∧
      SymbolicValueMemoryObject.fields m2 self = .ok (t, V2) ∧
      HasStructure m2 self V2 (structureSet p TV Tb t) := by
  have hobj := isObject_of_fields hf
  obtain ⟨v1, ext, hset1, hnext⟩ := set_overwrite_structure self a b Tb A p mem V TV t hobj hV
    hval
  have hlt : self < (mem ++ ext).length := lt_length_append (isObject_lt hobj) ext
  have hobj1 : IsObject (mem ++ ext) self := isObject_append hobj ext
  have hf1 : SymbolicValueMemoryObject.fields
      ((mem ++ ext).store self (.SymbolicValueMemoryObject t v1)) self = .ok (t, v1) :=
    fields_ok.mpr (load_store_self hlt _)
  have hb1 : HasStructure ((mem ++ ext).store self (.SymbolicValueMemoryObject t v1)) self b
      Tb := hasStructure_agree hobj1 (agree_store _ _ _) (hasStructure_append ext hb)
  obtain ⟨v2, ext2, hset2, hst2⟩ := hnext _ (agree_store _ _ _) hb1
  have hobj2 : IsObject ((mem ++ ext).store self (.SymbolicValueMemoryObject t v1) ++ ext2)
      self := isObject_append (isObject_of_fields hf1) ext2
  refine ⟨_, _, v2, obj_set_eq hf hset1, obj_set_eq hf1 hset2,
    fields_ok.mpr (load_store_self (isObject_lt hobj2) _), ?_⟩
  exact hasStructure_agree hobj2 (agree_store _ _ _) hst2

/-! ## The claims -/

/-- C1. Set then get: for every memory object, every access path `p` valid for it and
every value `s`, the call `setIndexedElement(p, s)` returns and the call
`getIndexedElement(p)` that follows returns `s`. -/
theorem C1_set_then_get (mem : Memory) (self : Ptr) (p : List Nat) (s : SymbolicValue)
    (allocator : Nat) (hvalid : SymbolicValueMemoryObject.validPath mem self p = true) :
    ∃ mem', SymbolicValueMemoryObject.setIndexedElement mem self p s allocator = .ok mem' ∧
      SymbolicValueMemoryObject.getIndexedElement mem' self p = .ok s := by
  obtain ⟨mem', h1, h2, _⟩ := obj_set_spec mem self p s allocator hvalid
  exact ⟨mem', h1, h2⟩

/-- Witness of C1: on the aggregate `{1, 2}`, `set([1], 99)` then `get([1])` gives 99;
on `{{1, 2}, 3}`, `set([0,1], 4)` leaves `{{1, 4}, 3}`. -/
theorem C1_set_then_get_witness :
    (SymbolicValueMemoryObject.validPath pairMemory 1 [1] = true ∧
      ∃ mem', SymbolicValueMemoryObject.setIndexedElement pairMemory 1 [1] (int32 99) 0
          = .ok mem' ∧
        SymbolicValueMemoryObject.getIndexedElement mem' 1 [1] = .ok (int32 99)) ∧
    (SymbolicValueMemoryObject.validPath nestedMemory 2 [0, 1] = true ∧
      ∃ mem', SymbolicValueMemoryObject.setIndexedElement nestedMemory 2 [0, 1] (int32 4) 0
          = .ok mem' ∧
        SymbolicValueMemoryObject.getIndexedElement mem' 2 [0, 1] = .ok (int32 4)) ∧
    (do let mem' ← SymbolicValueMemoryObject.setIndexedElement nestedMemory 2 [0, 1] (int32 4) 0
        let a ← SymbolicValueMemoryObject.getIndexedElement mem' 2 [0, 0]
        let b ← SymbolicValueMemoryObject.getIndexedElement mem' 2 [0, 1]
        let c ← SymbolicValueMemoryObject.getIndexedElement mem' 2 [1]
        pure [a, b, c]) = Except.ok [int32 1, int32 4, int32 3] :=
  ⟨⟨by decide, C1_set_then_get pairMemory 1 [1] (int32 99) 0 (by decide)⟩,
   ⟨by decide, C1_set_then_get nestedMemory 2 [0, 1] (int32 4) 0 (by decide)⟩,
   by decide⟩

/-- C2. Structural sharing: for every Aggregate or Array value with elements `es`,
every index `i` below their number (which the static type has as a member when the
value is an Aggregate) and every value `s`, `setIndexedElement` with the path `[i]`
returns a composite of the same kind and the same length whose element handle at every
`j ≠ i` is the handle the old composite has at `j`, and whose element `i` is `s`. -/
theorem C2_structural_sharing (mem : Memory) (v : SymbolicValue) (t : SwiftType) (i : Nat)
    (s : SymbolicValue) (allocator : Nat) (es : List SymbolicValue)
    (hk : v.getKind = .Aggregate ∨ v.getKind = .Array)
    (hes : v.elements mem = .ok es) (hi : i < es.length)
    (hty : v.getKind = .Aggregate →
      ∃ ms, t.memberTypes = some ms ∧ ms.length < 4294967296 ∧ i < ms.length) :
    ∃ v' mem' es', setIndexedElement mem v [i] s t allocator = .ok (v', mem') ∧
      v'.getKind = v.getKind ∧ v'.elements mem' = .ok es' ∧ es'.length = es.length ∧
      (∀ j, j ≠ i → es'[j]? = es[j]?) ∧ es'[i]? = some s := by
  have he : es[i]? = some es[i] := List.getElem?_eq_getElem hi
  rcases hk with hk | hk
  · obtain ⟨ms, hms, hlen, him⟩ := hty hk
    have hes' := elements_aggregate hk hes
    have hty' := aggregateElementType_of_member hms hlen (List.getElem?_eq_getElem him)
    have hset := set_cons_aggregate hes' hty' he (set_nil mem es[i] s ms[i] allocator)
    have hlen' : (es.set i s).length < 4294967296 := by
      simpa using getAggregateValue_length hes'
    have hread := getAggregateValue_getAggregate mem (es.set i s) allocator hlen'
    rw [getAggregate_eq] at hset hread
    refine ⟨_, _, es.set i s, hset, by rw [hk]; rfl, ?_, by simp, ?_, ?_⟩
    · simpa [SymbolicValue.elements, getKind] using hread
    · intro j hj
      exact getElem?_set_of_ne s (Ne.symm hj)
    · exact getElem?_set_self_of_lt s hi
  · obtain ⟨T, hes'⟩ := elements_array hk hes
    have hset := @set_cons_array _ _ _ _ _ _ _ _ t _ _ _ hes' he (set_nil mem es[i] s T allocator)
    have hlen' : (es.set i s).length < 4294967296 := by
      simpa using getArrayValue_length hes'
    have hread := getArrayValue_getArray mem (es.set i s) T allocator hlen'
    rw [getArray_eq] at hset hread
    refine ⟨_, _, es.set i s, hset, by rw [hk]; rfl, ?_, by simp, ?_, ?_⟩
    · simp only [SymbolicValue.elements, getKind, if_true, hread, Except.map]
    · intro j hj
      exact getElem?_set_of_ne s (Ne.symm hj)
    · exact getElem?_set_self_of_lt s hi

/-- Witness of C2: `set([1], 99)` on the aggregate `{1, 2}` of `pairMemory`. -/
theorem C2_structural_sharing_witness :
    ∃ v' mem' es', setIndexedElement pairMemory (.RK_Aggregate 0 2) [1] (int32 99)
        (.structType [Int32Type, Int32Type]) 0 = .ok (v', mem') ∧
      v'.getKind = .Aggregate ∧ v'.elements mem' = .ok es' ∧ es'.length = 2 ∧
      (∀ j, j ≠ 1 → es'[j]? = [int32 1, int32 2][j]?) ∧ es'[1]? = some (int32 99) :=
  C2_structural_sharing pairMemory (.RK_Aggregate 0 2) (.structType [Int32Type, Int32Type]) 1
    (int32 99) 0 [int32 1, int32 2] (Or.inl rfl) (by decide) (by decide)
    (fun _ => ⟨[Int32Type, Int32Type], rfl, by decide, by decide⟩)

/-- C3. Persistence: a returning `setIndexedElement` on a memory object leaves every
allocation other than the object's own slot as it was; so no aggregate or array payload
built before is modified, and every aggregate or array handle held before reads the
same elements afterwards (the one handle excepted is the array-address handle of the
written object, which reads the object's slot). -/
theorem C3_persistence (mem mem' : Memory) (self : Ptr) (p : List Nat) (s : SymbolicValue)
    (allocator : Nat)
    (hset : SymbolicValueMemoryObject.setIndexedElement mem self p s allocator = .ok mem') :
    (∀ a, a < mem.length → a ≠ self → mem'[a]? = mem[a]?) ∧
    (∀ a es, mem.load a = .ok (.values es) → mem'.load a = .ok (.values es)) ∧
    (∀ a T n es, mem.load a = .ok (.ArraySymbolicValue T n es) →
      mem'.load a = .ok (.ArraySymbolicValue T n es)) ∧
    (∀ v es, getAggregateValue mem v = .ok es → getAggregateValue mem' v = .ok es) ∧
    (∀ v r, v ≠ .RK_ArrayAddress self → getArrayValue mem v = .ok r →
      getArrayValue mem' v = .ok r) := by
  obtain ⟨hobj, hag⟩ := obj_set_agree hset
  refine ⟨hag, ?_, ?_, ?_, ?_⟩
  · intro a es hl
    exact load_agree hag (ne_of_load_ne hobj hl (by intro T V e; cases e)) hl
  · intro a T n es hl
    exact load_agree hag (ne_of_load_ne hobj hl (by intro T V e; cases e)) hl
  · intro v es h
    exact getAggregateValue_agree hobj hag h
  · intro v r hne h
    exact getArrayValue_agree hobj hag hne h

/-- Witness of C3: after `set([0], 7)` on the object holding `{1, 2}`, the aggregate
built before still reads `{1, 2}`, so its element 0 is still the integer 1. -/
theorem C3_persistence_witness :
    SymbolicValueMemoryObject.setIndexedElement pairMemory 1 [0] (int32 7) 0
      = .ok pairMemoryAfter ∧
    getAggregateValue pairMemoryAfter (.RK_Aggregate 0 2) = .ok [int32 1, int32 2] :=
  ⟨by decide, (C3_persistence pairMemory pairMemoryAfter 1 [0] (int32 7) 0
    (by decide)).2.2.2.1 (.RK_Aggregate 0 2) [int32 1, int32 2] (by decide)⟩

/-- C4. Uninit propagation on read: on a memory object whose current value is
uninitialised memory `getIndexedElement` returns uninitialised memory for every path
and every static type; and once indexing along a path has arrived at uninitialised
memory, every longer path returns uninitialised memory. -/
theorem C4_uninit_propagation (mem : Memory) (self : Ptr) :
    (∀ T p, SymbolicValueMemoryObject.fields mem self = .ok (T, .RK_UninitMemory) →
      p ≠ [] →
      SymbolicValueMemoryObject.getIndexedElement mem self p = .ok .RK_UninitMemory) ∧
    (∀ p1 p2, SymbolicValueMemoryObject.getIndexedElement mem self p1 = .ok .RK_UninitMemory →
      p2 ≠ [] →
      SymbolicValueMemoryObject.getIndexedElement mem self (p1 ++ p2)
        = .ok .RK_UninitMemory) ∧
    (∀ t p, p ≠ [] → getIndexedElement mem .RK_UninitMemory p t = .ok .RK_UninitMemory) := by
  refine ⟨?_, ?_, ?_⟩
  · intro T p hf _
    rw [obj_get_eq hf]
    exact get_uninit mem p T
  · intro p1 p2 h _
    cases hf : SymbolicValueMemoryObject.fields mem self with
    | error e =>
      simp [SymbolicValueMemoryObject.getIndexedElement, hf, bind, Except.bind] at h
    | ok r =>
      obtain ⟨T, V⟩ := r
      rw [obj_get_eq hf] at h ⊢
      exact get_append_uninit mem p1 p2 V T h
  · intro t p _
    exact get_uninit mem p t

/-- Witness of C4: the wholly uninitialised object reads uninitialised memory along
`[7, 7]`, and the object holding `{{uninit, 4}, uninit}` reads it along `[0, 0]` and
therefore along `[0, 0, 5]`. -/
theorem C4_uninit_propagation_witness :
    SymbolicValueMemoryObject.getIndexedElement uninitMemory 0 [7, 7] = .ok .RK_UninitMemory ∧
    SymbolicValueMemoryObject.getIndexedElement partialMemory 0 [0, 0] = .ok .RK_UninitMemory ∧
    SymbolicValueMemoryObject.getIndexedElement partialMemory 0 ([0, 0] ++ [5])
      = .ok .RK_UninitMemory :=
  ⟨(C4_uninit_propagation uninitMemory 0).1
      (.structType [.tupleType [Int32Type, Int32Type], Int32Type]) [7, 7] (by decide)
      (by decide),
   by decide,
   (C4_uninit_propagation partialMemory 0).2.1 [0, 0] [5] (by decide) (by decide)⟩

/-- C5. Scalarization: for every struct or tuple type with members `ms`, every
non-empty valid path and every value `s`, `setIndexedElement` on uninitialised memory
yields a value of kind Aggregate with exactly as many elements as the type has
members, of which every element other than the one at the first index of the path is
uninitialised memory. -/
theorem C5_scalarization (mem : Memory) (self : Ptr) (i : Nat) (rest : List Nat)
    (s : SymbolicValue) (t : SwiftType) (allocator : Nat) (ms : List SwiftType)
    (hms : t.memberTypes = some ms)
    (hvalid : validPath mem self (i :: rest) .RK_UninitMemory t = true) :
    ∃ v' mem' es, setIndexedElement mem .RK_UninitMemory (i :: rest) s t allocator
        = .ok (v', mem') ∧
      v'.getKind = .Aggregate ∧ getAggregateValue mem' v' = .ok es ∧
      es.length = ms.length ∧ ∀ j, j < ms.length → j ≠ i → es[j]? = some .RK_UninitMemory := by
  rcases validPath_cons.mp hvalid with ⟨_, ms2, ti, hms2, hlen, hti, h⟩ |
    ⟨es, _, _, _, hes, _⟩ | ⟨es, T, _, _, hes, _⟩
  · rw [hms] at hms2
    cases hms2
    have hn := scalarizedNumMembers_of_member hms
    have hty := aggregateElementType_of_member hms hlen hti
    have hnv : (toUnsigned ms.length).val = ms.length := toUnsigned_of_lt hlen
    have hi : i < (toUnsigned ms.length).val := by
      rw [hnv]; exact getElem?_lt hti
    obtain ⟨⟨e', mem2⟩, hrec⟩ := set_uninit_ok self s allocator rest
      (mem ++ [⟨allocator, .values (List.replicate (toUnsigned ms.length).val
        .RK_UninitMemory)⟩]) ti (validPath_uninit_indep _ _ _ _ _ _ h)
    have hset := set_cons_uninit hn hty hi hrec
    generalize hnew : (List.replicate (toUnsigned ms.length).val
        SymbolicValue.RK_UninitMemory).set i e' = newElts at hset
    have hlen' : newElts.length < 4294967296 := by
      rw [← hnew]; simp [hnv, hlen]
    have hread := getAggregateValue_getAggregate mem2 newElts allocator hlen'
    rw [getAggregate_eq] at hset hread
    refine ⟨_, _, newElts, hset, rfl, hread, by rw [← hnew]; simp [hnv], ?_⟩
    intro j hj hne
    rw [← hnew, getElem?_set_of_ne e' (Ne.symm hne)]
    simp [hnv, hj]
  · have := getAggregateValue_kind hes; simp [getKind] at this
  · have := getArrayValue_kind hes; simp [getKind] at this

/-- Witness of C5: `set([0,1], 4)` on uninitialised memory of the struct type of two
members `{(Int32, Int32), Int32}`. -/
theorem C5_scalarization_witness :
    validPath [] 0 [0, 1] .RK_UninitMemory
      (.structType [.tupleType [Int32Type, Int32Type], Int32Type]) = true ∧
    ∃ v' mem' es, setIndexedElement [] .RK_UninitMemory [0, 1] (int32 4)
        (.structType [.tupleType [Int32Type, Int32Type], Int32Type]) 0 = .ok (v', mem') ∧
      v'.getKind = .Aggregate ∧ getAggregateValue mem' v' = .ok es ∧
      es.length = 2 ∧ ∀ j, j < 2 → j ≠ 0 → es[j]? = some .RK_UninitMemory :=
  ⟨by decide, C5_scalarization [] 0 0 [1] (int32 4)
    (.structType [.tupleType [Int32Type, Int32Type], Int32Type]) 0
    [.tupleType [Int32Type, Int32Type], Int32Type] rfl (by decide)⟩

/-- C6. Untouched slots keep their reading: for every memory object, every valid path
`p`, every value `s` and every valid path `q` such that neither of `p` and `q` is an
initial segment of the other, `getIndexedElement(q)` after `setIndexedElement(p, s)`
equals `getIndexedElement(q)` before it.  In particular, on a wholly uninitialised
object for which `[0,1]`, `[0,0]` and `[1]` are valid, `set([0,1], s)` leaves
`get([0,1]) = s` while `get([0,0])` and `get([1])` are uninitialised memory. -/
theorem C6_untouched_slots (mem : Memory) (self : Ptr) (p : List Nat) (s : SymbolicValue)
    (allocator : Nat) (hvalid : SymbolicValueMemoryObject.validPath mem self p = true) :
    ∃ mem', SymbolicValueMemoryObject.setIndexedElement mem self p s allocator = .ok mem' ∧
      (∀ q, SymbolicValueMemoryObject.validPath mem self q = true → ¬ p <+: q → ¬ q <+: p →
        SymbolicValueMemoryObject.getIndexedElement mem' self q =
          SymbolicValueMemoryObject.getIndexedElement mem self q) ∧
      (∀ T, SymbolicValueMemoryObject.fields mem self = .ok (T, .RK_UninitMemory) →
        p = [0, 1] → SymbolicValueMemoryObject.validPath mem self [0, 0] = true →
        SymbolicValueMemoryObject.validPath mem self [1] = true →
        SymbolicValueMemoryObject.getIndexedElement mem' self [0, 1] = .ok s ∧
        SymbolicValueMemoryObject.getIndexedElement mem' self [0, 0] = .ok .RK_UninitMemory ∧
        SymbolicValueMemoryObject.getIndexedElement mem' self [1] = .ok .RK_UninitMemory) := by
  obtain ⟨mem', h1, h2, h3⟩ := obj_set_spec mem self p s allocator hvalid
  refine ⟨mem', h1, h3, ?_⟩
  intro T hf hp h00 h1v
  subst hp
  refine ⟨h2, ?_, ?_⟩
  · rw [h3 [0, 0] h00 (by decide) (by decide), obj_get_eq hf, get_uninit]
  · rw [h3 [1] h1v (by decide) (by decide), obj_get_eq hf, get_uninit]

/-- Witness of C6: on the wholly uninitialised object of `uninitMemory`,
`set([0,1], 4)` returns `partialMemory` and leaves `get([0,1]) = 4`, `get([0,0])` and
`get([1])` uninitialised. -/
theorem C6_untouched_slots_witness :
    SymbolicValueMemoryObject.validPath uninitMemory 0 [0, 1] = true ∧
    SymbolicValueMemoryObject.setIndexedElement uninitMemory 0 [0, 1] (int32 4) 0
      = .ok partialMemory ∧
    ∃ mem', SymbolicValueMemoryObject.setIndexedElement uninitMemory 0 [0, 1] (int32 4) 0
        = .ok mem' ∧
      SymbolicValueMemoryObject.getIndexedElement mem' 0 [0, 1] = .ok (int32 4) ∧
      SymbolicValueMemoryObject.getIndexedElement mem' 0 [0, 0] = .ok .RK_UninitMemory ∧
      SymbolicValueMemoryObject.getIndexedElement mem' 0 [1] = .ok .RK_UninitMemory := by
  obtain ⟨mem', h1, _, h3⟩ := C6_untouched_slots uninitMemory 0 [0, 1] (int32 4) 0 (by decide)
  exact ⟨by decide, by decide, mem', h1,
    h3 (.structType [.tupleType [Int32Type, Int32Type], Int32Type])
      (by decide) rfl (by decide) (by decide)⟩

/-- C7. `getIndexedElement` is successive indexing: with the empty path it returns the
current value of the object; on an Aggregate, a path `i :: rest` reads what `rest`
reads from the element `i`, with the static type of the member `i` of the aggregate's
static type; on an Array, it reads what `rest` reads from the element `i`, with the
element type of the array. -/
theorem C7_get_successive_indexing (mem : Memory) :
    (∀ self T V, SymbolicValueMemoryObject.fields mem self = .ok (T, V) →
      SymbolicValueMemoryObject.getIndexedElement mem self [] = .ok V) ∧
    (∀ v t i rest es ms e ti, getAggregateValue mem v = .ok es → t.memberTypes = some ms →
      ms.length < 4294967296 → es[i]? = some e → ms[i]? = some ti →
      getIndexedElement mem v (i :: rest) t = getIndexedElement mem e rest ti) ∧
    (∀ v t i rest es T e, getArrayValue mem v = .ok (es, T) → es[i]? = some e →
      getIndexedElement mem v (i :: rest) t = getIndexedElement mem e rest T) := by
  refine ⟨?_, ?_, ?_⟩
  · intro self T V hf
    rw [obj_get_eq hf, get_nil]
  · intro v t i rest es ms e ti hes hms hlen he hti
    exact get_step_aggregate hes he (aggregateElementType_of_member hms hlen hti)
  · intro v t i rest es T e hes he
    exact get_step_array hes he

/-- Witness of C7: on `{{1, 2}, 3}` the path `[0, 1]` reads what `[1]` reads from the
element 0, which is 2. -/
theorem C7_get_successive_indexing_witness :
    SymbolicValueMemoryObject.getIndexedElement nestedMemory 2 [] = .ok (.RK_Aggregate 1 2) ∧
    getIndexedElement nestedMemory (.RK_Aggregate 1 2) [0, 1]
        (.structType [.tupleType [Int32Type, Int32Type], Int32Type]) =
      getIndexedElement nestedMemory (.RK_Aggregate 0 2) [1]
        (.tupleType [Int32Type, Int32Type]) ∧
    SymbolicValueMemoryObject.getIndexedElement nestedMemory 2 [0, 1] = .ok (int32 2) :=
  ⟨(C7_get_successive_indexing nestedMemory).1 2
     (.structType [.tupleType [Int32Type, Int32Type], Int32Type]) (.RK_Aggregate 1 2)
     (by decide),
   (C7_get_successive_indexing nestedMemory).2.1 (.RK_Aggregate 1 2)
     (.structType [.tupleType [Int32Type, Int32Type], Int32Type]) 0 [1]
     [.RK_Aggregate 0 2, int32 3] [.tupleType [Int32Type, Int32Type], Int32Type]
     (.RK_Aggregate 0 2) (.tupleType [Int32Type, Int32Type])
     (by decide) rfl (by decide) (by decide) (by decide),
   by decide⟩

/-- Counterexample to C8 as stated: on an uninitialised object of a tuple type with two
elements the index 5 is out of range, so the path `[5]` is not valid and
`setIndexedElement` fails on it, yet `getIndexedElement` returns uninitialised memory.
On the pair `{1, 2}` of a struct type with two stored properties the path `[5]` is not
valid and `getIndexedElement` fails the bounds assertion on it, yet `setIndexedElement`
reads the type of a stored property past the end before any check: undefined behaviour,
no assertion.  On the aggregate `{1, 2}` held with a struct type of one stored property
the path `[1]` is not valid and `getIndexedElement` does the same after it has indexed
the elements. -/
theorem C8_counterexample :
    SymbolicValueMemoryObject.validPath uninitTupleMemory 0 [5] = false ∧
    SymbolicValueMemoryObject.setIndexedElement uninitTupleMemory 0 [5] (int32 1) 0
      = .error .assertion ∧
    SymbolicValueMemoryObject.getIndexedElement uninitTupleMemory 0 [5]
      = .ok .RK_UninitMemory ∧
    SymbolicValueMemoryObject.validPath pairMemory 1 [5] = false ∧
    SymbolicValueMemoryObject.getIndexedElement pairMemory 1 [5] = .error .assertion ∧
    SymbolicValueMemoryObject.setIndexedElement pairMemory 1 [5] (int32 9) 0
      = .error .undefinedBehavior ∧
    SymbolicValueMemoryObject.validPath overfullMemory 1 [1] = false ∧
    SymbolicValueMemoryObject.getIndexedElement overfullMemory 1 [1]
      = .error .undefinedBehavior := by
  decide

/-- C8, amended. For every memory object and every access path that is faulty for its
current value and static type (it indexes into a value that is no composite, or uses
an index out of range of a composite's elements, or meets a static type that is
neither a struct nor a tuple, or a tuple index out of range): `getIndexedElement` fails
with an assertion or `llvm_unreachable` and returns no value when the fault is met before
any uninitialised memory; `setIndexedElement` does so also when the fault lies inside
uninitialised memory.  Not counted as faulty (see `faultyStep`) is a path at an index
that is not below the number of stored properties of a struct type where the call reads
the type of that stored property before any check: in a set always, in a get when the
index is below the number of elements of the Aggregate. -/
theorem C8_invalid_paths_fail_fast (mem : Memory) (self : Ptr) (T : SwiftType)
    (V : SymbolicValue) (p : List Nat)
    (hf : SymbolicValueMemoryObject.fields mem self = .ok (T, V)) :
    (faultyPath mem false p V T = true →
      FailsFast (SymbolicValueMemoryObject.getIndexedElement mem self p)) ∧
    (faultyPath mem true p V T = true →
      ∀ s allocator, FailsFast (SymbolicValueMemoryObject.setIndexedElement mem self p s
        allocator)) := by
  constructor
  · intro h
    rw [obj_get_eq hf]
    exact get_failsFast mem p V T h
  · intro h s allocator
    exact obj_set_failsFast hf (set_failsFast s allocator p mem V T h)

/-- Witness of the amended C8: on the tuple `{1, 2}` the path `[5]` has an index out of
range and the path `[1, 0]` indexes into an integer; both calls fail on both.  On the
pair `{1, 2}` of a struct type the path `[5]` is faulty for `getIndexedElement`, which
fails on it, and is not counted for `setIndexedElement`. -/
theorem C8_invalid_paths_fail_fast_witness :
    (faultyPath tupleMemory false [5] (.RK_Aggregate 0 2) (.tupleType [Int32Type, Int32Type])
        = true ∧
      FailsFast (SymbolicValueMemoryObject.getIndexedElement tupleMemory 1 [5]) ∧
      FailsFast (SymbolicValueMemoryObject.setIndexedElement tupleMemory 1 [5] (int32 9) 0)) ∧
    (faultyPath tupleMemory false [1, 0] (.RK_Aggregate 0 2)
        (.tupleType [Int32Type, Int32Type]) = true ∧
      FailsFast (SymbolicValueMemoryObject.getIndexedElement tupleMemory 1 [1, 0]) ∧
      FailsFast (SymbolicValueMemoryObject.setIndexedElement tupleMemory 1 [1, 0] (int32 9)
        0)) ∧
    (faultyPath pairMemory false [5] (.RK_Aggregate 0 2)
        (.structType [Int32Type, Int32Type]) = true ∧
      faultyPath pairMemory true [5] (.RK_Aggregate 0 2)
        (.structType [Int32Type, Int32Type]) = false ∧
      FailsFast (SymbolicValueMemoryObject.getIndexedElement pairMemory 1 [5])) :=
  ⟨⟨by decide,
    (C8_invalid_paths_fail_fast tupleMemory 1 (.tupleType [Int32Type, Int32Type])
      (.RK_Aggregate 0 2) [5] (by decide)).1 (by decide),
    (C8_invalid_paths_fail_fast tupleMemory 1 (.tupleType [Int32Type, Int32Type])
      (.RK_Aggregate 0 2) [5] (by decide)).2 (by decide) (int32 9) 0⟩,
   ⟨by decide,
    (C8_invalid_paths_fail_fast tupleMemory 1 (.tupleType [Int32Type, Int32Type])
      (.RK_Aggregate 0 2) [1, 0] (by decide)).1 (by decide),
    (C8_invalid_paths_fail_fast tupleMemory 1 (.tupleType [Int32Type, Int32Type])
      (.RK_Aggregate 0 2) [1, 0] (by decide)).2 (by decide) (int32 9) 0⟩,
   ⟨by decide, by decide,
    (C8_invalid_paths_fail_fast pairMemory 1 (.structType [Int32Type, Int32Type])
      (.RK_Aggregate 0 2) [5] (by decide)).1 (by decide)⟩⟩

/-- C9, at the failing input.  The integer 1 of bit width `2^32 - 1` is valid and is
stored boxed with all its 67108864 words, but `getIntegerValue` computes the number of
words as `(numBits + 63) / 64` in 32-bit arithmetic, where the sum wraps to 62 and the
quotient is 0, and returns the integer 0 of that width: the round trip does not give
back the words of the integer. -/
theorem C9_integer_round_trip_overflow :
    hugeInteger.Valid ∧
    getIntegerAPInt [] hugeInteger 0 =
      .ok (.RK_Integer 0 4294967295, [⟨0, .words hugeInteger.words⟩]) ∧
    getIntegerValue [⟨0, .words hugeInteger.words⟩] (.RK_Integer 0 4294967295) =
      .ok hugeZero ∧
    hugeZero ≠ hugeInteger := by
  obtain ⟨h1, h2, h3⟩ := integer_round_trip_overflow 0 4294967295 67108862 (by decide)
    (by decide)
  refine ⟨h1, h2, h3, ?_⟩
  intro h
  have hw := congrArg APInt.words h
  have hh := List.head_eq_of_cons_eq hw
  exact absurd hh (by decide)

/-- C10. Integer storage strategy: for every valid integer, `getInteger` returns the
inline representation holding the single word, and allocates nothing, when the bit
width is at most 64; otherwise it returns the boxed representation whose fresh
allocation holds all `(bitWidth + 63) / 64` words of the integer in order.  So the
representation is inline exactly when the bit width is at most 64. -/
theorem C10_integer_storage (mem : Memory) (allocator : Nat) (v : APInt) (hv : v.Valid) :
    (v.BitWidth.val ≤ 64 → ∃ w, v.words = [w] ∧
      getIntegerAPInt mem v allocator = .ok (.RK_IntegerInline w v.BitWidth, mem)) ∧
    (64 < v.BitWidth.val → v.words.length = (v.BitWidth.val + 63) / 64 ∧
      getIntegerAPInt mem v allocator =
        .ok (.RK_Integer mem.length v.BitWidth, mem ++ [⟨allocator, .words v.words⟩])) ∧
    (∃ sv mem', getIntegerAPInt mem v allocator = .ok (sv, mem') ∧
      ((∃ w, sv = .RK_IntegerInline w v.BitWidth) ↔ v.BitWidth.val ≤ 64)) := by
  refine ⟨fun h => getIntegerAPInt_inline mem allocator hv h,
    fun h => ⟨hv.2.1, getIntegerAPInt_boxed mem allocator hv h⟩, ?_⟩
  by_cases h : v.BitWidth.val ≤ 64
  · obtain ⟨w, _, hget⟩ := getIntegerAPInt_inline mem allocator hv h
    exact ⟨_, _, hget, ⟨fun _ => h, fun _ => ⟨w, rfl⟩⟩⟩
  · have hget := getIntegerAPInt_boxed mem allocator hv (Nat.lt_of_not_le h)
    refine ⟨_, _, hget, ⟨?_, fun h2 => absurd h2 h⟩⟩
    rintro ⟨w, hw⟩
    cases hw

/-- Witness of C10: the 32-bit integer 5 is stored inline, the 70-bit integer
`2^64 + 5` is boxed with its two words. -/
theorem C10_integer_storage_witness :
    smallInteger.Valid ∧ wideInteger.Valid ∧
    getIntegerAPInt [] smallInteger 0 = .ok (.RK_IntegerInline 5 32, []) ∧
    getIntegerAPInt [] wideInteger 0 = .ok (.RK_Integer 0 70, [⟨0, .words [5, 1]⟩]) := by
  obtain ⟨w, hw, h1⟩ := (C10_integer_storage [] 0 smallInteger (by decide)).1 (by decide)
  have h2 := ((C10_integer_storage [] 0 wideInteger (by decide)).2.1 (by decide)).2
  cases hw
  exact ⟨by decide, by decide, h1, h2⟩

/-- C11, float round trip: for every arena memory, every allocator and every
floating-point value `f` (a known format and a valid bit pattern of its width),
`getFloat(f)` returns a value on which `getFloatValue` returns `f`, the same format and
the same bit pattern, and `getFloatValueSemantics` returns the format of `f`.  An IEEE
single is stored inline as `RK_Float32` and an IEEE double inline as `RK_Float64`, with
no allocation; every other format is stored boxed as `RK_Float`, in one fresh allocation
holding the format tag and the `ceil(sizeInBits / 64)` raw words of the bit pattern. -/
theorem C11_float_round_trip (mem : Memory) (f : APFloat) (A : Nat) (hf : f.Valid) :
    ∃ v mem2, getFloat mem f A = .ok (v, mem2) ∧ getFloatValue mem2 v = .ok f ∧
      getFloatValueSemantics mem2 v = .ok f.semantics ∧ v.getKind = .Float ∧
      (f.semantics = .IEEEsingle → mem2 = mem ∧ ∃ w, f.bits.words = [w] ∧ v = .RK_Float32 w) ∧
      (f.semantics = .IEEEdouble → mem2 = mem ∧ ∃ w, f.bits.words = [w] ∧ v = .RK_Float64 w) ∧
      (f.semantics ≠ .IEEEsingle → f.semantics ≠ .IEEEdouble →
        v = .RK_Float mem.length ∧
        mem2 = mem ++ [⟨A, .APFloatSymbolicValue f.semantics f.bits.words⟩] ∧
        f.bits.words.length = ((APFloat.getSizeInBits f.semantics).val + 63) / 64) :=
  float_round_trip_core mem A f hf.1 (canonical_of_valid hf.2.1) hf.2.2

/-- C11, witness: the round trip of an 80-bit x87 extended value, stored boxed in two
words. -/
theorem C11_float_round_trip_witness :
    extendedFloat.Valid ∧
    ∃ v mem2, getFloat [] extendedFloat 0 = .ok (v, mem2) ∧
      getFloatValue mem2 v = .ok extendedFloat ∧
      getFloatValueSemantics mem2 v = .ok extendedFloat.semantics ∧ v.getKind = .Float ∧
      (extendedFloat.semantics = .IEEEsingle →
        mem2 = [] ∧ ∃ w, extendedFloat.bits.words = [w] ∧ v = .RK_Float32 w) ∧
      (extendedFloat.semantics = .IEEEdouble →
        mem2 = [] ∧ ∃ w, extendedFloat.bits.words = [w] ∧ v = .RK_Float64 w) ∧
      (extendedFloat.semantics ≠ .IEEEsingle → extendedFloat.semantics ≠ .IEEEdouble →
        v = .RK_Float ([] : Memory).length ∧
        mem2 = [] ++ [⟨0, .APFloatSymbolicValue extendedFloat.semantics
          extendedFloat.bits.words⟩] ∧
        extendedFloat.bits.words.length =
          ((APFloat.getSizeInBits extendedFloat.semantics).val + 63) / 64) :=
  ⟨by decide, C11_float_round_trip [] extendedFloat 0 (by decide)⟩

/-- C12, counterexample: a string of `2^32` bytes does not round-trip.  The handle keeps
the number of bytes in an `unsigned`, where `2^32` wraps to 0, so `getStringValue`
returns the empty string and not the bytes given to `getString`. -/
theorem C12_counterexample :
    getStringValue (getString [] (List.replicate 4294967296 0) 0).2
        (getString [] (List.replicate 4294967296 0) 0).1 = .ok [] ∧
    getStringValue (getString [] (List.replicate 4294967296 0) 0).2
        (getString [] (List.replicate 4294967296 0) 0).1 ≠
      .ok (List.replicate 4294967296 0) := by
  have h := getStringValue_getString_eq [] (List.replicate 4294967296 0) 0
  rw [arrayRef_wrap] at h
  refine ⟨h, ?_⟩
  rw [h]
  exact ok_nil_ne_replicate 0 id (fun _ _ e => e)

/-- C12, string round trip: for every arena memory, every allocator and every byte
sequence `b` of fewer than `2^32` bytes, the empty one and ones with NUL bytes included,
`getStringValue(getString(b))` returns exactly `b`: the same length and the same bytes;
`getString` copies the bytes into one fresh allocation of the allocator. -/
theorem C12_string_round_trip (mem : Memory) (b : List Nat) (A : Nat)
    (hlen : b.length < 4294967296) :
    getStringValue (getString mem b A).2 (getString mem b A).1 = .ok b ∧
    (getString mem b A).2 = mem ++ [⟨A, .chars b⟩] := by
  refine ⟨?_, rfl⟩
  rw [getStringValue_getString_eq]
  exact arrayRef_of_lt b hlen

/-- C12, witness: the round trip of the three bytes `h`, NUL, `i`. -/
theorem C12_string_round_trip_witness :
    [104, 0, 105].length < 4294967296 ∧
    getStringValue (getString [] [104, 0, 105] 0).2 (getString [] [104, 0, 105] 0).1 =
      .ok [104, 0, 105] ∧
    (getString [] [104, 0, 105] 0).2 = [] ++ [⟨0, .chars [104, 0, 105]⟩] :=
  ⟨by decide, C12_string_round_trip [] [104, 0, 105] 0 (by decide)⟩

/-- C13, counterexample: a sequence of `2^32` elements does not round-trip.  The
aggregate handle and the array payload keep the number of elements in an `unsigned`,
where `2^32` wraps to 0, so both accessors return the empty sequence. -/
theorem C13_counterexample :
    getAggregateValue (getAggregate [] (List.replicate 4294967296 .RK_UninitMemory) 0).2
        (getAggregate [] (List.replicate 4294967296 .RK_UninitMemory) 0).1 = .ok [] ∧
    getAggregateValue (getAggregate [] (List.replicate 4294967296 .RK_UninitMemory) 0).2
        (getAggregate [] (List.replicate 4294967296 .RK_UninitMemory) 0).1 ≠
      .ok (List.replicate 4294967296 .RK_UninitMemory) ∧
    getArrayValue (getArray [] (List.replicate 4294967296 .RK_UninitMemory) Int32Type 0).2
        (getArray [] (List.replicate 4294967296 .RK_UninitMemory) Int32Type 0).1 =
      .ok ([], Int32Type) ∧
    getArrayValue (getArray [] (List.replicate 4294967296 .RK_UninitMemory) Int32Type 0).2
        (getArray [] (List.replicate 4294967296 .RK_UninitMemory) Int32Type 0).1 ≠
      .ok (List.replicate 4294967296 .RK_UninitMemory, Int32Type) := by
  have h := getAggregateValue_getAggregate_eq []
    (List.replicate 4294967296 .RK_UninitMemory) 0
  have h2 := getArrayValue_getArray_eq []
    (List.replicate 4294967296 .RK_UninitMemory) Int32Type 0
  rw [arrayRef_wrap] at h h2
  refine ⟨h, ?_, h2, ?_⟩
  · rw [h]
    exact ok_nil_ne_replicate SymbolicValue.RK_UninitMemory id (fun _ _ e => e)
  · rw [h2]
    exact ok_nil_ne_replicate SymbolicValue.RK_UninitMemory (fun r => (r, Int32Type))
      (fun _ _ e => (Prod.mk.inj e).1)

/-- C13, aggregate and array round trip: for every arena memory, every allocator, every
element type `T` and every sequence `es` of fewer than `2^32` element handles, the empty
one included, `getAggregateValue(getAggregate(es))` is `es` (the same handles in the same
order) and `getArrayValue(getArray(es, T))` is `es` together with `T`. -/
theorem C13_aggregate_array_round_trip (mem : Memory) (es : List SymbolicValue)
    (T : SwiftType) (A : Nat) (hlen : es.length < 4294967296) :
    getAggregateValue (getAggregate mem es A).2 (getAggregate mem es A).1 = .ok es ∧
    getArrayValue (getArray mem es T A).2 (getArray mem es T A).1 = .ok (es, T) :=
  ⟨getAggregateValue_getAggregate mem es A hlen, getArrayValue_getArray mem es T A hlen⟩

/-- C13, witness: the round trips of the sequence `7, uninit, 7`. -/
theorem C13_aggregate_array_round_trip_witness :
    [int32 7, .RK_UninitMemory, int32 7].length < 4294967296 ∧
    getAggregateValue (getAggregate [] [int32 7, .RK_UninitMemory, int32 7] 0).2
        (getAggregate [] [int32 7, .RK_UninitMemory, int32 7] 0).1 =
      .ok [int32 7, .RK_UninitMemory, int32 7] ∧
    getArrayValue (getArray [] [int32 7, .RK_UninitMemory, int32 7] Int32Type 0).2
        (getArray [] [int32 7, .RK_UninitMemory, int32 7] Int32Type 0).1 =
      .ok ([int32 7, .RK_UninitMemory, int32 7], Int32Type) :=
  ⟨by decide,
    C13_aggregate_array_round_trip [] [int32 7, .RK_UninitMemory, int32 7] Int32Type 0
      (by decide)⟩

/-- C14, counterexample: an index sequence of `2^32` indices does not round-trip.  The
derived-address payload keeps the number of indices in an `unsigned`, where `2^32` wraps
to 0, so `getAddressValue` sets the output path to the empty path. -/
theorem C14_counterexample :
    getAddressValue (getAddress uninitMemory 0 (List.replicate 4294967296 0) 0).2
        (getAddress uninitMemory 0 (List.replicate 4294967296 0) 0).1 [] = .ok (0, []) ∧
    getAddressValue (getAddress uninitMemory 0 (List.replicate 4294967296 0) 0).2
        (getAddress uninitMemory 0 (List.replicate 4294967296 0) 0).1 [] ≠
      .ok (0, List.replicate 4294967296 0) := by
  have h := getAddressValue_getAddress_eq uninitMemory 0 (List.replicate 4294967296 0) [] 0
  rw [arrayRef_wrap] at h
  refine ⟨h, ?_⟩
  rw [h]
  exact ok_nil_ne_replicate (0 : Unsigned) (fun r => ((0 : Ptr), r))
    (fun _ _ e => (Prod.mk.inj e).2)

/-- C14, address round trip: for every arena memory, every allocator, every memory
object `m` and every sequence `is` of fewer than `2^32` indices, `getAddressValue` on
`getAddress(m, is)` returns `m` and leaves exactly `is` in the output vector, whatever
the vector held before, and `getAddressValueMemoryObject` returns `m`; for the empty
sequence the address is the direct variant `getAddress(m)` and nothing is allocated; for
a non-empty one it is the derived variant, whose payload is one fresh allocation. -/
theorem C14_address_round_trip (mem : Memory) (m : Ptr) (is old : List Unsigned) (A : Nat)
    (hlen : is.length < 4294967296) :
    getAddressValue (getAddress mem m is A).2 (getAddress mem m is A).1 old = .ok (m, is) ∧
    getAddressValueMemoryObject (getAddress mem m is A).2 (getAddress mem m is A).1 = .ok m ∧
    (is = [] → getAddress mem m is A = (getAddressDirect m, mem)) ∧
    (is ≠ [] → getAddress mem m is A =
      (.RK_DerivedAddress mem.length,
        mem ++ [⟨A, .DerivedAddressValue m (toUnsigned is.length) is⟩])) := by
  refine ⟨?_, getAddressValueMemoryObject_getAddress mem m is A, ?_, ?_⟩
  · rw [getAddressValue_getAddress_eq, arrayRef_of_lt is hlen]
    rfl
  · rintro rfl
    exact getAddress_nil mem m A
  · intro hne
    cases is with
    | nil => exact absurd rfl hne
    | cons i is => exact getAddress_cons mem m i is A

/-- C14, witness: the address of the object of `uninitMemory` with path `[0, 1]`, read
into a vector that held `[9]`. -/
theorem C14_address_round_trip_witness :
    ([0, 1] : List Unsigned).length < 4294967296 ∧
    getAddressValue (getAddress uninitMemory 0 [0, 1] 0).2
        (getAddress uninitMemory 0 [0, 1] 0).1 [9] = .ok (0, [0, 1]) :=
  ⟨by decide, (C14_address_round_trip uninitMemory 0 [0, 1] [9] 0 (by decide)).1⟩

/-- C15, counterexample: a call stack of `2^32` entries does not round-trip.
`UnknownSymbolicValue::create` converts the number of entries to `unsigned`, where `2^32`
wraps to 0, so `getUnknownCallStack` returns the empty call stack. -/
theorem C15_counterexample :
    ∃ u mem, getUnknown [] 1 .Trap (List.replicate 4294967296 ⟨none⟩) 0 = .ok (u, mem) ∧
      getUnknownCallStack mem u = .ok [] ∧
      getUnknownCallStack mem u ≠ .ok (List.replicate 4294967296 ⟨none⟩) := by
  refine ⟨_, _, getUnknown_eq [] 1 .Trap _ 0 (by decide), ?_⟩
  have h := (unknown_accessors_new [] 1 .Trap (List.replicate 4294967296 ⟨none⟩) 0).2.2
  rw [arrayRef_wrap] at h
  refine ⟨h, ?_⟩
  rw [h]
  exact ok_nil_ne_replicate (SourceLoc.mk none) id (fun _ _ e => e)

/-- C15, unknown payload round trip: for every arena memory, every allocator, every
non-null node `n`, every reason `r` and every call stack `cs` of fewer than `2^32`
entries, the empty one included, `getUnknown(n, r, cs)` returns a value `u` of kind
Unknown with `getUnknownNode(u) = n`, `getUnknownReason(u) = r` and
`getUnknownCallStack(u) = cs`, the same entries in the same order. -/
theorem C15_unknown_round_trip (mem : Memory) (n : Nat) (r : UnknownReason)
    (cs : List SourceLoc) (A : Nat) (hn : n ≠ 0) (hlen : cs.length < 4294967296) :
    ∃ u mem2, getUnknown mem n r cs A = .ok (u, mem2) ∧ u.getKind = .Unknown ∧
      getUnknownNode mem2 u = .ok n ∧ getUnknownReason mem2 u = .ok r ∧
      getUnknownCallStack mem2 u = .ok cs := by
  have h := unknown_accessors_new mem n r cs A
  rw [arrayRef_of_lt cs hlen] at h
  exact ⟨_, _, getUnknown_eq mem n r cs A hn, rfl, h.1, h.2.1, h.2.2⟩

/-- C15, witness: an unknown value for node 5 with reason `Overflow` and a call stack
of two locations. -/
theorem C15_unknown_round_trip_witness :
    (5 : Nat) ≠ 0 ∧ [SourceLoc.mk (some 3), SourceLoc.mk none].length < 4294967296 ∧
    ∃ u mem2, getUnknown [] 5 .Overflow [⟨some 3⟩, ⟨none⟩] 1 = .ok (u, mem2) ∧
      u.getKind = .Unknown ∧
      getUnknownNode mem2 u = .ok 5 ∧ getUnknownReason mem2 u = .ok .Overflow ∧
      getUnknownCallStack mem2 u = .ok [⟨some 3⟩, ⟨none⟩] :=
  ⟨by decide, by decide,
    C15_unknown_round_trip [] 5 .Overflow [⟨some 3⟩, ⟨none⟩] 1 (by decide) (by decide)⟩

/-- C16, enum payload round trip: for every arena memory, every allocator, every
non-null enum case `c` and every constant payload `p` (its kind is neither Unknown nor
UninitMemory), `getEnumWithPayload(c, p)` returns a value `e` of kind EnumWithPayload
with `getEnumValue(e) = c` and `getEnumPayloadValue(e) = p`; when the case is null or
the payload is not a constant, `getEnumWithPayload` fails its assertion. -/
theorem C16_enum_payload_round_trip (mem : Memory) (c : Nat) (p : SymbolicValue) (A : Nat) :
    (c ≠ 0 → p.getKind ≠ .Unknown → p.getKind ≠ .UninitMemory →
      ∃ e mem2, getEnumWithPayload mem c p A = .ok (e, mem2) ∧
        e.getKind = .EnumWithPayload ∧
        getEnumValue mem2 e = .ok c ∧ getEnumPayloadValue mem2 e = .ok p) ∧
    (c = 0 ∨ p.getKind = .Unknown ∨ p.getKind = .UninitMemory →
      getEnumWithPayload mem c p A = .error .assertion) := by
  constructor
  · intro hc h1 h2
    have hp : p.isConstant = true := by simp [isConstant, h1, h2]
    have h := enum_accessors_new mem c p A
    exact ⟨_, _, getEnumWithPayload_eq mem c p A hc hp, rfl, h.1, h.2⟩
  · intro h
    apply getEnumWithPayload_fails
    rcases h with h | h | h
    · exact Or.inl h
    · exact Or.inr (by simp [isConstant, h])
    · exact Or.inr (by simp [isConstant, h])

/-- C16, witness: the case 3 with the payload 7 round-trips, and the null case fails. -/
theorem C16_enum_payload_round_trip_witness :
    (∃ e mem2, getEnumWithPayload [] 3 (int32 7) 0 = .ok (e, mem2) ∧
        e.getKind = .EnumWithPayload ∧
        getEnumValue mem2 e = .ok 3 ∧ getEnumPayloadValue mem2 e = .ok (int32 7)) ∧
    getEnumWithPayload [] 0 (int32 7) 0 = .error .assertion :=
  ⟨(C16_enum_payload_round_trip [] 3 (int32 7) 0).1 (by decide) (by decide) (by decide),
    (C16_enum_payload_round_trip [] 0 (int32 7) 0).2 (Or.inl rfl)⟩

/-- C17, the storage strategy is invisible to readers: `getKind` is a function of the
representation kind alone; it maps both integer representations to Integer, the three
float representations to Float, both address representations to Address and both array
representations to Array; and every value a factory returns has the public kind of the
factory, whichever storage the factory chose. -/
theorem C17_kind_of_factories :
    (∀ p bw, (SymbolicValue.RK_Integer p bw).getKind = .Integer) ∧
    (∀ w bw, (SymbolicValue.RK_IntegerInline w bw).getKind = .Integer) ∧
    (∀ p, (SymbolicValue.RK_Float p).getKind = .Float) ∧
    (∀ w, (SymbolicValue.RK_Float32 w).getKind = .Float) ∧
    (∀ w, (SymbolicValue.RK_Float64 w).getKind = .Float) ∧
    (∀ m, (SymbolicValue.RK_DirectAddress m).getKind = .Address) ∧
    (∀ p, (SymbolicValue.RK_DerivedAddress p).getKind = .Address) ∧
    (∀ p, (SymbolicValue.RK_Array p).getKind = .Array) ∧
    (∀ m, (SymbolicValue.RK_ArrayAddress m).getKind = .Array) ∧
    getUninitMemory.getKind = .UninitMemory ∧
    (∀ t, (getMetatype t).getKind = .Metatype) ∧
    (∀ fn, (getFunction fn).getKind = .Function) ∧
    (∀ decl, (getEnum decl).getKind = .Enum) ∧
    (∀ value bw, (getIntegerInt64 value bw).getKind = .Integer) ∧
    (∀ mem value A r, getIntegerAPInt mem value A = .ok r → r.1.getKind = .Integer) ∧
    (∀ mem value A r, getFloat mem value A = .ok r → r.1.getKind = .Float) ∧
    (∀ mem b A, (getString mem b A).1.getKind = .String) ∧
    (∀ mem es A, (getAggregate mem es A).1.getKind = .Aggregate) ∧
    (∀ mem es T A, (getArray mem es T A).1.getKind = .Array) ∧
    (∀ mem n rs cs A r, getUnknown mem n rs cs A = .ok r → r.1.getKind = .Unknown) ∧
    (∀ mem c p A r, getEnumWithPayload mem c p A = .ok r → r.1.getKind = .EnumWithPayload) ∧
    (∀ m, (getAddressDirect m).getKind = .Address) ∧
    (∀ mem m is A, (getAddress mem m is A).1.getKind = .Address) := by
  exact ⟨fun _ _ => rfl, fun _ _ => rfl, fun _ => rfl, fun _ => rfl, fun _ => rfl,
    fun _ => rfl, fun _ => rfl, fun _ => rfl, fun _ => rfl, rfl, fun _ => rfl, fun _ => rfl,
    fun _ => rfl, fun _ _ => rfl, fun _ _ _ _ h => getIntegerAPInt_kind h,
    fun _ _ _ _ h => getFloat_kind h, fun _ _ _ => rfl, fun _ _ _ => rfl,
    fun _ _ _ _ => rfl, fun _ _ _ _ _ _ h => getUnknown_kind h,
    fun _ _ _ _ _ h => getEnumWithPayload_kind h, fun _ => rfl,
    fun mem m is A => getAddress_kind mem m is A⟩

/-- C17, witness: `getInteger` boxes a 70-bit integer and stores a 32-bit one inline, and
both values have kind Integer. -/
theorem C17_kind_of_factories_witness :
    getIntegerAPInt [] wideInteger 0 = .ok (.RK_Integer 0 70, [⟨0, .words [5, 1]⟩]) ∧
    (SymbolicValue.RK_Integer 0 70).getKind = .Integer ∧
    getIntegerAPInt [] smallInteger 0 = .ok (.RK_IntegerInline 5 32, []) ∧
    (SymbolicValue.RK_IntegerInline 5 32).getKind = .Integer :=
  ⟨by decide,
    C17_kind_of_factories.2.2.2.2.2.2.2.2.2.2.2.2.2.2.1 [] wideInteger 0
      (.RK_Integer 0 70, [⟨0, .words [5, 1]⟩]) (by decide),
    by decide,
    C17_kind_of_factories.2.2.2.2.2.2.2.2.2.2.2.2.2.2.1 [] smallInteger 0
      (.RK_IntegerInline 5 32, []) (by decide)⟩

/-- C18, counterexample: accessors that fail an assertion on a value of the kind they
read.  The array address of the object of `uninitMemory` has kind Array, and
`getArrayValue` fails its second assertion on it because the object holds no array; the
integer built by `getInteger(5, 0)` has kind Integer, and `getIntegerValue` fails the
width assertion of the integer facility on it. -/
theorem C18_counterexample :
    (SymbolicValue.RK_ArrayAddress 0).getKind = .Array ∧
    getArrayValue uninitMemory (.RK_ArrayAddress 0) = .error .assertion ∧
    (getIntegerInt64 5 0).getKind = .Integer ∧
    getIntegerValue [] (getIntegerInt64 5 0) = .error .assertion := by
  decide

/-- C18, wrong-kind accessors fail fast: for every arena memory and every value, each
accessor fails its assertion, and so returns neither a recoverable error nor an Unknown
value, when the kind of the value is not the kind it reads (Enum and EnumWithPayload for
`getEnumValue`).  For `getIntegerValueBitWidth`, `getFloatValueSemantics`,
`getStringValue`, `getAggregateValue`, the three accessors of Unknown, `getEnumValue`,
`getEnumPayloadValue`, `getAddressValue` and `getAddressValueMemoryObject` that is the
only case of a failed assertion.  On a value of the right kind, `getArrayValue` also
fails an assertion on an array address whose memory object holds a value that is not an
`RK_Array`, `getIntegerValue` on an integer of bit width 0, and `getFloatValue` on a
boxed float whose format is not a known one. -/
theorem C18_wrong_kind_fails_fast (mem : Memory) (v : SymbolicValue)
    (old : List Unsigned) :
    (getIntegerValue mem v = .error .assertion ↔
      (v.getKind ≠ .Integer ∨ (∃ w, v = .RK_IntegerInline w 0) ∨
        ∃ p data, v = .RK_Integer p 0 ∧ mem.load p = .ok (.words data))) ∧
    (getIntegerValueBitWidth v = .error .assertion ↔ v.getKind ≠ .Integer) ∧
    (getFloatValue mem v = .error .assertion ↔
      (v.getKind ≠ .Float ∨ ∃ p trailing, v = .RK_Float p ∧
        mem.load p = .ok (.APFloatSymbolicValue .Bogus trailing))) ∧
    (getFloatValueSemantics mem v = .error .assertion ↔ v.getKind ≠ .Float) ∧
    (getStringValue mem v = .error .assertion ↔ v.getKind ≠ .String) ∧
    (getAggregateValue mem v = .error .assertion ↔ v.getKind ≠ .Aggregate) ∧
    (getArrayValue mem v = .error .assertion ↔
      (v.getKind ≠ .Array ∨ ∃ m T val, v = .RK_ArrayAddress m ∧
        mem.load m = .ok (.SymbolicValueMemoryObject T val) ∧ ∀ a, val ≠ .RK_Array a)) ∧
    (getUnknownNode mem v = .error .assertion ↔ v.getKind ≠ .Unknown) ∧
    (getUnknownReason mem v = .error .assertion ↔ v.getKind ≠ .Unknown) ∧
    (getUnknownCallStack mem v = .error .assertion ↔ v.getKind ≠ .Unknown) ∧
    (getEnumValue mem v = .error .assertion ↔
      (v.getKind ≠ .Enum ∧ v.getKind ≠ .EnumWithPayload)) ∧
    (getEnumPayloadValue mem v = .error .assertion ↔ v.getKind ≠ .EnumWithPayload) ∧
    (getAddressValue mem v old = .error .assertion ↔ v.getKind ≠ .Address) ∧
    (getAddressValueMemoryObject mem v = .error .assertion ↔ v.getKind ≠ .Address) :=
  ⟨getIntegerValue_assertion_iff mem v, getIntegerValueBitWidth_assertion_iff v,
    getFloatValue_assertion_iff mem v, getFloatValueSemantics_assertion_iff mem v,
    getStringValue_assertion_iff mem v, getAggregateValue_assertion_iff mem v,
    getArrayValue_assertion_iff mem v, getUnknownNode_assertion_iff mem v,
    getUnknownReason_assertion_iff mem v, getUnknownCallStack_assertion_iff mem v,
    getEnumValue_assertion_iff mem v, getEnumPayloadValue_assertion_iff mem v,
    getAddressValue_assertion_iff mem v old, getAddressValueMemoryObject_assertion_iff mem v⟩

/-- C18, witness: on the aggregate of `pairMemory`, a value of kind Aggregate,
`getStringValue` fails its assertion and `getAggregateValue` does not. -/
theorem C18_wrong_kind_fails_fast_witness :
    getStringValue pairMemory (.RK_Aggregate 0 2) = .error .assertion ∧
    getAggregateValue pairMemory (.RK_Aggregate 0 2) ≠ .error .assertion :=
  ⟨(C18_wrong_kind_fails_fast pairMemory (.RK_Aggregate 0 2) []).2.2.2.2.1.mpr (by decide),
    fun h => (C18_wrong_kind_fails_fast pairMemory (.RK_Aggregate 0 2) []).2.2.2.2.2.1.mp h
      rfl⟩

/-- C19, clone fidelity: for every arena memory, every allocator and every value whose
structure can be read down to some nesting depth `d`, `cloneInto` returns within that
depth, only appends allocations to the memory, and returns a value that is structurally
identical to the source: the same public kind, the same integer, float or string
contents, the same enum case and payload, the same node, reason and call stack of an
unknown, the same access path and the same type and stored value of the memory object
of an address, and, at every nesting level of aggregates and arrays, the same number of
elements in the same order with the same structure, and the same declared element type
of every array. -/
theorem C19_clone_fidelity (d : Nat) (mem : Memory) (v : SymbolicValue) (A : Nat)
    (hwf : (content d mem v).isSome = true) :
    ∃ v2 ext, cloneInto d mem v A = some (.ok (v2, mem ++ ext)) ∧
      v2.getKind = v.getKind ∧ content d (mem ++ ext) v2 = content d mem v := by
  cases hc : content d mem v with
  | none => simp [hc] at hwf
  | some c => exact clone_content A d mem v c hc

/-- C19, witness: the aggregate of `cloneMemory`, which holds a string, an array of two
integers and an integer, cloned into the allocator 1. -/
theorem C19_clone_fidelity_witness :
    (content 3 cloneMemory (.RK_Aggregate 2 3)).isSome = true ∧
    ∃ v2 ext, cloneInto 3 cloneMemory (.RK_Aggregate 2 3) 1 =
        some (.ok (v2, cloneMemory ++ ext)) ∧
      v2.getKind = (SymbolicValue.RK_Aggregate 2 3).getKind ∧
      content 3 (cloneMemory ++ ext) v2 = content 3 cloneMemory (.RK_Aggregate 2 3) :=
  ⟨by decide, C19_clone_fidelity 3 cloneMemory (.RK_Aggregate 2 3) 1 (by decide)⟩

/-- C20, the clone shares allocations with the source.  In `sharedMemory` every
allocation belongs to the allocator 0.  Cloned into the allocator 1, the enum with
payload gets a new box that holds the payload handle of the source, the string whose
bytes are the allocation 0 of the allocator 0; the address gets a new memory object
that holds the same string handle; and the unknown value is returned as it is, with its
record in the allocation 3 of the allocator 0. -/
theorem C20_clone_shares_payloads :
    cloneInto 1 sharedMemory (.RK_EnumWithPayload 1) 1 =
      some (.ok (.RK_EnumWithPayload 4,
        sharedMemory ++ [⟨1, .EnumWithPayloadSymbolicValue 3 (.RK_String 0 2)⟩])) ∧
    getEnumPayloadValue
        (sharedMemory ++ [⟨1, .EnumWithPayloadSymbolicValue 3 (.RK_String 0 2)⟩])
        (.RK_EnumWithPayload 4) = .ok (.RK_String 0 2) ∧
    cloneInto 1 sharedMemory (.RK_DirectAddress 2) 1 =
      some (.ok (.RK_DirectAddress 4,
        sharedMemory ++ [⟨1, .SymbolicValueMemoryObject (.otherType 1) (.RK_String 0 2)⟩])) ∧
    cloneInto 1 sharedMemory (.RK_Unknown 3) 1 = some (.ok (.RK_Unknown 3, sharedMemory)) ∧
    sharedMemory[0]? = some ⟨0, .chars [104, 105]⟩ ∧
    sharedMemory[3]? = some ⟨0, .UnknownSymbolicValue 5 .Trap 0 []⟩ := by
  decide

/-- C21, termination of `cloneInto`: on every value of finite nesting depth, which is
what the acyclic structure of the values amounts to, `cloneInto` terminates: within the
nesting depth `d` of the value the call is over, and more fuel does not change what it
gives; when the structure of the value can be read down to `d` what it gives is a value
and an extension of the memory.  Values are of finite nesting depth by construction:
what `getAggregate` and `getArray` build from elements that nest within `d` levels nests
within `d + 1` levels. -/
theorem C21_clone_terminates (d : Nat) (mem : Memory) (v : SymbolicValue) (A : Nat)
    (h : nestsWithin d mem v = true) :
    (∃ x, ∀ fuel, d ≤ fuel → cloneInto fuel mem v A = some x) ∧
    ((content d mem v).isSome = true →
      ∃ v2 ext, ∀ fuel, d ≤ fuel → cloneInto fuel mem v A = some (.ok (v2, mem ++ ext))) ∧
    (∀ (es : List SymbolicValue) (B : Nat), es.length < 4294967296 →
      (∀ e ∈ es, nestsWithin d mem e = true) →
      nestsWithin (d + 1) (getAggregate mem es B).2 (getAggregate mem es B).1 = true) ∧
    (∀ (es : List SymbolicValue) (T : SwiftType) (B : Nat), es.length < 4294967296 →
      (∀ e ∈ es, nestsWithin d mem e = true) →
      nestsWithin (d + 1) (getArray mem es T B).2 (getArray mem es T B).1 = true) := by
  refine ⟨?_, ?_, ?_, ?_⟩
  · obtain ⟨x, hx⟩ := cloneInto_returns A d mem v h
    exact ⟨x, fun fuel hle => cloneInto_mono_le A hx hle⟩
  · intro hc
    cases hcc : content d mem v with
    | none => simp [hcc] at hc
    | some c =>
      obtain ⟨v2, ext, hx, _⟩ := clone_content A d mem v c hcc
      exact ⟨v2, ext, fun fuel hle => cloneInto_mono_le A hx hle⟩
  · intro es B hlen hes
    exact nestsWithin_getAggregate B hlen hes
  · intro es T B hlen hes
    exact nestsWithin_getArray T B hlen hes

/-- Witness of C21: the aggregate of `cloneMemory`, which holds a string, an array of two
integers and an integer, nests within 3 levels. -/
theorem C21_clone_terminates_witness :
    nestsWithin 3 cloneMemory (.RK_Aggregate 2 3) = true ∧
    ∃ x, ∀ fuel, 3 ≤ fuel → cloneInto fuel cloneMemory (.RK_Aggregate 2 3) 1 = some x :=
  ⟨by decide, (C21_clone_terminates 3 cloneMemory (.RK_Aggregate 2 3) 1 (by decide)).1⟩

/-- C22, idempotence of `lookThroughSingleElementAggregates`: whatever value the method
returns, the method returns that same value on it, in one iteration; on every value of
finite nesting depth the method does return a value, so applying it twice gives what
applying it once gives. -/
theorem C22_look_through_idempotent (d : Nat) (mem : Memory) (v : SymbolicValue)
    (h : nestsWithin d mem v = true) :
    (∀ fuel r, lookThroughSingleElementAggregates fuel mem v = some (.ok r) →
      ∀ fuel2, 1 ≤ fuel2 → lookThroughSingleElementAggregates fuel2 mem r = some (.ok r)) ∧
    ∃ r, (∀ fuel, d ≤ fuel → lookThroughSingleElementAggregates fuel mem v = some (.ok r)) ∧
      (∀ fuel, 1 ≤ fuel → lookThroughSingleElementAggregates fuel mem r = some (.ok r)) := by
  have hidem : ∀ fuel r, lookThroughSingleElementAggregates fuel mem v = some (.ok r) →
      ∀ fuel2, 1 ≤ fuel2 →
        lookThroughSingleElementAggregates fuel2 mem r = some (.ok r) := by
    intro fuel r hr fuel2 hle
    exact look_mono_le (look_idem hr 0) hle
  obtain ⟨r, hr⟩ := look_returns d mem v h
  exact ⟨hidem, r, fun fuel hle => look_mono_le hr hle, hidem d r hr⟩

/-- Witness of C22: the aggregate of the aggregate of the pair of `wrappedMemory`. -/
theorem C22_look_through_idempotent_witness :
    nestsWithin 4 wrappedMemory (.RK_Aggregate 2 1) = true ∧
    lookThroughSingleElementAggregates 4 wrappedMemory (.RK_Aggregate 2 1) =
      some (.ok (.RK_Aggregate 0 2)) ∧
    ∃ r, (∀ fuel, 4 ≤ fuel →
        lookThroughSingleElementAggregates fuel wrappedMemory (.RK_Aggregate 2 1) =
          some (.ok r)) ∧
      (∀ fuel, 1 ≤ fuel →
        lookThroughSingleElementAggregates fuel wrappedMemory r = some (.ok r)) :=
  ⟨by decide, by decide,
    (C22_look_through_idempotent 4 wrappedMemory (.RK_Aggregate 2 1) (by decide)).2⟩

/-- C23, `lookThroughSingleElementAggregates` returns the innermost content: on every
value `v` of finite nesting depth `d` the method terminates within `d` iterations and
returns a value `r`; `r` is not an Aggregate of exactly one element; `r` is `v` itself
when `v` is not an Aggregate and when `v` is an Aggregate whose number of elements is
not one; and when `v` is an Aggregate of the one element `e`, `r` is what the method
returns on `e`. -/
theorem C23_look_through_innermost (d : Nat) (mem : Memory) (v : SymbolicValue)
    (h : nestsWithin d mem v = true) :
    ∃ r, (∀ fuel, d ≤ fuel → lookThroughSingleElementAggregates fuel mem v = some (.ok r)) ∧
      (r.getKind ≠ .Aggregate ∨ ∃ es, getAggregateValue mem r = .ok es ∧ es.length ≠ 1) ∧
      (v.getKind ≠ .Aggregate → r = v) ∧
      (∀ es, getAggregateValue mem v = .ok es → es.length ≠ 1 → r = v) ∧
      (∀ e, getAggregateValue mem v = .ok [e] →
        ∀ fuel, d ≤ fuel → lookThroughSingleElementAggregates fuel mem e = some (.ok r)) := by
  obtain ⟨r, hr⟩ := look_returns d mem v h
  cases d with
  | zero => simp [nestsWithin] at h
  | succ d =>
    refine ⟨r, fun fuel hle => look_mono_le hr hle, look_result _ mem v r hr, ?_, ?_, ?_⟩
    · intro hk
      rw [look_not_aggregate d mem hk] at hr
      exact (Except.ok.inj (Option.some.inj hr)).symm
    · intro es hes hlen
      rw [look_not_single d hes hlen] at hr
      exact (Except.ok.inj (Option.some.inj hr)).symm
    · intro e he fuel hle
      rw [look_single d he] at hr
      exact look_mono_le hr (by omega)

/-- Witness of C23: the aggregate of the aggregate of the pair of `wrappedMemory` is
looked through to the pair. -/
theorem C23_look_through_innermost_witness :
    nestsWithin 4 wrappedMemory (.RK_Aggregate 2 1) = true ∧
    lookThroughSingleElementAggregates 4 wrappedMemory (.RK_Aggregate 2 1) =
      some (.ok (.RK_Aggregate 0 2)) ∧
    ∃ r, (∀ fuel, 4 ≤ fuel →
        lookThroughSingleElementAggregates fuel wrappedMemory (.RK_Aggregate 2 1) =
          some (.ok r)) ∧
      (r.getKind ≠ .Aggregate ∨
        ∃ es, getAggregateValue wrappedMemory r = .ok es ∧ es.length ≠ 1) ∧
      ((SymbolicValue.RK_Aggregate 2 1).getKind ≠ .Aggregate → r = .RK_Aggregate 2 1) ∧
      (∀ es, getAggregateValue wrappedMemory (.RK_Aggregate 2 1) = .ok es →
        es.length ≠ 1 → r = .RK_Aggregate 2 1) ∧
      (∀ e, getAggregateValue wrappedMemory (.RK_Aggregate 2 1) = .ok [e] →
        ∀ fuel, 4 ≤ fuel →
          lookThroughSingleElementAggregates fuel wrappedMemory e = some (.ok r)) :=
  ⟨by decide, by decide,
    C23_look_through_innermost 4 wrappedMemory (.RK_Aggregate 2 1) (by decide)⟩

/-- C24, the message of the reason note is a function of the reason tag alone: every
`constexpr_unknown_reason` note that `emitUnknownDiagnosticNotes` emits for a value of
reason `r` carries the one argument `specReasonMessage r`, which is "could not fold
operation" for `Default`, "expression is too large to evaluate at compile-time" for
`TooManyInstructions`, "control flow loop found" for `Loop`, "integer overflow detected"
for `Overflow` and "trap detected" for `Trap`; the reason notes of two values of the same
reason carry the same message, whatever their nodes, locations and call stacks. -/
theorem C24_message_of_reason (mem : Memory) (self : SymbolicValue)
    (fallbackLoc : SILLocation) (nodes : Nat → Option SILInstruction) (SM : SourceManager)
    (notes : List Diagnostic) (r : UnknownReason)
    (h : emitUnknownDiagnosticNotes mem self fallbackLoc nodes SM = .ok notes)
    (hr : getUnknownReason mem self = .ok r) :
    (∀ d ∈ notes, d.id = .constexpr_unknown_reason → d.args = [specReasonMessage r]) ∧
    (∀ (mem2 : Memory) (self2 : SymbolicValue) (fallbackLoc2 : SILLocation)
      (nodes2 : Nat → Option SILInstruction) (SM2 : SourceManager) (notes2 : List Diagnostic),
      emitUnknownDiagnosticNotes mem2 self2 fallbackLoc2 nodes2 SM2 = .ok notes2 →
      getUnknownReason mem2 self2 = .ok r →
      ∀ d ∈ notes, ∀ d2 ∈ notes2, d.id = .constexpr_unknown_reason →
        d2.id = .constexpr_unknown_reason → d.args = d2.args) ∧
    specReasonMessage .Default = "could not fold operation" ∧
    specReasonMessage .TooManyInstructions =
      "expression is too large to evaluate at compile-time" ∧
    specReasonMessage .Loop = "control flow loop found" ∧
    specReasonMessage .Overflow = "integer overflow detected" ∧
    specReasonMessage .Trap = "trap detected" := by
  have key : ∀ (mem : Memory) (self : SymbolicValue) (fallbackLoc : SILLocation)
      (nodes : Nat → Option SILInstruction) (SM : SourceManager) (notes : List Diagnostic),
      emitUnknownDiagnosticNotes mem self fallbackLoc nodes SM = .ok notes →
      getUnknownReason mem self = .ok r →
      ∀ d ∈ notes, d.id = .constexpr_unknown_reason → d.args = [specReasonMessage r] := by
    intro mem self fallbackLoc nodes SM notes h hr d hd hid
    obtain ⟨n, r', _, hr', hcase⟩ := emit_cases h
    rw [hr] at hr'
    cases hr'
    rcases hcase with ⟨_, rfl⟩ | ⟨badInst, _, ⟨_, rfl⟩ | ⟨_, cs, _, rfl⟩⟩
    · simp at hd
    · rcases List.mem_append.1 hd with hd | hd
      · exact (emitNoteDiagnostic_mem hd).2
      · simp at hd
        subst hd
        simp at hid
    · rcases List.mem_append.1 hd with hd | hd
      · exact (emitNoteDiagnostic_mem hd).2
      · exact absurd hid (specFrameNotes_mem hd).2.1
  refine ⟨key mem self fallbackLoc nodes SM notes h hr, ?_, rfl, rfl, rfl, rfl, rfl⟩
  intro mem2 self2 fallbackLoc2 nodes2 SM2 notes2 h2 hr2 d hd d2 hd2 hid hid2
  rw [key mem self fallbackLoc nodes SM notes h hr d hd hid,
    key mem2 self2 fallbackLoc2 nodes2 SM2 notes2 h2 hr2 d2 hd2 hid2]

/-- Witness of C24: the value of reason `Overflow` whose instruction is at the position
1000 gets the reason note with the message "integer overflow detected". -/
theorem C24_message_of_reason_witness :
    emitUnknownDiagnosticNotes unknownMemory (.RK_Unknown 0) (locationAt 2000)
      (fun _ => some (instructionAt 1000)) exampleSM =
      .ok [⟨⟨some 1000⟩, .constexpr_unknown_reason, ["integer overflow detected"],
          some ⟨⟨some 1000⟩, ⟨some 1000⟩⟩⟩,
        ⟨⟨some 1010⟩, .constexpr_called_from, [], none⟩,
        ⟨⟨some 1005⟩, .constexpr_called_from, [], none⟩] ∧
    getUnknownReason unknownMemory (.RK_Unknown 0) = .ok .Overflow ∧
    ∀ d ∈ ([⟨⟨some 1000⟩, .constexpr_unknown_reason, ["integer overflow detected"],
          some ⟨⟨some 1000⟩, ⟨some 1000⟩⟩⟩,
        ⟨⟨some 1010⟩, .constexpr_called_from, [], none⟩,
        ⟨⟨some 1005⟩, .constexpr_called_from, [], none⟩] : List Diagnostic),
      d.id = .constexpr_unknown_reason → d.args = [specReasonMessage .Overflow] :=
  ⟨rfl, rfl, (C24_message_of_reason unknownMemory (.RK_Unknown 0) (locationAt 2000)
    (fun _ => some (instructionAt 1000)) exampleSM _ .Overflow rfl rfl).1⟩

/-- C25 as stated fails: the instruction of the value is at the position 1000, on line 10,
where the first note is emitted, the fallback location is on line 20, and the frame at
the position 1010, on line 10 as the first note, is forwarded. -/
theorem C25_counterexample :
    emitUnknownDiagnosticNotes unknownMemory (.RK_Unknown 0) (locationAt 2000)
      (fun _ => some (instructionAt 1000)) exampleSM =
      .ok [⟨⟨some 1000⟩, .constexpr_unknown_reason, ["integer overflow detected"],
          some ⟨⟨some 1000⟩, ⟨some 1000⟩⟩⟩,
        ⟨⟨some 1010⟩, .constexpr_called_from, [], none⟩,
        ⟨⟨some 1005⟩, .constexpr_called_from, [], none⟩] ∧
    resolvedLocation (instructionAt 1000) = locationAt 1000 ∧
    getUnknownCallStack unknownMemory (.RK_Unknown 0) = .ok [⟨some 1005⟩, ⟨some 1010⟩] ∧
    exampleSM.getLineNumber ⟨some 1010⟩ =
      exampleSM.getLineNumber (resolvedLocation (instructionAt 1000)).getSourceLoc := by
  refine ⟨rfl, rfl, rfl, rfl⟩

/-- C25, amended: the frames that are suppressed are those on the source line of
`fallbackLoc`, not of the location of the first note.  When the source location of
`fallbackLoc` is valid, every note other than the reason note is at a valid frame of the
call stack whose line is not the line of `fallbackLoc`, and every valid frame on another
line is forwarded when the node is an instruction; when it is invalid no frame is
forwarded: the only other note is the one at `fallbackLoc` itself. -/
theorem C25_same_line_suppression (mem : Memory) (self : SymbolicValue)
    (fallbackLoc : SILLocation) (nodes : Nat → Option SILInstruction) (SM : SourceManager)
    (notes : List Diagnostic) (cs : List SourceLoc)
    (h : emitUnknownDiagnosticNotes mem self fallbackLoc nodes SM = .ok notes)
    (hcs : getUnknownCallStack mem self = .ok cs) :
    (fallbackLoc.getSourceLoc.isValid = true →
      (∀ d ∈ notes, d.id ≠ .constexpr_unknown_reason →
        d.loc ∈ cs ∧ d.loc.isValid = true ∧
        SM.getLineNumber d.loc ≠ SM.getLineNumber fallbackLoc.getSourceLoc) ∧
      (∀ n badInst, getUnknownNode mem self = .ok n → nodes n = some badInst →
        ∀ l ∈ cs, l.isValid = true →
          SM.getLineNumber l ≠ SM.getLineNumber fallbackLoc.getSourceLoc →
          ∃ d ∈ notes, d.loc = l ∧ d.id ≠ .constexpr_unknown_reason)) ∧
    (fallbackLoc.getSourceLoc.isValid = false →
      ∀ d ∈ notes, d.id ≠ .constexpr_unknown_reason →
        d = ⟨fallbackLoc.getSourceLoc, .constexpr_not_evaluable, [], none⟩) := by
  obtain ⟨n, r, hn, hr, hcase⟩ := emit_cases h
  constructor
  · intro hv
    constructor
    · intro d hd hid
      rcases hcase with ⟨_, rfl⟩ | ⟨badInst, _, ⟨hv', _⟩ | ⟨_, cs', hcs', rfl⟩⟩
      · simp at hd
      · rw [hv] at hv'
        cases hv'
      · rw [hcs] at hcs'
        cases hcs'
        rcases List.mem_append.1 hd with hd | hd
        · exact absurd (emitNoteDiagnostic_mem hd).1 hid
        · have hm := (specFrameNotes_mem hd).1
          rw [List.mem_filter, qualifies_iff, List.mem_reverse] at hm
          exact ⟨hm.1, hm.2.1, hm.2.2⟩
    · intro n' badInst hn' hi l hl hlv hline
      rw [hn] at hn'
      cases hn'
      rcases hcase with ⟨hnone, _⟩ | ⟨badInst', _, ⟨hv', _⟩ | ⟨_, cs', hcs', rfl⟩⟩
      · rw [hi] at hnone
        cases hnone
      · rw [hv] at hv'
        cases hv'
      · rw [hcs] at hcs'
        cases hcs'
        have hm : l ∈ cs.reverse.filter
            (qualifies SM (SM.getLineNumber fallbackLoc.getSourceLoc)) := by
          rw [List.mem_filter, qualifies_iff, List.mem_reverse]
          exact ⟨hl, hlv, hline⟩
        obtain ⟨d, hd, hdl, hdi⟩ := specFrameNotes_of_mem
          (emitNoteDiagnostic badInst' r fallbackLoc (specReasonMessage r)).1 hm
        exact ⟨d, List.mem_append_right _ hd, hdl, hdi⟩
  · intro hv d hd hid
    rcases hcase with ⟨_, rfl⟩ | ⟨badInst, _, ⟨_, rfl⟩ | ⟨hv', _⟩⟩
    · simp at hd
    · rcases List.mem_append.1 hd with hd | hd
      · exact absurd (emitNoteDiagnostic_mem hd).1 hid
      · simpa using hd
    · rw [hv] at hv'
      cases hv'

/-- Witness of C25: with the fallback location on line 20 and the frames at the positions
2010, 4000 and 2020, only the frame at 4000 is forwarded. -/
theorem C25_same_line_suppression_witness :
    emitUnknownDiagnosticNotes unknownMemory (.RK_Unknown 3) (locationAt 2000)
      (fun _ => some instructionNowhere) exampleSM =
      .ok [⟨⟨some 2000⟩, .constexpr_unknown_reason, ["trap detected"],
          some ⟨⟨some 2000⟩, ⟨some 2000⟩⟩⟩,
        ⟨⟨some 4000⟩, .constexpr_called_from, [], none⟩] ∧
    getUnknownCallStack unknownMemory (.RK_Unknown 3) =
      .ok [⟨some 2010⟩, ⟨some 4000⟩, ⟨some 2020⟩] ∧
    ∀ d ∈ ([⟨⟨some 2000⟩, .constexpr_unknown_reason, ["trap detected"],
          some ⟨⟨some 2000⟩, ⟨some 2000⟩⟩⟩,
        ⟨⟨some 4000⟩, .constexpr_called_from, [], none⟩] : List Diagnostic),
      d.id ≠ .constexpr_unknown_reason →
        d.loc ∈ ([⟨some 2010⟩, ⟨some 4000⟩, ⟨some 2020⟩] : List SourceLoc) ∧
        d.loc.isValid = true ∧
        exampleSM.getLineNumber d.loc ≠
          exampleSM.getLineNumber (locationAt 2000).getSourceLoc :=
  ⟨rfl, rfl, ((C25_same_line_suppression unknownMemory (.RK_Unknown 3) (locationAt 2000)
    (fun _ => some instructionNowhere) exampleSM _ _ rfl rfl).1 rfl).1⟩

/-- C26 as stated fails: the two frames of the call stack are on line 10, the line of
the location the failure resolves to and the first note is emitted at, the fallback
location is on line 20, and three notes are emitted for the two frames. -/
theorem C26_counterexample :
    ∃ notes cs,
      emitUnknownDiagnosticNotes unknownMemory (.RK_Unknown 0) (locationAt 2000)
        (fun _ => some (instructionAt 1000)) exampleSM = .ok notes ∧
      getUnknownCallStack unknownMemory (.RK_Unknown 0) = .ok cs ∧
      cs.length = 2 ∧
      (∀ l ∈ cs, exampleSM.getLineNumber l =
        exampleSM.getLineNumber (resolvedLocation (instructionAt 1000)).getSourceLoc) ∧
      notes.length = 3 ∧ ¬ notes.length < cs.length :=
  ⟨_, _, rfl, rfl, rfl, by decide, rfl, by decide⟩

/-- C26, amended: when the source location of `fallbackLoc` is valid and two frames of
the call stack are on its source line, `emitUnknownDiagnosticNotes` emits strictly fewer
notes than the call stack has frames. -/
theorem C26_fewer_notes_than_frames (mem : Memory) (self : SymbolicValue)
    (fallbackLoc : SILLocation) (nodes : Nat → Option SILInstruction) (SM : SourceManager)
    (notes : List Diagnostic) (cs : List SourceLoc)
    (h : emitUnknownDiagnosticNotes mem self fallbackLoc nodes SM = .ok notes)
    (hcs : getUnknownCallStack mem self = .ok cs)
    (hv : fallbackLoc.getSourceLoc.isValid = true)
    (htwo : 2 ≤ (cs.filter (fun l =>
      decide (SM.getLineNumber l = SM.getLineNumber fallbackLoc.getSourceLoc))).length) :
    notes.length < cs.length := by
  have hle := filter_same_line_le SM (SM.getLineNumber fallbackLoc.getSourceLoc) cs
  obtain ⟨n, r, hn, hr, hcase⟩ := emit_cases h
  rcases hcase with ⟨_, rfl⟩ | ⟨badInst, _, ⟨hv', _⟩ | ⟨_, cs', hcs', rfl⟩⟩
  · simp only [List.length_nil]
    omega
  · rw [hv] at hv'
    cases hv'
  · rw [hcs] at hcs'
    cases hcs'
    have h1 := (emitNoteDiagnostic_length badInst r fallbackLoc (specReasonMessage r)).1
    rw [List.length_append, specFrameNotes_length, List.filter_reverse, List.length_reverse]
    omega

/-- Witness of C26: with the fallback location on line 20 and the frames at the positions
2010, 4000 and 2020, two notes are emitted for the three frames. -/
theorem C26_fewer_notes_than_frames_witness :
    emitUnknownDiagnosticNotes unknownMemory (.RK_Unknown 3) (locationAt 2000)
      (fun _ => some instructionNowhere) exampleSM =
      .ok [⟨⟨some 2000⟩, .constexpr_unknown_reason, ["trap detected"],
          some ⟨⟨some 2000⟩, ⟨some 2000⟩⟩⟩,
        ⟨⟨some 4000⟩, .constexpr_called_from, [], none⟩] ∧
    ([⟨⟨some 2000⟩, .constexpr_unknown_reason, ["trap detected"],
          some ⟨⟨some 2000⟩, ⟨some 2000⟩⟩⟩,
        ⟨⟨some 4000⟩, .constexpr_called_from, [], none⟩] : List Diagnostic).length <
      ([⟨some 2010⟩, ⟨some 4000⟩, ⟨some 2020⟩] : List SourceLoc).length :=
  ⟨rfl, C26_fewer_notes_than_frames unknownMemory (.RK_Unknown 3) (locationAt 2000)
    (fun _ => some instructionNowhere) exampleSM _ _ rfl rfl rfl (by decide)⟩

/-- C27 as stated fails: the reason note is emitted at the instruction, so the first, and
only, qualifying frame, at the position 3000, is marked `constexpr_called_from`. -/
theorem C27_counterexample :
    emitUnknownDiagnosticNotes unknownMemory (.RK_Unknown 1) (locationAt 2000)
      (fun _ => some (instructionAt 1000)) exampleSM =
      .ok [⟨⟨some 1000⟩, .constexpr_unknown_reason, ["integer overflow detected"],
          some ⟨⟨some 1000⟩, ⟨some 1000⟩⟩⟩,
        ⟨⟨some 3000⟩, .constexpr_called_from, [], none⟩] ∧
    getUnknownCallStack unknownMemory (.RK_Unknown 1) = .ok [⟨some 3000⟩] ∧
    qualifies exampleSM (exampleSM.getLineNumber (locationAt 2000).getSourceLoc)
      ⟨some 3000⟩ = true :=
  ⟨rfl, rfl, by decide⟩

/-- C27, amended: the notes are the reason note, if one is emitted, followed by one note
per qualifying frame (valid, not on the line of `fallbackLoc`), from the last frame of
the call stack to the first; the first qualifying frame is marked
`constexpr_not_evaluable` when no reason note was emitted and `constexpr_called_from`
when one was, every subsequent qualifying frame is marked `constexpr_called_from`. -/
theorem C27_first_frame_marking (mem : Memory) (self : SymbolicValue)
    (fallbackLoc : SILLocation) (nodes : Nat → Option SILInstruction) (SM : SourceManager)
    (notes : List Diagnostic) (cs : List SourceLoc) (n : Nat) (badInst : SILInstruction)
    (h : emitUnknownDiagnosticNotes mem self fallbackLoc nodes SM = .ok notes)
    (hn : getUnknownNode mem self = .ok n) (hi : nodes n = some badInst)
    (hcs : getUnknownCallStack mem self = .ok cs)
    (hv : fallbackLoc.getSourceLoc.isValid = true) :
    ∃ reasonNotes : List Diagnostic,
      reasonNotes.length ≤ 1 ∧
      (∀ d ∈ reasonNotes, d.id = .constexpr_unknown_reason) ∧
      notes = reasonNotes ++ specFrameNotes (!reasonNotes.isEmpty)
        (cs.reverse.filter (qualifies SM (SM.getLineNumber fallbackLoc.getSourceLoc))) ∧
      (∀ l rest, cs.reverse.filter
          (qualifies SM (SM.getLineNumber fallbackLoc.getSourceLoc)) = l :: rest →
        specFrameNotes (!reasonNotes.isEmpty) (l :: rest) =
          ⟨l, if reasonNotes = [] then .constexpr_not_evaluable else .constexpr_called_from,
            [], none⟩ :: rest.map (fun l => ⟨l, .constexpr_called_from, [], none⟩)) := by
  obtain ⟨n', r, hn', hr, hcase⟩ := emit_cases h
  rw [hn] at hn'
  cases hn'
  rcases hcase with ⟨hnone, _⟩ | ⟨badInst', _, ⟨hv', _⟩ | ⟨_, cs', hcs', rfl⟩⟩
  · rw [hi] at hnone
    cases hnone
  · rw [hv] at hv'
    cases hv'
  · rw [hcs] at hcs'
    cases hcs'
    have hlen := emitNoteDiagnostic_length badInst' r fallbackLoc (specReasonMessage r)
    refine ⟨(emitNoteDiagnostic badInst' r fallbackLoc (specReasonMessage r)).2, hlen.1,
      fun d hd => (emitNoteDiagnostic_mem hd).1, ?_, ?_⟩
    · rw [← hlen.2]
    · intro l rest _
      cases hnil : (emitNoteDiagnostic badInst' r fallbackLoc (specReasonMessage r)).2 <;>
        simp [specFrameNotes]

/-- Witness of C27: no reason note is emitted for the reason `Default` at an instruction
without a location, and the first qualifying frame is marked `constexpr_not_evaluable`. -/
theorem C27_first_frame_marking_witness :
    emitUnknownDiagnosticNotes unknownMemory (.RK_Unknown 4) (locationAt 2000)
      (fun _ => some instructionNowhere) exampleSM =
      .ok [⟨⟨some 4000⟩, .constexpr_not_evaluable, [], none⟩,
        ⟨⟨some 3000⟩, .constexpr_called_from, [], none⟩] ∧
    ∃ reasonNotes : List Diagnostic,
      reasonNotes.length ≤ 1 ∧
      (∀ d ∈ reasonNotes, d.id = .constexpr_unknown_reason) ∧
      ([⟨⟨some 4000⟩, .constexpr_not_evaluable, [], none⟩,
        ⟨⟨some 3000⟩, .constexpr_called_from, [], none⟩] : List Diagnostic) =
        reasonNotes ++ specFrameNotes (!reasonNotes.isEmpty)
          (([⟨some 3000⟩, ⟨some 2050⟩, ⟨some 4000⟩] : List SourceLoc).reverse.filter
            (qualifies exampleSM (exampleSM.getLineNumber (locationAt 2000).getSourceLoc))) ∧
      (∀ l rest, ([⟨some 3000⟩, ⟨some 2050⟩, ⟨some 4000⟩] : List SourceLoc).reverse.filter
          (qualifies exampleSM (exampleSM.getLineNumber (locationAt 2000).getSourceLoc)) =
            l :: rest →
        specFrameNotes (!reasonNotes.isEmpty) (l :: rest) =
          ⟨l, if reasonNotes = [] then .constexpr_not_evaluable else .constexpr_called_from,
            [], none⟩ :: rest.map (fun l => ⟨l, .constexpr_called_from, [], none⟩)) :=
  ⟨rfl, C27_first_frame_marking unknownMemory (.RK_Unknown 4) (locationAt 2000)
    (fun _ => some instructionNowhere) exampleSM _ _ 5 instructionNowhere rfl rfl rfl rfl rfl⟩

/-- C28 as stated fails: the instruction resolves to the null location, the fallback
location is not null and the reason is `Default`, and no note is emitted at all. -/
theorem C28_counterexample :
    emitUnknownDiagnosticNotes unknownMemory (.RK_Unknown 2) (locationAt 2000)
      (fun _ => some instructionNowhere) exampleSM = .ok [] ∧
    getUnknownReason unknownMemory (.RK_Unknown 2) = .ok .Default ∧
    (resolvedLocation instructionNowhere).isNull = true ∧
    (locationAt 2000).isNull = false ∧ (locationAt 2000).getSourceLoc.isValid = true :=
  ⟨rfl, rfl, rfl, rfl, rfl⟩

/-- C28, amended: when the location the instruction resolves to is null, the reason note
is emitted at `fallbackLoc` for every reason tag other than `Default`, provided
`fallbackLoc` is not null, and no reason note is emitted for `Default` or for a null
`fallbackLoc`; when the resolved location is not null the reason note is emitted at that
location, for every reason tag.  The reason note is the first note and the only
`constexpr_unknown_reason` note. -/
theorem C28_fallback_location (mem : Memory) (self : SymbolicValue)
    (fallbackLoc : SILLocation) (nodes : Nat → Option SILInstruction) (SM : SourceManager)
    (notes : List Diagnostic) (n : Nat) (badInst : SILInstruction) (r : UnknownReason)
    (h : emitUnknownDiagnosticNotes mem self fallbackLoc nodes SM = .ok notes)
    (hn : getUnknownNode mem self = .ok n) (hi : nodes n = some badInst)
    (hr : getUnknownReason mem self = .ok r) :
    ((resolvedLocation badInst).isNull = true → r ≠ .Default → fallbackLoc.isNull = false →
      ∃ rest, notes = ⟨fallbackLoc.getSourceLoc, .constexpr_unknown_reason,
          [specReasonMessage r], some fallbackLoc.getSourceRange⟩ :: rest ∧
        ∀ d ∈ rest, d.id ≠ .constexpr_unknown_reason) ∧
    ((resolvedLocation badInst).isNull = true →
      (r = .Default ∨ fallbackLoc.isNull = true) →
      ∀ d ∈ notes, d.id ≠ .constexpr_unknown_reason) ∧
    ((resolvedLocation badInst).isNull = false →
      ∃ rest, notes = ⟨(resolvedLocation badInst).getSourceLoc, .constexpr_unknown_reason,
          [specReasonMessage r], some (resolvedLocation badInst).getSourceRange⟩ :: rest ∧
        ∀ d ∈ rest, d.id ≠ .constexpr_unknown_reason) := by
  obtain ⟨n', r', hn', hr', hcase⟩ := emit_cases h
  rw [hn] at hn'
  cases hn'
  rw [hr] at hr'
  cases hr'
  have hrest : ∃ rest, notes =
      (emitNoteDiagnostic badInst r fallbackLoc (specReasonMessage r)).2 ++ rest ∧
      ∀ d ∈ rest, d.id ≠ .constexpr_unknown_reason := by
    rcases hcase with ⟨hnone, _⟩ | ⟨badInst', hi', ⟨_, rfl⟩ | ⟨_, cs, _, rfl⟩⟩
    · rw [hi] at hnone
      cases hnone
    · rw [hi] at hi'
      cases hi'
      refine ⟨_, rfl, ?_⟩
      intro d hd
      simp at hd
      subst hd
      simp
    · rw [hi] at hi'
      cases hi'
      exact ⟨_, rfl, fun d hd => (specFrameNotes_mem hd).2.1⟩
  obtain ⟨rest, rfl, hrest⟩ := hrest
  refine ⟨?_, ?_, ?_⟩
  · intro hnull hdef hf
    rw [emitNoteDiagnostic_fallback _ hnull hdef hf]
    exact ⟨rest, rfl, hrest⟩
  · intro hnull hdef d hd
    rw [emitNoteDiagnostic_nothing _ hnull hdef] at hd
    exact hrest d (by simpa using hd)
  · intro hnull
    rw [emitNoteDiagnostic_found _ _ _ hnull]
    exact ⟨rest, rfl, hrest⟩

/-- Witness of C28: the reason `Trap` at an instruction without a location gets its note
at the fallback location, at the position 2000. -/
theorem C28_fallback_location_witness :
    emitUnknownDiagnosticNotes unknownMemory (.RK_Unknown 3) (locationAt 2000)
      (fun _ => some instructionNowhere) exampleSM =
      .ok [⟨⟨some 2000⟩, .constexpr_unknown_reason, ["trap detected"],
          some ⟨⟨some 2000⟩, ⟨some 2000⟩⟩⟩,
        ⟨⟨some 4000⟩, .constexpr_called_from, [], none⟩] ∧
    ∃ rest, ([⟨⟨some 2000⟩, .constexpr_unknown_reason, ["trap detected"],
          some ⟨⟨some 2000⟩, ⟨some 2000⟩⟩⟩,
        ⟨⟨some 4000⟩, .constexpr_called_from, [], none⟩] : List Diagnostic) =
        ⟨(locationAt 2000).getSourceLoc, .constexpr_unknown_reason,
          [specReasonMessage .Trap], some (locationAt 2000).getSourceRange⟩ :: rest ∧
      ∀ d ∈ rest, d.id ≠ .constexpr_unknown_reason :=
  ⟨rfl, (C28_fallback_location unknownMemory (.RK_Unknown 3) (locationAt 2000)
    (fun _ => some instructionNowhere) exampleSM _ 5 instructionNowhere .Trap
    rfl rfl rfl rfl).1 rfl (by decide) rfl⟩

/-- C29, memory object frame: `SymbolicValueMemoryObject::create(type, value)` yields an
object whose type is `type` and whose current value is `value`, so that a get of the empty
path on it returns `value`; and a set through a memory object that returns, for every
path and scalar, leaves the type of the object as it was and leaves every other
allocation made before the call as it was: only the value slot of the object changes. -/
theorem C29_memory_object_frame (mem : Memory) (type : SwiftType) (value : SymbolicValue)
    (A : Nat) :
    SymbolicValueMemoryObject.fields (SymbolicValueMemoryObject.create mem type value A).2
      (SymbolicValueMemoryObject.create mem type value A).1 = .ok (type, value) ∧
    SymbolicValueMemoryObject.getIndexedElement
      (SymbolicValueMemoryObject.create mem type value A).2
      (SymbolicValueMemoryObject.create mem type value A).1 [] = .ok value ∧
    ∀ (self : Ptr) (path : List Nat) (scalar : SymbolicValue) (mem' : Memory)
      (T : SwiftType) (V : SymbolicValue),
      SymbolicValueMemoryObject.fields mem self = .ok (T, V) →
      SymbolicValueMemoryObject.setIndexedElement mem self path scalar A = .ok mem' →
      (∃ V', SymbolicValueMemoryObject.fields mem' self = .ok (T, V')) ∧
        Agree self mem mem' := by
  refine ⟨fields_create mem type value A, ?_, ?_⟩
  · rw [obj_get_eq (fields_create mem type value A)]
    simp [getIndexedElement]
  · intro self path scalar mem' T V hf h
    exact ⟨obj_set_type hf h, (obj_set_agree h).2⟩

/-- C29, witness: the object of `pairMemory` keeps its struct type through the set of
its element 0 to 7. -/
theorem C29_memory_object_frame_witness :
    SymbolicValueMemoryObject.fields pairMemory 1 =
      .ok (.structType [Int32Type, Int32Type], .RK_Aggregate 0 2) ∧
    SymbolicValueMemoryObject.setIndexedElement pairMemory 1 [0] (int32 7) 0 =
      .ok pairMemoryAfter ∧
    (∃ V', SymbolicValueMemoryObject.fields pairMemoryAfter 1 =
      .ok (.structType [Int32Type, Int32Type], V')) ∧
    Agree 1 pairMemory pairMemoryAfter :=
  ⟨by decide, by decide,
    (C29_memory_object_frame pairMemory Int32Type .RK_UninitMemory 0).2.2 1 [0] (int32 7)
      pairMemoryAfter (.structType [Int32Type, Int32Type]) (.RK_Aggregate 0 2) (by decide)
      (by decide)⟩

/-- C30, Unknown is produced only by the unknown constructor.  The factories
`getInteger`, `getFloat`, `getString`, `getAggregate`, `getArray`, `getEnumWithPayload`
and `getAddress` never return a value of kind Unknown, whereas `getUnknown` does;
`getAggregate` and `getArray` return kind Aggregate and Array whatever the elements are,
an Unknown element included.  What `getIndexedElement`, `setIndexedElement`, `cloneInto`
and `lookThroughSingleElementAggregates` return is or holds an Unknown value only if one
of their input values is or holds one: the value read, the value rebuilt or the scalar,
the value cloned, the value looked through; for the two that allocate, the values are
read in the memory after the call or any extension of it, and an input that is free of
Unknown values in the memory before the call gives a result that holds none. -/
theorem C30_unknown_only_from_unknown (mem : Memory) (A : Nat) :
    (∀ value bw, (getIntegerInt64 value bw).getKind ≠ .Unknown) ∧
    (∀ value r, getIntegerAPInt mem value A = .ok r → r.1.getKind ≠ .Unknown) ∧
    (∀ value r, getFloat mem value A = .ok r → r.1.getKind ≠ .Unknown) ∧
    (∀ s, (getString mem s A).1.getKind ≠ .Unknown) ∧
    (∀ c p r, getEnumWithPayload mem c p A = .ok r → r.1.getKind ≠ .Unknown) ∧
    (∀ m is, (getAddress mem m is A).1.getKind ≠ .Unknown) ∧
    (∀ n rs cs r, getUnknown mem n rs cs A = .ok r → r.1.getKind = .Unknown) ∧
    (∀ es, (getAggregate mem es A).1.getKind = .Aggregate) ∧
    (∀ es T, (getArray mem es T A).1.getKind = .Array) ∧
    (∀ v path T r, getIndexedElement mem v path T = .ok r →
      ContainsUnknown mem r → ContainsUnknown mem v) ∧
    (∀ self path r, SymbolicValueMemoryObject.getIndexedElement mem self path = .ok r →
      ContainsUnknown mem r →
      ∃ T V, SymbolicValueMemoryObject.fields mem self = .ok (T, V) ∧ ContainsUnknown mem V) ∧
    (∀ v path s T r mem', setIndexedElement mem v path s T A = .ok (r, mem') →
      (∀ M, mem' <+: M → ContainsUnknown M r → ContainsUnknown M v ∨ ContainsUnknown M s) ∧
      (∀ d, unknownFree d mem v = true → unknownFree d mem s = true →
        ¬ ContainsUnknown mem' r)) ∧
    (∀ fuel v r mem', cloneInto fuel mem v A = some (.ok (r, mem')) →
      (∀ M, mem' <+: M → ContainsUnknown M r → ContainsUnknown M v) ∧
      (∀ d, unknownFree d mem v = true → ¬ ContainsUnknown mem' r)) ∧
    (∀ fuel v r, lookThroughSingleElementAggregates fuel mem v = some (.ok r) →
      ContainsUnknown mem r → ContainsUnknown mem v) := by
  refine ⟨?_, ?_, ?_, ?_, ?_, ?_, ?_, ?_, ?_, ?_, ?_, ?_, ?_, ?_⟩
  · intro value bw
    simp [getIntegerInt64, getKind]
  · intro value r h
    rw [getIntegerAPInt_kind h]
    decide
  · intro value r h
    rw [getFloat_kind h]
    decide
  · intro s
    simp [getString, Memory.allocate, getKind]
  · intro c p r h
    rw [getEnumWithPayload_kind h]
    decide
  · intro m is
    rw [getAddress_kind]
    decide
  · intro n rs cs r h
    exact getUnknown_kind h
  · intro es
    rfl
  · intro es T
    rfl
  · intro v path T r h hc
    exact get_unknown path mem v r T h hc
  · intro self path r h hc
    obtain ⟨T, V, hf, hg⟩ := fields_of_obj_get h
    exact ⟨T, V, hf, get_unknown path mem V r T hg hc⟩
  · intro v path s T r mem' h
    refine ⟨set_unknown s A path mem mem' v r T h, ?_⟩
    intro d hv hs hc
    rcases set_unknown s A path mem mem' v r T h mem' (List.prefix_refl _) hc with h1 | h1
    · exact unknownFree_extended (set_extended h) hv h1
    · exact unknownFree_extended (set_extended h) hs h1
  · intro fuel v r mem' h
    refine ⟨clone_unknown A fuel mem mem' v r h, ?_⟩
    intro d hv hc
    exact unknownFree_extended (clone_extended h) hv
      (clone_unknown A fuel mem mem' v r h mem' (List.prefix_refl _) hc)
  · intro fuel v r h hc
    exact look_unknown fuel mem v r h hc

/-- Witness of C30: the clone of the aggregate of `holderMemory` that holds the unknown
value holds it, and the clone of the pair, which is free of Unknown values, holds none. -/
theorem C30_unknown_only_from_unknown_witness :
    cloneInto 2 holderMemory (.RK_Aggregate 1 2) 1 =
      some (.ok (.RK_Aggregate 3 2,
        holderMemory ++ [⟨1, .values [.RK_Unknown 0, int32 1]⟩])) ∧
    containsUnknown 2 (holderMemory ++ [⟨1, .values [.RK_Unknown 0, int32 1]⟩])
      (.RK_Aggregate 3 2) = true ∧
    ContainsUnknown (holderMemory ++ [⟨1, .values [.RK_Unknown 0, int32 1]⟩])
      (.RK_Aggregate 1 2) ∧
    cloneInto 2 holderMemory (.RK_Aggregate 2 2) 1 =
      some (.ok (.RK_Aggregate 3 2, holderMemory ++ [⟨1, .values [int32 1, int32 2]⟩])) ∧
    unknownFree 2 holderMemory (.RK_Aggregate 2 2) = true ∧
    ¬ ContainsUnknown (holderMemory ++ [⟨1, .values [int32 1, int32 2]⟩])
      (.RK_Aggregate 3 2) :=
  ⟨by decide, by decide,
    ((C30_unknown_only_from_unknown holderMemory 1).2.2.2.2.2.2.2.2.2.2.2.2.1 2
      (.RK_Aggregate 1 2) (.RK_Aggregate 3 2)
      (holderMemory ++ [⟨1, .values [.RK_Unknown 0, int32 1]⟩]) (by decide)).1
      _ (List.prefix_refl _) ⟨2, by decide⟩,
    by decide, by decide,
    ((C30_unknown_only_from_unknown holderMemory 1).2.2.2.2.2.2.2.2.2.2.2.2.1 2
      (.RK_Aggregate 2 2) (.RK_Aggregate 3 2)
      (holderMemory ++ [⟨1, .values [int32 1, int32 2]⟩]) (by decide)).2 2 (by decide)⟩

/-- C31, an index past the elements of a composite.  `getIndexedElement` fails the bounds
assertion on it for every static type, on an Aggregate and on an Array, and so does
`setIndexedElement` on an Array, on an Aggregate of a tuple type and on an Aggregate of a
struct type that has a stored property for the index; on an Aggregate of a type that is
neither it stops at `llvm_unreachable`.  On an Aggregate of a struct type that has no
stored property for the index, `setIndexedElement` advances the iterator of the stored
properties past the end before it indexes the elements: undefined behaviour instead of
the bounds assertion, as on the pair `{1, 2}` of `pairMemory` with the path `[5]`, where
`getIndexedElement` fails the assertion and the same set on the tuple of `tupleMemory`
fails the assertion of the tuple branch.  At a level a path reaches both calls do what
they do from that level. -/
theorem C31_out_of_range_index :
    (∀ (mem : Memory) (v : SymbolicValue) (es : List SymbolicValue) (i : Nat)
      (rest : List Nat) (t : SwiftType),
      getAggregateValue mem v = .ok es → es.length ≤ i →
      getIndexedElement mem v (i :: rest) t = .error .assertion) ∧
    (∀ (mem : Memory) (v : SymbolicValue) (es : List SymbolicValue) (T : SwiftType) (i : Nat)
      (rest : List Nat) (t : SwiftType),
      getArrayValue mem v = .ok (es, T) → es.length ≤ i →
      getIndexedElement mem v (i :: rest) t = .error .assertion) ∧
    (∀ (mem : Memory) (v : SymbolicValue) (es : List SymbolicValue) (T : SwiftType) (i : Nat)
      (rest : List Nat) (s : SymbolicValue) (t : SwiftType) (A : Nat),
      getArrayValue mem v = .ok (es, T) → es.length ≤ i →
      setIndexedElement mem v (i :: rest) s t A = .error .assertion) ∧
    (∀ (mem : Memory) (v : SymbolicValue) (es : List SymbolicValue) (i : Nat)
      (rest : List Nat) (s : SymbolicValue) (A : Nat),
      getAggregateValue mem v = .ok es → es.length ≤ i →
      (∀ ts, setIndexedElement mem v (i :: rest) s (.tupleType ts) A = .error .assertion) ∧
      (∀ ps, i < ps.length →
        setIndexedElement mem v (i :: rest) s (.structType ps) A = .error .assertion) ∧
      (∀ id, setIndexedElement mem v (i :: rest) s (.otherType id) A = .error .unreachable) ∧
      (∀ ps, ps.length ≤ i →
        setIndexedElement mem v (i :: rest) s (.structType ps) A =
          .error .undefinedBehavior)) ∧
    (∀ (mem : Memory) (p1 q : List Nat) (v c : SymbolicValue) (t tc : SwiftType),
      reachedAlong mem p1 v t = some (c, tc) →
      getIndexedElement mem v (p1 ++ q) t = getIndexedElement mem c q tc ∧
      ∀ (s : SymbolicValue) (A : Nat) (f : Fault),
        setIndexedElement mem c q s tc A = .error f →
        setIndexedElement mem v (p1 ++ q) s t A = .error f) ∧
    SymbolicValueMemoryObject.getIndexedElement pairMemory 1 [5] = .error .assertion ∧
    SymbolicValueMemoryObject.setIndexedElement pairMemory 1 [5] (int32 9) 0 =
      .error .undefinedBehavior ∧
    SymbolicValueMemoryObject.setIndexedElement tupleMemory 1 [5] (int32 9) 0 =
      .error .assertion := by
  refine ⟨?_, ?_, ?_, ?_, ?_, by decide, by decide, by decide⟩
  · intro mem v es i rest t hes hi
    exact get_past_aggregate rest t hes hi
  · intro mem v es T i rest t hes hi
    exact get_past_array rest t hes hi
  · intro mem v es T i rest s t A hes hi
    exact set_past_array rest s t A hes hi
  · intro mem v es i rest s A hes hi
    refine ⟨?_, ?_, ?_, ?_⟩
    · intro ts
      rcases aggregateElementType_tuple ts i with ⟨ti, _, hty⟩ | hty
      · exact set_past_aggregate rest s A hes hi hty
      · exact set_aggregate_type_fault rest s A hes hty
    · intro ps hlt
      exact set_past_aggregate rest s A hes hi
        (aggregateElementType_struct ps i ps[i] (List.getElem?_eq_getElem hlt))
    · intro id
      exact set_aggregate_type_fault rest s A hes (aggregateElementType_other id i)
    · intro ps hle
      exact set_aggregate_type_fault rest s A hes (aggregateElementType_struct_past hle)
  · intro mem p1 q v c t tc h
    exact ⟨get_reached mem q p1 v c t tc h,
      fun s A f hs => set_reached_error mem q s A f p1 v c t tc h hs⟩

/-- Witness of C31: on `{{1, 2}, 3}` the path `[0]` reaches the pair `{1, 2}` of a tuple
type, and the path `[0, 5]` is past its elements: both calls fail the assertion. -/
theorem C31_out_of_range_index_witness :
    reachedAlong nestedMemory [0] (.RK_Aggregate 1 2)
        (.structType [.tupleType [Int32Type, Int32Type], Int32Type]) =
      some (.RK_Aggregate 0 2, .tupleType [Int32Type, Int32Type]) ∧
    getIndexedElement nestedMemory (.RK_Aggregate 0 2) [5]
      (.tupleType [Int32Type, Int32Type]) = .error .assertion ∧
    getIndexedElement nestedMemory (.RK_Aggregate 1 2) ([0] ++ [5])
        (.structType [.tupleType [Int32Type, Int32Type], Int32Type]) =
      getIndexedElement nestedMemory (.RK_Aggregate 0 2) [5]
        (.tupleType [Int32Type, Int32Type]) ∧
    setIndexedElement nestedMemory (.RK_Aggregate 1 2) ([0] ++ [5]) (int32 9)
        (.structType [.tupleType [Int32Type, Int32Type], Int32Type]) 0 =
      .error .assertion :=
  ⟨by decide, by decide,
    (C31_out_of_range_index.2.2.2.2.1 nestedMemory [0] [5] (.RK_Aggregate 1 2)
      (.RK_Aggregate 0 2) (.structType [.tupleType [Int32Type, Int32Type], Int32Type])
      (.tupleType [Int32Type, Int32Type]) (by decide)).1,
    (C31_out_of_range_index.2.2.2.2.1 nestedMemory [0] [5] (.RK_Aggregate 1 2)
      (.RK_Aggregate 0 2) (.structType [.tupleType [Int32Type, Int32Type], Int32Type])
      (.tupleType [Int32Type, Int32Type]) (by decide)).2 (int32 9) 0 .assertion (by decide)⟩

/-- C32, indexing into a value that is no composite is rejected: for every path that is
not empty, every static type and every value whose kind is none of UninitMemory,
Aggregate and Array (an Integer, Float, String, Enum, enum with payload, Address,
Metatype, Function or Unknown value), `getIndexedElement` and `setIndexedElement` fail
the assertion on the kind, the helpers as well as the methods of a memory object that
holds the value; so a get along a path that is not empty never returns an Unknown current
value. -/
theorem C32_non_composite_rejected (mem : Memory) (v : SymbolicValue) (i : Nat)
    (rest : List Nat) (h1 : v.getKind ≠ .UninitMemory) (h2 : v.getKind ≠ .Aggregate)
    (h3 : v.getKind ≠ .Array) :
    (∀ t, getIndexedElement mem v (i :: rest) t = .error .assertion) ∧
    (∀ s t A, setIndexedElement mem v (i :: rest) s t A = .error .assertion) ∧
    (∀ self T, SymbolicValueMemoryObject.fields mem self = .ok (T, v) →
      SymbolicValueMemoryObject.getIndexedElement mem self (i :: rest) = .error .assertion ∧
      ∀ s A, SymbolicValueMemoryObject.setIndexedElement mem self (i :: rest) s A =
        .error .assertion) ∧
    (∀ t, getIndexedElement mem v (i :: rest) t ≠ .ok v) := by
  refine ⟨fun t => get_not_composite mem i rest t h1 h2 h3,
    fun s t A => set_not_composite mem i rest s t A h1 h2 h3, ?_, ?_⟩
  · intro self T hf
    refine ⟨?_, ?_⟩
    · rw [obj_get_eq hf]
      exact get_not_composite mem i rest T h1 h2 h3
    · intro s A
      exact obj_set_error hf (set_not_composite mem i rest s T A h1 h2 h3)
  · intro t hc
    rw [get_not_composite mem i rest t h1 h2 h3] at hc
    cases hc

/-- Witness of C32: the unknown value of `sharedMemory` and the string its memory
object holds. -/
theorem C32_non_composite_rejected_witness :
    (SymbolicValue.RK_Unknown 3).getKind = .Unknown ∧
    getIndexedElement sharedMemory (.RK_Unknown 3) [0] Int32Type = .error .assertion ∧
    SymbolicValueMemoryObject.fields sharedMemory 2 = .ok (.otherType 1, .RK_String 0 2) ∧
    SymbolicValueMemoryObject.getIndexedElement sharedMemory 2 [0] = .error .assertion ∧
    SymbolicValueMemoryObject.setIndexedElement sharedMemory 2 [0] (int32 1) 0 =
      .error .assertion :=
  ⟨rfl,
    (C32_non_composite_rejected sharedMemory (.RK_Unknown 3) 0 [] (by decide) (by decide)
      (by decide)).1 Int32Type,
    by decide,
    ((C32_non_composite_rejected sharedMemory (.RK_String 0 2) 0 [] (by decide) (by decide)
      (by decide)).2.2.1 2 (.otherType 1) (by decide)).1,
    ((C32_non_composite_rejected sharedMemory (.RK_String 0 2) 0 [] (by decide) (by decide)
      (by decide)).2.2.1 2 (.otherType 1) (by decide)).2 (int32 1) 0⟩

/-- C33 as stated fails: the node of the unknown value is no instruction, so the run
emits nothing although its fallback location is valid and the frame at the position
3000 of its call stack is valid and on another line. -/
theorem C33_counterexample :
    emitUnknownDiagnosticNotes unknownMemory (.RK_Unknown 1) (locationAt 2000)
      (fun _ => none) exampleSM = .ok [] ∧
    (locationAt 2000).getSourceLoc.isValid = true ∧
    getUnknownCallStack unknownMemory (.RK_Unknown 1) = .ok [⟨some 3000⟩] ∧
    ([⟨some 3000⟩] : List SourceLoc).reverse.filter (fun l => l.isValid &&
      !decide (exampleSM.getLineNumber l =
        exampleSM.getLineNumber (locationAt 2000).getSourceLoc)) = [⟨some 3000⟩] :=
  ⟨rfl, rfl, rfl, by decide⟩

/-- C33, amended: for every Unknown value whose node is an instruction, with a fallback
location whose source location is valid, `emitUnknownDiagnosticNotes` returns, and the
sequence of the locations of the notes other than the reason note is the reversed call
stack with the invalid locations and the locations on the line of the fallback location
removed: the last recorded frame comes first.  When the node is no instruction nothing is
emitted. -/
theorem C33_reverse_recording_order (mem : Memory) (self : SymbolicValue)
    (fallbackLoc : SILLocation) (nodes : Nat → Option SILInstruction) (SM : SourceManager)
    (n : Nat) (cs : List SourceLoc)
    (hn : getUnknownNode mem self = .ok n)
    (hcs : getUnknownCallStack mem self = .ok cs)
    (hv : fallbackLoc.getSourceLoc.isValid = true) :
    (∀ badInst, nodes n = some badInst →
      ∃ notes, emitUnknownDiagnosticNotes mem self fallbackLoc nodes SM = .ok notes ∧
        (frameNotes notes).map (fun d => d.loc) =
          cs.reverse.filter (fun l => l.isValid &&
            !decide (SM.getLineNumber l = SM.getLineNumber fallbackLoc.getSourceLoc))) ∧
    (nodes n = none → emitUnknownDiagnosticNotes mem self fallbackLoc nodes SM = .ok []) := by
  constructor
  · intro badInst hi
    obtain ⟨p, r, sz, tr, _, _, hr, _⟩ := unknown_fields hn
    refine ⟨_, emit_valid SM hn hi hr hcs hv, ?_⟩
    rw [frameNotes_append_reason (fun d hd => (emitNoteDiagnostic_mem hd).1),
      frameNotes_specFrameNotes, specFrameNotes_locs]
    rfl
  · intro hi
    exact emit_no_instruction fallbackLoc SM hn hi

/-- Witness of C33: of the frames recorded at the positions 3000, 2050 and 4000, with the
fallback location on line 20, the frame at 4000 is reported first and the frame at 3000
second. -/
theorem C33_reverse_recording_order_witness :
    emitUnknownDiagnosticNotes unknownMemory (.RK_Unknown 4) (locationAt 2000)
      (fun _ => some instructionNowhere) exampleSM =
      .ok [⟨⟨some 4000⟩, .constexpr_not_evaluable, [], none⟩,
        ⟨⟨some 3000⟩, .constexpr_called_from, [], none⟩] ∧
    ∃ notes, emitUnknownDiagnosticNotes unknownMemory (.RK_Unknown 4) (locationAt 2000)
        (fun _ => some instructionNowhere) exampleSM = .ok notes ∧
      (frameNotes notes).map (fun d => d.loc) =
        ([⟨some 3000⟩, ⟨some 2050⟩, ⟨some 4000⟩] : List SourceLoc).reverse.filter
          (fun l => l.isValid && !decide (exampleSM.getLineNumber l =
            exampleSM.getLineNumber (locationAt 2000).getSourceLoc)) :=
  ⟨rfl, (C33_reverse_recording_order unknownMemory (.RK_Unknown 4) (locationAt 2000)
    (fun _ => some instructionNowhere) exampleSM 5 _ rfl rfl rfl).1 instructionNowhere rfl⟩

/-- C34, at most one leading note: in a run of `emitUnknownDiagnosticNotes` with a
fallback location whose source location is valid, the reason note is not emitted exactly
when the instruction resolves to the null location and the reason is `Default` or the
fallback location is null; the note of the first forwarded frame is
`constexpr_not_evaluable` exactly in that case and `constexpr_called_from` otherwise, and
the note of every other forwarded frame is `constexpr_called_from`.  Hence every note
after the first note of the run is a `constexpr_called_from` note. -/
theorem C34_one_leading_note (mem : Memory) (self : SymbolicValue)
    (fallbackLoc : SILLocation) (nodes : Nat → Option SILInstruction) (SM : SourceManager)
    (notes : List Diagnostic)
    (h : emitUnknownDiagnosticNotes mem self fallbackLoc nodes SM = .ok notes)
    (hv : fallbackLoc.getSourceLoc.isValid = true) :
    (∀ d ∈ notes.tail, d.id = .constexpr_called_from) ∧
    (∀ n badInst r, getUnknownNode mem self = .ok n → nodes n = some badInst →
      getUnknownReason mem self = .ok r →
      ((∀ d ∈ notes, d.id ≠ .constexpr_unknown_reason) ↔
        (resolvedLocation badInst).isNull = true ∧
          (r = .Default ∨ fallbackLoc.isNull = true)) ∧
      ∀ f fs, frameNotes notes = f :: fs →
        (f.id = .constexpr_not_evaluable ↔
          (resolvedLocation badInst).isNull = true ∧
            (r = .Default ∨ fallbackLoc.isNull = true)) ∧
        (f.id = .constexpr_called_from ↔
          ¬ ((resolvedLocation badInst).isNull = true ∧
            (r = .Default ∨ fallbackLoc.isNull = true))) ∧
        ∀ g ∈ fs, g.id = .constexpr_called_from) := by
  obtain ⟨n, r, hn, hr, hcase⟩ := emit_cases h
  rcases hcase with ⟨hnone, rfl⟩ | ⟨badInst, hi, ⟨hv', _⟩ | ⟨_, cs, hcs, rfl⟩⟩
  · refine ⟨by simp, ?_⟩
    intro n' badInst r' hn' hi' _
    rw [hn] at hn'
    cases hn'
    rw [hi'] at hnone
    cases hnone
  · rw [hv] at hv'
    cases hv'
  · have hflag := emitNoteDiagnostic_flag badInst r fallbackLoc (specReasonMessage r)
    have hshape := emitNoteDiagnostic_shape badInst r fallbackLoc (specReasonMessage r)
    constructor
    · intro d hd
      rcases hshape with e | ⟨loc, range, e⟩
      · rw [e] at hd
        exact specFrameNotes_tail _ _ d (by simpa using hd)
      · rw [e] at hd
        exact specFrameNotes_emitted _ d (by simpa using hd)
    · intro n' badInst' r' hn' hi' hr'
      rw [hn] at hn'
      cases hn'
      rw [hi] at hi'
      cases hi'
      rw [hr] at hr'
      cases hr'
      constructor
      · rw [← hflag.1, ← hflag.2]
        constructor
        · intro hall
          rcases hshape with e | ⟨loc, range, e⟩
          · rw [e]
          · rw [e] at hall
            exact absurd rfl (hall ⟨loc, .constexpr_unknown_reason, [specReasonMessage r],
              some range⟩ (by simp))
        · intro hnil d hd
          rw [hnil, List.nil_append] at hd
          exact (specFrameNotes_mem hd).2.1
      · intro f fs hf
        rw [frameNotes_append_reason (fun d hd => (emitNoteDiagnostic_mem hd).1),
          frameNotes_specFrameNotes] at hf
        rw [← hflag.1]
        cases hq : cs.reverse.filter
            (qualifies SM (SM.getLineNumber fallbackLoc.getSourceLoc)) with
        | nil =>
          rw [hq] at hf
          simp [specFrameNotes] at hf
        | cons l ls =>
          rw [hq] at hf
          simp only [specFrameNotes, List.cons.injEq] at hf
          obtain ⟨hf1, hf2⟩ := hf
          subst hf1
          subst hf2
          refine ⟨?_, ?_, ?_⟩
          · cases (emitNoteDiagnostic badInst r fallbackLoc (specReasonMessage r)).1 <;> simp
          · cases (emitNoteDiagnostic badInst r fallbackLoc (specReasonMessage r)).1 <;> simp
          · intro g hg
            obtain ⟨l2, _, rfl⟩ := List.mem_map.1 hg
            rfl

/-- Witness of C34: with the reason note emitted at the instruction, the note of the
only forwarded frame is `constexpr_called_from`. -/
theorem C34_one_leading_note_witness :
    emitUnknownDiagnosticNotes unknownMemory (.RK_Unknown 1) (locationAt 2000)
      (fun _ => some (instructionAt 1000)) exampleSM =
      .ok [⟨⟨some 1000⟩, .constexpr_unknown_reason, ["integer overflow detected"],
          some ⟨⟨some 1000⟩, ⟨some 1000⟩⟩⟩,
        ⟨⟨some 3000⟩, .constexpr_called_from, [], none⟩] ∧
    ∀ d ∈ ([⟨⟨some 1000⟩, .constexpr_unknown_reason, ["integer overflow detected"],
          some ⟨⟨some 1000⟩, ⟨some 1000⟩⟩⟩,
        ⟨⟨some 3000⟩, .constexpr_called_from, [], none⟩] : List Diagnostic).tail,
      d.id = .constexpr_called_from :=
  ⟨rfl, (C34_one_leading_note unknownMemory (.RK_Unknown 1) (locationAt 2000)
    (fun _ => some (instructionAt 1000)) exampleSM _ rfl rfl).1⟩

/-- C35, overwrite: for every memory object whose value has a structure (it is read
through the accessors to a finite depth, arrays held by the address of another memory
object included), every path `p` valid for it, every value `a` and every value `b` that
has a structure, `setIndexedElement(p, a)` returns, `setIndexedElement(p, b)` after it
returns, `setIndexedElement(p, b)` alone returns, and the values the object is left with
by the two are structurally equal.  Nothing is asked of `a`: it is replaced without being
read. -/
theorem C35_overwrite (mem : Memory) (self : Ptr) (p : List Nat) (a b : SymbolicValue)
    (A : Nat) (t : SwiftType) (V : SymbolicValue) (TV Tb : Structure)
    (hf : SymbolicValueMemoryObject.fields mem self = .ok (t, V))
    (hV : HasStructure mem self V TV) (hb : HasStructure mem self b Tb)
    (hvalid : SymbolicValueMemoryObject.validPath mem self p = true) :
    ∃ m1 m2 m3 V2 V3,
      SymbolicValueMemoryObject.setIndexedElement mem self p a A = .ok m1 ∧
      SymbolicValueMemoryObject.setIndexedElement m1 self p b A = .ok m2 ∧
      SymbolicValueMemoryObject.setIndexedElement mem self p b A = .ok m3 ∧
      SymbolicValueMemoryObject.fields m2 self = .ok (t, V2) ∧
      SymbolicValueMemoryObject.fields m3 self = .ok (t, V3) ∧
      SameStructure self m2 V2 m3 V3 := by
  have hval := obj_structureValid hf hV hvalid
  obtain ⟨m1, m2, V2, hs1, hs2, hf2, hV2⟩ := obj_set_overwrite_structure a p A hf hV hb hval
  obtain ⟨m3, V3, hs3, hf3, hV3, _⟩ := obj_set_structure p A hf hV hb hval
  exact ⟨m1, m2, m3, V2, V3, hs1, hs2, hs3, hf2, hf3, _, hV2, hV3⟩

/-- Witness of C35: in `{{1, 2}, 3}`, the set of the path `[0, 1]` to 7 and then to 9
leaves a value structurally equal to the one left by the set to 9 alone; so it does in
`{a, 3}`, where `a` is the address of the object that holds the array `[1, 2]`, when the
value set first is the array address of the written object itself. -/
theorem C35_overwrite_witness :
    (∃ m1 m2 m3 V2 V3,
      SymbolicValueMemoryObject.setIndexedElement nestedMemory 2 [0, 1] (int32 7) 0 = .ok m1 ∧
      SymbolicValueMemoryObject.setIndexedElement m1 2 [0, 1] (int32 9) 0 = .ok m2 ∧
      SymbolicValueMemoryObject.setIndexedElement nestedMemory 2 [0, 1] (int32 9) 0 = .ok m3 ∧
      SymbolicValueMemoryObject.fields m2 2 =
        .ok (.structType [.tupleType [Int32Type, Int32Type], Int32Type], V2) ∧
      SymbolicValueMemoryObject.fields m3 2 =
        .ok (.structType [.tupleType [Int32Type, Int32Type], Int32Type], V3) ∧
      SameStructure 2 m2 V2 m3 V3) ∧
    (∃ m1 m2 m3 V2 V3,
      SymbolicValueMemoryObject.setIndexedElement addressedArrayMemory 3 [0, 1]
        (.RK_ArrayAddress 3) 0 = .ok m1 ∧
      SymbolicValueMemoryObject.setIndexedElement m1 3 [0, 1] (int32 9) 0 = .ok m2 ∧
      SymbolicValueMemoryObject.setIndexedElement addressedArrayMemory 3 [0, 1] (int32 9) 0 =
        .ok m3 ∧
      SymbolicValueMemoryObject.fields m2 3 =
        .ok (.structType [Int32ArrayType, Int32Type], V2) ∧
      SymbolicValueMemoryObject.fields m3 3 =
        .ok (.structType [Int32ArrayType, Int32Type], V3) ∧
      SameStructure 3 m2 V2 m3 V3) :=
  ⟨C35_overwrite nestedMemory 2 [0, 1] (int32 7) (int32 9) 0
    (.structType [.tupleType [Int32Type, Int32Type], Int32Type]) (.RK_Aggregate 1 2)
    (.aggregate [.aggregate [.leaf (int32 1), .leaf (int32 2)], .leaf (int32 3)])
    (.leaf (int32 9)) (by decide) ⟨3, rfl⟩ ⟨1, rfl⟩ (by decide),
   C35_overwrite addressedArrayMemory 3 [0, 1] (.RK_ArrayAddress 3) (int32 9) 0
    (.structType [Int32ArrayType, Int32Type]) (.RK_Aggregate 2 2) addressedArrayStructure
    (.leaf (int32 9)) (by decide) ⟨3, rfl⟩ ⟨1, rfl⟩ (by decide)⟩

/-- C36, independent writes commute: for every memory object whose value has a
structure (also a wholly or partly uninitialised one, and one that holds arrays by the
address of another memory object), all paths `p` and `q` valid for it such that neither
is a prefix of the other, and all values `a` and `b` that have a structure,
`setIndexedElement(p, a)` then `setIndexedElement(q, b)` return, as do
`setIndexedElement(q, b)` then `setIndexedElement(p, a)`, and the values the object is
left with by the two orders are structurally equal. -/
theorem C36_independent_writes_commute (mem : Memory) (self : Ptr) (p q : List Nat)
    (a b : SymbolicValue) (A : Nat) (t : SwiftType) (V : SymbolicValue)
    (TV Ta Tb : Structure)
    (hf : SymbolicValueMemoryObject.fields mem self = .ok (t, V))
    (hV : HasStructure mem self V TV) (ha : HasStructure mem self a Ta)
    (hb : HasStructure mem self b Tb)
    (hp : SymbolicValueMemoryObject.validPath mem self p = true)
    (hq : SymbolicValueMemoryObject.validPath mem self q = true)
    (hpq : ¬ p <+: q) (hqp : ¬ q <+: p) :
    ∃ m1 m2 m3 m4 V2 V4,
      SymbolicValueMemoryObject.setIndexedElement mem self p a A = .ok m1 ∧
      SymbolicValueMemoryObject.setIndexedElement m1 self q b A = .ok m2 ∧
      SymbolicValueMemoryObject.setIndexedElement mem self q b A = .ok m3 ∧
      SymbolicValueMemoryObject.setIndexedElement m3 self p a A = .ok m4 ∧
      SymbolicValueMemoryObject.fields m2 self = .ok (t, V2) ∧
      SymbolicValueMemoryObject.fields m4 self = .ok (t, V4) ∧
      SameStructure self m2 V2 m4 V4 := by
  have hvp := obj_structureValid hf hV hp
  have hvq := obj_structureValid hf hV hq
  obtain ⟨m1, V1, hs1, hf1, hV1, hfr1⟩ := obj_set_structure p A hf hV ha hvp
  obtain ⟨m2, V2, hs2, hf2, hV2, _⟩ := obj_set_structure q A hf1 hV1 (hfr1 b Tb hb)
    (structureValid_set_other Ta p q TV t hvp hvq hpq hqp)
  obtain ⟨m3, V3, hs3, hf3, hV3, hfr3⟩ := obj_set_structure q A hf hV hb hvq
  obtain ⟨m4, V4, hs4, hf4, hV4, _⟩ := obj_set_structure p A hf3 hV3 (hfr3 a Ta ha)
    (structureValid_set_other Tb q p TV t hvq hvp hqp hpq)
  rw [structureSet_comm Ta Tb p q TV t hpq hqp] at hV2
  exact ⟨m1, m2, m3, m4, V2, V4, hs1, hs2, hs3, hs4, hf2, hf4, _, hV2, hV4⟩

/-- Witness of C36: in the wholly uninitialised object of the type of `{{1, 2}, 3}`, the
sets of the path `[0, 1]` to 7 and of the path `[1]` to 9 commute; so they do in `{a, 3}`,
where `a` is the address of the object that holds the array `[1, 2]`. -/
theorem C36_independent_writes_commute_witness :
    (∃ m1 m2 m3 m4 V2 V4,
      SymbolicValueMemoryObject.setIndexedElement uninitMemory 0 [0, 1] (int32 7) 0 = .ok m1 ∧
      SymbolicValueMemoryObject.setIndexedElement m1 0 [1] (int32 9) 0 = .ok m2 ∧
      SymbolicValueMemoryObject.setIndexedElement uninitMemory 0 [1] (int32 9) 0 = .ok m3 ∧
      SymbolicValueMemoryObject.setIndexedElement m3 0 [0, 1] (int32 7) 0 = .ok m4 ∧
      SymbolicValueMemoryObject.fields m2 0 =
        .ok (.structType [.tupleType [Int32Type, Int32Type], Int32Type], V2) ∧
      SymbolicValueMemoryObject.fields m4 0 =
        .ok (.structType [.tupleType [Int32Type, Int32Type], Int32Type], V4) ∧
      SameStructure 0 m2 V2 m4 V4) ∧
    (∃ m1 m2 m3 m4 V2 V4,
      SymbolicValueMemoryObject.setIndexedElement addressedArrayMemory 3 [0, 1] (int32 7) 0 =
        .ok m1 ∧
      SymbolicValueMemoryObject.setIndexedElement m1 3 [1] (int32 9) 0 = .ok m2 ∧
      SymbolicValueMemoryObject.setIndexedElement addressedArrayMemory 3 [1] (int32 9) 0 =
        .ok m3 ∧
      SymbolicValueMemoryObject.setIndexedElement m3 3 [0, 1] (int32 7) 0 = .ok m4 ∧
      SymbolicValueMemoryObject.fields m2 3 =
        .ok (.structType [Int32ArrayType, Int32Type], V2) ∧
      SymbolicValueMemoryObject.fields m4 3 =
        .ok (.structType [Int32ArrayType, Int32Type], V4) ∧
      SameStructure 3 m2 V2 m4 V4) :=
  ⟨C36_independent_writes_commute uninitMemory 0 [0, 1] [1] (int32 7) (int32 9) 0
    (.structType [.tupleType [Int32Type, Int32Type], Int32Type]) .RK_UninitMemory
    Structure.uninit (.leaf (int32 7)) (.leaf (int32 9)) (by decide) ⟨1, rfl⟩ ⟨1, rfl⟩
    ⟨1, rfl⟩ (by decide) (by decide) (by decide) (by decide),
   C36_independent_writes_commute addressedArrayMemory 3 [0, 1] [1] (int32 7) (int32 9) 0
    (.structType [Int32ArrayType, Int32Type]) (.RK_Aggregate 2 2) addressedArrayStructure
    (.leaf (int32 7)) (.leaf (int32 9)) (by decide) ⟨3, rfl⟩ ⟨1, rfl⟩
    ⟨1, rfl⟩ (by decide) (by decide) (by decide) (by decide)⟩

/-- Counterexample to C37 as stated: in the wholly uninitialised object of the type of
`{{1, 2}, 3}` the path `[0, 1]` is valid and the get along it returns uninitialised
memory; after that is written back along `[0, 1]`, the get along the valid path `[0]`
returns an Aggregate where it returned uninitialised memory, and so does the get along
the empty path. -/
theorem C37_counterexample :
    SymbolicValueMemoryObject.validPath uninitMemory 0 [0, 1] = true ∧
    SymbolicValueMemoryObject.getIndexedElement uninitMemory 0 [0, 1] = .ok .RK_UninitMemory ∧
    SymbolicValueMemoryObject.setIndexedElement uninitMemory 0 [0, 1] .RK_UninitMemory 0 =
      .ok writtenBackMemory ∧
    SymbolicValueMemoryObject.validPath uninitMemory 0 [0] = true ∧
    SymbolicValueMemoryObject.getIndexedElement uninitMemory 0 [0] = .ok .RK_UninitMemory ∧
    SymbolicValueMemoryObject.getIndexedElement writtenBackMemory 0 [0] =
      .ok (.RK_Aggregate 3 2) ∧
    SymbolicValueMemoryObject.getIndexedElement uninitMemory 0 [] = .ok .RK_UninitMemory ∧
    SymbolicValueMemoryObject.getIndexedElement writtenBackMemory 0 [] =
      .ok (.RK_Aggregate 4 2) := by
  decide

/-- C37, writing back what was read: for every memory object whose value has a structure
(it is read through the accessors to a finite depth, arrays held by the address of
another memory object included) and every path `p` valid for it, the get along `p`
returns and the set of `p` to what it returned returns.  When no get along a proper
prefix of `p` returns uninitialised memory (none is met before the last step), the object
is left with a value structurally equal to the original.  When one does, the value left
is not structurally equal to the original, what was read is uninitialised memory, and the
get along every valid path that is not a proper prefix of `p` returns what it returned
before. -/
theorem C37_write_back (mem : Memory) (self : Ptr) (p : List Nat) (A : Nat) (t : SwiftType)
    (V : SymbolicValue) (TV : Structure)
    (hf : SymbolicValueMemoryObject.fields mem self = .ok (t, V))
    (hV : HasStructure mem self V TV)
    (hvalid : SymbolicValueMemoryObject.validPath mem self p = true) :
    ∃ r mem' V',
      SymbolicValueMemoryObject.getIndexedElement mem self p = .ok r ∧
      SymbolicValueMemoryObject.setIndexedElement mem self p r A = .ok mem' ∧
      SymbolicValueMemoryObject.fields mem' self = .ok (t, V') ∧
      ((∀ p1 i rest, p = p1 ++ i :: rest →
          SymbolicValueMemoryObject.getIndexedElement mem self p1 ≠ .ok .RK_UninitMemory) →
        SameStructure self mem' V' mem V) ∧
      ((∃ p1 i rest, p = p1 ++ i :: rest ∧
          SymbolicValueMemoryObject.getIndexedElement mem self p1 = .ok .RK_UninitMemory) →
        ¬ SameStructure self mem' V' mem V ∧ r = .RK_UninitMemory ∧
        ∀ q, SymbolicValueMemoryObject.validPath mem self q = true → (q <+: p → q = p) →
          SymbolicValueMemoryObject.getIndexedElement mem' self q =
            SymbolicValueMemoryObject.getIndexedElement mem self q) := by
  have hval := obj_structureValid hf hV hvalid
  obtain ⟨r, hget, hr⟩ := obj_get_structure p hf hV hval
  obtain ⟨mem', V', hset, hf', hV', _⟩ := obj_set_structure p A hf hV hr hval
  obtain ⟨m2, hset2, hgetp, hother⟩ := obj_set_spec mem self p r A hvalid
  rw [hset] at hset2
  cases hset2
  refine ⟨r, mem', V', hget, hset, hf', ?_, ?_⟩
  · intro hno
    have hm : meetsUninit p TV = false := by
      cases hmu : meetsUninit p TV with
      | false => rfl
      | true =>
        obtain ⟨p1, i, rest, hp, hg⟩ := (obj_meetsUninit_iff hf hV hval).mp hmu
        exact absurd hg (hno p1 i rest hp)
    rw [structureSet_get_self p TV t hval hm] at hV'
    exact ⟨TV, hV', hV⟩
  · intro hyes
    have hm : meetsUninit p TV = true := (obj_meetsUninit_iff hf hV hval).mpr hyes
    obtain ⟨hgu, hne⟩ := structureSet_get_uninit p TV t hval hm
    have hru : r = .RK_UninitMemory := by
      rw [hgu] at hr
      exact hasStructure_uninit_inv hr
    refine ⟨?_, hru, ?_⟩
    · rintro ⟨T, h1, h2⟩
      have e1 := hasStructure_unique h1 hV'
      have e2 := hasStructure_unique h2 hV
      rw [e1] at e2
      exact hne e2
    · intro q hq hnp
      by_cases hpq : p <+: q
      · obtain ⟨q2, hq2⟩ := hpq
        subst hq2
        subst hru
        rw [obj_get_append_uninit q2 hgetp, obj_get_append_uninit q2 hget]
      · exact hother q hq hpq (fun h => hpq (by rw [hnp h]))

/-- Witness of C37: in `{{1, 2}, 3}` the write back along `[0, 1]` leaves a structurally
equal value, and so it does in `{a, 3}`, where `a` is the address of the object that holds
the array `[1, 2]`; in the wholly uninitialised object of the type of `{{1, 2}, 3}` it does
not, and the get along the valid path `[1]` returns what it returned before. -/
theorem C37_write_back_witness :
    (∃ r mem' V',
      SymbolicValueMemoryObject.getIndexedElement nestedMemory 2 [0, 1] = .ok r ∧
      SymbolicValueMemoryObject.setIndexedElement nestedMemory 2 [0, 1] r 0 = .ok mem' ∧
      SymbolicValueMemoryObject.fields mem' 2 =
        .ok (.structType [.tupleType [Int32Type, Int32Type], Int32Type], V') ∧
      SameStructure 2 mem' V' nestedMemory (.RK_Aggregate 1 2)) ∧
    (∃ r mem' V',
      SymbolicValueMemoryObject.getIndexedElement addressedArrayMemory 3 [0, 1] = .ok r ∧
      SymbolicValueMemoryObject.setIndexedElement addressedArrayMemory 3 [0, 1] r 0 =
        .ok mem' ∧
      SymbolicValueMemoryObject.fields mem' 3 =
        .ok (.structType [Int32ArrayType, Int32Type], V') ∧
      SameStructure 3 mem' V' addressedArrayMemory (.RK_Aggregate 2 2)) ∧
    (∃ r mem' V',
      SymbolicValueMemoryObject.getIndexedElement uninitMemory 0 [0, 1] = .ok r ∧
      SymbolicValueMemoryObject.setIndexedElement uninitMemory 0 [0, 1] r 0 = .ok mem' ∧
      SymbolicValueMemoryObject.fields mem' 0 =
        .ok (.structType [.tupleType [Int32Type, Int32Type], Int32Type], V') ∧
      ¬ SameStructure 0 mem' V' uninitMemory .RK_UninitMemory ∧ r = .RK_UninitMemory ∧
      SymbolicValueMemoryObject.getIndexedElement mem' 0 [1] =
        SymbolicValueMemoryObject.getIndexedElement uninitMemory 0 [1]) := by
  refine ⟨?_, ?_, ?_⟩
  · obtain ⟨r, mem', V', hget, hset, hf', hsame, _⟩ :=
      C37_write_back nestedMemory 2 [0, 1] 0
        (.structType [.tupleType [Int32Type, Int32Type], Int32Type]) (.RK_Aggregate 1 2)
        (.aggregate [.aggregate [.leaf (int32 1), .leaf (int32 2)], .leaf (int32 3)])
        (by decide) ⟨3, rfl⟩ (by decide)
    refine ⟨r, mem', V', hget, hset, hf', hsame ?_⟩
    intro p1 i rest hp
    rcases p1 with _ | ⟨x, _ | ⟨y, p1⟩⟩
    · decide
    · simp only [List.cons_append, List.nil_append, List.cons.injEq] at hp
      obtain ⟨hx, _⟩ := hp
      subst hx
      decide
    · simp at hp
  · obtain ⟨r, mem', V', hget, hset, hf', hsame, _⟩ :=
      C37_write_back addressedArrayMemory 3 [0, 1] 0
        (.structType [Int32ArrayType, Int32Type]) (.RK_Aggregate 2 2)
        addressedArrayStructure (by decide) ⟨3, rfl⟩ (by decide)
    refine ⟨r, mem', V', hget, hset, hf', hsame ?_⟩
    intro p1 i rest hp
    rcases p1 with _ | ⟨x, _ | ⟨y, p1⟩⟩
    · decide
    · simp only [List.cons_append, List.nil_append, List.cons.injEq] at hp
      obtain ⟨hx, _⟩ := hp
      subst hx
      decide
    · simp at hp
  · obtain ⟨r, mem', V', hget, hset, hf', _, hdiff⟩ :=
      C37_write_back uninitMemory 0 [0, 1] 0
        (.structType [.tupleType [Int32Type, Int32Type], Int32Type]) .RK_UninitMemory
        Structure.uninit (by decide) ⟨1, rfl⟩ (by decide)
    obtain ⟨hns, hru, hq⟩ := hdiff ⟨[], 0, [1], rfl, by decide⟩
    exact ⟨r, mem', V', hget, hset, hf', hns, hru, hq [1] (by decide) (by decide)⟩

/-- C38, a set preserves the shape of every composite on the path: when
`setIndexedElement` returns along a path that is not empty, an Aggregate of `n` elements
is replaced by an Aggregate of `n` elements and an Array of `n` elements of declared
element type `T` by an Array of `n` elements of declared element type `T`, at the top as
at every level the path reaches; the new elements are the old ones with the element of
the index replaced by what the set of the rest of the path returns on it. -/
theorem C38_set_preserves_shape (mem mem' : Memory) (v v' s : SymbolicValue) (i : Nat)
    (rest : List Nat) (t : SwiftType) (A : Nat)
    (h : setIndexedElement mem v (i :: rest) s t A = .ok (v', mem')) :
    (v.getKind = .Aggregate → v'.getKind = .Aggregate) ∧
    (v.getKind = .Array → v'.getKind = .Array) ∧
    (∀ p1 j q c tc, i :: rest = p1 ++ j :: q → reachedAlong mem p1 v t = some (c, tc) →
      ∃ c', reachedAlong mem' p1 v' t = some (c', tc) ∧
        (∀ es, getAggregateValue mem c = .ok es →
          ∃ e e', es[j]? = some e ∧ getAggregateValue mem' c' = .ok (es.set j e') ∧
            (es.set j e').length = es.length) ∧
        (∀ es T, getArrayValue mem c = .ok (es, T) →
          ∃ e e', es[j]? = some e ∧ getArrayValue mem' c' = .ok (es.set j e', T) ∧
            (es.set j e').length = es.length)) := by
  have hdeep : ∀ p1 j q c tc, i :: rest = p1 ++ j :: q →
      reachedAlong mem p1 v t = some (c, tc) →
      ∃ c', reachedAlong mem' p1 v' t = some (c', tc) ∧
        (∀ es, getAggregateValue mem c = .ok es →
          ∃ e e', es[j]? = some e ∧ getAggregateValue mem' c' = .ok (es.set j e') ∧
            (es.set j e').length = es.length) ∧
        (∀ es T, getArrayValue mem c = .ok (es, T) →
          ∃ e e', es[j]? = some e ∧ getArrayValue mem' c' = .ok (es.set j e', T) ∧
            (es.set j e').length = es.length) := by
    intro p1 j q c tc hp hreach
    rw [hp] at h
    obtain ⟨c', m2, ext, hc, hm, hreach'⟩ := set_reached_ok (j :: q) s A p1 mem mem' v v' c t tc
      hreach h
    refine ⟨c', hreach', ?_, ?_⟩
    · intro es hes
      obtain ⟨e, e', ti, m3, he, _, _, hnew⟩ := (set_shape hc).1 es hes
      refine ⟨e, e', he, ?_, List.length_set _ _ _⟩
      rw [hm]
      exact getAggregateValue_append ext hnew
    · intro es T hes
      obtain ⟨e, e', m3, he, _, hnew⟩ := (set_shape hc).2 es T hes
      refine ⟨e, e', he, ?_, List.length_set _ _ _⟩
      rw [hm]
      exact getArrayValue_append ext hnew
  refine ⟨?_, ?_, hdeep⟩
  · intro hk
    rcases set_cons_inv h with ⟨rfl, _⟩ | ⟨es, e, ti, e', mem2, hes, _, _, _, hres⟩ |
      ⟨es, T, e, e', mem2, hes, _⟩
    · cases hk
    · have hv' : v' = (getAggregate mem2 (es.set i e') A).1 := congrArg Prod.fst hres
      rw [hv']
      rfl
    · rw [getArrayValue_kind hes] at hk
      cases hk
  · intro hk
    rcases set_cons_inv h with ⟨rfl, _⟩ | ⟨es, e, ti, e', mem2, hes, _⟩ |
      ⟨es, T, e, e', mem2, hes, _, _, hres⟩
    · cases hk
    · rw [getAggregateValue_kind hes] at hk
      cases hk
    · have hv' : v' = (getArray mem2 (es.set i e') T A).1 := congrArg Prod.fst hres
      rw [hv']
      rfl

/-- Witness of C38: the set of the path `[0, 1]` to 9 in `{{1, 2}, 3}` gives an
aggregate of two elements whose element 0 is an aggregate of two elements. -/
theorem C38_set_preserves_shape_witness :
    setIndexedElement nestedMemory (.RK_Aggregate 1 2) [0, 1] (int32 9)
        (.structType [.tupleType [Int32Type, Int32Type], Int32Type]) 0 =
      .ok (.RK_Aggregate 4 2, nestedMemoryAfter) ∧
    ((SymbolicValue.RK_Aggregate 1 2).getKind = .Aggregate →
      (SymbolicValue.RK_Aggregate 4 2).getKind = .Aggregate) ∧
    ∃ c', reachedAlong nestedMemoryAfter [0] (.RK_Aggregate 4 2)
          (.structType [.tupleType [Int32Type, Int32Type], Int32Type]) =
        some (c', .tupleType [Int32Type, Int32Type]) ∧
      (∀ es, getAggregateValue nestedMemory (.RK_Aggregate 0 2) = .ok es →
        ∃ e e', es[1]? = some e ∧
          getAggregateValue nestedMemoryAfter c' = .ok (es.set 1 e') ∧
          (es.set 1 e').length = es.length) ∧
      (∀ es T, getArrayValue nestedMemory (.RK_Aggregate 0 2) = .ok (es, T) →
        ∃ e e', es[1]? = some e ∧
          getArrayValue nestedMemoryAfter c' = .ok (es.set 1 e', T) ∧
          (es.set 1 e').length = es.length) :=
  ⟨by decide,
    (C38_set_preserves_shape nestedMemory nestedMemoryAfter (.RK_Aggregate 1 2)
      (.RK_Aggregate 4 2) (int32 9) 0 [1]
      (.structType [.tupleType [Int32Type, Int32Type], Int32Type]) 0 (by decide)).1,
    (C38_set_preserves_shape nestedMemory nestedMemoryAfter (.RK_Aggregate 1 2)
      (.RK_Aggregate 4 2) (int32 9) 0 [1]
      (.structType [.tupleType [Int32Type, Int32Type], Int32Type]) 0
      (by decide)).2.2 [0] 1 [] (.RK_Aggregate 0 2) (.tupleType [Int32Type, Int32Type]) rfl
      (by decide)⟩

/-- C39, the integer constructor from a machine word truncates and zero-extends: for
every 64-bit signed word `v` and every bit width `w` of at least 1,
`getIntegerValue(getInteger(v, w))` returns the integer of width `w` whose unsigned value
is `(v mod 2^64) mod 2^w`.  So the value is below `2^w`, the bits from `w` up being
dropped when `w` is below 64; and when `w` is above 64 the value is `v mod 2^64`, which
for a negative `v` is `v + 2^64` and not the sign extension `v + 2^w`. -/
theorem C39_machine_word_integer (mem : Memory) (v : Int) (w : Unsigned)
    (hv : -9223372036854775808 ≤ v ∧ v < 9223372036854775808) (hw : 1 ≤ w.val) :
    ∃ a, getIntegerValue mem (getIntegerInt64 v w) = .ok a ∧ a.BitWidth = w ∧
      getIntegerValueBitWidth (getIntegerInt64 v w) = .ok w ∧
      a.unsignedValue = (v % 18446744073709551616).toNat % 2 ^ w.val ∧
      a.unsignedValue < 2 ^ w.val ∧
      (64 < w.val → a.unsignedValue = (v % 18446744073709551616).toNat) ∧
      (64 < w.val → v < 0 →
        (a.unsignedValue : Int) = v + 18446744073709551616 ∧
        (a.unsignedValue : Int) ≠ v + 2 ^ w.val) := by
  obtain ⟨a, ha, hbw, hval, _, _⟩ := @ofWord_value w (toUInt64 v) hw (toUInt64_lt v)
  have hlt := toUInt64_lt v
  have hpowpos : 0 < 2 ^ w.val := Nat.two_pow_pos _
  refine ⟨a, ?_, hbw, ?_, hval, ?_, ?_, ?_⟩
  · rw [getIntegerInt64, getIntegerValue_inline]
    exact ha
  · simp [getIntegerInt64, getIntegerValueBitWidth, getKind, swift.assert, bind, Except.bind,
      pure, Except.pure]
  · rw [hval]
    exact Nat.mod_lt _ hpowpos
  · intro h64
    have hpow : 18446744073709551616 ≤ 2 ^ w.val := by
      have : (2 : Nat) ^ 64 ≤ 2 ^ w.val := Nat.pow_le_pow_right (by decide) (by omega)
      simpa using this
    rw [hval]
    exact Nat.mod_eq_of_lt (Nat.lt_of_lt_of_le hlt hpow)
  · intro h64 hneg
    have hpow : (2 : Nat) ^ 65 ≤ 2 ^ w.val := Nat.pow_le_pow_right (by decide) (by omega)
    have hpow2 : (36893488147419103232 : Int) ≤ 2 ^ w.val := by
      have : ((2 ^ 65 : Nat) : Int) ≤ ((2 ^ w.val : Nat) : Int) := Int.ofNat_le.mpr hpow
      simpa using this
    have hu : (a.unsignedValue : Int) = v + 18446744073709551616 := by
      rw [hval, Nat.mod_eq_of_lt (Nat.lt_of_lt_of_le hlt (by
        have : (2 : Nat) ^ 64 ≤ 2 ^ w.val := Nat.pow_le_pow_right (by decide) (by omega)
        simpa using this))]
      unfold toUInt64
      have hmod : v % 18446744073709551616 = v + 18446744073709551616 := by
        omega
      rw [hmod]
      omega
    refine ⟨hu, ?_⟩
    rw [hu]
    omega

/-- Witness of C39: the word -1 at the width 70 is the integer `2^64 - 1`, one word of
ones and one of zeros. -/
theorem C39_machine_word_integer_witness :
    getIntegerValue [] (getIntegerInt64 (-1) 70) = .ok ⟨70, [18446744073709551615, 0]⟩ ∧
    ∃ a, getIntegerValue [] (getIntegerInt64 (-1) 70) = .ok a ∧ a.BitWidth = 70 ∧
      getIntegerValueBitWidth (getIntegerInt64 (-1) 70) = .ok 70 ∧
      a.unsignedValue = ((-1 : Int) % 18446744073709551616).toNat % 2 ^ (70 : Unsigned).val ∧
      a.unsignedValue < 2 ^ (70 : Unsigned).val ∧
      (64 < (70 : Unsigned).val →
        a.unsignedValue = ((-1 : Int) % 18446744073709551616).toNat) ∧
      (64 < (70 : Unsigned).val → (-1 : Int) < 0 →
        (a.unsignedValue : Int) = -1 + 18446744073709551616 ∧
        (a.unsignedValue : Int) ≠ -1 + 2 ^ (70 : Unsigned).val) :=
  ⟨by decide, C39_machine_word_integer [] (-1) 70 (by decide) (by decide)⟩

/-- C40, `skipInternalLocations` returns its argument as it is when the argument has no
debug scope and when its location has a valid source location; on every argument, the
inlined-call-site chain being a finite chain of scopes, it returns, and what it returns
is the argument itself or the location of a scope of the inlined-call-site chain of the
argument whose source location is valid, together with that scope. -/
theorem C40_skip_internal_locations (loc : SILDebugLocation) :
    (loc.getScope = none → skipInternalLocations loc = loc) ∧
    (loc.getLocation.getSourceLoc.isValid = true → skipInternalLocations loc = loc) ∧
    (skipInternalLocations loc = loc ∨
      ∃ ds0 d, loc.getScope = some ds0 ∧ d ∈ ds0.chain ∧
        skipInternalLocations loc = ⟨d.Loc, some d⟩ ∧
        d.Loc.getSourceLoc.isValid = true) :=
  ⟨skipInternalLocations_no_scope, skipInternalLocations_valid,
    skipInternalLocations_cases loc⟩

/-- Witness of C40: an instruction without location and without scope is returned as it
is, and the one of `inlinedLocation` resolves to the scope at the position 1000. -/
theorem C40_skip_internal_locations_witness :
    skipInternalLocations (instructionNowhere.getDebugLocation) =
      instructionNowhere.getDebugLocation ∧
    skipInternalLocations inlinedLocation =
      ⟨locationAt 1000,
        some (.inlinedInto (locationAt 1000) none (.last (locationAt 3000) none))⟩ :=
  ⟨(C40_skip_internal_locations instructionNowhere.getDebugLocation).1 rfl, by decide⟩

end swift
